import Mathlib

/-!
Promoted-aggregate liveness (`src/coreclr/jit/promotionliveness.cpp`).

A shallow embedding of the liveness analysis for physically promoted struct
fields and remainders: the index assignment and driver (`Run`), the per-block
summary builder (`ComputeUseDefSets`) with its use/def classifier
(`MarkUseDef`, `MarkIndex`), the per-block dataflow step (`PerBlockLiveness`),
the fixpoint driver (`InterBlockLiveness`), the annotator (`FillInLiveness`)
and the queries on the computed sets and on the side-table of struct deaths.

Bit vectors over the dense index space are finite sets of naturals; basic
blocks are identified by their `bbNum`.
-/

namespace PromotionLiveness

/-! ## Bit vectors -/

/-- Dense-index bit vector (`BitVec` of the JIT): the set of indices whose bit is set. -/
abbrev VarSet := Finset Nat

namespace BitVecOps

/-- Empty bit vector, `BitVecOps::MakeEmpty`. -/
def MakeEmpty : VarSet := ∅

/-- Membership test, `BitVecOps::IsMember`. -/
def IsMember (s : VarSet) (i : Nat) : Bool := decide (i ∈ s)

/-- Destructive add, `BitVecOps::AddElemD`. -/
def AddElemD (s : VarSet) (i : Nat) : VarSet := insert i s

/-- Destructive remove, `BitVecOps::RemoveElemD`. -/
def RemoveElemD (s : VarSet) (i : Nat) : VarSet := s.erase i

/-- Destructive union, `BitVecOps::UnionD`. -/
def UnionD (s t : VarSet) : VarSet := s ∪ t

/-- Destructive clear, `BitVecOps::ClearD`. -/
def ClearD (_s : VarSet) : VarSet := ∅

/-- Equality test, `BitVecOps::Equal`. -/
def Equal (s t : VarSet) : Bool := decide (s = t)

/-- Modelled from the spec: `BitVecOps::LivenessD` (bitset.h, outside the fragment),
the transfer function `LiveIn = (LiveOut - VarDef) union VarUse`; the result
overwrites the `in` operand. -/
def LivenessD (varDef varUse liveOut : VarSet) : VarSet := (liveOut \ varDef) ∪ varUse

end BitVecOps

/-! ## Per-block state and the flow graph -/

/-- Per-block liveness record, `struct BasicBlockLiveness`. -/
structure BasicBlockLiveness where
  /-- Variables used before a full definition. -/
  VarUse : VarSet
  /-- Variables fully defined before a use. -/
  VarDef : VarSet
  /-- Variables live-in to this basic block. -/
  LiveIn : VarSet
  /-- Variables live-out of this basic block. -/
  LiveOut : VarSet

/-- What the analysis reads from the flow graph: the DFS tree (`m_dfsTree`) and the
successor visitors of `BasicBlock`. Blocks are named by `bbNum`. -/
structure FlowGraph where
  /-- The list `dfsTree->GetPostOrder(0), ..., GetPostOrder(GetPostOrderCount() - 1)`. -/
  PostOrder : List Nat
  /-- The flag `dfsTree->HasCycle()`. -/
  HasCycle : Bool
  /-- Blocks visited by `block->VisitRegularSuccs`. -/
  RegularSuccs : Nat → List Nat
  /-- The test `block->HasPotentialEHSuccs`. -/
  HasPotentialEHSuccs : Nat → Bool
  /-- Blocks visited by `block->VisitEHSuccs`. -/
  EHSuccs : Nat → List Nat

/-- The mutable members of `PromotionLiveness` used by the fixpoint. -/
structure LivenessState where
  /-- Array `m_bbInfo`, indexed by `bbNum`. -/
  m_bbInfo : Nat → BasicBlockLiveness
  /-- Scratch vector `m_liveIn`. -/
  m_liveIn : VarSet
  /-- Scratch vector `m_ehLiveVars`. -/
  m_ehLiveVars : VarSet

/-- Source function `AddHandlerLiveVars`: union into `ehLiveVars` the `LiveIn` of every
block visited by `VisitEHSuccs`. -/
def AddHandlerLiveVars (G : FlowGraph) (m_bbInfo : Nat → BasicBlockLiveness) (block : Nat)
    (ehLiveVars : VarSet) : VarSet :=
  (G.EHSuccs block).foldl (fun acc succ => BitVecOps.UnionD acc (m_bbInfo succ).LiveIn) ehLiveVars

/-- Source function `PerBlockLiveness`: one dataflow step for `block`; returns
`liveInChanged` and the new state. The successor loop writes `LiveOut` of `block` only and reads `LiveIn` only, so the
reads are taken from the state at entry. -/
def PerBlockLiveness (G : FlowGraph) (st : LivenessState) (block : Nat) : Bool × LivenessState :=
  let bbInfo := st.m_bbInfo block
  let liveOut0 := BitVecOps.ClearD bbInfo.LiveOut
  let liveOut1 := (G.RegularSuccs block).foldl
    (fun acc succ => BitVecOps.UnionD acc (st.m_bbInfo succ).LiveIn) liveOut0
  let liveIn1 := BitVecOps.LivenessD bbInfo.VarDef bbInfo.VarUse liveOut1
  let eh := AddHandlerLiveVars G st.m_bbInfo block (BitVecOps.ClearD st.m_ehLiveVars)
  let m_ehLiveVars := if G.HasPotentialEHSuccs block then eh else st.m_ehLiveVars
  let m_liveIn := if G.HasPotentialEHSuccs block then BitVecOps.UnionD liveIn1 eh else liveIn1
  let liveOut := if G.HasPotentialEHSuccs block then BitVecOps.UnionD liveOut1 eh else liveOut1
  let liveInChanged := !BitVecOps.Equal bbInfo.LiveIn m_liveIn
  let newInfo : BasicBlockLiveness :=
    { VarUse := bbInfo.VarUse
      VarDef := bbInfo.VarDef
      LiveIn := if liveInChanged then m_liveIn else bbInfo.LiveIn
      LiveOut := liveOut }
  (liveInChanged,
   { m_bbInfo := Function.update st.m_bbInfo block newInfo
     m_liveIn := m_liveIn
     m_ehLiveVars := m_ehLiveVars })

/-- The body of the `do` loop of `InterBlockLiveness`: the `for` loop over the post-order
list, accumulating `changed |= PerBlockLiveness(...)` from `changed`. -/
def LivenessPassFrom (G : FlowGraph) : List Nat → Bool × LivenessState → Bool × LivenessState
  | [], acc => acc
  | block :: rest, (changed, st) =>
    let r := PerBlockLiveness G st block
    LivenessPassFrom G rest (changed || r.1, r.2)

/-- One pass of the `do` loop: `changed = false`, then the `for` loop. -/
def LivenessPass (G : FlowGraph) (st : LivenessState) : Bool × LivenessState :=
  LivenessPassFrom G G.PostOrder (false, st)

/-- Source function `InterBlockLiveness`: the loop
`do ... while (changed && dfsTree->HasCycle())`. The first argument bounds the number of passes; the result is `none` when it is exhausted,
otherwise the number of passes performed and the final state. -/
def InterBlockLiveness (G : FlowGraph) : Nat → LivenessState → Option (Nat × LivenessState)
  | 0, _ => none
  | fuel + 1, st =>
    let r := LivenessPass G st
    if r.1 && G.HasCycle then
      (InterBlockLiveness G fuel r.2).map (fun p => (p.1 + 1, p.2))
    else
      some (1, r.2)

/-! ## The dataflow equations -/

/-- The `LiveIn` component of the per-block array, as a map from blocks to sets. -/
def LiveInOf (st : LivenessState) : Nat → VarSet := fun b => (st.m_bbInfo b).LiveIn

/-- The set `R(b)`: union of `L s` over the regular successors `s` of `b`. -/
def RegularLive (G : FlowGraph) (L : Nat → VarSet) (b : Nat) : VarSet :=
  (G.RegularSuccs b).toFinset.biUnion L

/-- The set `E(b)`: union of `L h` over the exception-handler successors `h` of `b`, empty
when `b` has no potential exception-handler successors. -/
def HandlerLive (G : FlowGraph) (L : Nat → VarSet) (b : Nat) : VarSet :=
  if G.HasPotentialEHSuccs b then (G.EHSuccs b).toFinset.biUnion L else ∅

/-- Right-hand side of the live-out equation under the live-in map `L`. -/
def OutOf (G : FlowGraph) (L : Nat → VarSet) (b : Nat) : VarSet :=
  RegularLive G L b ∪ HandlerLive G L b

/-- Right-hand side of the live-in equation for a block with summary `info` under the
live-in map `L`: `((R(b) - VarDef(b)) ∪ VarUse(b)) ∪ E(b)`. -/
def InOf (G : FlowGraph) (info : BasicBlockLiveness) (L : Nat → VarSet) (b : Nat) : VarSet :=
  ((RegularLive G L b \ info.VarDef) ∪ info.VarUse) ∪ HandlerLive G L b

/-- The dataflow equations hold at block `b` in state `st`. -/
def EquationsAt (G : FlowGraph) (st : LivenessState) (b : Nat) : Prop :=
  (st.m_bbInfo b).LiveOut = OutOf G (LiveInOf st) b ∧
  (st.m_bbInfo b).LiveIn = InOf G (st.m_bbInfo b) (LiveInOf st) b

/-- Every `LiveIn` set is empty, as `ComputeUseDefSets` leaves them. -/
def LiveInEmpty (st : LivenessState) : Prop := ∀ b, (st.m_bbInfo b).LiveIn = ∅

/-- Every `LiveIn` is contained in what the live-in equation yields from the current
sets: the state can only grow under `PerBlockLiveness`. -/
def Inflationary (G : FlowGraph) (st : LivenessState) : Prop :=
  ∀ b, LiveInOf st b ⊆ InOf G (st.m_bbInfo b) (LiveInOf st) b

/-- The state after `k` full passes over the post-order list. -/
def PassState (G : FlowGraph) (st : LivenessState) (k : Nat) : LivenessState :=
  (fun s => (LivenessPass G s).2)^[k] st

/-- Total size of the `LiveIn` sets of the blocks of the post-order list. -/
def LiveInSize (G : FlowGraph) (st : LivenessState) : Nat :=
  (G.PostOrder.map (fun b => (LiveInOf st b).card)).sum

/-- The successors whose `LiveIn` a step of block `b` reads: the regular ones, and the
exception-handler ones when `b` has potential exception-handler successors. -/
def AllSuccs (G : FlowGraph) (b : Nat) : List Nat :=
  G.RegularSuccs b ++ (if G.HasPotentialEHSuccs b then G.EHSuccs b else [])

/-- Every successor of every block of the post-order list appears earlier in the list than
the block itself. -/
def SuccsPrecede (G : FlowGraph) : Prop :=
  ∀ b ∈ G.PostOrder, ∀ s ∈ AllSuccs G b, G.PostOrder.indexOf s < G.PostOrder.indexOf b

/-- The state in which `Run` starts `InterBlockLiveness`: the summaries computed by
`ComputeUseDefSets`, every `LiveIn` and `LiveOut` empty, both scratch vectors empty. -/
def StateAfterUseDef (varUse varDef : Nat → VarSet) : LivenessState :=
  { m_bbInfo := fun b =>
      { VarUse := varUse b
        VarDef := varDef b
        LiveIn := BitVecOps.MakeEmpty
        LiveOut := BitVecOps.MakeEmpty }
    m_liveIn := BitVecOps.MakeEmpty
    m_ehLiveVars := BitVecOps.MakeEmpty }

/-! ## Aggregates and local nodes -/

/-- Modelled from the spec: the JIT value types `var_types` (declared outside the
fragment) that the analysis distinguishes, `TYP_STRUCT` and scalar access types. -/
inductive var_types where
  | TYP_UBYTE
  | TYP_SHORT
  | TYP_INT
  | TYP_LONG
  | TYP_FLOAT
  | TYP_DOUBLE
  | TYP_STRUCT
  deriving DecidableEq

/-- Modelled from the spec: the size table `genTypeSize` (declared outside the fragment),
the width in bytes of a scalar access type; `TYP_STRUCT` has no fixed size and reads 0. -/
def genTypeSize : var_types → Nat
  | .TYP_UBYTE => 1
  | .TYP_SHORT => 2
  | .TYP_INT => 4
  | .TYP_LONG => 8
  | .TYP_FLOAT => 4
  | .TYP_DOUBLE => 8
  | .TYP_STRUCT => 0

/-- The operators of the local nodes the analysis walks (`LocalsTreeList`). -/
inductive genTreeOps where
  | GT_LCL_VAR
  | GT_STORE_LCL_VAR
  | GT_LCL_FLD
  | GT_STORE_LCL_FLD
  | GT_LCL_ADDR
  deriving DecidableEq

/-- One replacement field of an aggregate, `struct Replacement`. -/
structure Replacement where
  /-- Byte offset inside the aggregate. -/
  Offset : Nat
  /-- Scalar access type. -/
  AccessType : var_types
  /-- The local created for the field. -/
  LclNum : Nat

/-- Modelled from the spec: `Replacement::Overlaps` (promotion.cpp, outside the fragment),
whether the replacement's byte span meets `[otherStart, otherStart + otherSize)`. -/
def Replacement.Overlaps (rep : Replacement) (otherStart otherSize : Nat) : Bool :=
  let finish := rep.Offset + genTypeSize rep.AccessType
  if finish ≤ otherStart then false
  else if otherStart + otherSize ≤ rep.Offset then false
  else true

/-- A half-open byte range `[Start, End)`, `SegmentList::Segment`. -/
structure Segment where
  /-- First byte. -/
  Start : Nat
  /-- One past the last byte. -/
  End : Nat

/-- Modelled from the spec: `SegmentList::Intersects` (promotion.cpp, outside the fragment),
whether the range meets some segment of the list. -/
def SegmentListIntersects (segments : List Segment) (seg : Segment) : Bool :=
  segments.any (fun s => decide (s.Start < seg.End) && decide (seg.Start < s.End))

/-- A physically promoted struct local, `struct AggregateInfo`. -/
structure AggregateInfo where
  /-- The struct local. -/
  LclNum : Nat
  /-- Replacement fields, sorted by offset. -/
  Replacements : List Replacement
  /-- The byte ranges not covered by a replacement. -/
  Unpromoted : List Segment
  /-- Start of the first unpromoted range. -/
  UnpromotedMin : Nat
  /-- End of the last unpromoted range. -/
  UnpromotedMax : Nat

/-- A local node, `GenTreeLclVarCommon`, with what the analysis reads from it. -/
structure GenTreeLclVarCommon where
  /-- The operator, `OperGet()`. -/
  gtOper : genTreeOps
  /-- The node type, `TypeGet()`. -/
  gtType : var_types
  /-- The local, `GetLclNum()`. -/
  lclNum : Nat
  /-- The byte offset, `GetLclOffs()`. -/
  lclOffs : Nat
  /-- The bit `GTF_VAR_DEF` of `gtFlags`. -/
  GTF_VAR_DEF : Bool
  /-- The bit `GTF_VAR_DEATH` of `gtFlags`. -/
  GTF_VAR_DEATH : Bool
  /-- The size of the node's layout, `GetLayout(comp)->GetSize()`. -/
  layoutSize : Nat
  /-- For a `GT_LCL_ADDR` return-buffer definition: the size of the layout of the
  return class of the containing call. -/
  retBufSize : Nat

/-- Modelled from the spec: `GenTree::OperIsScalarLocal` (gentree.h, outside the fragment),
the whole-variable operators `LCL_VAR` and `STORE_LCL_VAR`. -/
def GenTreeLclVarCommon.OperIsScalarLocal (lcl : GenTreeLclVarCommon) : Bool :=
  decide (lcl.gtOper = .GT_LCL_VAR) || decide (lcl.gtOper = .GT_STORE_LCL_VAR)

/-- Modelled from the spec: `AggregateInfoMap::Lookup` (promotion.h, outside the fragment),
the aggregate of a struct local, if it is promoted. -/
def Lookup (m_aggregates : List AggregateInfo) (lclNum : Nat) : Option AggregateInfo :=
  m_aggregates.find? (fun agg => decide (agg.LclNum = lclNum))

/-- The loop of `Promotion::BinarySearch` between `min` and `max`, bounded by the first
argument. -/
def BinarySearchLoop {T : Type} (field : T → Nat) (vec : List T) (offset : Nat) :
    Nat → Nat → Nat → Int
  | 0, min, _ => -(min : Int) - 1
  | fuel + 1, min, max =>
    if min < max then
      let mid := min + (max - min) / 2
      match vec.get? mid with
      | none => -(min : Int) - 1
      | some e =>
        if field e = offset then (mid : Int)
        else if field e < offset then BinarySearchLoop field vec offset fuel (mid + 1) max
        else BinarySearchLoop field vec offset fuel min mid
    else -(min : Int) - 1

/-- Modelled from the spec: `Promotion::BinarySearch` (promotion.h, outside the fragment),
binary search of a vector sorted by `field`: the index of the entry whose field equals
`offset`, else the bitwise complement `-(i) - 1` of the insertion index `i`. -/
def BinarySearch {T : Type} (field : T → Nat) (vec : List T) (offset : Nat) : Int :=
  BinarySearchLoop field vec offset (vec.length + 1) 0 vec.length

/-- The index loop of `Run`: each aggregate gets the next free index for its remainder and
one index per replacement after it. Returns `m_structLclToTrackedIndex` and `trackedIndex`. -/
def AssignTrackedIndices : List AggregateInfo → (Nat → Nat) → Nat → (Nat → Nat) × Nat
  | [], table, trackedIndex => (table, trackedIndex)
  | agg :: rest, table, trackedIndex =>
    AssignTrackedIndices rest (Function.update table agg.LclNum trackedIndex)
      (trackedIndex + 1 + agg.Replacements.length)

/-- The table `m_structLclToTrackedIndex` after `Run` (zero-initialised). -/
def m_structLclToTrackedIndex (m_aggregates : List AggregateInfo) : Nat → Nat :=
  (AssignTrackedIndices m_aggregates (fun _ => 0) 0).1

/-- The width `m_numVars` after `Run`. -/
def m_numVars (m_aggregates : List AggregateInfo) : Nat :=
  (AssignTrackedIndices m_aggregates (fun _ => 0) 0).2

/-! ## The use/def classifier -/

/-- Source function `GetSizeOfStructLocal`: the return-buffer size for `GT_LCL_ADDR`, else
the size of the node's layout. -/
def GetSizeOfStructLocal (lcl : GenTreeLclVarCommon) : Nat :=
  if lcl.gtOper = .GT_LCL_ADDR then lcl.retBufSize else lcl.layoutSize

/-- Source function `MarkIndex`: record a use unless the index is already fully defined,
then record a full definition. Returns the pair `(useSet, defSet)`. -/
def MarkIndex (index : Nat) (isUse isDef : Bool) (useSet defSet : VarSet) : VarSet × VarSet :=
  let useSet1 :=
    if isUse && !BitVecOps.IsMember defSet index then BitVecOps.AddElemD useSet index
    else useSet
  let defSet1 := if isDef then BitVecOps.AddElemD defSet index else defSet
  (useSet1, defSet1)

/-- The loop `for (i = 0; i <= reps.size(); i++) MarkIndex(baseIndex + i, ...)` of
`MarkUseDef`, over the list of values of `i`. -/
def MarkAllLoop (baseIndex : Nat) (isUse isDef : Bool) :
    List Nat → VarSet × VarSet → VarSet × VarSet
  | [], sets => sets
  | i :: rest, sets =>
    MarkAllLoop baseIndex isUse isDef rest (MarkIndex (baseIndex + i) isUse isDef sets.1 sets.2)

/-- The loop `while ((index < reps.size()) && (reps[index].Offset < offs + size))` of
`MarkUseDef`; the list is `reps` from position `index` on. -/
def MarkOverlapLoop (baseIndex offs size : Nat) (isUse isDef : Bool) :
    List Replacement → Nat → VarSet × VarSet → VarSet × VarSet
  | [], _, sets => sets
  | rep :: rest, index, sets =>
    if rep.Offset < offs + size then
      let isFullFieldDef := isDef && decide (offs ≤ rep.Offset) &&
        decide (offs + size ≥ rep.Offset + genTypeSize rep.AccessType)
      MarkOverlapLoop baseIndex offs size isUse isDef rest (index + 1)
        (MarkIndex (baseIndex + 1 + index) isUse isFullFieldDef sets.1 sets.2)
    else sets

/-- The first replacement index of the overlap scan: the search result, or for a miss the
insertion index, stepped back by one when the replacement before it overlaps the range. -/
def OverlapStartIndex (reps : List Replacement) (offs size : Nat) : Nat :=
  let found := BinarySearch Replacement.Offset reps offs
  if found < 0 then
    let index := (-found - 1).toNat
    if 0 < index ∧ ((reps.get? (index - 1)).map (fun r => r.Overlaps offs size)) = some true
    then index - 1 else index
  else found.toNat

/-- Source function `MarkUseDef`: mark use/def information for a single appearance of a
local. Returns the pair `(useSet, defSet)`. Offsets and sizes are byte positions inside one
struct local and dense indices count its fields, all far below `2 ^ 32`, so the `unsigned`
arithmetic of the source is arithmetic of naturals. -/
def MarkUseDef (m_aggregates : List AggregateInfo) (lcl : GenTreeLclVarCommon)
    (useSet defSet : VarSet) : VarSet × VarSet :=
  match Lookup m_aggregates lcl.lclNum with
  | none => (useSet, defSet)
  | some agg =>
    let reps := agg.Replacements
    let isDef := lcl.GTF_VAR_DEF
    let isUse := !isDef
    let baseIndex := m_structLclToTrackedIndex m_aggregates lcl.lclNum
    let accessType := lcl.gtType
    if accessType = .TYP_STRUCT ∨ lcl.gtOper = .GT_LCL_ADDR then
      if lcl.OperIsScalarLocal then
        MarkAllLoop baseIndex isUse isDef (List.range (reps.length + 1)) (useSet, defSet)
      else
        let offs := lcl.lclOffs
        let size := GetSizeOfStructLocal lcl
        let index := OverlapStartIndex reps offs size
        let sets := MarkOverlapLoop baseIndex offs size isUse isDef (reps.drop index) index
          (useSet, defSet)
        let isFullDefOfRemainder := isDef && decide (agg.UnpromotedMin ≥ offs) &&
          decide (agg.UnpromotedMax ≤ offs + size)
        let isUseOfRemainder := isUse &&
          SegmentListIntersects agg.Unpromoted { Start := offs, End := offs + size }
        MarkIndex baseIndex isUseOfRemainder isFullDefOfRemainder sets.1 sets.2
    else
      let offs := lcl.lclOffs
      let found := BinarySearch Replacement.Offset reps offs
      if found < 0 then
        let size := genTypeSize accessType
        let isFullDefOfRemainder := isDef && decide (agg.UnpromotedMin ≥ offs) &&
          decide (agg.UnpromotedMax ≤ offs + size)
        MarkIndex baseIndex isUse isFullDefOfRemainder useSet defSet
      else
        MarkIndex (baseIndex + 1 + found.toNat) isUse isDef useSet defSet

/-! ## The per-block summary builder -/

/-- A statement, with what the analysis reads from it. -/
structure Statement where
  /-- Whether `fgGetTopLevelQmark(stmt->GetRootNode(), &dst)` finds a top-level qmark. -/
  TopLevelQmark : Bool
  /-- The local nodes of the statement in execution order, `stmt->LocalsTreeList()`. -/
  LocalsTreeList : List GenTreeLclVarCommon

/-- The body of the statement loop of `ComputeUseDefSets` for one statement: every local
node is classified, except that in a statement with a top-level qmark (when
`compQmarkUsed`) the nodes with `GTF_VAR_DEF` are skipped. -/
def ComputeUseDefSetsStmt (m_aggregates : List AggregateInfo) (compQmarkUsed : Bool)
    (stmt : Statement) (sets : VarSet × VarSet) : VarSet × VarSet :=
  if compQmarkUsed then
    if stmt.TopLevelQmark = false then
      stmt.LocalsTreeList.foldl (fun acc lcl => MarkUseDef m_aggregates lcl acc.1 acc.2) sets
    else
      stmt.LocalsTreeList.foldl
        (fun acc lcl =>
          if lcl.GTF_VAR_DEF = false then MarkUseDef m_aggregates lcl acc.1 acc.2 else acc)
        sets
  else
    stmt.LocalsTreeList.foldl (fun acc lcl => MarkUseDef m_aggregates lcl acc.1 acc.2) sets

/-- The body of the block loop of `ComputeUseDefSets` for one block with statements
`stmts`: all four sets start empty, then every statement is summarised in order. -/
def ComputeUseDefSetsBlock (m_aggregates : List AggregateInfo) (compQmarkUsed : Bool)
    (stmts : List Statement) : BasicBlockLiveness :=
  let sets := stmts.foldl
    (fun acc stmt => ComputeUseDefSetsStmt m_aggregates compQmarkUsed stmt acc)
    (BitVecOps.MakeEmpty, BitVecOps.MakeEmpty)
  { VarUse := sets.1
    VarDef := sets.2
    LiveIn := BitVecOps.MakeEmpty
    LiveOut := BitVecOps.MakeEmpty }

/-- What `Run` reads from `m_compiler`. -/
structure Compiler where
  /-- The blocks `m_compiler->Blocks()`, by `bbNum`, in order. -/
  Blocks : List Nat
  /-- The statements `block->Statements()` of each block, in order. -/
  Statements : Nat → List Statement
  /-- The flag `compQmarkUsed`. -/
  compQmarkUsed : Bool
  /-- The DFS tree `m_dfsTree` with the successor visitors. -/
  m_dfsTree : FlowGraph

/-- Source function `ComputeUseDefSets`: compute the use and def sets for all blocks. -/
def ComputeUseDefSets (m_aggregates : List AggregateInfo) (comp : Compiler)
    (m_bbInfo : Nat → BasicBlockLiveness) : Nat → BasicBlockLiveness :=
  comp.Blocks.foldl
    (fun info block =>
      Function.update info block
        (ComputeUseDefSetsBlock m_aggregates comp.compQmarkUsed (comp.Statements block)))
    m_bbInfo

/-! ## The backward annotator -/

/-- What the node-level `FillInLiveness` leaves behind: the updated `life`, the node with
its death flag as written, and the bit vector passed to `m_aggDeaths.Set` if that was
called. -/
structure NodeLiveness where
  /-- The life set after the node. -/
  life : VarSet
  /-- The node after the call. -/
  lcl : GenTreeLclVarCommon
  /-- The side-table entry stored for the node, if any. -/
  aggDeaths : Option VarSet

/-- The loop `for (i = 0; i <= agg->Replacements.size(); i++)` of the node-level
`FillInLiveness`, over the list of values of `i`; the state is `(life, aggDeaths)`. -/
def FillAllLoop (baseIndex : Nat) (isUse isDef : Bool) (volatileVars : VarSet) :
    List Nat → VarSet × VarSet → VarSet × VarSet
  | [], st => st
  | i :: rest, st =>
    let varIndex := baseIndex + i
    if BitVecOps.IsMember st.1 varIndex then
      if isDef && !BitVecOps.IsMember volatileVars varIndex then
        FillAllLoop baseIndex isUse isDef volatileVars rest
          (BitVecOps.RemoveElemD st.1 varIndex, st.2)
      else
        FillAllLoop baseIndex isUse isDef volatileVars rest st
    else
      if isUse then
        FillAllLoop baseIndex isUse isDef volatileVars rest
          (BitVecOps.AddElemD st.1 varIndex, BitVecOps.AddElemD st.2 i)
      else
        FillAllLoop baseIndex isUse isDef volatileVars rest (st.1, BitVecOps.AddElemD st.2 i)

/-- The field loop `while ((index < size) && (Replacements[index].Offset < offs + size))`
of the node-level `FillInLiveness`; the list is the replacements from position `index` on,
the state is `(life, aggDeaths)`. -/
def FillOverlapLoop (baseIndex offs size : Nat) (isUse isDef : Bool) (volatileVars : VarSet) :
    List Replacement → Nat → VarSet × VarSet → VarSet × VarSet
  | [], _, st => st
  | rep :: rest, index, st =>
    if rep.Offset < offs + size then
      let varIndex := baseIndex + 1 + index
      if BitVecOps.IsMember st.1 varIndex then
        let isFullFieldDef := isDef && decide (offs ≤ rep.Offset) &&
          decide (offs + size ≥ rep.Offset + genTypeSize rep.AccessType)
        if isFullFieldDef && !BitVecOps.IsMember volatileVars varIndex then
          FillOverlapLoop baseIndex offs size isUse isDef volatileVars rest (index + 1)
            (BitVecOps.RemoveElemD st.1 varIndex, st.2)
        else
          FillOverlapLoop baseIndex offs size isUse isDef volatileVars rest (index + 1) st
      else
        if isUse then
          FillOverlapLoop baseIndex offs size isUse isDef volatileVars rest (index + 1)
            (BitVecOps.AddElemD st.1 varIndex, BitVecOps.AddElemD st.2 (1 + index))
        else
          FillOverlapLoop baseIndex offs size isUse isDef volatileVars rest (index + 1)
            (st.1, BitVecOps.AddElemD st.2 (1 + index))
    else st

/-- The remainder step of a partial-range access in the node-level `FillInLiveness`; the
state is `(life, aggDeaths)`. -/
def FillRemainder (agg : AggregateInfo) (baseIndex offs size : Nat) (isUse isDef : Bool)
    (volatileVars : VarSet) (st : VarSet × VarSet) : VarSet × VarSet :=
  if BitVecOps.IsMember st.1 baseIndex then
    let isFullDefOfRemainder := isDef && decide (agg.UnpromotedMin ≥ offs) &&
      decide (agg.UnpromotedMax ≤ offs + size)
    if isFullDefOfRemainder && !BitVecOps.IsMember volatileVars baseIndex then
      (BitVecOps.RemoveElemD st.1 baseIndex, st.2)
    else st
  else
    if isUse && SegmentListIntersects agg.Unpromoted { Start := offs, End := offs + size } then
      (BitVecOps.AddElemD st.1 baseIndex, BitVecOps.AddElemD st.2 0)
    else (st.1, BitVecOps.AddElemD st.2 0)

/-- The flag update `lcl->gtFlags &= ~GTF_VAR_DEATH` or `lcl->gtFlags |= GTF_VAR_DEATH`. -/
def SetDeath (lcl : GenTreeLclVarCommon) (death : Bool) : GenTreeLclVarCommon :=
  { gtOper := lcl.gtOper
    gtType := lcl.gtType
    lclNum := lcl.lclNum
    lclOffs := lcl.lclOffs
    GTF_VAR_DEF := lcl.GTF_VAR_DEF
    GTF_VAR_DEATH := death
    layoutSize := lcl.layoutSize
    retBufSize := lcl.retBufSize }

/-- The simple scalar step of the node-level `FillInLiveness` for dense index `varIndex`:
the death flag is cleared when the index is live and set when it is not; a full definition
removes a live, non-volatile index and a use adds a dead one. -/
def FillScalar (varIndex : Nat) (isUse isFullDef : Bool) (life volatileVars : VarSet)
    (lcl : GenTreeLclVarCommon) : NodeLiveness :=
  if BitVecOps.IsMember life varIndex then
    if isFullDef && !BitVecOps.IsMember volatileVars varIndex then
      { life := BitVecOps.RemoveElemD life varIndex, lcl := SetDeath lcl false, aggDeaths := none }
    else
      { life := life, lcl := SetDeath lcl false, aggDeaths := none }
  else
    if isUse then
      { life := BitVecOps.AddElemD life varIndex, lcl := SetDeath lcl true, aggDeaths := none }
    else
      { life := life, lcl := SetDeath lcl true, aggDeaths := none }

/-- Source function `FillInLiveness` (node form): fill liveness information into the
specified node, updating `life`. -/
def FillInLivenessNode (m_aggregates : List AggregateInfo) (life volatileVars : VarSet)
    (lcl : GenTreeLclVarCommon) : NodeLiveness :=
  match Lookup m_aggregates lcl.lclNum with
  | none => { life := life, lcl := lcl, aggDeaths := none }
  | some agg =>
    let isDef := lcl.GTF_VAR_DEF
    let isUse := !isDef
    let baseIndex := m_structLclToTrackedIndex m_aggregates lcl.lclNum
    let accessType := lcl.gtType
    if accessType = .TYP_STRUCT ∨ lcl.gtOper = .GT_LCL_ADDR then
      if lcl.OperIsScalarLocal then
        let st := FillAllLoop baseIndex isUse isDef volatileVars
          (List.range (agg.Replacements.length + 1)) (life, BitVecOps.MakeEmpty)
        { life := st.1, lcl := lcl, aggDeaths := some st.2 }
      else
        let offs := lcl.lclOffs
        let size := GetSizeOfStructLocal lcl
        let index := OverlapStartIndex agg.Replacements offs size
        let st := FillOverlapLoop baseIndex offs size isUse isDef volatileVars
          (agg.Replacements.drop index) index (life, BitVecOps.MakeEmpty)
        let st1 := FillRemainder agg baseIndex offs size isUse isDef volatileVars st
        { life := st1.1, lcl := lcl, aggDeaths := some st1.2 }
    else
      let offs := lcl.lclOffs
      let found := BinarySearch Replacement.Offset agg.Replacements offs
      if found < 0 then
        let size := genTypeSize accessType
        let isFullDefOfRemainder := isDef && decide (agg.UnpromotedMin ≥ offs) &&
          decide (agg.UnpromotedMax ≤ offs + size)
        FillScalar baseIndex isUse isFullDefOfRemainder life volatileVars lcl
      else
        FillScalar (baseIndex + 1 + found.toNat) isUse isDef life volatileVars lcl

/-- The record kept for a node after the block walk: the node as the walk left it, its
side-table entry if one was stored, whether the walk called the node-level
`FillInLiveness` on it, and the life set before and after that call (for a skipped node,
the life set at that point of the walk). -/
structure NodeAnnotation where
  /-- The node after the walk. -/
  lcl : GenTreeLclVarCommon
  /-- The entry of `m_aggDeaths` for the node, if any. -/
  aggDeaths : Option VarSet
  /-- Whether the node was processed (not skipped). -/
  processed : Bool
  /-- The life set with which the walk reached the node. -/
  lifeBefore : VarSet
  /-- The life set after the node. -/
  lifeAfter : VarSet

/-- The loop `for (cur = stmt->GetTreeListEnd(); cur != nullptr; cur = cur->gtPrev)` of
the block-level `FillInLiveness`. The list holds the nodes from the last one backwards;
with `skipDefs` (statement with a top-level qmark) the nodes with `GTF_VAR_DEF` are
skipped. Returns the final life set and the records in the same (reverse) order. -/
def FillInLivenessTreeList (m_aggregates : List AggregateInfo) (skipDefs : Bool)
    (volatileVars : VarSet) : List GenTreeLclVarCommon → VarSet → VarSet × List NodeAnnotation
  | [], life => (life, [])
  | cur :: prev, life =>
    if skipDefs && cur.GTF_VAR_DEF then
      let r := FillInLivenessTreeList m_aggregates skipDefs volatileVars prev life
      (r.1, { lcl := cur, aggDeaths := none, processed := false,
              lifeBefore := life, lifeAfter := life } :: r.2)
    else
      let n := FillInLivenessNode m_aggregates life volatileVars cur
      let r := FillInLivenessTreeList m_aggregates skipDefs volatileVars prev n.life
      (r.1, { lcl := n.lcl, aggDeaths := n.aggDeaths, processed := true,
              lifeBefore := life, lifeAfter := n.life } :: r.2)

/-- A statement after the block walk: its nodes in execution order, each with its record. -/
structure AnnotatedStatement where
  /-- Unchanged from the statement. -/
  TopLevelQmark : Bool
  /-- The records of the nodes, in execution order. -/
  Nodes : List NodeAnnotation

/-- The statement as the walk left it in the IR. -/
def AnnotatedStatement.toStatement (a : AnnotatedStatement) : Statement :=
  { TopLevelQmark := a.TopLevelQmark
    LocalsTreeList := a.Nodes.map (fun n => n.lcl) }

/-- The body of the `while (true)` loop of the block-level `FillInLiveness` for one
statement: the qmark test, then the walk over its nodes from the last to the first. -/
def FillInLivenessStmt (m_aggregates : List AggregateInfo) (compQmarkUsed : Bool)
    (volatileVars : VarSet) (stmt : Statement) (life : VarSet) : VarSet × AnnotatedStatement :=
  let qmark := compQmarkUsed && stmt.TopLevelQmark
  let r := FillInLivenessTreeList m_aggregates qmark volatileVars stmt.LocalsTreeList.reverse life
  (r.1, { TopLevelQmark := stmt.TopLevelQmark, Nodes := r.2.reverse })

/-- The `while (true)` loop of the block-level `FillInLiveness`: the statements from
`lastStmt` back to `firstStmt`. The list holds the statements from the last one backwards;
the records come back in the same (reverse) order. -/
def FillInLivenessStmts (m_aggregates : List AggregateInfo) (compQmarkUsed : Bool)
    (volatileVars : VarSet) : List Statement → VarSet → VarSet × List AnnotatedStatement
  | [], life => (life, [])
  | stmt :: prev, life =>
    let r := FillInLivenessStmt m_aggregates compQmarkUsed volatileVars stmt life
    let rs := FillInLivenessStmts m_aggregates compQmarkUsed volatileVars prev r.1
    (rs.1, r.2 :: rs.2)

/-- The volatile set of a block in the block-level `FillInLiveness`: cleared, then
`AddHandlerLiveVars` when the block has potential exception-handler successors. -/
def VolatileVars (G : FlowGraph) (m_bbInfo : Nat → BasicBlockLiveness) (block : Nat) : VarSet :=
  if G.HasPotentialEHSuccs block then
    AddHandlerLiveVars G m_bbInfo block (BitVecOps.ClearD BitVecOps.MakeEmpty)
  else BitVecOps.ClearD BitVecOps.MakeEmpty

/-- The body of the block loop of the block-level `FillInLiveness` for one block: nothing
for a block without statements; otherwise `life` starts as `LiveOut` of the block and the
statements are walked backwards. Returns the final life set and the statements in
execution order with their records. -/
def FillInLivenessBlock (m_aggregates : List AggregateInfo) (comp : Compiler)
    (m_bbInfo : Nat → BasicBlockLiveness) (block : Nat) : VarSet × List AnnotatedStatement :=
  match comp.Statements block with
  | [] => (BitVecOps.MakeEmpty, [])
  | first :: more =>
    let volatileVars := VolatileVars comp.m_dfsTree m_bbInfo block
    let life := (m_bbInfo block).LiveOut
    let r := FillInLivenessStmts m_aggregates comp.compQmarkUsed volatileVars
      (first :: more).reverse life
    (r.1, r.2.reverse)

/-- Source function `FillInLiveness` (block form): for every block of
`m_compiler->Blocks()`, walk backwards marking liveness into the IR. The result maps each
block to its statements with their records; a block outside the list keeps its statements
untouched. -/
def FillInLiveness (m_aggregates : List AggregateInfo) (comp : Compiler)
    (m_bbInfo : Nat → BasicBlockLiveness) : Nat → List AnnotatedStatement :=
  comp.Blocks.foldl
    (fun out block =>
      Function.update out block (FillInLivenessBlock m_aggregates comp m_bbInfo block).2)
    (fun block => (comp.Statements block).map (fun stmt =>
      { TopLevelQmark := stmt.TopLevelQmark
        Nodes := stmt.LocalsTreeList.map (fun lcl =>
          { lcl := lcl, aggDeaths := none, processed := false,
            lifeBefore := BitVecOps.MakeEmpty, lifeAfter := BitVecOps.MakeEmpty }) }))

/-- What `Run` leaves behind: the per-block sets and the annotated IR. -/
structure RunResult where
  /-- The array `m_bbInfo` with the scratch vectors. -/
  state : LivenessState
  /-- The statements of each block after the walk, with the side-table entries. -/
  annotated : Nat → List AnnotatedStatement

/-- Source function `Run`: the dense indices (`m_structLclToTrackedIndex`, `m_numVars`, as
functions of the aggregate list), then `ComputeUseDefSets`, `InterBlockLiveness` and
`FillInLiveness`. The first argument bounds the passes of the fixpoint; the result is
`none` when it is exhausted. -/
def Run (m_aggregates : List AggregateInfo) (comp : Compiler) (fuel : Nat) : Option RunResult :=
  let info := ComputeUseDefSets m_aggregates comp
    (fun _ => { VarUse := BitVecOps.MakeEmpty, VarDef := BitVecOps.MakeEmpty,
                LiveIn := BitVecOps.MakeEmpty, LiveOut := BitVecOps.MakeEmpty })
  let st : LivenessState :=
    { m_bbInfo := info, m_liveIn := BitVecOps.MakeEmpty, m_ehLiveVars := BitVecOps.MakeEmpty }
  match InterBlockLiveness comp.m_dfsTree fuel st with
  | none => none
  | some p => some { state := p.2, annotated := FillInLiveness m_aggregates comp p.2.m_bbInfo }

/-- The IR after `Run`: the same compiler with every statement as the walk left it. -/
def Compiler.after (comp : Compiler) (r : RunResult) : Compiler :=
  { Blocks := comp.Blocks
    Statements := fun block => (r.annotated block).map AnnotatedStatement.toStatement
    compQmarkUsed := comp.compQmarkUsed
    m_dfsTree := comp.m_dfsTree }

/-- The query object `StructDeaths`: a stored deaths vector with its aggregate. -/
structure StructDeaths where
  /-- The stored bit vector, indexed locally: 0 the remainder, `1 + i` replacement `i`. -/
  m_deaths : VarSet
  /-- The aggregate. -/
  m_aggregate : AggregateInfo

/-- Source function `StructDeaths::IsRemainderDying`. -/
def StructDeaths.IsRemainderDying (d : StructDeaths) : Bool :=
  if d.m_aggregate.UnpromotedMax ≤ d.m_aggregate.UnpromotedMin then true
  else BitVecOps.IsMember d.m_deaths 0

/-- Source function `StructDeaths::IsReplacementDying`. -/
def StructDeaths.IsReplacementDying (d : StructDeaths) (index : Nat) : Bool :=
  BitVecOps.IsMember d.m_deaths (1 + index)

/-- The effect on running sets `(u, d)` of a summary `(U, D)` computed from empty sets:
the uses not already defined are added, then the definitions. -/
def ApplySummary (summary sets : VarSet × VarSet) : VarSet × VarSet :=
  (sets.1 ∪ (summary.1 \ sets.2), sets.2 ∪ summary.2)

/-- A marking step acts on running sets through its summary from empty sets. -/
def IsSummary (f : VarSet × VarSet → VarSet × VarSet) : Prop :=
  ∀ sets, f sets = ApplySummary (f (∅, ∅)) sets

/-- The nodes of a statement that `ComputeUseDefSets` classifies: all of them, or only the
nodes without `GTF_VAR_DEF` in a statement with a top-level qmark. -/
def ClassifiedNodes (compQmarkUsed : Bool) (stmt : Statement) : List GenTreeLclVarCommon :=
  if compQmarkUsed && stmt.TopLevelQmark then
    stmt.LocalsTreeList.filter (fun lcl => !lcl.GTF_VAR_DEF)
  else stmt.LocalsTreeList

/-- The dense index of a simple scalar access: `none` unless the node is a non-struct,
non-`LCL_ADDR` access of a tracked aggregate; then the remainder index when no replacement
starts at the node's offset, else the index of the replacement found there. -/
def SimpleScalarIndex (m_aggregates : List AggregateInfo) (lcl : GenTreeLclVarCommon) :
    Option Nat :=
  match Lookup m_aggregates lcl.lclNum with
  | none => none
  | some agg =>
    if lcl.gtType = .TYP_STRUCT ∨ lcl.gtOper = .GT_LCL_ADDR then none
    else if BinarySearch Replacement.Offset agg.Replacements lcl.lclOffs < 0 then
      some (m_structLclToTrackedIndex m_aggregates lcl.lclNum)
    else
      some (m_structLclToTrackedIndex m_aggregates lcl.lclNum + 1 +
        (BinarySearch Replacement.Offset agg.Replacements lcl.lclOffs).toNat)

/-- The common shape of one step of the annotator on the state `(life, aggDeaths)`: a
live index is removed by a full definition unless volatile; a dead index gets its bit in
`aggDeaths` and becomes live on a use. -/
def FillStep (varIndex bit : Nat) (isUse isFullDef : Bool) (volatileVars : VarSet)
    (st : VarSet × VarSet) : VarSet × VarSet :=
  if BitVecOps.IsMember st.1 varIndex then
    if isFullDef && !BitVecOps.IsMember volatileVars varIndex then
      (BitVecOps.RemoveElemD st.1 varIndex, st.2)
    else st
  else
    if isUse then (BitVecOps.AddElemD st.1 varIndex, BitVecOps.AddElemD st.2 bit)
    else (st.1, BitVecOps.AddElemD st.2 bit)

/-- The volatile indices are live and no bit of `aggDeaths` stands for a volatile index of
the aggregate with base index `baseIndex`. -/
def VolatileKept (volatileVars : VarSet) (baseIndex : Nat) (st : VarSet × VarSet) : Prop :=
  volatileVars ⊆ st.1 ∧ ∀ bit ∈ st.2, baseIndex + bit ∉ volatileVars

/-- What the walk guarantees for a processed node with respect to the volatile set: the
volatile indices are live before and after the node, a simple scalar access of a volatile
index does not get the death flag, and no bit of the stored entry stands for a volatile
index. -/
def RespectsVolatile (m_aggregates : List AggregateInfo) (volatileVars : VarSet)
    (n : NodeAnnotation) : Prop :=
  volatileVars ⊆ n.lifeBefore ∧ volatileVars ⊆ n.lifeAfter ∧
  (∀ idx, SimpleScalarIndex m_aggregates n.lcl = some idx → idx ∈ volatileVars →
    n.lcl.GTF_VAR_DEATH = false) ∧
  (∀ deaths, n.aggDeaths = some deaths → ∀ bit ∈ deaths,
    m_structLclToTrackedIndex m_aggregates n.lcl.lclNum + bit ∉ volatileVars)

/-- A statement with the death flag of every node cleared. -/
def EraseDeaths (stmt : Statement) : Statement :=
  { TopLevelQmark := stmt.TopLevelQmark
    LocalsTreeList := stmt.LocalsTreeList.map (fun lcl => SetDeath lcl false) }

/-- What the walk wrote for a node: the death flag, when the node was processed as a simple
scalar access of a tracked aggregate (the only nodes whose flag the node-level
`FillInLiveness` assigns), and the side-table entry. -/
def WrittenDeaths (m_aggregates : List AggregateInfo) (n : NodeAnnotation) :
    Option Bool × Option VarSet :=
  (if n.processed && (SimpleScalarIndex m_aggregates n.lcl).isSome
    then some n.lcl.GTF_VAR_DEATH else none,
   n.aggDeaths)

/-- Two methods that differ at most in the death flags their nodes carry. -/
def SameUpToDeaths (comp comp2 : Compiler) : Prop :=
  comp2.Blocks = comp.Blocks ∧ comp2.compQmarkUsed = comp.compQmarkUsed ∧
  comp2.m_dfsTree = comp.m_dfsTree ∧
  ∀ block, (comp2.Statements block).map EraseDeaths = (comp.Statements block).map EraseDeaths

/-! ## Traversal order as the specification words it -/

/-- The pass as the specification words it, for comparison with `LivenessPass`: the blocks
visited in reverse postorder, from the last block of the post-order list to the first. -/
def LivenessPassReversePostOrder (G : FlowGraph) (st : LivenessState) : Bool × LivenessState :=
  LivenessPassFrom G G.PostOrder.reverse (false, st)

/-! ## The overlap scan -/

/-- The replacement indices visited by the loop
`while ((index < reps.size()) && (reps[index].Offset < offs + size))` shared by `MarkUseDef`
and the node-level `FillInLiveness`, in the order of the visits; the list is `reps` from
position `index` on. -/
def ScanLoop (offs size : Nat) : List Replacement → Nat → List Nat
  | [], _ => []
  | rep :: rest, index =>
    if rep.Offset < offs + size then index :: ScanLoop offs size rest (index + 1) else []

/-- The replacement indices visited by the overlap scan: the start-index adjustment after
the binary search, then the forward scan. -/
def ScannedIndices (reps : List Replacement) (offs size : Nat) : List Nat :=
  ScanLoop offs size (reps.drop (OverlapStartIndex reps offs size))
    (OverlapStartIndex reps offs size)

/-- The body of the field loop of `MarkUseDef` at replacement index `index`. -/
def MarkFieldStep (reps : List Replacement) (baseIndex offs size : Nat) (isUse isDef : Bool)
    (sets : VarSet × VarSet) (index : Nat) : VarSet × VarSet :=
  match reps.get? index with
  | none => sets
  | some rep =>
    MarkIndex (baseIndex + 1 + index) isUse
      (isDef && decide (offs ≤ rep.Offset) &&
        decide (offs + size ≥ rep.Offset + genTypeSize rep.AccessType))
      sets.1 sets.2

/-- The body of the field loop of the node-level `FillInLiveness` at replacement index
`index`; the state is `(life, aggDeaths)`. -/
def FillFieldStep (reps : List Replacement) (baseIndex offs size : Nat) (isUse isDef : Bool)
    (volatileVars : VarSet) (st : VarSet × VarSet) (index : Nat) : VarSet × VarSet :=
  match reps.get? index with
  | none => st
  | some rep =>
    FillStep (baseIndex + 1 + index) (1 + index) isUse
      (isDef && decide (offs ≤ rep.Offset) &&
        decide (offs + size ≥ rep.Offset + genTypeSize rep.AccessType))
      volatileVars st

/-- The byte span of the replacement and the range `[offs, offs + size)` share a byte. -/
def SpanIntersects (rep : Replacement) (offs size : Nat) : Prop :=
  ∃ x, rep.Offset ≤ x ∧ x < rep.Offset + genTypeSize rep.AccessType ∧
    offs ≤ x ∧ x < offs + size

/-! ## The steps of a node -/

/-- One step of a node on one dense index: the index, its bit in the side-table entry, and
the use and full-definition flags with which `MarkUseDef` calls `MarkIndex` and the
node-level `FillInLiveness` runs its matching block. -/
structure IndexStep where
  /-- The dense index. -/
  varIndex : Nat
  /-- The bit of the index in the side-table entry of the node. -/
  bit : Nat
  /-- Whether the step is a use. -/
  isUse : Bool
  /-- Whether the step is a full definition. -/
  isFullDef : Bool

/-- The steps that `MarkUseDef` and the node-level `FillInLiveness` both take for a node,
in their order: none for an untracked local; remainder and every field for a
whole-variable access; the scanned fields and then the remainder for a partial-range
access; the one index of a simple scalar access. -/
def NodeSteps (m_aggregates : List AggregateInfo) (lcl : GenTreeLclVarCommon) :
    List IndexStep :=
  match Lookup m_aggregates lcl.lclNum with
  | none => []
  | some agg =>
    let isDef := lcl.GTF_VAR_DEF
    let isUse := !isDef
    let baseIndex := m_structLclToTrackedIndex m_aggregates lcl.lclNum
    if lcl.gtType = .TYP_STRUCT ∨ lcl.gtOper = .GT_LCL_ADDR then
      if lcl.OperIsScalarLocal then
        (List.range (agg.Replacements.length + 1)).map (fun i =>
          { varIndex := baseIndex + i, bit := i, isUse := isUse, isFullDef := isDef })
      else
        let offs := lcl.lclOffs
        let size := GetSizeOfStructLocal lcl
        (ScannedIndices agg.Replacements offs size).filterMap (fun index =>
            (agg.Replacements.get? index).map (fun rep =>
              { varIndex := baseIndex + 1 + index, bit := 1 + index, isUse := isUse,
                isFullDef := isDef && decide (offs ≤ rep.Offset) &&
                  decide (offs + size ≥ rep.Offset + genTypeSize rep.AccessType) }))
          ++ [{ varIndex := baseIndex, bit := 0,
                isUse := isUse &&
                  SegmentListIntersects agg.Unpromoted { Start := offs, End := offs + size },
                isFullDef := isDef && decide (agg.UnpromotedMin ≥ offs) &&
                  decide (agg.UnpromotedMax ≤ offs + size) }]
    else
      let offs := lcl.lclOffs
      let found := BinarySearch Replacement.Offset agg.Replacements offs
      if found < 0 then
        [{ varIndex := baseIndex, bit := 0, isUse := isUse,
           isFullDef := isDef && decide (agg.UnpromotedMin ≥ offs) &&
             decide (agg.UnpromotedMax ≤ offs + genTypeSize lcl.gtType) }]
      else
        [{ varIndex := baseIndex + 1 + found.toNat, bit := 1 + found.toNat, isUse := isUse,
           isFullDef := isDef }]

/-- The calls of `MarkIndex` for a list of steps. -/
def MarkSteps (steps : List IndexStep) (sets : VarSet × VarSet) : VarSet × VarSet :=
  steps.foldl (fun acc t => MarkIndex t.varIndex t.isUse t.isFullDef acc.1 acc.2) sets

/-- The blocks of the node-level `FillInLiveness` for a list of steps; the state is
`(life, aggDeaths)`. -/
def FillSteps (volatileVars : VarSet) (steps : List IndexStep) (st : VarSet × VarSet) :
    VarSet × VarSet :=
  steps.foldl (fun acc t => FillStep t.varIndex t.bit t.isUse t.isFullDef volatileVars acc) st

/-- The transfer of a node on a life set as the specification words it, from the sets
`(U, D)` that `MarkUseDef` reports for the node alone: `(L − (D − V)) ∪ U`. -/
def NodeTransfer (m_aggregates : List AggregateInfo) (volatileVars : VarSet)
    (lcl : GenTreeLclVarCommon) (life : VarSet) : VarSet :=
  (life \ ((MarkUseDef m_aggregates lcl ∅ ∅).2 \ volatileVars)) ∪
    (MarkUseDef m_aggregates lcl ∅ ∅).1

/-! ## The query interface -/

/-- Source function `IsReplacementLiveIn`: whether a replacement field is live at the start
of a basic block. The function assigns to no member; it returns its answer together with
the object as it stands after the call. -/
def IsReplacementLiveIn (m_aggregates : List AggregateInfo) (this : RunResult)
    (bb structLcl replacementIndex : Nat) : Bool × RunResult :=
  let liveIn := (this.state.m_bbInfo bb).LiveIn
  let baseIndex := m_structLclToTrackedIndex m_aggregates structLcl
  (BitVecOps.IsMember liveIn (baseIndex + 1 + replacementIndex), this)

/-- Source function `IsReplacementLiveOut`: whether a replacement field is live at the end
of a basic block. The function assigns to no member; it returns its answer together with
the object as it stands after the call. -/
def IsReplacementLiveOut (m_aggregates : List AggregateInfo) (this : RunResult)
    (bb structLcl replacementIndex : Nat) : Bool × RunResult :=
  let liveOut := (this.state.m_bbInfo bb).LiveOut
  let baseIndex := m_structLclToTrackedIndex m_aggregates structLcl
  (BitVecOps.IsMember liveOut (baseIndex + 1 + replacementIndex), this)

/-- Source function `GetDeathsForStructLocal`, on a node with its record: the lookup
`m_aggDeaths.Lookup(lcl, &aggDeaths)` reads the entry kept with the node. A failed `assert`
is the result `none`. -/
def GetDeathsForStructLocal (m_aggregates : List AggregateInfo) (n : NodeAnnotation) :
    Option StructDeaths :=
  if (n.lcl.gtType = .TYP_STRUCT ∨
        (n.lcl.gtOper = .GT_LCL_ADDR ∧ n.lcl.GTF_VAR_DEF = true)) ∧
      (Lookup m_aggregates n.lcl.lclNum).isSome = true then
    match n.aggDeaths with
    | none => none
    | some aggDeaths =>
      (Lookup m_aggregates n.lcl.lclNum).map
        (fun aggInfo => { m_deaths := aggDeaths, m_aggregate := aggInfo })
  else none

/-- The test of the side-table coverage: the node is a struct-typed or `LCL_ADDR` access of
a tracked aggregate and the walk of a statement with skip flag `skipDefs` does not skip
it. -/
def HasEntry (m_aggregates : List AggregateInfo) (skipDefs : Bool)
    (lcl : GenTreeLclVarCommon) : Prop :=
  (Lookup m_aggregates lcl.lclNum).isSome = true ∧
  (lcl.gtType = .TYP_STRUCT ∨ lcl.gtOper = .GT_LCL_ADDR) ∧
  (skipDefs && lcl.GTF_VAR_DEF) = false

/-! ## Example aggregate -/

/-- The aggregate of the scenarios: local `0` with 4-byte fields at offsets 0 and 8 and
unpromoted bytes `[4, 8)`. Its remainder has index 0, its fields indices 1 and 2. -/
def pairAggregate : AggregateInfo :=
  { LclNum := 0
    Replacements :=
      [{ Offset := 0, AccessType := .TYP_INT, LclNum := 1 },
       { Offset := 8, AccessType := .TYP_INT, LclNum := 2 }]
    Unpromoted := [{ Start := 4, End := 8 }]
    UnpromotedMin := 4
    UnpromotedMax := 8 }

/-- A read of the field at offset 8 of `pairAggregate`. -/
def readField1 : GenTreeLclVarCommon :=
  { gtOper := .GT_LCL_FLD, gtType := .TYP_INT, lclNum := 0, lclOffs := 8,
    GTF_VAR_DEF := false, GTF_VAR_DEATH := false, layoutSize := 0, retBufSize := 0 }

/-- A write of the bytes `[0, 4)` of `pairAggregate`. -/
def writeField0 : GenTreeLclVarCommon :=
  { gtOper := .GT_STORE_LCL_FLD, gtType := .TYP_INT, lclNum := 0, lclOffs := 0,
    GTF_VAR_DEF := true, GTF_VAR_DEATH := false, layoutSize := 0, retBufSize := 0 }

/-- A whole-variable struct read of `pairAggregate`. -/
def readWhole : GenTreeLclVarCommon :=
  { gtOper := .GT_LCL_VAR, gtType := .TYP_STRUCT, lclNum := 0, lclOffs := 0,
    GTF_VAR_DEF := false, GTF_VAR_DEATH := false, layoutSize := 12, retBufSize := 0 }

/-- A whole-variable struct write of `pairAggregate`. -/
def writeWhole : GenTreeLclVarCommon :=
  { gtOper := .GT_STORE_LCL_VAR, gtType := .TYP_STRUCT, lclNum := 0, lclOffs := 0,
    GTF_VAR_DEF := true, GTF_VAR_DEATH := false, layoutSize := 12, retBufSize := 0 }

/-- A read of the field at offset 0 of `pairAggregate`. -/
def readField0 : GenTreeLclVarCommon :=
  { gtOper := .GT_LCL_FLD, gtType := .TYP_INT, lclNum := 0, lclOffs := 0,
    GTF_VAR_DEF := false, GTF_VAR_DEATH := false, layoutSize := 0, retBufSize := 0 }

/-- A one-byte read at offset 2 of `pairAggregate`, where no replacement starts. -/
def readByte2 : GenTreeLclVarCommon :=
  { gtOper := .GT_LCL_FLD, gtType := .TYP_UBYTE, lclNum := 0, lclOffs := 2,
    GTF_VAR_DEF := false, GTF_VAR_DEATH := false, layoutSize := 0, retBufSize := 0 }

/-- A one-byte write at offset 0 of `pairAggregate`, where the 4-byte field 0 starts. -/
def writeByte0 : GenTreeLclVarCommon :=
  { gtOper := .GT_STORE_LCL_FLD, gtType := .TYP_UBYTE, lclNum := 0, lclOffs := 0,
    GTF_VAR_DEF := true, GTF_VAR_DEATH := false, layoutSize := 0, retBufSize := 0 }

/-- A struct-typed read of the bytes `[0, 4)` of `pairAggregate`. -/
def readRange04 : GenTreeLclVarCommon :=
  { gtOper := .GT_LCL_FLD, gtType := .TYP_STRUCT, lclNum := 0, lclOffs := 0,
    GTF_VAR_DEF := false, GTF_VAR_DEATH := false, layoutSize := 4, retBufSize := 0 }

/-- A struct-typed write of the bytes `[0, 10)` of `pairAggregate`: all of field 0 and of
the unpromoted bytes, half of field 1. -/
def writeRange010 : GenTreeLclVarCommon :=
  { gtOper := .GT_STORE_LCL_FLD, gtType := .TYP_STRUCT, lclNum := 0, lclOffs := 0,
    GTF_VAR_DEF := true, GTF_VAR_DEATH := false, layoutSize := 10, retBufSize := 0 }

/-- A struct-typed read of the bytes `[2, 10)` of `pairAggregate`: part of field 0, the
unpromoted bytes, part of field 1. -/
def readRange210 : GenTreeLclVarCommon :=
  { gtOper := .GT_LCL_FLD, gtType := .TYP_STRUCT, lclNum := 0, lclOffs := 2,
    GTF_VAR_DEF := false, GTF_VAR_DEATH := false, layoutSize := 8, retBufSize := 0 }

/-- Scenario D: a statement with a top-level qmark that writes field 0 in one branch,
followed by a statement that reads field 0. -/
def qmarkBlock : List Statement :=
  [{ TopLevelQmark := true, LocalsTreeList := [writeField0] },
   { TopLevelQmark := false, LocalsTreeList := [readField0] }]

/-- A write of the field at offset 8 of `pairAggregate`. -/
def writeField1 : GenTreeLclVarCommon :=
  { gtOper := .GT_STORE_LCL_FLD, gtType := .TYP_INT, lclNum := 0, lclOffs := 8,
    GTF_VAR_DEF := true, GTF_VAR_DEATH := false, layoutSize := 0, retBufSize := 0 }

/-- A second aggregate: local `3` with one 8-byte field at offset 0 and no remainder. -/
def soloAggregate : AggregateInfo :=
  { LclNum := 3
    Replacements := [{ Offset := 0, AccessType := .TYP_LONG, LclNum := 4 }]
    Unpromoted := []
    UnpromotedMin := 0
    UnpromotedMax := 0 }

/-- The aggregate list of a method with the two example aggregates: `pairAggregate` gets
the indices 0, 1, 2 and `soloAggregate` the indices 3, 4. -/
def twoAggregates : List AggregateInfo := [pairAggregate, soloAggregate]

/-- A whole-variable struct read of `soloAggregate`. -/
def readSolo : GenTreeLclVarCommon :=
  { gtOper := .GT_LCL_VAR, gtType := .TYP_STRUCT, lclNum := 3, lclOffs := 0,
    GTF_VAR_DEF := false, GTF_VAR_DEATH := false, layoutSize := 8, retBufSize := 0 }

/-- A loop with a handler: `1 → 2 → 3 → 2`, and block `2` lies in a protected region whose
handler is block `4`. -/
def loopGraph : FlowGraph :=
  { PostOrder := [3, 4, 2, 1]
    HasCycle := true
    RegularSuccs := fun b => if b = 1 then [2] else if b = 2 then [3] else if b = 3 then [2] else []
    HasPotentialEHSuccs := fun b => decide (b = 2)
    EHSuccs := fun b => if b = 2 then [4] else [] }

/-- Summaries for `loopGraph`: block `3` uses index `1`, the handler `4` uses index `2`,
block `2` defines index `2`, block `1` defines index `1`. -/
def loopState : LivenessState :=
  StateAfterUseDef (fun b => if b = 3 then {1} else if b = 4 then {2} else ∅)
    (fun b => if b = 2 then {2} else if b = 1 then {1} else ∅)

/-- Two blocks in a line, `1 → 2`, no handlers, no cycle. -/
def lineGraph : FlowGraph :=
  { PostOrder := [2, 1]
    HasCycle := false
    RegularSuccs := fun b => if b = 1 then [2] else []
    HasPotentialEHSuccs := fun _ => false
    EHSuccs := fun _ => [] }

/-- Summaries for `lineGraph`: block `2` holds the single node `readField1`, block `1` holds
no node of the aggregate. -/
def lineState : LivenessState :=
  StateAfterUseDef
    (fun b => if b = 2 then (MarkUseDef [pairAggregate] readField1 ∅ ∅).1 else ∅)
    (fun b => if b = 2 then (MarkUseDef [pairAggregate] readField1 ∅ ∅).2 else ∅)

/-- The same graph with the blocks of a pass visited in the order `order`. -/
def Reorder (G : FlowGraph) (order : List Nat) : FlowGraph :=
  { PostOrder := order
    HasCycle := G.HasCycle
    RegularSuccs := G.RegularSuccs
    HasPotentialEHSuccs := G.HasPotentialEHSuccs
    EHSuccs := G.EHSuccs }

/-- A method over `loopGraph` and `pairAggregate`: block `1` writes field 0, block `2`
(protected by the handler `4`) writes field 1, block `3` reads field 0, the handler `4`
reads field 1. Its summaries are those of `loopState`. -/
def loopCompiler : Compiler :=
  { Blocks := [1, 2, 3, 4]
    Statements := fun b =>
      if b = 1 then [{ TopLevelQmark := false, LocalsTreeList := [writeField0] }]
      else if b = 2 then [{ TopLevelQmark := false, LocalsTreeList := [writeField1] }]
      else if b = 3 then [{ TopLevelQmark := false, LocalsTreeList := [readField0] }]
      else if b = 4 then [{ TopLevelQmark := false, LocalsTreeList := [readField1] }]
      else []
    compQmarkUsed := false
    m_dfsTree := loopGraph }

/-- The method `loopCompiler` with the death flag set on every node beforehand. -/
def staleCompiler : Compiler :=
  { Blocks := loopCompiler.Blocks
    Statements := fun b => (loopCompiler.Statements b).map (fun stmt =>
      { TopLevelQmark := stmt.TopLevelQmark
        LocalsTreeList := stmt.LocalsTreeList.map (fun lcl => SetDeath lcl true) })
    compQmarkUsed := loopCompiler.compQmarkUsed
    m_dfsTree := loopCompiler.m_dfsTree }

/-- A single block `1` without successors. -/
def singleGraph : FlowGraph :=
  { PostOrder := [1]
    HasCycle := false
    RegularSuccs := fun _ => []
    HasPotentialEHSuccs := fun _ => false
    EHSuccs := fun _ => [] }

/-- Scenario A: one block whose instructions are a whole-aggregate struct write of
`pairAggregate`, a read of the field at offset 0 and a read of the field at offset 8. -/
def scenarioA : Compiler :=
  { Blocks := [1]
    Statements := fun b =>
      if b = 1 then
        [{ TopLevelQmark := false, LocalsTreeList := [writeWhole] },
         { TopLevelQmark := false, LocalsTreeList := [readField0] },
         { TopLevelQmark := false, LocalsTreeList := [readField1] }]
      else []
    compQmarkUsed := false
    m_dfsTree := singleGraph }

/-- A single block that reads field 0 of `pairAggregate` and then writes it. -/
def useThenDef : Compiler :=
  { Blocks := [1]
    Statements := fun b =>
      if b = 1 then
        [{ TopLevelQmark := false, LocalsTreeList := [readField0] },
         { TopLevelQmark := false, LocalsTreeList := [writeField0] }]
      else []
    compQmarkUsed := false
    m_dfsTree := singleGraph }

/-- Scenario D as a method: the single block `1` holds `qmarkBlock`, and `compQmarkUsed`
is set. -/
def qmarkCompiler : Compiler :=
  { Blocks := [1]
    Statements := fun b => if b = 1 then qmarkBlock else []
    compQmarkUsed := true
    m_dfsTree := singleGraph }

/-- A method whose single block holds a whole-variable struct write of `pairAggregate` in a
statement with a top-level qmark, then a whole-variable struct read and a field read. -/
def coverageCompiler : Compiler :=
  { Blocks := [1]
    Statements := fun b =>
      if b = 1 then
        [{ TopLevelQmark := true, LocalsTreeList := [writeWhole] },
         { TopLevelQmark := false, LocalsTreeList := [readWhole, readField0] }]
      else []
    compQmarkUsed := true
    m_dfsTree := singleGraph }

/-! ## Lemmas: one call of `PerBlockLiveness` -/

theorem foldl_UnionD (L : Nat → VarSet) (l : List Nat) (acc : VarSet) :
    l.foldl (fun a s => BitVecOps.UnionD a (L s)) acc = acc ∪ l.toFinset.biUnion L := by
  induction l generalizing acc with
  | nil => simp
  | cons x xs ih =>
    rw [List.foldl_cons, ih]
    simp only [List.toFinset_cons, Finset.biUnion_insert, BitVecOps.UnionD]
    rw [Finset.union_assoc]

theorem PerBlockLiveness_liveOut (G : FlowGraph) (st : LivenessState) (b : Nat) :
    ((PerBlockLiveness G st b).2.m_bbInfo b).LiveOut = OutOf G (LiveInOf st) b := by
  have h1 := foldl_UnionD (LiveInOf st) (G.RegularSuccs b) ∅
  have h2 := foldl_UnionD (LiveInOf st) (G.EHSuccs b) ∅
  simp only [LiveInOf] at h1 h2
  simp only [PerBlockLiveness, AddHandlerLiveVars, BitVecOps.ClearD, Function.update_same,
    OutOf, RegularLive, HandlerLive, h1, h2, LiveInOf]
  split <;> simp [BitVecOps.UnionD]

theorem PerBlockLiveness_mliveIn (G : FlowGraph) (st : LivenessState) (b : Nat) :
    (PerBlockLiveness G st b).2.m_liveIn = InOf G (st.m_bbInfo b) (LiveInOf st) b := by
  have h1 := foldl_UnionD (LiveInOf st) (G.RegularSuccs b) ∅
  have h2 := foldl_UnionD (LiveInOf st) (G.EHSuccs b) ∅
  simp only [LiveInOf] at h1 h2
  simp only [PerBlockLiveness, AddHandlerLiveVars, BitVecOps.ClearD,
    InOf, RegularLive, HandlerLive, h1, h2, LiveInOf, BitVecOps.LivenessD]
  split <;> simp [BitVecOps.UnionD]

theorem PerBlockLiveness_changed (G : FlowGraph) (st : LivenessState) (b : Nat) :
    (PerBlockLiveness G st b).1 = true ↔
      (st.m_bbInfo b).LiveIn ≠ InOf G (st.m_bbInfo b) (LiveInOf st) b := by
  have h := PerBlockLiveness_mliveIn G st b
  have e : (PerBlockLiveness G st b).1
      = !BitVecOps.Equal (st.m_bbInfo b).LiveIn (PerBlockLiveness G st b).2.m_liveIn := rfl
  rw [e, h]
  simp [BitVecOps.Equal]

theorem PerBlockLiveness_liveIn (G : FlowGraph) (st : LivenessState) (b : Nat) :
    ((PerBlockLiveness G st b).2.m_bbInfo b).LiveIn = InOf G (st.m_bbInfo b) (LiveInOf st) b := by
  have h := PerBlockLiveness_mliveIn G st b
  have hc := PerBlockLiveness_changed G st b
  have e : ((PerBlockLiveness G st b).2.m_bbInfo b).LiveIn
      = if (PerBlockLiveness G st b).1 then (PerBlockLiveness G st b).2.m_liveIn
        else (st.m_bbInfo b).LiveIn := by
    simp [PerBlockLiveness]
  rw [e]
  by_cases hch : (PerBlockLiveness G st b).1 = true
  · rw [if_pos hch, h]
  · rw [if_neg hch]
    by_contra hne
    exact hch (hc.mpr hne)

theorem PerBlockLiveness_varUse (G : FlowGraph) (st : LivenessState) (b x : Nat) :
    ((PerBlockLiveness G st b).2.m_bbInfo x).VarUse = (st.m_bbInfo x).VarUse := by
  by_cases hx : x = b
  · subst hx; simp [PerBlockLiveness]
  · simp [PerBlockLiveness, Function.update_noteq hx]

theorem PerBlockLiveness_varDef (G : FlowGraph) (st : LivenessState) (b x : Nat) :
    ((PerBlockLiveness G st b).2.m_bbInfo x).VarDef = (st.m_bbInfo x).VarDef := by
  by_cases hx : x = b
  · subst hx; simp [PerBlockLiveness]
  · simp [PerBlockLiveness, Function.update_noteq hx]

theorem PerBlockLiveness_other (G : FlowGraph) (st : LivenessState) (b x : Nat) (hx : x ≠ b) :
    (PerBlockLiveness G st b).2.m_bbInfo x = st.m_bbInfo x := by
  simp [PerBlockLiveness, Function.update_noteq hx]

theorem PerBlockLiveness_liveInOf_other (G : FlowGraph) (st : LivenessState) (b x : Nat)
    (hx : x ≠ b) : LiveInOf (PerBlockLiveness G st b).2 x = LiveInOf st x := by
  simp only [LiveInOf, PerBlockLiveness_other G st b x hx]

theorem InOf_congr_info (G : FlowGraph) (i j : BasicBlockLiveness) (L : Nat → VarSet) (b : Nat)
    (hu : i.VarUse = j.VarUse) (hd : i.VarDef = j.VarDef) : InOf G i L b = InOf G j L b := by
  simp only [InOf, hu, hd]

theorem RegularLive_congr (G : FlowGraph) (L M : Nat → VarSet) (b : Nat)
    (h : ∀ s ∈ G.RegularSuccs b, L s = M s) : RegularLive G L b = RegularLive G M b := by
  unfold RegularLive
  apply Finset.biUnion_congr rfl
  intro s hs
  exact h s (List.mem_toFinset.mp hs)

theorem HandlerLive_congr (G : FlowGraph) (L M : Nat → VarSet) (b : Nat)
    (h : G.HasPotentialEHSuccs b = true → ∀ s ∈ G.EHSuccs b, L s = M s) :
    HandlerLive G L b = HandlerLive G M b := by
  unfold HandlerLive
  split
  · rename_i hp
    apply Finset.biUnion_congr rfl
    intro s hs
    exact h hp s (List.mem_toFinset.mp hs)
  · rfl

theorem RegularLive_mono (G : FlowGraph) (L M : Nat → VarSet) (b : Nat)
    (h : ∀ s, L s ⊆ M s) : RegularLive G L b ⊆ RegularLive G M b := by
  unfold RegularLive
  exact Finset.biUnion_mono (fun s _ => h s)

theorem HandlerLive_mono (G : FlowGraph) (L M : Nat → VarSet) (b : Nat)
    (h : ∀ s, L s ⊆ M s) : HandlerLive G L b ⊆ HandlerLive G M b := by
  unfold HandlerLive
  split
  · exact Finset.biUnion_mono (fun s _ => h s)
  · exact Finset.Subset.refl _

theorem OutOf_mono (G : FlowGraph) (L M : Nat → VarSet) (b : Nat)
    (h : ∀ s, L s ⊆ M s) : OutOf G L b ⊆ OutOf G M b :=
  Finset.union_subset_union (RegularLive_mono G L M b h) (HandlerLive_mono G L M b h)

theorem InOf_mono (G : FlowGraph) (i : BasicBlockLiveness) (L M : Nat → VarSet) (b : Nat)
    (h : ∀ s, L s ⊆ M s) : InOf G i L b ⊆ InOf G i M b := by
  unfold InOf
  apply Finset.union_subset_union _ (HandlerLive_mono G L M b h)
  apply Finset.union_subset_union _ (Finset.Subset.refl _)
  exact Finset.sdiff_subset_sdiff (RegularLive_mono G L M b h) (Finset.Subset.refl _)

/-! ## Lemmas: one pass over the post-order list -/

theorem LivenessPassFrom_varUse (G : FlowGraph) (l : List Nat) (c : Bool) (st : LivenessState)
    (x : Nat) :
    ((LivenessPassFrom G l (c, st)).2.m_bbInfo x).VarUse = (st.m_bbInfo x).VarUse := by
  induction l generalizing c st with
  | nil => rfl
  | cons b rest ih =>
    simp only [LivenessPassFrom]
    rw [ih, PerBlockLiveness_varUse]

theorem LivenessPassFrom_varDef (G : FlowGraph) (l : List Nat) (c : Bool) (st : LivenessState)
    (x : Nat) :
    ((LivenessPassFrom G l (c, st)).2.m_bbInfo x).VarDef = (st.m_bbInfo x).VarDef := by
  induction l generalizing c st with
  | nil => rfl
  | cons b rest ih =>
    simp only [LivenessPassFrom]
    rw [ih, PerBlockLiveness_varDef]

theorem LivenessPassFrom_other (G : FlowGraph) (l : List Nat) (c : Bool) (st : LivenessState)
    (x : Nat) (hx : x ∉ l) : (LivenessPassFrom G l (c, st)).2.m_bbInfo x = st.m_bbInfo x := by
  induction l generalizing c st with
  | nil => rfl
  | cons b rest ih =>
    simp only [LivenessPassFrom]
    rw [ih _ _ (fun h => hx (List.mem_cons_of_mem _ h))]
    exact PerBlockLiveness_other G st b x (fun h => hx (h ▸ List.mem_cons_self _ _))

/-- A pass that reports no change left every `LiveIn` as it was, and the equations hold at
every visited block afterwards. -/
theorem LivenessPassFrom_unchanged (G : FlowGraph) (l : List Nat) (c : Bool)
    (st : LivenessState) (h : (LivenessPassFrom G l (c, st)).1 = false) :
    c = false ∧ LiveInOf (LivenessPassFrom G l (c, st)).2 = LiveInOf st ∧
      ∀ b ∈ l, EquationsAt G (LivenessPassFrom G l (c, st)).2 b := by
  induction l generalizing c st with
  | nil =>
    refine ⟨h, rfl, ?_⟩
    intro b hb; cases hb
  | cons b rest ih =>
    simp only [LivenessPassFrom] at h ⊢
    obtain ⟨hc, hL, hE⟩ := ih _ _ h
    have hc1 : c = false := by
      cases c
      · rfl
      · simp at hc
    have hr : (PerBlockLiveness G st b).1 = false := by
      rw [hc1] at hc; simpa using hc
    have hsame : (st.m_bbInfo b).LiveIn = InOf G (st.m_bbInfo b) (LiveInOf st) b := by
      by_contra hne
      have := (PerBlockLiveness_changed G st b).mpr hne
      rw [hr] at this; cases this
    have hL1 : LiveInOf (PerBlockLiveness G st b).2 = LiveInOf st := by
      funext x
      by_cases hx : x = b
      · subst hx
        show ((PerBlockLiveness G st x).2.m_bbInfo x).LiveIn = (st.m_bbInfo x).LiveIn
        rw [PerBlockLiveness_liveIn, ← hsame]
      · exact PerBlockLiveness_liveInOf_other G st b x hx
    refine ⟨hc1, hL.trans hL1, ?_⟩
    intro x hx
    by_cases hxr : x ∈ rest
    · exact hE x hxr
    · have hxb : x = b := by
        rcases List.mem_cons.mp hx with h1 | h1
        · exact h1
        · exact absurd h1 hxr
      subst hxb
      unfold EquationsAt
      rw [hL, hL1, LivenessPassFrom_other G rest _ _ x hxr]
      refine ⟨PerBlockLiveness_liveOut G st x, ?_⟩
      rw [PerBlockLiveness_liveIn]
      exact InOf_congr_info G _ _ _ _ (PerBlockLiveness_varUse G st x x).symm
        (PerBlockLiveness_varDef G st x x).symm

theorem PerBlockLiveness_grows (G : FlowGraph) (st : LivenessState) (b : Nat)
    (h : Inflationary G st) (x : Nat) :
    LiveInOf st x ⊆ LiveInOf (PerBlockLiveness G st b).2 x := by
  by_cases hx : x = b
  · subst hx
    show LiveInOf st x ⊆ ((PerBlockLiveness G st x).2.m_bbInfo x).LiveIn
    rw [PerBlockLiveness_liveIn]
    exact h x
  · rw [PerBlockLiveness_liveInOf_other G st b x hx]

theorem PerBlockLiveness_inflationary (G : FlowGraph) (st : LivenessState) (b : Nat)
    (h : Inflationary G st) : Inflationary G (PerBlockLiveness G st b).2 := by
  intro x
  have hinfo : InOf G ((PerBlockLiveness G st b).2.m_bbInfo x)
      (LiveInOf (PerBlockLiveness G st b).2) x
      = InOf G (st.m_bbInfo x) (LiveInOf (PerBlockLiveness G st b).2) x :=
    InOf_congr_info G _ _ _ _ (PerBlockLiveness_varUse G st b x) (PerBlockLiveness_varDef G st b x)
  rw [hinfo]
  have hm := InOf_mono G (st.m_bbInfo x) _ _ x (PerBlockLiveness_grows G st b h)
  refine Finset.Subset.trans ?_ hm
  by_cases hx : x = b
  · subst hx
    show ((PerBlockLiveness G st x).2.m_bbInfo x).LiveIn ⊆ _
    rw [PerBlockLiveness_liveIn]
  · rw [PerBlockLiveness_liveInOf_other G st b x hx]
    exact h x

/-- From an inflationary state a pass only enlarges `LiveIn` sets, and a pass that reports
a change strictly enlarged the `LiveIn` of a visited block. -/
theorem LivenessPassFrom_grows (G : FlowGraph) (l : List Nat) (c : Bool) (st : LivenessState)
    (h : Inflationary G st) :
    Inflationary G (LivenessPassFrom G l (c, st)).2 ∧
    (∀ x, LiveInOf st x ⊆ LiveInOf (LivenessPassFrom G l (c, st)).2 x) ∧
    ((LivenessPassFrom G l (c, st)).1 = true →
      c = true ∨ ∃ b ∈ l, LiveInOf st b ⊂ LiveInOf (LivenessPassFrom G l (c, st)).2 b) := by
  induction l generalizing c st with
  | nil =>
    refine ⟨h, fun x => Finset.Subset.refl _, fun hc => Or.inl hc⟩
  | cons b rest ih =>
    simp only [LivenessPassFrom]
    obtain ⟨hI, hG, hC⟩ := ih (c || (PerBlockLiveness G st b).1) (PerBlockLiveness G st b).2
      (PerBlockLiveness_inflationary G st b h)
    have hg1 := PerBlockLiveness_grows G st b h
    refine ⟨hI, fun x => Finset.Subset.trans (hg1 x) (hG x), ?_⟩
    intro hch
    rcases hC hch with hor | ⟨x, hx, hlt⟩
    · rcases Bool.or_eq_true_iff.mp hor with hc | hr
      · exact Or.inl hc
      · right
        refine ⟨b, List.mem_cons_self _ _, ?_⟩
        have hne := (PerBlockLiveness_changed G st b).mp hr
        have hlt : LiveInOf st b ⊂ LiveInOf (PerBlockLiveness G st b).2 b := by
          refine Finset.ssubset_iff_subset_ne.mpr ⟨hg1 b, ?_⟩
          show (st.m_bbInfo b).LiveIn ≠ ((PerBlockLiveness G st b).2.m_bbInfo b).LiveIn
          rw [PerBlockLiveness_liveIn]
          exact hne
        exact lt_of_lt_of_le hlt (hG b)
    · right
      exact ⟨x, List.mem_cons_of_mem _ hx, lt_of_le_of_lt (hg1 x) hlt⟩

theorem LivenessPass_size (G : FlowGraph) (st : LivenessState) (h : Inflationary G st) :
    LiveInSize G st ≤ LiveInSize G (LivenessPass G st).2 ∧
    ((LivenessPass G st).1 = true → LiveInSize G st < LiveInSize G (LivenessPass G st).2) := by
  obtain ⟨_, hG, hC⟩ := LivenessPassFrom_grows G G.PostOrder false st h
  have hle : ∀ b ∈ G.PostOrder,
      (LiveInOf st b).card ≤ (LiveInOf (LivenessPass G st).2 b).card :=
    fun b _ => Finset.card_le_card (hG b)
  constructor
  · exact List.sum_le_sum hle
  · intro hch
    rcases hC hch with hf | ⟨b, hb, hlt⟩
    · cases hf
    · exact List.sum_lt_sum _ _ hle ⟨b, hb, Finset.card_lt_card hlt⟩

/-! ## Lemmas: staying below a solution -/

theorem PerBlockLiveness_below (G : FlowGraph) (st : LivenessState) (b : Nat) (M : Nat → VarSet)
    (hb : InOf G (st.m_bbInfo b) M b ⊆ M b) (h : ∀ x, LiveInOf st x ⊆ M x) (x : Nat) :
    LiveInOf (PerBlockLiveness G st b).2 x ⊆ M x := by
  by_cases hx : x = b
  · subst hx
    show ((PerBlockLiveness G st x).2.m_bbInfo x).LiveIn ⊆ M x
    rw [PerBlockLiveness_liveIn]
    exact Finset.Subset.trans (InOf_mono G _ _ _ x h) hb
  · rw [PerBlockLiveness_liveInOf_other G st b x hx]
    exact h x

theorem LivenessPassFrom_below (G : FlowGraph) (l : List Nat) (c : Bool) (st : LivenessState)
    (M : Nat → VarSet) (hl : ∀ b ∈ l, InOf G (st.m_bbInfo b) M b ⊆ M b)
    (h : ∀ x, LiveInOf st x ⊆ M x) (x : Nat) :
    LiveInOf (LivenessPassFrom G l (c, st)).2 x ⊆ M x := by
  induction l generalizing c st with
  | nil => exact h x
  | cons b rest ih =>
    simp only [LivenessPassFrom]
    apply ih
    · intro y hy
      rw [InOf_congr_info G _ (st.m_bbInfo y) M y (PerBlockLiveness_varUse G st b y)
        (PerBlockLiveness_varDef G st b y)]
      exact hl y (List.mem_cons_of_mem _ hy)
    · exact PerBlockLiveness_below G st b M (hl b (List.mem_cons_self _ _)) h

/-! ## Lemmas: iterated passes -/

theorem PassState_zero (G : FlowGraph) (st : LivenessState) : PassState G st 0 = st := rfl

theorem PassState_succ (G : FlowGraph) (st : LivenessState) (k : Nat) :
    PassState G st (k + 1) = PassState G (LivenessPass G st).2 k := rfl

theorem PassState_succ_last (G : FlowGraph) (st : LivenessState) (k : Nat) :
    PassState G st (k + 1) = (LivenessPass G (PassState G st k)).2 := by
  unfold PassState
  rw [Function.iterate_succ_apply']

theorem PassState_varUse (G : FlowGraph) (st : LivenessState) (k x : Nat) :
    ((PassState G st k).m_bbInfo x).VarUse = (st.m_bbInfo x).VarUse := by
  induction k with
  | zero => rfl
  | succ k ih =>
    rw [PassState_succ_last]
    unfold LivenessPass
    rw [LivenessPassFrom_varUse, ih]

theorem PassState_varDef (G : FlowGraph) (st : LivenessState) (k x : Nat) :
    ((PassState G st k).m_bbInfo x).VarDef = (st.m_bbInfo x).VarDef := by
  induction k with
  | zero => rfl
  | succ k ih =>
    rw [PassState_succ_last]
    unfold LivenessPass
    rw [LivenessPassFrom_varDef, ih]

theorem PassState_other (G : FlowGraph) (st : LivenessState) (k x : Nat)
    (hx : x ∉ G.PostOrder) : (PassState G st k).m_bbInfo x = st.m_bbInfo x := by
  induction k with
  | zero => rfl
  | succ k ih =>
    rw [PassState_succ_last]
    unfold LivenessPass
    rw [LivenessPassFrom_other G _ _ _ x hx, ih]

theorem PassState_inflationary (G : FlowGraph) (st : LivenessState) (h : Inflationary G st)
    (k : Nat) : Inflationary G (PassState G st k) := by
  induction k with
  | zero => exact h
  | succ k ih =>
    rw [PassState_succ_last]
    exact (LivenessPassFrom_grows G G.PostOrder false _ ih).1

theorem PassState_grows (G : FlowGraph) (st : LivenessState) (h : Inflationary G st)
    (k x : Nat) : LiveInOf (PassState G st k) x ⊆ LiveInOf (PassState G st (k + 1)) x := by
  rw [PassState_succ_last]
  exact (LivenessPassFrom_grows G G.PostOrder false _ (PassState_inflationary G st h k)).2.1 x

theorem PassState_below (G : FlowGraph) (st : LivenessState) (M : Nat → VarSet)
    (hM : ∀ b ∈ G.PostOrder, InOf G (st.m_bbInfo b) M b ⊆ M b)
    (h : ∀ x, LiveInOf st x ⊆ M x) (k x : Nat) : LiveInOf (PassState G st k) x ⊆ M x := by
  induction k generalizing x with
  | zero => exact h x
  | succ k ih =>
    rw [PassState_succ_last]
    apply LivenessPassFrom_below G G.PostOrder false _ M _ ih
    intro b hb
    rw [InOf_congr_info G _ (st.m_bbInfo b) M b (PassState_varUse G st k b)
      (PassState_varDef G st k b)]
    exact hM b hb

/-- If the first `m` passes all report a change, the total `LiveIn` size grew by at least
`m`. -/
theorem PassState_size (G : FlowGraph) (st : LivenessState) (h : Inflationary G st) (m : Nat)
    (hch : ∀ j, j < m → (LivenessPass G (PassState G st j)).1 = true) :
    LiveInSize G st + m ≤ LiveInSize G (PassState G st m) := by
  induction m with
  | zero => exact Nat.le_refl _
  | succ m ih =>
    have h1 := ih (fun j hj => hch j (Nat.lt_succ_of_lt hj))
    have h2 := (LivenessPass_size G (PassState G st m) (PassState_inflationary G st h m)).2
      (hch m (Nat.lt_succ_self m))
    rw [PassState_succ_last]
    omega

/-! ## Lemmas: the `do`-`while` loop -/

/-- What a successful run of the loop looks like: it did `n` passes, every pass but the last
reported a change on a graph with a cycle, and the last one did not. -/
theorem InterBlockLiveness_some (G : FlowGraph) (fuel : Nat) (st : LivenessState) (n : Nat)
    (st' : LivenessState) (h : InterBlockLiveness G fuel st = some (n, st')) :
    1 ≤ n ∧ n ≤ fuel ∧ st' = PassState G st n ∧
    (∀ j, j + 1 < n →
      (LivenessPass G (PassState G st j)).1 = true ∧ G.HasCycle = true) ∧
    ((LivenessPass G (PassState G st (n - 1))).1 && G.HasCycle) = false := by
  induction fuel generalizing st n st' with
  | zero => simp [InterBlockLiveness] at h
  | succ fuel ih =>
    simp only [InterBlockLiveness] at h
    split at h
    · rename_i hc
      cases hr : InterBlockLiveness G fuel (LivenessPass G st).2 with
      | none => rw [hr] at h; simp at h
      | some p =>
        obtain ⟨m, t⟩ := p
        rw [hr] at h
        simp only [Option.map_some', Option.some.injEq, Prod.mk.injEq] at h
        obtain ⟨hn, ht⟩ := h
        subst hn; subst ht
        obtain ⟨h1, h2, h3, h4, h5⟩ := ih _ _ _ hr
        refine ⟨by omega, by omega, ?_, ?_, ?_⟩
        · rw [PassState_succ]; exact h3
        · intro j hj
          cases j with
          | zero => simpa using hc
          | succ j =>
            rw [PassState_succ]
            exact h4 j (by omega)
        · have e : m + 1 - 1 = (m - 1) + 1 := by omega
          rw [e, PassState_succ]
          exact h5
    · rename_i hc
      simp only [Option.some.injEq, Prod.mk.injEq] at h
      obtain ⟨hn, ht⟩ := h
      subst hn; subst ht
      refine ⟨Nat.le_refl _, by omega, rfl, ?_, ?_⟩
      · intro j hj; omega
      · simpa using hc

/-- If the loop runs out of passes, every pass reported a change. -/
theorem InterBlockLiveness_none (G : FlowGraph) (fuel : Nat) (st : LivenessState)
    (h : InterBlockLiveness G fuel st = none) :
    ∀ j, j < fuel → (LivenessPass G (PassState G st j)).1 = true := by
  induction fuel generalizing st with
  | zero => intro j hj; omega
  | succ fuel ih =>
    simp only [InterBlockLiveness] at h
    split at h
    · rename_i hc
      have hr : InterBlockLiveness G fuel (LivenessPass G st).2 = none := by
        cases hr : InterBlockLiveness G fuel (LivenessPass G st).2 with
        | none => rfl
        | some p => rw [hr] at h; simp at h
      intro j hj
      cases j with
      | zero =>
        simp only [Bool.and_eq_true] at hc
        exact hc.1
      | succ j =>
        rw [PassState_succ]
        exact ih _ hr j (by omega)
    · cases h

/-- More passes allowed do not change the result. -/
theorem InterBlockLiveness_fuel_mono (G : FlowGraph) (fuel fuel' : Nat) (st : LivenessState)
    (r : Nat × LivenessState) (h : InterBlockLiveness G fuel st = some r) (hf : fuel ≤ fuel') :
    InterBlockLiveness G fuel' st = some r := by
  induction fuel generalizing st r fuel' with
  | zero => simp [InterBlockLiveness] at h
  | succ fuel ih =>
    cases fuel' with
    | zero => omega
    | succ fuel' =>
      simp only [InterBlockLiveness] at h ⊢
      split
      · rename_i hc
        rw [if_pos hc] at h
        cases hr : InterBlockLiveness G fuel (LivenessPass G st).2 with
        | none => rw [hr] at h; simp at h
        | some p =>
          rw [hr] at h
          rw [ih fuel' _ p hr (by omega)]
          exact h
      · rename_i hc
        rw [if_neg hc] at h
        exact h

/-! ## Lemmas: termination -/

theorem InOf_subset_range (G : FlowGraph) (i : BasicBlockLiveness) (N b : Nat)
    (hu : i.VarUse ⊆ Finset.range N) : InOf G i (fun _ => Finset.range N) b ⊆ Finset.range N := by
  have hR : RegularLive G (fun _ => Finset.range N) b ⊆ Finset.range N := by
    unfold RegularLive
    exact Finset.biUnion_subset.mpr (fun _ _ => Finset.Subset.refl _)
  have hE : HandlerLive G (fun _ => Finset.range N) b ⊆ Finset.range N := by
    unfold HandlerLive
    split
    · exact Finset.biUnion_subset.mpr (fun _ _ => Finset.Subset.refl _)
    · exact Finset.empty_subset _
  unfold InOf
  exact Finset.union_subset
    (Finset.union_subset (Finset.Subset.trans Finset.sdiff_subset hR) hu) hE

theorem LiveInEmpty_inflationary (G : FlowGraph) (st : LivenessState) (h : LiveInEmpty st) :
    Inflationary G st := by
  intro b
  show (st.m_bbInfo b).LiveIn ⊆ _
  rw [h b]
  exact Finset.empty_subset _

theorem PassState_subset_range (G : FlowGraph) (st : LivenessState) (N : Nat)
    (hinit : LiveInEmpty st)
    (hN : ∀ b ∈ G.PostOrder, (st.m_bbInfo b).VarUse ⊆ Finset.range N) (k x : Nat) :
    LiveInOf (PassState G st k) x ⊆ Finset.range N := by
  apply PassState_below G st (fun _ => Finset.range N)
  · intro b hb
    exact InOf_subset_range G _ N b (hN b hb)
  · intro y
    show (st.m_bbInfo y).LiveIn ⊆ _
    rw [hinit y]
    exact Finset.empty_subset _

theorem LiveInSize_le (G : FlowGraph) (st : LivenessState) (N : Nat)
    (h : ∀ x, LiveInOf st x ⊆ Finset.range N) : LiveInSize G st ≤ G.PostOrder.length * N := by
  unfold LiveInSize
  have := List.sum_le_card_nsmul (G.PostOrder.map (fun b => (LiveInOf st b).card)) N
    (by
      intro c hc
      obtain ⟨b, _, rfl⟩ := List.mem_map.mp hc
      have := Finset.card_le_card (h b)
      rwa [Finset.card_range] at this)
  simpa using this

/-- From empty `LiveIn` sets, with every `VarUse` inside `[0, N)`, the loop finishes within
`B * N + 1` passes, `B` the length of the post-order list. -/
theorem InterBlockLiveness_terminates (G : FlowGraph) (st : LivenessState) (N : Nat)
    (hinit : LiveInEmpty st)
    (hN : ∀ b ∈ G.PostOrder, (st.m_bbInfo b).VarUse ⊆ Finset.range N) :
    ∃ n st', InterBlockLiveness G (G.PostOrder.length * N + 1) st = some (n, st') := by
  cases hr : InterBlockLiveness G (G.PostOrder.length * N + 1) st with
  | some p => exact ⟨p.1, p.2, rfl⟩
  | none =>
    exfalso
    have hch := InterBlockLiveness_none G _ st hr
    have h1 := PassState_size G st (LiveInEmpty_inflationary G st hinit) _ hch
    have h2 := LiveInSize_le G (PassState G st (G.PostOrder.length * N + 1)) N
      (PassState_subset_range G st N hinit hN _)
    omega

/-- Every finite family of `VarUse` sets fits in some `[0, N)`. -/
theorem exists_varUse_bound (st : LivenessState) (l : List Nat) :
    ∃ N, ∀ b ∈ l, (st.m_bbInfo b).VarUse ⊆ Finset.range N := by
  induction l with
  | nil => exact ⟨0, fun b hb => by cases hb⟩
  | cons a rest ih =>
    obtain ⟨N, hN⟩ := ih
    refine ⟨max N ((st.m_bbInfo a).VarUse.sup id + 1), ?_⟩
    intro b hb
    rcases List.mem_cons.mp hb with h | h
    · subst h
      intro i hi
      have : id i ≤ (st.m_bbInfo b).VarUse.sup id := Finset.le_sup hi
      simp only [id] at this
      exact Finset.mem_range.mpr (by omega)
    · intro i hi
      have := Finset.mem_range.mp (hN b h hi)
      exact Finset.mem_range.mpr (by omega)

/-- From empty `LiveIn` sets the loop returns. -/
theorem InterBlockLiveness_returns (G : FlowGraph) (st : LivenessState)
    (hinit : LiveInEmpty st) : ∃ fuel n st', InterBlockLiveness G fuel st = some (n, st') := by
  obtain ⟨N, hN⟩ := exists_varUse_bound st G.PostOrder
  exact ⟨_, InterBlockLiveness_terminates G st N hinit hN⟩

/-! ## Lemmas: a single sweep when successors come first -/

theorem OutOf_congr (G : FlowGraph) (L M : Nat → VarSet) (b : Nat)
    (h : ∀ s ∈ AllSuccs G b, L s = M s) : OutOf G L b = OutOf G M b := by
  unfold OutOf
  rw [RegularLive_congr G L M b (fun s hs => h s (List.mem_append_left _ hs)),
    HandlerLive_congr G L M b (fun hp s hs => h s (by
      unfold AllSuccs
      rw [if_pos hp]
      exact List.mem_append_right _ hs))]

theorem InOf_congr (G : FlowGraph) (i : BasicBlockLiveness) (L M : Nat → VarSet) (b : Nat)
    (h : ∀ s ∈ AllSuccs G b, L s = M s) : InOf G i L b = InOf G i M b := by
  unfold InOf
  rw [RegularLive_congr G L M b (fun s hs => h s (List.mem_append_left _ hs)),
    HandlerLive_congr G L M b (fun hp s hs => h s (by
      unfold AllSuccs
      rw [if_pos hp]
      exact List.mem_append_right _ hs))]

/-- A step of `b` keeps the equations at a block `x` none of whose successors is `b`
(for `x = b` it establishes them). -/
theorem PerBlockLiveness_equationsAt (G : FlowGraph) (st : LivenessState) (b x : Nat)
    (hs : b ∉ AllSuccs G x) (hx : x = b ∨ EquationsAt G st x) :
    EquationsAt G (PerBlockLiveness G st b).2 x := by
  have hL : ∀ s ∈ AllSuccs G x, LiveInOf st s = LiveInOf (PerBlockLiveness G st b).2 s := by
    intro s hsx
    have : s ≠ b := fun e => hs (e ▸ hsx)
    exact (PerBlockLiveness_liveInOf_other G st b s this).symm
  by_cases hxb : x = b
  · subst hxb
    unfold EquationsAt
    rw [PerBlockLiveness_liveOut, PerBlockLiveness_liveIn, OutOf_congr G _ _ x hL,
      InOf_congr G _ _ _ x hL]
    exact ⟨rfl, InOf_congr_info G _ _ _ _ (PerBlockLiveness_varUse G st x x).symm
      (PerBlockLiveness_varDef G st x x).symm⟩
  · rcases hx with h | h
    · exact absurd h hxb
    · unfold EquationsAt at h ⊢
      rw [PerBlockLiveness_other G st b x hxb, ← OutOf_congr G _ _ x hL,
        ← InOf_congr G _ _ _ x hL]
      exact h

theorem indexOf_prefix_lt (pre rest : List Nat) (b x : Nat) (hnd : (pre ++ b :: rest).Nodup)
    (hx : x ∈ pre) : (pre ++ b :: rest).indexOf x < (pre ++ b :: rest).indexOf b := by
  have hb : b ∉ pre := by
    intro hbp
    have := List.nodup_append.mp hnd
    exact this.2.2 hbp (List.mem_cons_self _ _)
  rw [List.indexOf_append_of_mem hx, List.indexOf_append_of_not_mem hb, List.indexOf_cons_self]
  have := List.indexOf_lt_length.mpr hx
  omega

/-- When every successor precedes its block in a duplicate-free post-order list, the blocks
already swept keep satisfying the equations while the rest of the list is swept. -/
theorem LivenessPassFrom_acyclic (G : FlowGraph) (pre l : List Nat) (c : Bool)
    (st : LivenessState) (hpo : G.PostOrder = pre ++ l) (hnd : G.PostOrder.Nodup)
    (hord : SuccsPrecede G) (hpre : ∀ x ∈ pre, EquationsAt G st x) :
    ∀ x ∈ G.PostOrder, EquationsAt G (LivenessPassFrom G l (c, st)).2 x := by
  induction l generalizing pre c st with
  | nil =>
    intro x hx
    rw [hpo, List.append_nil] at hx
    exact hpre x hx
  | cons b rest ih =>
    simp only [LivenessPassFrom]
    have hbpo : b ∈ G.PostOrder := by rw [hpo]; simp
    apply ih (pre ++ [b])
    · rw [hpo]; simp
    · intro x hx
      have hxpo : x ∈ G.PostOrder := by
        rw [hpo]
        rcases List.mem_append.mp hx with h | h
        · exact List.mem_append_left _ h
        · rw [List.mem_singleton.mp h]; simp
      have hle : G.PostOrder.indexOf x ≤ G.PostOrder.indexOf b := by
        rcases List.mem_append.mp hx with h | h
        · have := indexOf_prefix_lt pre rest b x (hpo ▸ hnd) h
          rw [← hpo] at this
          exact Nat.le_of_lt this
        · rw [List.mem_singleton.mp h]
      have hs : b ∉ AllSuccs G x := by
        intro hb
        have := hord x hxpo b hb
        omega
      apply PerBlockLiveness_equationsAt G st b x hs
      rcases List.mem_append.mp hx with h | h
      · exact Or.inr (hpre x h)
      · exact Or.inl (List.mem_singleton.mp h)

/-- A pass over blocks at which the live-in equation already holds changes nothing. -/
theorem LivenessPassFrom_stable (G : FlowGraph) (l : List Nat) (c : Bool) (st : LivenessState)
    (h : ∀ b ∈ l, (st.m_bbInfo b).LiveIn = InOf G (st.m_bbInfo b) (LiveInOf st) b) :
    (LivenessPassFrom G l (c, st)).1 = c ∧
      LiveInOf (LivenessPassFrom G l (c, st)).2 = LiveInOf st := by
  induction l generalizing c st with
  | nil => exact ⟨rfl, rfl⟩
  | cons b rest ih =>
    simp only [LivenessPassFrom]
    have hb := h b (List.mem_cons_self _ _)
    have hr : (PerBlockLiveness G st b).1 = false := by
      cases hq : (PerBlockLiveness G st b).1 with
      | false => rfl
      | true => exact absurd hb ((PerBlockLiveness_changed G st b).mp hq)
    have hL1 : LiveInOf (PerBlockLiveness G st b).2 = LiveInOf st := by
      funext x
      by_cases hx : x = b
      · subst hx
        show ((PerBlockLiveness G st x).2.m_bbInfo x).LiveIn = (st.m_bbInfo x).LiveIn
        rw [PerBlockLiveness_liveIn, ← hb]
      · exact PerBlockLiveness_liveInOf_other G st b x hx
    have := ih (c || (PerBlockLiveness G st b).1) (PerBlockLiveness G st b).2 (by
      intro y hy
      rw [hL1, InOf_congr_info G _ (st.m_bbInfo y) _ y (PerBlockLiveness_varUse G st b y)
        (PerBlockLiveness_varDef G st b y)]
      show LiveInOf (PerBlockLiveness G st b).2 y = _
      rw [hL1]
      exact h y (List.mem_cons_of_mem _ hy))
    rw [hr, Bool.or_false] at this
    rw [hr, Bool.or_false]
    exact ⟨this.1, this.2.trans hL1⟩

/-- The state after a pass is the fold of `PerBlockLiveness` over the list: one call per
entry, in list order. -/
theorem LivenessPassFrom_state (G : FlowGraph) (l : List Nat) (c : Bool) (st : LivenessState) :
    (LivenessPassFrom G l (c, st)).2 = l.foldl (fun s b => (PerBlockLiveness G s b).2) st := by
  induction l generalizing c st with
  | nil => rfl
  | cons b rest ih =>
    simp only [LivenessPassFrom, List.foldl_cons]
    exact ih _ _

/-- The equations hold at every block of the post-order list when the loop returns. -/
theorem InterBlockLiveness_equations (G : FlowGraph) (st : LivenessState)
    (hnd : G.PostOrder.Nodup) (hcyc : G.HasCycle = false → SuccsPrecede G)
    (fuel n : Nat) (st' : LivenessState) (h : InterBlockLiveness G fuel st = some (n, st')) :
    ∀ b ∈ G.PostOrder, EquationsAt G st' b := by
  obtain ⟨h1, _, h3, _, h5⟩ := InterBlockLiveness_some G fuel st n st' h
  have e : n = (n - 1) + 1 := by omega
  rw [e, PassState_succ_last] at h3
  subst h3
  cases hc : G.HasCycle with
  | true =>
    rw [hc, Bool.and_true] at h5
    exact (LivenessPassFrom_unchanged G G.PostOrder false _ h5).2.2
  | false =>
    exact LivenessPassFrom_acyclic G [] G.PostOrder false _ rfl hnd (hcyc hc)
      (fun x hx => by cases hx)

/-! ## The fixpoint solver: main results -/

/-- On a graph with a cycle the loop stops only after a pass without change, so the
equations hold at every block of the list. -/
theorem InterBlockLiveness_equations_cyclic (G : FlowGraph) (st : LivenessState)
    (hc : G.HasCycle = true) (fuel n : Nat) (st' : LivenessState)
    (h : InterBlockLiveness G fuel st = some (n, st')) :
    ∀ b ∈ G.PostOrder, EquationsAt G st' b := by
  obtain ⟨h1, _, h3, _, h5⟩ := InterBlockLiveness_some G fuel st n st' h
  have e : n = (n - 1) + 1 := by omega
  rw [e, PassState_succ_last] at h3
  subst h3
  rw [hc, Bool.and_true] at h5
  exact (LivenessPassFrom_unchanged G G.PostOrder false _ h5).2.2

/-- Claim C1. Fixpoint equations: on a duplicate-free post-order list, with `HasCycle` true
whenever some successor does not precede its block, `InterBlockLiveness` returns from the
state left by `ComputeUseDefSets`, and on return every block `b` of the list has
`LiveOut(b) = R(b) ∪ E(b)` and `LiveIn(b) = ((R(b) - VarDef(b)) ∪ VarUse(b)) ∪ E(b)`;
for a block without exception-handler successors `LiveOut(b) = R(b)` and
`LiveIn(b) = (LiveOut(b) - VarDef(b)) ∪ VarUse(b)`. -/
theorem InterBlockLiveness_fixpoint_equations (G : FlowGraph) (st : LivenessState)
    (hnd : G.PostOrder.Nodup) (hcyc : G.HasCycle = false → SuccsPrecede G) :
    (LiveInEmpty st → ∃ fuel n st', InterBlockLiveness G fuel st = some (n, st')) ∧
    ∀ fuel n st', InterBlockLiveness G fuel st = some (n, st') → ∀ b ∈ G.PostOrder,
      (st'.m_bbInfo b).LiveOut
        = RegularLive G (LiveInOf st') b ∪ HandlerLive G (LiveInOf st') b ∧
      (st'.m_bbInfo b).LiveIn
        = ((RegularLive G (LiveInOf st') b \ (st'.m_bbInfo b).VarDef)
            ∪ (st'.m_bbInfo b).VarUse) ∪ HandlerLive G (LiveInOf st') b ∧
      ((G.HasPotentialEHSuccs b = false ∨ G.EHSuccs b = []) →
        (st'.m_bbInfo b).LiveOut = RegularLive G (LiveInOf st') b ∧
        (st'.m_bbInfo b).LiveIn
          = ((st'.m_bbInfo b).LiveOut \ (st'.m_bbInfo b).VarDef) ∪ (st'.m_bbInfo b).VarUse) := by
  refine ⟨InterBlockLiveness_returns G st, ?_⟩
  intro fuel n st' h b hb
  have hE := InterBlockLiveness_equations G st hnd hcyc fuel n st' h b hb
  unfold EquationsAt OutOf InOf at hE
  refine ⟨hE.1, hE.2, ?_⟩
  intro hno
  have hz : HandlerLive G (LiveInOf st') b = ∅ := by
    unfold HandlerLive
    rcases hno with h1 | h1
    · simp [h1]
    · simp [h1]
  have hO : (st'.m_bbInfo b).LiveOut = RegularLive G (LiveInOf st') b := by
    rw [hE.1, hz, Finset.union_empty]
  refine ⟨hO, ?_⟩
  rw [hO]
  have := hE.2
  rw [hz, Finset.union_empty] at this
  exact this

/-- The loop graph meets the hypotheses of C1; there the loop takes three passes and ends
with `LiveIn(2) = LiveIn(3) = {1, 2}`, `LiveIn(1) = {2}`, and the equations hold. -/
theorem InterBlockLiveness_fixpoint_equations_witness :
    loopGraph.PostOrder.Nodup ∧
    (∃ st', InterBlockLiveness loopGraph 3 loopState = some (3, st') ∧
      (st'.m_bbInfo 2).LiveIn = {1, 2} ∧ (st'.m_bbInfo 3).LiveIn = {1, 2} ∧
      (st'.m_bbInfo 1).LiveIn = {2} ∧
      ∀ b ∈ loopGraph.PostOrder,
        (st'.m_bbInfo b).LiveOut
          = RegularLive loopGraph (LiveInOf st') b ∪ HandlerLive loopGraph (LiveInOf st') b) :=
  ⟨by decide, _, rfl, by decide, by decide, by decide, fun b hb =>
    ((InterBlockLiveness_fixpoint_equations loopGraph loopState (by decide)
      (fun h => absurd h (by decide))).2 3 3 _ rfl b hb).1⟩

/-- Claim C2. Acyclic single sweep: when `HasCycle` is false the loop makes one pass, one
call of `PerBlockLiveness` per entry of the post-order list in list order, whether or not
that pass changed a `LiveIn`; and when the list is duplicate-free and every successor
precedes its block, the equations hold at every block after that pass and a second pass
would report no change and leave every `LiveIn` as it is. -/
theorem InterBlockLiveness_acyclic_single_sweep (G : FlowGraph) (st : LivenessState)
    (hc : G.HasCycle = false) (fuel : Nat) :
    InterBlockLiveness G (fuel + 1) st
      = some (1, G.PostOrder.foldl (fun s b => (PerBlockLiveness G s b).2) st) ∧
    (G.PostOrder.Nodup → SuccsPrecede G →
      (∀ b ∈ G.PostOrder,
        EquationsAt G (G.PostOrder.foldl (fun s b => (PerBlockLiveness G s b).2) st) b) ∧
      (LivenessPass G (G.PostOrder.foldl (fun s b => (PerBlockLiveness G s b).2) st)).1 = false ∧
      LiveInOf (LivenessPass G (G.PostOrder.foldl (fun s b => (PerBlockLiveness G s b).2) st)).2
        = LiveInOf (G.PostOrder.foldl (fun s b => (PerBlockLiveness G s b).2) st)) := by
  have hst : (LivenessPass G st).2
      = G.PostOrder.foldl (fun s b => (PerBlockLiveness G s b).2) st :=
    LivenessPassFrom_state G G.PostOrder false st
  constructor
  · simp only [InterBlockLiveness, hc, Bool.and_false]
    rw [← hst]
    rfl
  · intro hnd hord
    rw [← hst]
    have hE : ∀ b ∈ G.PostOrder, EquationsAt G (LivenessPass G st).2 b :=
      LivenessPassFrom_acyclic G [] G.PostOrder false st rfl hnd hord (fun x hx => by cases hx)
    exact ⟨hE, LivenessPassFrom_stable G G.PostOrder false _ (fun b hb => (hE b hb).2)⟩

/-- On the two-block line the single pass does change `LiveIn` sets, the loop still stops
after it, and a second pass would change nothing. -/
theorem InterBlockLiveness_acyclic_single_sweep_witness :
    lineGraph.HasCycle = false ∧ (LivenessPass lineGraph lineState).1 = true ∧
    InterBlockLiveness lineGraph (0 + 1) lineState
      = some (1, lineGraph.PostOrder.foldl (fun s b => (PerBlockLiveness lineGraph s b).2)
          lineState) ∧
    (LivenessPass lineGraph
      (lineGraph.PostOrder.foldl (fun s b => (PerBlockLiveness lineGraph s b).2) lineState)).1
      = false :=
  ⟨rfl, by decide,
    (InterBlockLiveness_acyclic_single_sweep lineGraph lineState rfl 0).1,
    ((InterBlockLiveness_acyclic_single_sweep lineGraph lineState rfl 0).2 (by decide)
      (by unfold SuccsPrecede; decide)).2.1⟩

theorem LiveInOf_le_of_solution (G : FlowGraph) (st : LivenessState) (M : Nat → VarSet)
    (hinit : LiveInEmpty st)
    (hM : ∀ b ∈ G.PostOrder, InOf G (st.m_bbInfo b) M b ⊆ M b) (k x : Nat) :
    LiveInOf (PassState G st k) x ⊆ M x := by
  apply PassState_below G st M hM
  intro y
  show (st.m_bbInfo y).LiveIn ⊆ _
  rw [hinit y]
  exact Finset.empty_subset _

/-- Claim C3. Order independence: on a graph with `HasCycle` true, from the state left by
`ComputeUseDefSets`, the loop returns for the post-order list and for any permutation of it
used as visiting order, the two runs end with the same `LiveIn` and `LiveOut` at every
block, and the result satisfies the equations and is contained, block by block, in every
solution of the equations. -/
theorem InterBlockLiveness_order_independent (G : FlowGraph) (order : List Nat)
    (st : LivenessState) (hc : G.HasCycle = true) (hperm : order.Perm G.PostOrder)
    (hinit : LiveInEmpty st) :
    ∃ n1 n2 st1 st2,
      (∃ fuel, InterBlockLiveness G fuel st = some (n1, st1)) ∧
      (∃ fuel, InterBlockLiveness (Reorder G order) fuel st = some (n2, st2)) ∧
      (∀ b, (st1.m_bbInfo b).LiveIn = (st2.m_bbInfo b).LiveIn ∧
        (st1.m_bbInfo b).LiveOut = (st2.m_bbInfo b).LiveOut) ∧
      (∀ b ∈ G.PostOrder, EquationsAt G st1 b) ∧
      (∀ In Out : Nat → VarSet,
        (∀ b ∈ G.PostOrder, Out b = OutOf G In b ∧ In b = InOf G (st.m_bbInfo b) In b) →
        ∀ b ∈ G.PostOrder, (st1.m_bbInfo b).LiveIn ⊆ In b ∧ (st1.m_bbInfo b).LiveOut ⊆ Out b) := by
  obtain ⟨f1, n1, st1, h1⟩ := InterBlockLiveness_returns G st hinit
  obtain ⟨f2, n2, st2, h2⟩ := InterBlockLiveness_returns (Reorder G order) st hinit
  have hE1 := InterBlockLiveness_equations_cyclic G st hc f1 n1 st1 h1
  have hE2 := InterBlockLiveness_equations_cyclic (Reorder G order) st hc f2 n2 st2 h2
  have hs1 := (InterBlockLiveness_some G f1 st n1 st1 h1).2.2.1
  have hs2 := (InterBlockLiveness_some (Reorder G order) f2 st n2 st2 h2).2.2.1
  have hle12 : ∀ x, LiveInOf st1 x ⊆ LiveInOf st2 x := by
    intro x
    rw [hs1]
    apply LiveInOf_le_of_solution G st (LiveInOf st2) hinit
    intro b hb
    have hb2 : b ∈ (Reorder G order).PostOrder := hperm.mem_iff.mpr hb
    have := (hE2 b hb2).2
    rw [InOf_congr_info G (st.m_bbInfo b) (st2.m_bbInfo b) _ b
      (by rw [hs2, PassState_varUse]) (by rw [hs2, PassState_varDef])]
    exact (Finset.subset_of_eq this.symm)
  have hle21 : ∀ x, LiveInOf st2 x ⊆ LiveInOf st1 x := by
    intro x
    rw [hs2]
    apply LiveInOf_le_of_solution (Reorder G order) st (LiveInOf st1) hinit
    intro b hb
    have hb1 : b ∈ G.PostOrder := hperm.mem_iff.mp hb
    have := (hE1 b hb1).2
    show InOf G (st.m_bbInfo b) (LiveInOf st1) b ⊆ _
    rw [InOf_congr_info G (st.m_bbInfo b) (st1.m_bbInfo b) _ b
      (by rw [hs1, PassState_varUse]) (by rw [hs1, PassState_varDef])]
    exact (Finset.subset_of_eq this.symm)
  have hL : LiveInOf st1 = LiveInOf st2 :=
    funext (fun x => Finset.Subset.antisymm (hle12 x) (hle21 x))
  refine ⟨n1, n2, st1, st2, ⟨f1, h1⟩, ⟨f2, h2⟩, ?_, hE1, ?_⟩
  · intro b
    refine ⟨congrFun hL b, ?_⟩
    by_cases hb : b ∈ G.PostOrder
    · have hb2 : b ∈ (Reorder G order).PostOrder := hperm.mem_iff.mpr hb
      rw [(hE1 b hb).1, (hE2 b hb2).1, hL]
      rfl
    · have hb2 : b ∉ (Reorder G order).PostOrder := fun h => hb (hperm.mem_iff.mp h)
      rw [hs1, hs2, PassState_other G st n1 b hb, PassState_other (Reorder G order) st n2 b hb2]
  · intro In Out hsol b hb
    have hIn : ∀ x, LiveInOf st1 x ⊆ In x := by
      intro x
      rw [hs1]
      apply LiveInOf_le_of_solution G st In hinit
      intro y hy
      exact Finset.subset_of_eq (hsol y hy).2.symm
    refine ⟨hIn b, ?_⟩
    rw [(hE1 b hb).1, (hsol b hb).1]
    exact OutOf_mono G _ _ b hIn

/-- Sweeping the loop graph in the order `1, 2, 4, 3` instead of `3, 4, 2, 1` ends with
the same sets. -/
theorem InterBlockLiveness_order_independent_witness :
    loopGraph.HasCycle = true ∧ [1, 2, 4, 3].Perm loopGraph.PostOrder ∧ LiveInEmpty loopState ∧
    ∃ n1 n2 st1 st2,
      (∃ fuel, InterBlockLiveness loopGraph fuel loopState = some (n1, st1)) ∧
      (∃ fuel, InterBlockLiveness (Reorder loopGraph [1, 2, 4, 3]) fuel loopState
        = some (n2, st2)) ∧
      (∀ b, (st1.m_bbInfo b).LiveIn = (st2.m_bbInfo b).LiveIn ∧
        (st1.m_bbInfo b).LiveOut = (st2.m_bbInfo b).LiveOut) :=
  ⟨rfl, by decide, fun _ => rfl,
    (InterBlockLiveness_order_independent loopGraph [1, 2, 4, 3] loopState rfl (by decide)
      (fun _ => rfl)).imp fun _ h1 => h1.imp fun _ h2 => h2.imp fun _ h3 => h3.imp fun _ h4 =>
        ⟨h4.1, h4.2.1, h4.2.2.1⟩⟩

/-- Claim C4. Termination with bound: from the state left by `ComputeUseDefSets`, with `B`
blocks in the post-order list and every `VarUse` inside the `N` dense indices, the loop
returns after at most `B * N + 1` passes, and every pass except the last strictly enlarges
the `LiveIn` of at least one block of the list. -/
theorem InterBlockLiveness_pass_bound (G : FlowGraph) (st : LivenessState) (N : Nat)
    (hinit : LiveInEmpty st)
    (hN : ∀ b ∈ G.PostOrder, (st.m_bbInfo b).VarUse ⊆ Finset.range N) :
    ∃ n st',
      (∀ fuel, G.PostOrder.length * N + 1 ≤ fuel →
        InterBlockLiveness G fuel st = some (n, st')) ∧
      n ≤ G.PostOrder.length * N + 1 ∧
      st' = PassState G st n ∧
      ∀ j, j + 1 < n → ∃ b ∈ G.PostOrder,
        LiveInOf (PassState G st j) b ⊂ LiveInOf (PassState G st (j + 1)) b := by
  obtain ⟨n, st', h⟩ := InterBlockLiveness_terminates G st N hinit hN
  obtain ⟨_, h2, h3, h4, _⟩ := InterBlockLiveness_some G _ st n st' h
  refine ⟨n, st', fun fuel hf => InterBlockLiveness_fuel_mono G _ fuel st _ h hf, h2, h3, ?_⟩
  intro j hj
  have hI := PassState_inflationary G st (LiveInEmpty_inflationary G st hinit) j
  have hch := (h4 j hj).1
  rcases (LivenessPassFrom_grows G G.PostOrder false _ hI).2.2 hch with hf | ⟨b, hb, hlt⟩
  · cases hf
  · refine ⟨b, hb, ?_⟩
    rw [PassState_succ_last]
    exact hlt

/-- The loop graph has 4 blocks and its summaries use indices below 3: the loop returns
within 13 passes (it takes 3). -/
theorem InterBlockLiveness_pass_bound_witness :
    LiveInEmpty loopState ∧
    (∀ b ∈ loopGraph.PostOrder, (loopState.m_bbInfo b).VarUse ⊆ Finset.range 3) ∧
    (∃ st', InterBlockLiveness loopGraph 13 loopState = some (3, st')) ∧
    ∃ n st',
      (∀ fuel, loopGraph.PostOrder.length * 3 + 1 ≤ fuel →
        InterBlockLiveness loopGraph fuel loopState = some (n, st')) ∧
      n ≤ loopGraph.PostOrder.length * 3 + 1 :=
  ⟨fun _ => rfl, by decide, ⟨_, rfl⟩,
    (InterBlockLiveness_pass_bound loopGraph loopState 3 (fun _ => rfl) (by decide)).imp
      fun _ h1 => h1.imp fun _ h2 => ⟨h2.1, h2.2.1⟩⟩

/-- Claim C5. Monotonicity: starting from all `LiveIn` sets empty, every call
`PerBlockLiveness(b)` of every pass (made in the state reached after sweeping the entries
`pre` that come before `b` in the post-order list) leaves `LiveIn(b)` a superset of its
value before the call, and every block's `LiveIn` after a pass contains its `LiveIn`
before the pass; the state the loop returns is the one after its last pass. -/
theorem PerBlockLiveness_monotone (G : FlowGraph) (st : LivenessState) (hinit : LiveInEmpty st) :
    (∀ (j : Nat) (pre rest : List Nat) (b : Nat), G.PostOrder = pre ++ b :: rest →
      ((LivenessPassFrom G pre (false, PassState G st j)).2.m_bbInfo b).LiveIn ⊆
        ((PerBlockLiveness G (LivenessPassFrom G pre (false, PassState G st j)).2 b).2.m_bbInfo
          b).LiveIn) ∧
    (∀ (j x : Nat),
      ((PassState G st j).m_bbInfo x).LiveIn ⊆ ((PassState G st (j + 1)).m_bbInfo x).LiveIn) ∧
    (∀ fuel n st', InterBlockLiveness G fuel st = some (n, st') → st' = PassState G st n) := by
  have hI := LiveInEmpty_inflationary G st hinit
  refine ⟨?_, fun j x => PassState_grows G st hI j x, ?_⟩
  · intro j pre rest b _
    have h1 := (LivenessPassFrom_grows G pre false _ (PassState_inflationary G st hI j)).1
    exact PerBlockLiveness_grows G _ b h1 b
  · intro fuel n st' h
    exact (InterBlockLiveness_some G fuel st n st' h).2.2.1

/-- In the second pass over the loop graph the call on block `3` (first of the list) grows
`LiveIn(3)` from `{1}` to `{1, 2}`. -/
theorem PerBlockLiveness_monotone_witness :
    LiveInEmpty loopState ∧
    ((PassState loopGraph loopState 1).m_bbInfo 3).LiveIn = {1} ∧
    ((PerBlockLiveness loopGraph (PassState loopGraph loopState 1) 3).2.m_bbInfo 3).LiveIn
      = {1, 2} ∧
    ((LivenessPassFrom loopGraph [] (false, PassState loopGraph loopState 1)).2.m_bbInfo 3).LiveIn
      ⊆ ((PerBlockLiveness loopGraph
          (LivenessPassFrom loopGraph [] (false, PassState loopGraph loopState 1)).2 3).2.m_bbInfo
          3).LiveIn :=
  ⟨fun _ => rfl, by decide, by decide,
    (PerBlockLiveness_monotone loopGraph loopState (fun _ => rfl)).1 1 [] [4, 2, 1] 3 rfl⟩

/-- Claim C6. Exception-handler liveness: for a block `b` with potential exception-handler
successors, after `PerBlockLiveness(b)` both `LiveOut(b)` and `LiveIn(b)` contain the
`LiveIn(h)` the call read for every handler successor `h` of `b`, whatever the regular
successors and `VarDef(b)` are; the call leaves `LiveIn(h)` itself as it was when `h` is
another block. -/
theorem PerBlockLiveness_handler_live (G : FlowGraph) (st : LivenessState) (b h : Nat)
    (hp : G.HasPotentialEHSuccs b = true) (hh : h ∈ G.EHSuccs b) :
    (st.m_bbInfo h).LiveIn ⊆ ((PerBlockLiveness G st b).2.m_bbInfo b).LiveOut ∧
    (st.m_bbInfo h).LiveIn ⊆ ((PerBlockLiveness G st b).2.m_bbInfo b).LiveIn ∧
    (h ≠ b → ((PerBlockLiveness G st b).2.m_bbInfo h).LiveIn = (st.m_bbInfo h).LiveIn) := by
  have hE : (st.m_bbInfo h).LiveIn ⊆ HandlerLive G (LiveInOf st) b := by
    unfold HandlerLive
    rw [if_pos hp]
    exact Finset.subset_biUnion_of_mem (LiveInOf st) (List.mem_toFinset.mpr hh)
  refine ⟨?_, ?_, ?_⟩
  · rw [PerBlockLiveness_liveOut]
    exact Finset.Subset.trans hE Finset.subset_union_right
  · rw [PerBlockLiveness_liveIn]
    exact Finset.Subset.trans hE Finset.subset_union_right
  · intro hne
    rw [PerBlockLiveness_other G st b h hne]

/-- Block `2` of the loop graph defines index `2` and has no regular successor with it
live-in, yet after the handler `4` has it live-in a step of block `2` puts index `2` in
both `LiveOut(2)` and `LiveIn(2)`. -/
theorem PerBlockLiveness_handler_live_witness :
    loopGraph.HasPotentialEHSuccs 2 = true ∧ 4 ∈ loopGraph.EHSuccs 2 ∧
    2 ∈ (loopState.m_bbInfo 2).VarDef ∧
    2 ∈ ((PerBlockLiveness loopGraph loopState 4).2.m_bbInfo 4).LiveIn ∧
    2 ∈ ((PerBlockLiveness loopGraph (PerBlockLiveness loopGraph loopState 4).2 2).2.m_bbInfo
      2).LiveOut ∧
    2 ∈ ((PerBlockLiveness loopGraph (PerBlockLiveness loopGraph loopState 4).2 2).2.m_bbInfo
      2).LiveIn :=
  ⟨rfl, by decide, by decide, by decide,
    (PerBlockLiveness_handler_live loopGraph (PerBlockLiveness loopGraph loopState 4).2 2 4 rfl
      (by decide)).1 (by decide),
    (PerBlockLiveness_handler_live loopGraph (PerBlockLiveness loopGraph loopState 4).2 2 4 rfl
      (by decide)).2.1 (by decide)⟩

theorem PerBlockLiveness_varUse_subset (G : FlowGraph) (st : LivenessState) (b : Nat) :
    ((PerBlockLiveness G st b).2.m_bbInfo b).VarUse
      ⊆ ((PerBlockLiveness G st b).2.m_bbInfo b).LiveIn := by
  rw [PerBlockLiveness_liveIn, PerBlockLiveness_varUse]
  unfold InOf
  exact Finset.Subset.trans Finset.subset_union_right Finset.subset_union_left

/-- After a sweep every swept block has its `VarUse` inside its `LiveIn`, and blocks that
had it before keep it. -/
theorem LivenessPassFrom_varUse_subset (G : FlowGraph) (l : List Nat) (c : Bool)
    (st : LivenessState) (x : Nat)
    (hx : x ∈ l ∨ (st.m_bbInfo x).VarUse ⊆ (st.m_bbInfo x).LiveIn) :
    ((LivenessPassFrom G l (c, st)).2.m_bbInfo x).VarUse
      ⊆ ((LivenessPassFrom G l (c, st)).2.m_bbInfo x).LiveIn := by
  induction l generalizing c st with
  | nil =>
    rcases hx with h | h
    · cases h
    · exact h
  | cons b rest ih =>
    simp only [LivenessPassFrom]
    apply ih
    by_cases hxb : x = b
    · right
      subst hxb
      exact PerBlockLiveness_varUse_subset G st x
    · rcases hx with h | h
      · rcases List.mem_cons.mp h with h1 | h1
        · exact absurd h1 hxb
        · exact Or.inl h1
      · right
        rw [PerBlockLiveness_other G st b x hxb]
        exact h

/-- Claim C7. Use/def soundness: `InterBlockLiveness` returns from the state left by
`ComputeUseDefSets`, and whenever it returns every block `b` of the post-order list has
`LiveIn(b) ⊇ VarUse(b)`, hence `LiveIn(b) ⊇ VarUse(b) - VarDef(b)`; this holds right after
any call `PerBlockLiveness(b)`. -/
theorem InterBlockLiveness_use_def_sound (G : FlowGraph) (st : LivenessState) :
    (LiveInEmpty st → ∃ fuel n st', InterBlockLiveness G fuel st = some (n, st')) ∧
    (∀ fuel n st', InterBlockLiveness G fuel st = some (n, st') → ∀ b ∈ G.PostOrder,
      (st'.m_bbInfo b).VarUse ⊆ (st'.m_bbInfo b).LiveIn ∧
      (st'.m_bbInfo b).VarUse \ (st'.m_bbInfo b).VarDef ⊆ (st'.m_bbInfo b).LiveIn) ∧
    (∀ (s : LivenessState) (b : Nat),
      ((PerBlockLiveness G s b).2.m_bbInfo b).VarUse
        ⊆ ((PerBlockLiveness G s b).2.m_bbInfo b).LiveIn) := by
  refine ⟨InterBlockLiveness_returns G st, ?_, fun s b => PerBlockLiveness_varUse_subset G s b⟩
  intro fuel n st' h b hb
  obtain ⟨h1, _, h3, _, _⟩ := InterBlockLiveness_some G fuel st n st' h
  have e : n = (n - 1) + 1 := by omega
  rw [e, PassState_succ_last] at h3
  subst h3
  have := LivenessPassFrom_varUse_subset G G.PostOrder false (PassState G st (n - 1)) b
    (Or.inl hb)
  exact ⟨this, Finset.Subset.trans Finset.sdiff_subset this⟩

/-- Claim C8. Edge propagation: under the preconditions of the fixpoint, whenever
`InterBlockLiveness` returns (and it does from the state left by `ComputeUseDefSets`), for
every block `b` of the post-order list and every regular successor `s` of `b`,
`LiveIn(s) ⊆ LiveOut(b)` and `LiveIn(s) - VarDef(b) ⊆ LiveIn(b)`. -/
theorem InterBlockLiveness_edge_propagation (G : FlowGraph) (st : LivenessState)
    (hnd : G.PostOrder.Nodup) (hcyc : G.HasCycle = false → SuccsPrecede G) :
    (LiveInEmpty st → ∃ fuel n st', InterBlockLiveness G fuel st = some (n, st')) ∧
    ∀ fuel n st', InterBlockLiveness G fuel st = some (n, st') →
      ∀ b ∈ G.PostOrder, ∀ s ∈ G.RegularSuccs b,
        (st'.m_bbInfo s).LiveIn ⊆ (st'.m_bbInfo b).LiveOut ∧
        (st'.m_bbInfo s).LiveIn \ (st'.m_bbInfo b).VarDef ⊆ (st'.m_bbInfo b).LiveIn := by
  refine ⟨InterBlockLiveness_returns G st, ?_⟩
  intro fuel n st' h b hb s hs
  have hE := InterBlockLiveness_equations G st hnd hcyc fuel n st' h b hb
  have hR : (st'.m_bbInfo s).LiveIn ⊆ RegularLive G (LiveInOf st') b := by
    unfold RegularLive
    exact Finset.subset_biUnion_of_mem (LiveInOf st') (List.mem_toFinset.mpr hs)
  unfold EquationsAt OutOf InOf at hE
  constructor
  · rw [hE.1]
    exact Finset.Subset.trans hR Finset.subset_union_left
  · rw [hE.2]
    refine Finset.Subset.trans (Finset.sdiff_subset_sdiff hR (Finset.Subset.refl _)) ?_
    exact Finset.Subset.trans Finset.subset_union_left Finset.subset_union_left

/-- Scenario C: blocks `1 → 2`, the field at offset 8 (index 2) read in block `2` and
untouched in block `1`: index 2 is in `LiveIn(2)`, `LiveOut(1)` and `LiveIn(1)`. -/
theorem InterBlockLiveness_edge_propagation_witness :
    lineGraph.PostOrder.Nodup ∧
    (MarkUseDef [pairAggregate] readField1 ∅ ∅).1 = {2} ∧
    ∃ st', InterBlockLiveness lineGraph 1 lineState = some (1, st') ∧
      2 ∈ (st'.m_bbInfo 2).LiveIn ∧ 2 ∈ (st'.m_bbInfo 1).LiveOut ∧
      2 ∈ (st'.m_bbInfo 1).LiveIn :=
  ⟨by decide, by decide, _, rfl, by decide,
    ((InterBlockLiveness_edge_propagation lineGraph lineState (by decide)
      (fun _ => by unfold SuccsPrecede; decide)).2 1 1 _ rfl 1 (by decide) 2 (by decide)).1
      (by decide),
    ((InterBlockLiveness_edge_propagation lineGraph lineState (by decide)
      (fun _ => by unfold SuccsPrecede; decide)).2 1 1 _ rfl 1 (by decide) 2 (by decide)).2
      (by decide)⟩

/-- The loop on the line graph returns with `VarUse(2) = {2}` inside `LiveIn(2)`. -/
theorem InterBlockLiveness_use_def_sound_witness :
    ∃ st', InterBlockLiveness lineGraph 1 lineState = some (1, st') ∧
      (st'.m_bbInfo 2).VarUse = {2} ∧ (st'.m_bbInfo 2).VarUse ⊆ (st'.m_bbInfo 2).LiveIn :=
  ⟨_, rfl, by decide,
    ((InterBlockLiveness_use_def_sound lineGraph lineState).2.1 1 1 _ rfl 2 (by decide)).1⟩

/-! ## The use/def classifier: lemmas -/

theorem pairwise_get? {T : Type} {R : T → T → Prop} (l : List T) (h : l.Pairwise R)
    (i j : Nat) (a b : T) (hij : i < j) (ha : l.get? i = some a) (hb : l.get? j = some b) :
    R a b := by
  induction l generalizing i j with
  | nil => simp at ha
  | cons x xs ih =>
    rw [List.pairwise_cons] at h
    cases j with
    | zero => omega
    | succ j =>
      simp only [List.get?_cons_succ] at hb
      cases i with
      | zero =>
        simp only [List.get?_cons_zero, Option.some.injEq] at ha
        subst ha
        exact h.1 b (List.get?_mem hb)
      | succ i =>
        simp only [List.get?_cons_succ] at ha
        exact ih h.2 i j (by omega) ha hb

/-- Contract of the search loop on a vector sorted by strictly increasing `field`: a
non-negative result is the index of an entry whose field is `offset`; a negative result
is the complement of an index that separates the smaller fields from the larger ones. -/
theorem BinarySearchLoop_spec {T : Type} (field : T → Nat) (vec : List T) (offset : Nat)
    (hs : vec.Pairwise (fun a b => field a < field b)) (fuel min max : Nat)
    (hmax : max ≤ vec.length) (hmin : min ≤ max) (hfuel : max - min < fuel)
    (hlo : ∀ j e, j < min → vec.get? j = some e → field e < offset)
    (hhi : ∀ j e, max ≤ j → vec.get? j = some e → offset < field e) :
    (0 ≤ BinarySearchLoop field vec offset fuel min max ∧
      ∃ e, vec.get? (BinarySearchLoop field vec offset fuel min max).toNat = some e ∧
        field e = offset) ∨
    (BinarySearchLoop field vec offset fuel min max < 0 ∧
      (∀ j e, j < (-(BinarySearchLoop field vec offset fuel min max) - 1).toNat →
        vec.get? j = some e → field e < offset) ∧
      (∀ j e, (-(BinarySearchLoop field vec offset fuel min max) - 1).toNat ≤ j →
        vec.get? j = some e → offset < field e) ∧
      (-(BinarySearchLoop field vec offset fuel min max) - 1).toNat ≤ vec.length) := by
  induction fuel generalizing min max with
  | zero => omega
  | succ fuel ih =>
    unfold BinarySearchLoop
    by_cases hmm : min < max
    · simp only [if_pos hmm]
      have hmid : min + (max - min) / 2 < vec.length := by
        have : (max - min) / 2 < max - min := Nat.div_lt_self (by omega) (by omega)
        omega
      obtain ⟨e, he⟩ : ∃ e, vec.get? (min + (max - min) / 2) = some e :=
        ⟨_, List.get?_eq_get hmid⟩
      rw [he]
      simp only
      by_cases h1 : field e = offset
      · left
        rw [if_pos h1]
        refine ⟨Int.natCast_nonneg _, e, ?_, h1⟩
        rw [Int.toNat_ofNat]
        exact he
      · rw [if_neg h1]
        by_cases h2 : field e < offset
        · rw [if_pos h2]
          apply ih (min + (max - min) / 2 + 1) max hmax
          · have : (max - min) / 2 < max - min := Nat.div_lt_self (by omega) (by omega)
            omega
          · have : (max - min) / 2 < max - min := Nat.div_lt_self (by omega) (by omega)
            omega
          · intro j a hj ha
            by_cases hjm : j = min + (max - min) / 2
            · subst hjm
              rw [he] at ha
              cases ha
              exact h2
            · have := pairwise_get? vec hs j (min + (max - min) / 2) a e (by omega) ha he
              omega
          · exact hhi
        · rw [if_neg h2]
          apply ih min (min + (max - min) / 2) (by omega) (by omega)
          · have : (max - min) / 2 < max - min := Nat.div_lt_self (by omega) (by omega)
            omega
          · exact hlo
          · intro j a hj ha
            by_cases hjm : j = min + (max - min) / 2
            · subst hjm
              rw [he] at ha
              cases ha
              omega
            · have := pairwise_get? vec hs (min + (max - min) / 2) j e a (by omega) he ha
              omega
    · simp only [if_neg hmm]
      right
      have e1 : (-(-(min : Int) - 1) - 1).toNat = min := by omega
      rw [e1]
      refine ⟨by omega, hlo, ?_, by omega⟩
      intro j a hj ha
      exact hhi j a (by omega) ha

/-- On replacements sorted by strictly increasing offset the search finds the index of the
replacement that starts at the searched offset. -/
theorem BinarySearch_found {T : Type} (field : T → Nat) (vec : List T) (offset : Nat)
    (hs : vec.Pairwise (fun a b => field a < field b)) (i : Nat) (e : T)
    (hi : vec.get? i = some e) (he : field e = offset) :
    BinarySearch field vec offset = (i : Int) := by
  unfold BinarySearch
  rcases BinarySearchLoop_spec field vec offset hs (vec.length + 1) 0 vec.length
    (Nat.le_refl _) (Nat.zero_le _) (by omega) (fun j a hj _ => by omega)
    (fun j a hj ha => by
      have := List.get?_eq_some.mp ha
      obtain ⟨hlt, _⟩ := this
      omega) with ⟨h0, a, ha, hfa⟩ | ⟨_, hlo, hhi, _⟩
  · have hidx : (BinarySearchLoop field vec offset (vec.length + 1) 0 vec.length).toNat = i := by
      by_contra hne
      rcases Nat.lt_or_gt_of_ne hne with hlt | hgt
      · have := pairwise_get? vec hs _ i a e hlt ha hi
        omega
      · have := pairwise_get? vec hs i _ e a hgt hi ha
        omega
    omega
  · exfalso
    by_cases hlt : i < (-(BinarySearchLoop field vec offset (vec.length + 1) 0 vec.length)
        - 1).toNat
    · have := hlo i e hlt hi
      omega
    · have := hhi i e (by omega) hi
      omega

theorem MarkAllLoop_use (baseIndex : Nat) (l : List Nat) (u d : VarSet) :
    (MarkAllLoop baseIndex true false l (u, d)).2 = d ∧
    ∀ x, x ∈ (MarkAllLoop baseIndex true false l (u, d)).1 ↔
      x ∈ u ∨ (x ∉ d ∧ ∃ i ∈ l, x = baseIndex + i) := by
  induction l generalizing u with
  | nil => simp [MarkAllLoop]
  | cons a rest ih =>
    simp only [MarkAllLoop, MarkIndex, Bool.true_and, Bool.false_eq_true, if_false]
    obtain ⟨h1, h2⟩ := ih (if (!BitVecOps.IsMember d (baseIndex + a)) = true
      then BitVecOps.AddElemD u (baseIndex + a) else u)
    refine ⟨h1, ?_⟩
    intro x
    rw [h2 x]
    by_cases hm : baseIndex + a ∈ d
    · simp only [BitVecOps.IsMember, hm, decide_True, Bool.not_true, Bool.false_eq_true,
        if_false, List.mem_cons, exists_eq_or_imp]
      constructor
      · rintro (h | ⟨hx, i, hi, rfl⟩)
        · exact Or.inl h
        · exact Or.inr ⟨hx, Or.inr ⟨i, hi, rfl⟩⟩
      · rintro (h | ⟨hx, h | ⟨i, hi, rfl⟩⟩)
        · exact Or.inl h
        · subst h; exact absurd hm hx
        · exact Or.inr ⟨hx, i, hi, rfl⟩
    · simp only [BitVecOps.IsMember, hm, decide_False, Bool.not_false, if_true,
        BitVecOps.AddElemD, Finset.mem_insert, List.mem_cons, exists_eq_or_imp]
      constructor
      · rintro ((h | h) | ⟨hx, i, hi, rfl⟩)
        · subst h; exact Or.inr ⟨hm, Or.inl rfl⟩
        · exact Or.inl h
        · exact Or.inr ⟨hx, Or.inr ⟨i, hi, rfl⟩⟩
      · rintro (h | ⟨hx, h | ⟨i, hi, rfl⟩⟩)
        · exact Or.inl (Or.inr h)
        · exact Or.inl (Or.inl h)
        · exact Or.inr ⟨hx, i, hi, rfl⟩

theorem MarkAllLoop_def (baseIndex : Nat) (l : List Nat) (u d : VarSet) :
    (MarkAllLoop baseIndex false true l (u, d)).1 = u ∧
    ∀ x, x ∈ (MarkAllLoop baseIndex false true l (u, d)).2 ↔
      x ∈ d ∨ ∃ i ∈ l, x = baseIndex + i := by
  induction l generalizing d with
  | nil => simp [MarkAllLoop]
  | cons a rest ih =>
    simp only [MarkAllLoop, MarkIndex, Bool.false_and, Bool.false_eq_true, if_false, if_true]
    obtain ⟨h1, h2⟩ := ih (BitVecOps.AddElemD d (baseIndex + a))
    refine ⟨h1, ?_⟩
    intro x
    rw [h2 x]
    simp only [BitVecOps.AddElemD, Finset.mem_insert, List.mem_cons, exists_eq_or_imp]
    constructor
    · rintro ((h | h) | h)
      · exact Or.inr (Or.inl h)
      · exact Or.inl h
      · exact Or.inr (Or.inr h)
    · rintro (h | h | h)
      · exact Or.inl (Or.inr h)
      · exact Or.inl (Or.inl h)
      · exact Or.inr h

theorem mem_Icc_iff_range (b k x : Nat) :
    x ∈ Finset.Icc b (b + k) ↔ ∃ i ∈ List.range (k + 1), x = b + i := by
  rw [Finset.mem_Icc]
  constructor
  · intro h
    exact ⟨x - b, List.mem_range.mpr (by omega), by omega⟩
  · rintro ⟨i, hi, rfl⟩
    have := List.mem_range.mp hi
    omega

/-! ## The use/def classifier: main results -/

/-- Claim C9. Whole-variable classification: for a struct-typed `LCL_VAR` or
`STORE_LCL_VAR` node of a tracked aggregate with base index `b` and `k` replacements,
`MarkUseDef` on empty sets gives `useSet = {b, ..., b + k}` and `defSet = ∅` for a read,
and `defSet = {b, ..., b + k}` and `useSet = ∅` for a write. -/
theorem MarkUseDef_whole_variable (m_aggregates : List AggregateInfo)
    (lcl : GenTreeLclVarCommon) (agg : AggregateInfo)
    (hl : Lookup m_aggregates lcl.lclNum = some agg) (ht : lcl.gtType = .TYP_STRUCT)
    (hs : lcl.OperIsScalarLocal = true) :
    MarkUseDef m_aggregates lcl ∅ ∅ =
      if lcl.GTF_VAR_DEF = true then
        (∅, Finset.Icc (m_structLclToTrackedIndex m_aggregates lcl.lclNum)
          (m_structLclToTrackedIndex m_aggregates lcl.lclNum + agg.Replacements.length))
      else
        (Finset.Icc (m_structLclToTrackedIndex m_aggregates lcl.lclNum)
          (m_structLclToTrackedIndex m_aggregates lcl.lclNum + agg.Replacements.length), ∅) := by
  unfold MarkUseDef
  rw [hl]
  simp only [ht, true_or, if_true, hs]
  cases hd : lcl.GTF_VAR_DEF with
  | false =>
    simp only [Bool.not_false, Bool.false_eq_true, if_false]
    obtain ⟨h1, h2⟩ := MarkAllLoop_use (m_structLclToTrackedIndex m_aggregates lcl.lclNum)
      (List.range (agg.Replacements.length + 1)) ∅ ∅
    refine Prod.ext ?_ h1
    ext x
    rw [h2 x, mem_Icc_iff_range]
    simp
  | true =>
    simp only [Bool.not_true, if_true]
    obtain ⟨h1, h2⟩ := MarkAllLoop_def (m_structLclToTrackedIndex m_aggregates lcl.lclNum)
      (List.range (agg.Replacements.length + 1)) ∅ ∅
    refine Prod.ext h1 ?_
    ext x
    rw [h2 x, mem_Icc_iff_range]
    simp

/-- A whole read of the example aggregate (base index 0, two replacements) uses indices
0, 1, 2 and defines none. -/
theorem MarkUseDef_whole_variable_witness :
    Lookup [pairAggregate] readWhole.lclNum = some pairAggregate ∧
    (MarkUseDef [pairAggregate] readWhole ∅ ∅).1 = {0, 1, 2} ∧
    MarkUseDef [pairAggregate] readWhole ∅ ∅ =
      if readWhole.GTF_VAR_DEF = true then
        (∅, Finset.Icc (m_structLclToTrackedIndex [pairAggregate] readWhole.lclNum)
          (m_structLclToTrackedIndex [pairAggregate] readWhole.lclNum
            + pairAggregate.Replacements.length))
      else
        (Finset.Icc (m_structLclToTrackedIndex [pairAggregate] readWhole.lclNum)
          (m_structLclToTrackedIndex [pairAggregate] readWhole.lclNum
            + pairAggregate.Replacements.length), ∅) :=
  ⟨rfl, by decide, MarkUseDef_whole_variable [pairAggregate] readWhole pairAggregate rfl rfl rfl⟩

/-- Claim C10. Exact field classification: for a non-struct node (not `TYP_STRUCT`, not
`LCL_ADDR`) whose offset and size match replacement `i` of a tracked aggregate with base
index `b` and replacements sorted by offset, `MarkUseDef` marks only index `b + 1 + i`: it
is added to `useSet` when the node is a read and the index is not in `defSet`, to `defSet`
when the node is a write; membership of the remainder index and of every other index in
both sets is unchanged. -/
theorem MarkUseDef_exact_field (m_aggregates : List AggregateInfo) (lcl : GenTreeLclVarCommon)
    (agg : AggregateInfo) (i : Nat) (rep : Replacement) (useSet defSet : VarSet)
    (hl : Lookup m_aggregates lcl.lclNum = some agg) (ht : lcl.gtType ≠ .TYP_STRUCT)
    (ho : lcl.gtOper ≠ .GT_LCL_ADDR)
    (hsorted : agg.Replacements.Pairwise (fun r1 r2 => r1.Offset < r2.Offset))
    (hi : agg.Replacements.get? i = some rep) (hoffs : rep.Offset = lcl.lclOffs)
    (_hsize : genTypeSize rep.AccessType = genTypeSize lcl.gtType) :
    (MarkUseDef m_aggregates lcl useSet defSet).1 =
      (if lcl.GTF_VAR_DEF = false ∧
          m_structLclToTrackedIndex m_aggregates lcl.lclNum + 1 + i ∉ defSet
        then insert (m_structLclToTrackedIndex m_aggregates lcl.lclNum + 1 + i) useSet
        else useSet) ∧
    (MarkUseDef m_aggregates lcl useSet defSet).2 =
      (if lcl.GTF_VAR_DEF = true
        then insert (m_structLclToTrackedIndex m_aggregates lcl.lclNum + 1 + i) defSet
        else defSet) ∧
    ∀ y, y ≠ m_structLclToTrackedIndex m_aggregates lcl.lclNum + 1 + i →
      (y ∈ (MarkUseDef m_aggregates lcl useSet defSet).1 ↔ y ∈ useSet) ∧
      (y ∈ (MarkUseDef m_aggregates lcl useSet defSet).2 ↔ y ∈ defSet) := by
  have hfound := BinarySearch_found Replacement.Offset agg.Replacements lcl.lclOffs hsorted
    i rep hi hoffs
  have hnot : ¬ (lcl.gtType = .TYP_STRUCT ∨ lcl.gtOper = .GT_LCL_ADDR) := by
    rintro (h | h)
    · exact ht h
    · exact ho h
  have hM : MarkUseDef m_aggregates lcl useSet defSet =
      MarkIndex (m_structLclToTrackedIndex m_aggregates lcl.lclNum + 1 + i) (!lcl.GTF_VAR_DEF)
        lcl.GTF_VAR_DEF useSet defSet := by
    unfold MarkUseDef
    rw [hl]
    simp only [if_neg hnot, hfound]
    rw [if_neg (by omega), Int.toNat_ofNat]
  rw [hM]
  unfold MarkIndex
  cases hd : lcl.GTF_VAR_DEF with
  | false =>
    by_cases hm : m_structLclToTrackedIndex m_aggregates lcl.lclNum + 1 + i ∈ defSet
    · simp [BitVecOps.IsMember, hm]
    · simp only [BitVecOps.IsMember, BitVecOps.AddElemD, hm, Bool.not_false, decide_False,
        Bool.and_self, if_true, Bool.false_eq_true, if_false, not_false_eq_true, and_self,
        true_and, Finset.mem_insert, iff_true]
      intro y hy
      simp [hy]
  | true =>
    simp only [BitVecOps.AddElemD, Bool.not_true, Bool.false_and, Bool.false_eq_true,
      if_false, if_true, false_and, true_and, Finset.mem_insert, iff_true]
    refine ⟨by simp, ?_⟩
    intro y hy
    simp [hy]

/-- Scenario B: a write of bytes `[0, 4)` of the example aggregate puts only field 0
(index 1) in the def set; the remainder (index 0) and field 1 (index 2) are in neither
set. -/
theorem MarkUseDef_exact_field_witness :
    (MarkUseDef [pairAggregate] writeField0 ∅ ∅).1 = ∅ ∧
    (MarkUseDef [pairAggregate] writeField0 ∅ ∅).2 = {1} ∧
    (MarkUseDef [pairAggregate] writeField0 ∅ ∅).2 =
      (if writeField0.GTF_VAR_DEF = true
        then insert (m_structLclToTrackedIndex [pairAggregate] writeField0.lclNum + 1 + 0) ∅
        else ∅) :=
  ⟨by decide, by decide,
    (MarkUseDef_exact_field [pairAggregate] writeField0 pairAggregate 0
      { Offset := 0, AccessType := .TYP_INT, LclNum := 1 } ∅ ∅ rfl (by decide) (by decide)
      (by decide) rfl rfl rfl).2.1⟩

/-! ## The binary search and the start of the overlap scan -/

/-- Contract of the search on a vector sorted by strictly increasing `field`. -/
theorem BinarySearch_spec {T : Type} (field : T → Nat) (vec : List T) (offset : Nat)
    (hs : vec.Pairwise (fun a b => field a < field b)) :
    (0 ≤ BinarySearch field vec offset ∧
      ∃ e, vec.get? (BinarySearch field vec offset).toNat = some e ∧ field e = offset) ∨
    (BinarySearch field vec offset < 0 ∧
      (∀ j e, j < (-(BinarySearch field vec offset) - 1).toNat →
        vec.get? j = some e → field e < offset) ∧
      (∀ j e, (-(BinarySearch field vec offset) - 1).toNat ≤ j →
        vec.get? j = some e → offset < field e) ∧
      (-(BinarySearch field vec offset) - 1).toNat ≤ vec.length) := by
  unfold BinarySearch
  exact BinarySearchLoop_spec field vec offset hs (vec.length + 1) 0 vec.length
    (Nat.le_refl _) (Nat.zero_le _) (by omega) (fun j a hj _ => by omega)
    (fun j a hj ha => by
      obtain ⟨hlt, _⟩ := List.get?_eq_some.mp ha
      omega)

/-- When no entry has the searched field the search result is negative. -/
theorem BinarySearch_not_found {T : Type} (field : T → Nat) (vec : List T) (offset : Nat)
    (hs : vec.Pairwise (fun a b => field a < field b))
    (hno : ∀ e ∈ vec, field e ≠ offset) : BinarySearch field vec offset < 0 := by
  rcases BinarySearch_spec field vec offset hs with ⟨_, e, he, hfe⟩ | ⟨h, _⟩
  · exact absurd hfe (hno e (List.get?_mem he))
  · exact h

theorem Overlaps_iff (rep : Replacement) (offs size : Nat) :
    rep.Overlaps offs size = true ↔
      offs < rep.Offset + genTypeSize rep.AccessType ∧ rep.Offset < offs + size := by
  unfold Replacement.Overlaps
  simp only
  split
  · simp; omega
  · split
    · simp; omega
    · simp; omega

/-- On sorted, pairwise disjoint replacements the scan starts at or before every
replacement that overlaps the range. -/
theorem OverlapStartIndex_le (reps : List Replacement) (offs size i : Nat) (rep : Replacement)
    (hsorted : reps.Pairwise (fun r1 r2 => r1.Offset < r2.Offset))
    (hdisj : reps.Pairwise (fun r1 r2 => r1.Offset + genTypeSize r1.AccessType ≤ r2.Offset))
    (hi : reps.get? i = some rep) (hov : rep.Overlaps offs size = true) :
    OverlapStartIndex reps offs size ≤ i := by
  rw [Overlaps_iff] at hov
  by_contra hlt
  have hlt : i < OverlapStartIndex reps offs size := by omega
  unfold OverlapStartIndex at hlt
  simp only at hlt
  rcases BinarySearch_spec Replacement.Offset reps offs hsorted with
    ⟨h0, e, he, hfe⟩ | ⟨hneg, hlo, _, hk⟩
  · rw [if_neg (by omega)] at hlt
    have := pairwise_get? reps hdisj i _ rep e hlt hi he
    omega
  · rw [if_pos hneg] at hlt
    split at hlt
    · rename_i hc
      obtain ⟨hpos, hm⟩ := hc
      cases hr : reps.get? ((-(BinarySearch Replacement.Offset reps offs) - 1).toNat - 1) with
      | none => rw [hr] at hm; simp at hm
      | some r' =>
        have h1 := pairwise_get? reps hdisj i _ rep r' hlt hi hr
        have h2 := hlo _ r' (by omega) hr
        omega
    · rename_i hc
      have hpos : 0 < (-(BinarySearch Replacement.Offset reps offs) - 1).toNat := by omega
      by_cases hik : i = (-(BinarySearch Replacement.Offset reps offs) - 1).toNat - 1
      · apply hc
        refine ⟨hpos, ?_⟩
        rw [← hik, hi]
        simp only [Option.map_some', Option.some.injEq]
        rw [Overlaps_iff]
        exact hov
      · have hex : (-(BinarySearch Replacement.Offset reps offs) - 1).toNat - 1 < reps.length := by
          omega
        have hr := List.get?_eq_get hex
        have h1 := pairwise_get? reps hdisj i _ rep _ (by omega) hi hr
        have h2 := hlo _ _ (by omega) hr
        omega

/-- Every replacement the scan can reach (at or after its start, starting before the end
of the range) overlaps the range, when replacements have positive width. -/
theorem overlaps_of_scanned (reps : List Replacement) (offs size i : Nat) (rep : Replacement)
    (hsorted : reps.Pairwise (fun r1 r2 => r1.Offset < r2.Offset))
    (hpos : ∀ r ∈ reps, 0 < genTypeSize r.AccessType)
    (hi : reps.get? i = some rep) (hstart : OverlapStartIndex reps offs size ≤ i)
    (hend : rep.Offset < offs + size) : rep.Overlaps offs size = true := by
  rw [Overlaps_iff]
  refine ⟨?_, hend⟩
  have hsz := hpos rep (List.get?_mem hi)
  unfold OverlapStartIndex at hstart
  simp only at hstart
  rcases BinarySearch_spec Replacement.Offset reps offs hsorted with
    ⟨h0, e, he, hfe⟩ | ⟨hneg, _, hhi, _⟩
  · rw [if_neg (by omega)] at hstart
    by_cases hie : i = (BinarySearch Replacement.Offset reps offs).toNat
    · rw [← hie, hi] at he
      cases he
      omega
    · have := pairwise_get? reps hsorted _ i e rep (by omega) he hi
      omega
  · rw [if_pos hneg] at hstart
    split at hstart
    · rename_i hc
      obtain ⟨hp, hm⟩ := hc
      by_cases hik : i = (-(BinarySearch Replacement.Offset reps offs) - 1).toNat - 1
      · rw [← hik, hi] at hm
        simp only [Option.map_some', Option.some.injEq] at hm
        exact ((Overlaps_iff rep offs size).mp hm).1
      · have := hhi i rep (by omega) hi
        omega
    · have := hhi i rep hstart hi
      omega

/-! ## The use/def classifier: marking steps -/

theorem MarkIndex_mem_use (index : Nat) (isUse isDef : Bool) (u d : VarSet) (x : Nat) :
    x ∈ (MarkIndex index isUse isDef u d).1 ↔
      x ∈ u ∨ (isUse = true ∧ index ∉ d ∧ x = index) := by
  unfold MarkIndex
  by_cases h : isUse = true ∧ index ∉ d
  · obtain ⟨h1, h2⟩ := h
    simp [BitVecOps.IsMember, BitVecOps.AddElemD, h1, h2]
    tauto
  · have : (isUse && !BitVecOps.IsMember d index) = false := by
      cases isUse
      · rfl
      · simp only [BitVecOps.IsMember, Bool.true_and, Bool.not_eq_false', decide_eq_true_eq]
        by_contra hc
        exact h ⟨rfl, hc⟩
    simp only [this, Bool.false_eq_true, if_false]
    constructor
    · exact Or.inl
    · rintro (hx | ⟨h1, h2, _⟩)
      · exact hx
      · exact absurd ⟨h1, h2⟩ h

theorem MarkIndex_mem_def (index : Nat) (isUse isDef : Bool) (u d : VarSet) (x : Nat) :
    x ∈ (MarkIndex index isUse isDef u d).2 ↔ x ∈ d ∨ (isDef = true ∧ x = index) := by
  unfold MarkIndex
  cases isDef
  · simp
  · simp [BitVecOps.AddElemD]
    tauto

theorem ApplySummary_mem_use (summary sets : VarSet × VarSet) (x : Nat) :
    x ∈ (ApplySummary summary sets).1 ↔ x ∈ sets.1 ∨ (x ∈ summary.1 ∧ x ∉ sets.2) := by
  simp [ApplySummary]

theorem ApplySummary_mem_def (summary sets : VarSet × VarSet) (x : Nat) :
    x ∈ (ApplySummary summary sets).2 ↔ x ∈ sets.2 ∨ x ∈ summary.2 := by
  simp [ApplySummary]

theorem ApplySummary_assoc (g f t : VarSet × VarSet) :
    ApplySummary g (ApplySummary f t) = ApplySummary (ApplySummary g f) t := by
  apply Prod.ext
  · ext x
    simp only [ApplySummary_mem_use, ApplySummary_mem_def]
    tauto
  · ext x
    simp only [ApplySummary_mem_def]
    tauto

theorem ApplySummary_empty (t : VarSet × VarSet) : ApplySummary (∅, ∅) t = t := by
  apply Prod.ext
  · ext x; simp [ApplySummary]
  · ext x; simp [ApplySummary]

theorem IsSummary_id : IsSummary (fun t => t) := by
  intro t
  exact (ApplySummary_empty t).symm

theorem IsSummary_comp (f g : VarSet × VarSet → VarSet × VarSet) (hf : IsSummary f)
    (hg : IsSummary g) : IsSummary (fun t => g (f t)) := by
  intro t
  show g (f t) = ApplySummary (g (f (∅, ∅))) t
  rw [hg (f t), hf t, ApplySummary_assoc, ← hg (f (∅, ∅))]

theorem IsSummary_MarkIndex (index : Nat) (isUse isDef : Bool) :
    IsSummary (fun t => MarkIndex index isUse isDef t.1 t.2) := by
  intro t
  apply Prod.ext
  · ext x
    simp only [MarkIndex_mem_use, ApplySummary_mem_use, Finset.not_mem_empty, false_or,
      not_false_eq_true, true_and]
    constructor
    · rintro (h | ⟨h1, h2, h3⟩)
      · exact Or.inl h
      · exact Or.inr ⟨⟨h1, h3⟩, h3 ▸ h2⟩
    · rintro (h | ⟨⟨h1, h3⟩, h2⟩)
      · exact Or.inl h
      · exact Or.inr ⟨h1, h3 ▸ h2, h3⟩
  · ext x
    simp only [MarkIndex_mem_def, ApplySummary_mem_def, Finset.not_mem_empty, false_or]

theorem IsSummary_MarkAllLoop (baseIndex : Nat) (isUse isDef : Bool) (l : List Nat) :
    IsSummary (MarkAllLoop baseIndex isUse isDef l) := by
  induction l with
  | nil => exact IsSummary_id
  | cons i rest ih =>
    have e : MarkAllLoop baseIndex isUse isDef (i :: rest)
        = fun t => MarkAllLoop baseIndex isUse isDef rest
            (MarkIndex (baseIndex + i) isUse isDef t.1 t.2) := by
      funext t
      rfl
    rw [e]
    exact IsSummary_comp _ _ (IsSummary_MarkIndex (baseIndex + i) isUse isDef) ih

theorem IsSummary_MarkOverlapLoop (baseIndex offs size : Nat) (isUse isDef : Bool)
    (l : List Replacement) (index : Nat) :
    IsSummary (MarkOverlapLoop baseIndex offs size isUse isDef l index) := by
  induction l generalizing index with
  | nil => exact IsSummary_id
  | cons rep rest ih =>
    by_cases h : rep.Offset < offs + size
    · have e : MarkOverlapLoop baseIndex offs size isUse isDef (rep :: rest) index
          = fun t => MarkOverlapLoop baseIndex offs size isUse isDef rest (index + 1)
              (MarkIndex (baseIndex + 1 + index) isUse
                (isDef && decide (offs ≤ rep.Offset) &&
                  decide (offs + size ≥ rep.Offset + genTypeSize rep.AccessType)) t.1 t.2) := by
        funext t
        simp only [MarkOverlapLoop, if_pos h]
      rw [e]
      exact IsSummary_comp _ _ (IsSummary_MarkIndex _ _ _) (ih (index + 1))
    · have e : MarkOverlapLoop baseIndex offs size isUse isDef (rep :: rest) index
          = fun t => t := by
        funext t
        simp only [MarkOverlapLoop, if_neg h]
      rw [e]
      exact IsSummary_id

/-- The effect of `MarkUseDef` on running sets is that of its summary from empty sets. -/
theorem IsSummary_MarkUseDef (m_aggregates : List AggregateInfo) (lcl : GenTreeLclVarCommon) :
    IsSummary (fun t => MarkUseDef m_aggregates lcl t.1 t.2) := by
  unfold MarkUseDef
  cases Lookup m_aggregates lcl.lclNum with
  | none => exact IsSummary_id
  | some agg =>
    simp only
    split
    · split
      · exact IsSummary_MarkAllLoop _ _ _ _
      · exact IsSummary_comp _ _ (IsSummary_MarkOverlapLoop _ _ _ _ _ _ _)
          (IsSummary_MarkIndex _ _ _)
    · split
      · exact IsSummary_MarkIndex _ _ _
      · exact IsSummary_MarkIndex _ _ _

theorem MarkUseDef_mem_use (m_aggregates : List AggregateInfo) (lcl : GenTreeLclVarCommon)
    (u d : VarSet) (x : Nat) :
    x ∈ (MarkUseDef m_aggregates lcl u d).1 ↔
      x ∈ u ∨ (x ∈ (MarkUseDef m_aggregates lcl ∅ ∅).1 ∧ x ∉ d) := by
  have := IsSummary_MarkUseDef m_aggregates lcl (u, d)
  simp only at this
  rw [this, ApplySummary_mem_use]

theorem MarkUseDef_mem_def (m_aggregates : List AggregateInfo) (lcl : GenTreeLclVarCommon)
    (u d : VarSet) (x : Nat) :
    x ∈ (MarkUseDef m_aggregates lcl u d).2 ↔
      x ∈ d ∨ x ∈ (MarkUseDef m_aggregates lcl ∅ ∅).2 := by
  have := IsSummary_MarkUseDef m_aggregates lcl (u, d)
  simp only at this
  rw [this, ApplySummary_mem_def]

theorem MarkOverlapLoop_frame (baseIndex offs size : Nat) (isUse isDef : Bool)
    (l : List Replacement) (index : Nat) (u d : VarSet) (x : Nat)
    (hx : x < baseIndex + 1 + index) :
    (x ∈ (MarkOverlapLoop baseIndex offs size isUse isDef l index (u, d)).1 ↔ x ∈ u) ∧
    (x ∈ (MarkOverlapLoop baseIndex offs size isUse isDef l index (u, d)).2 ↔ x ∈ d) := by
  induction l generalizing index u d with
  | nil => exact ⟨Iff.rfl, Iff.rfl⟩
  | cons rep rest ih =>
    unfold MarkOverlapLoop
    split
    · obtain ⟨h1, h2⟩ := ih (index + 1) _ _ (by omega)
      simp only at h1 h2 ⊢
      rw [h1, h2, MarkIndex_mem_use, MarkIndex_mem_def]
      constructor
      · constructor
        · rintro (h | ⟨_, _, h⟩)
          · exact h
          · omega
        · exact Or.inl
      · constructor
        · rintro (h | ⟨_, h⟩)
          · exact h
          · omega
        · exact Or.inl
    · exact ⟨Iff.rfl, Iff.rfl⟩

theorem MarkOverlapLoop_noUse (baseIndex offs size : Nat) (isDef : Bool)
    (l : List Replacement) (index : Nat) (u d : VarSet) :
    (MarkOverlapLoop baseIndex offs size false isDef l index (u, d)).1 = u := by
  induction l generalizing index u d with
  | nil => rfl
  | cons rep rest ih =>
    unfold MarkOverlapLoop
    split
    · simp only
      rw [ih]
      simp [MarkIndex]
    · rfl

theorem MarkOverlapLoop_noDef (baseIndex offs size : Nat) (isUse : Bool)
    (l : List Replacement) (index : Nat) (u d : VarSet) :
    (MarkOverlapLoop baseIndex offs size isUse false l index (u, d)).2 = d := by
  induction l generalizing index u d with
  | nil => rfl
  | cons rep rest ih =>
    unfold MarkOverlapLoop
    split
    · simp only
      rw [ih]
      simp [MarkIndex]
    · rfl

/-- Which indices the field loop of `MarkUseDef` adds to the def set, on a list sorted by
offset: those of the replacements of the list that start before the end of the range and
are fully covered by a write. -/
theorem MarkOverlapLoop_mem_def (baseIndex offs size : Nat) (isUse isDef : Bool)
    (l : List Replacement) (hs : l.Pairwise (fun r1 r2 => r1.Offset < r2.Offset))
    (index : Nat) (u d : VarSet) (x : Nat) :
    x ∈ (MarkOverlapLoop baseIndex offs size isUse isDef l index (u, d)).2 ↔
      x ∈ d ∨ (isDef = true ∧ ∃ j rep, l.get? j = some rep ∧ rep.Offset < offs + size ∧
        offs ≤ rep.Offset ∧ offs + size ≥ rep.Offset + genTypeSize rep.AccessType ∧
        x = baseIndex + 1 + (index + j)) := by
  induction l generalizing index u d with
  | nil => simp [MarkOverlapLoop]
  | cons rep rest ih =>
    rw [List.pairwise_cons] at hs
    unfold MarkOverlapLoop
    split
    · rename_i hlt
      simp only
      rw [ih hs.2, MarkIndex_mem_def]
      constructor
      · rintro ((h | ⟨hf, hx⟩) | ⟨hd, j, r, hj, h1, h2, h3, hx⟩)
        · exact Or.inl h
        · simp only [Bool.and_eq_true, decide_eq_true_eq] at hf
          exact Or.inr ⟨hf.1.1, 0, rep, rfl, hlt, hf.1.2, hf.2, by omega⟩
        · exact Or.inr ⟨hd, j + 1, r, hj, h1, h2, h3, by omega⟩
      · rintro (h | ⟨hd, j, r, hj, h1, h2, h3, hx⟩)
        · exact Or.inl (Or.inl h)
        · cases j with
          | zero =>
            simp only [List.get?_cons_zero, Option.some.injEq] at hj
            subst hj
            left; right
            refine ⟨?_, by omega⟩
            simp only [Bool.and_eq_true, decide_eq_true_eq]
            exact ⟨⟨hd, h2⟩, h3⟩
          | succ j =>
            simp only [List.get?_cons_succ] at hj
            exact Or.inr ⟨hd, j, r, hj, h1, h2, h3, by omega⟩
    · rename_i hge
      constructor
      · exact Or.inl
      · rintro (h | ⟨_, j, r, hj, h1, _, _, _⟩)
        · exact h
        · exfalso
          cases j with
          | zero =>
            simp only [List.get?_cons_zero, Option.some.injEq] at hj
            subst hj
            exact hge h1
          | succ j =>
            simp only [List.get?_cons_succ] at hj
            have := hs.1 r (List.get?_mem hj)
            omega

theorem get?_drop_add {T : Type} (l : List T) (n j : Nat) :
    (l.drop n).get? j = l.get? (n + j) := by
  simp [List.get?_eq_getElem?, List.getElem?_drop]

/-- The partial-range branch of `MarkUseDef`: the field loop from the start of the overlap
scan, then the remainder step. -/
theorem MarkUseDef_partial_eq (m_aggregates : List AggregateInfo) (lcl : GenTreeLclVarCommon)
    (agg : AggregateInfo) (u d : VarSet)
    (hl : Lookup m_aggregates lcl.lclNum = some agg)
    (hp : lcl.gtType = .TYP_STRUCT ∨ lcl.gtOper = .GT_LCL_ADDR)
    (hns : lcl.OperIsScalarLocal = false) :
    MarkUseDef m_aggregates lcl u d =
      MarkIndex (m_structLclToTrackedIndex m_aggregates lcl.lclNum)
        (!lcl.GTF_VAR_DEF && SegmentListIntersects agg.Unpromoted
          { Start := lcl.lclOffs, End := lcl.lclOffs + GetSizeOfStructLocal lcl })
        (lcl.GTF_VAR_DEF && decide (agg.UnpromotedMin ≥ lcl.lclOffs) &&
          decide (agg.UnpromotedMax ≤ lcl.lclOffs + GetSizeOfStructLocal lcl))
        (MarkOverlapLoop (m_structLclToTrackedIndex m_aggregates lcl.lclNum) lcl.lclOffs
          (GetSizeOfStructLocal lcl) (!lcl.GTF_VAR_DEF) lcl.GTF_VAR_DEF
          (agg.Replacements.drop
            (OverlapStartIndex agg.Replacements lcl.lclOffs (GetSizeOfStructLocal lcl)))
          (OverlapStartIndex agg.Replacements lcl.lclOffs (GetSizeOfStructLocal lcl)) (u, d)).1
        (MarkOverlapLoop (m_structLclToTrackedIndex m_aggregates lcl.lclNum) lcl.lclOffs
          (GetSizeOfStructLocal lcl) (!lcl.GTF_VAR_DEF) lcl.GTF_VAR_DEF
          (agg.Replacements.drop
            (OverlapStartIndex agg.Replacements lcl.lclOffs (GetSizeOfStructLocal lcl)))
          (OverlapStartIndex agg.Replacements lcl.lclOffs (GetSizeOfStructLocal lcl)) (u, d)).2 := by
  unfold MarkUseDef
  rw [hl]
  simp only [if_pos hp, hns, Bool.false_eq_true, if_false]

/-- Claim C11. Partial write is neither use nor def: for a partial-range write (struct-typed
`LCL_FLD` or `LCL_ADDR`) of `[offs, offs + size)` to a tracked aggregate whose replacements
are sorted and pairwise disjoint, the index of a replacement `r` that the range overlaps is
added to `defSet` iff `offs ≤ r.Offset` and `offs + size ≥ r.Offset + sizeof(r.AccessType)`,
and is never added to `useSet`; so a replacement overlapped only partially is added to
neither set. -/
theorem MarkUseDef_partial_write (m_aggregates : List AggregateInfo)
    (lcl : GenTreeLclVarCommon) (agg : AggregateInfo) (i : Nat) (rep : Replacement)
    (useSet defSet : VarSet)
    (hl : Lookup m_aggregates lcl.lclNum = some agg)
    (hp : lcl.gtType = .TYP_STRUCT ∨ lcl.gtOper = .GT_LCL_ADDR)
    (hns : lcl.OperIsScalarLocal = false) (hdef : lcl.GTF_VAR_DEF = true)
    (hsorted : agg.Replacements.Pairwise (fun r1 r2 => r1.Offset < r2.Offset))
    (hdisj : agg.Replacements.Pairwise
      (fun r1 r2 => r1.Offset + genTypeSize r1.AccessType ≤ r2.Offset))
    (hi : agg.Replacements.get? i = some rep)
    (hov : rep.Overlaps lcl.lclOffs (GetSizeOfStructLocal lcl) = true) :
    (m_structLclToTrackedIndex m_aggregates lcl.lclNum + 1 + i
        ∈ (MarkUseDef m_aggregates lcl useSet defSet).2 ↔
      m_structLclToTrackedIndex m_aggregates lcl.lclNum + 1 + i ∈ defSet ∨
      (lcl.lclOffs ≤ rep.Offset ∧
        lcl.lclOffs + GetSizeOfStructLocal lcl ≥ rep.Offset + genTypeSize rep.AccessType)) ∧
    (m_structLclToTrackedIndex m_aggregates lcl.lclNum + 1 + i
        ∈ (MarkUseDef m_aggregates lcl useSet defSet).1 ↔
      m_structLclToTrackedIndex m_aggregates lcl.lclNum + 1 + i ∈ useSet) := by
  rw [MarkUseDef_partial_eq m_aggregates lcl agg useSet defSet hl hp hns]
  have hstart := OverlapStartIndex_le agg.Replacements lcl.lclOffs (GetSizeOfStructLocal lcl)
    i rep hsorted hdisj hi hov
  have hend := ((Overlaps_iff rep _ _).mp hov).2
  have hs' : (agg.Replacements.drop
      (OverlapStartIndex agg.Replacements lcl.lclOffs (GetSizeOfStructLocal lcl))).Pairwise
      (fun r1 r2 => r1.Offset < r2.Offset) :=
    List.Pairwise.sublist (List.drop_sublist _ _) hsorted
  constructor
  · rw [MarkIndex_mem_def, MarkOverlapLoop_mem_def _ _ _ _ _ _ hs']
    constructor
    · rintro ((h | ⟨_, j, r, hj, _, h2, h3, hx⟩) | ⟨_, hx⟩)
      · exact Or.inl h
      · rw [get?_drop_add] at hj
        have e : OverlapStartIndex agg.Replacements lcl.lclOffs (GetSizeOfStructLocal lcl) + j
            = i := by omega
        rw [e, hi] at hj
        cases hj
        exact Or.inr ⟨h2, h3⟩
      · omega
    · rintro (h | ⟨h2, h3⟩)
      · exact Or.inl (Or.inl h)
      · left; right
        refine ⟨hdef, i - OverlapStartIndex agg.Replacements lcl.lclOffs
          (GetSizeOfStructLocal lcl), rep, ?_, hend, h2, h3, by omega⟩
        rw [get?_drop_add]
        have e : OverlapStartIndex agg.Replacements lcl.lclOffs (GetSizeOfStructLocal lcl)
            + (i - OverlapStartIndex agg.Replacements lcl.lclOffs (GetSizeOfStructLocal lcl))
            = i := by omega
        rw [e, hi]
  · rw [MarkIndex_mem_use, hdef]
    simp only [Bool.not_true, Bool.false_and, Bool.false_eq_true, false_and, or_false]
    rw [MarkOverlapLoop_noUse]

/-- A write of bytes `[0, 10)` of the example aggregate covers field 0 and half of field 1:
field 0 (index 1) is defined, field 1 (index 2) is in neither set. -/
theorem MarkUseDef_partial_write_witness :
    (MarkUseDef [pairAggregate] writeRange010 ∅ ∅).1 = ∅ ∧
    (MarkUseDef [pairAggregate] writeRange010 ∅ ∅).2 = {0, 1} ∧
    (0 + 1 + 1 ∈ (MarkUseDef [pairAggregate] writeRange010 ∅ ∅).2 ↔
      0 + 1 + 1 ∈ (∅ : VarSet) ∨ (0 ≤ 8 ∧ 0 + 10 ≥ 8 + 4)) :=
  ⟨by decide, by decide,
    (MarkUseDef_partial_write [pairAggregate] writeRange010 pairAggregate 1
      { Offset := 8, AccessType := .TYP_INT, LclNum := 2 } ∅ ∅ rfl (by decide) (by decide)
      rfl (by decide) (by decide) rfl (by decide)).1⟩

/-- Claim C12. Remainder classification for a partial-range access: for a struct-typed
`LCL_FLD` or `LCL_ADDR` access of `[offs, offs + size)` to an aggregate with base index
`b`, `MarkUseDef` adds `b` to `useSet` iff the node is a read, the range intersects the
`Unpromoted` segments and `b` is not already in `defSet`; it adds `b` to `defSet` iff the
node is a write with `UnpromotedMin ≥ offs` and `UnpromotedMax ≤ offs + size`; otherwise
membership of `b` is unchanged. -/
theorem MarkUseDef_partial_remainder (m_aggregates : List AggregateInfo)
    (lcl : GenTreeLclVarCommon) (agg : AggregateInfo) (useSet defSet : VarSet)
    (hl : Lookup m_aggregates lcl.lclNum = some agg)
    (hp : lcl.gtType = .TYP_STRUCT ∨ lcl.gtOper = .GT_LCL_ADDR)
    (hns : lcl.OperIsScalarLocal = false) :
    (m_structLclToTrackedIndex m_aggregates lcl.lclNum
        ∈ (MarkUseDef m_aggregates lcl useSet defSet).1 ↔
      m_structLclToTrackedIndex m_aggregates lcl.lclNum ∈ useSet ∨
      (lcl.GTF_VAR_DEF = false ∧
        SegmentListIntersects agg.Unpromoted
          { Start := lcl.lclOffs, End := lcl.lclOffs + GetSizeOfStructLocal lcl } = true ∧
        m_structLclToTrackedIndex m_aggregates lcl.lclNum ∉ defSet)) ∧
    (m_structLclToTrackedIndex m_aggregates lcl.lclNum
        ∈ (MarkUseDef m_aggregates lcl useSet defSet).2 ↔
      m_structLclToTrackedIndex m_aggregates lcl.lclNum ∈ defSet ∨
      (lcl.GTF_VAR_DEF = true ∧ agg.UnpromotedMin ≥ lcl.lclOffs ∧
        agg.UnpromotedMax ≤ lcl.lclOffs + GetSizeOfStructLocal lcl)) := by
  rw [MarkUseDef_partial_eq m_aggregates lcl agg useSet defSet hl hp hns]
  obtain ⟨hfu, hfd⟩ := MarkOverlapLoop_frame (m_structLclToTrackedIndex m_aggregates lcl.lclNum)
    lcl.lclOffs (GetSizeOfStructLocal lcl) (!lcl.GTF_VAR_DEF) lcl.GTF_VAR_DEF
    (agg.Replacements.drop
      (OverlapStartIndex agg.Replacements lcl.lclOffs (GetSizeOfStructLocal lcl)))
    (OverlapStartIndex agg.Replacements lcl.lclOffs (GetSizeOfStructLocal lcl)) useSet defSet
    (m_structLclToTrackedIndex m_aggregates lcl.lclNum) (by omega)
  constructor
  · rw [MarkIndex_mem_use, hfu, hfd]
    simp only [Bool.and_eq_true, Bool.not_eq_true', and_true, and_assoc]
  · rw [MarkIndex_mem_def, hfd]
    simp only [Bool.and_eq_true, decide_eq_true_eq, and_true, and_assoc]

/-- A read of bytes `[2, 10)` of the example aggregate meets the unpromoted bytes `[4, 8)`:
the remainder index 0 is used. A write of `[0, 10)` contains them: index 0 is defined. -/
theorem MarkUseDef_partial_remainder_witness :
    (0 ∈ (MarkUseDef [pairAggregate] readRange210 ∅ ∅).1 ↔
      0 ∈ (∅ : VarSet) ∨ (readRange210.GTF_VAR_DEF = false ∧
        SegmentListIntersects pairAggregate.Unpromoted { Start := 2, End := 2 + 8 } = true ∧
        0 ∉ (∅ : VarSet))) ∧
    0 ∈ (MarkUseDef [pairAggregate] readRange210 ∅ ∅).1 ∧
    0 ∈ (MarkUseDef [pairAggregate] writeRange010 ∅ ∅).2 ∧
    0 ∉ (MarkUseDef [pairAggregate] readRange04 ∅ ∅).1 :=
  ⟨(MarkUseDef_partial_remainder [pairAggregate] readRange210 pairAggregate ∅ ∅ rfl
      (by decide) (by decide)).1, by decide, by decide, by decide⟩

/-- Claim C13 fails as stated: the one-byte read at offset 2 of the example aggregate
starts at no replacement and its range `[2, 3)` does not meet the unpromoted bytes
`[4, 8)`, yet `MarkUseDef` marks the remainder index 0 as used. -/
theorem MarkUseDef_raw_remainder_counterexample :
    Lookup [pairAggregate] readByte2.lclNum = some pairAggregate ∧
    (∀ r ∈ pairAggregate.Replacements, r.Offset ≠ readByte2.lclOffs) ∧
    SegmentListIntersects pairAggregate.Unpromoted
      { Start := readByte2.lclOffs, End := readByte2.lclOffs + genTypeSize readByte2.gtType }
      = false ∧
    0 ∈ (MarkUseDef [pairAggregate] readByte2 ∅ ∅).1 :=
  ⟨rfl, by decide, by decide, by decide⟩

/-- Claim C13, amended. Raw remainder access: for a non-struct node (not `TYP_STRUCT`, not
`LCL_ADDR`) at an offset at which no replacement of the (sorted) aggregate starts,
`MarkUseDef` touches only the remainder index `b`: a write adds `b` to `defSet` iff
`UnpromotedMin ≥ offs` and `UnpromotedMax ≤ offs + sizeof(accessType)`, and a read adds `b`
to `useSet` iff `b` is not already in `defSet`, without any test of the accessed range
against the unpromoted region. -/
theorem MarkUseDef_raw_remainder (m_aggregates : List AggregateInfo)
    (lcl : GenTreeLclVarCommon) (agg : AggregateInfo) (useSet defSet : VarSet)
    (hl : Lookup m_aggregates lcl.lclNum = some agg) (ht : lcl.gtType ≠ .TYP_STRUCT)
    (ho : lcl.gtOper ≠ .GT_LCL_ADDR)
    (hsorted : agg.Replacements.Pairwise (fun r1 r2 => r1.Offset < r2.Offset))
    (hno : ∀ r ∈ agg.Replacements, r.Offset ≠ lcl.lclOffs) (x : Nat) :
    (x ∈ (MarkUseDef m_aggregates lcl useSet defSet).1 ↔
      x ∈ useSet ∨ (lcl.GTF_VAR_DEF = false ∧
        m_structLclToTrackedIndex m_aggregates lcl.lclNum ∉ defSet ∧
        x = m_structLclToTrackedIndex m_aggregates lcl.lclNum)) ∧
    (x ∈ (MarkUseDef m_aggregates lcl useSet defSet).2 ↔
      x ∈ defSet ∨ (lcl.GTF_VAR_DEF = true ∧ agg.UnpromotedMin ≥ lcl.lclOffs ∧
        agg.UnpromotedMax ≤ lcl.lclOffs + genTypeSize lcl.gtType ∧
        x = m_structLclToTrackedIndex m_aggregates lcl.lclNum)) := by
  have hneg := BinarySearch_not_found Replacement.Offset agg.Replacements lcl.lclOffs hsorted
    hno
  have hnot : ¬ (lcl.gtType = .TYP_STRUCT ∨ lcl.gtOper = .GT_LCL_ADDR) := by
    rintro (h | h)
    · exact ht h
    · exact ho h
  have hM : MarkUseDef m_aggregates lcl useSet defSet =
      MarkIndex (m_structLclToTrackedIndex m_aggregates lcl.lclNum) (!lcl.GTF_VAR_DEF)
        (lcl.GTF_VAR_DEF && decide (agg.UnpromotedMin ≥ lcl.lclOffs) &&
          decide (agg.UnpromotedMax ≤ lcl.lclOffs + genTypeSize lcl.gtType)) useSet defSet := by
    unfold MarkUseDef
    rw [hl]
    simp only [if_neg hnot, if_pos hneg]
  rw [hM, MarkIndex_mem_use, MarkIndex_mem_def]
  simp only [Bool.not_eq_true', Bool.and_eq_true, decide_eq_true_eq, and_assoc, and_self]

/-- The one-byte read at offset 2 of the example aggregate marks the remainder index 0 as
used and nothing else. -/
theorem MarkUseDef_raw_remainder_witness :
    (MarkUseDef [pairAggregate] readByte2 ∅ ∅).1 = {0} ∧
    (MarkUseDef [pairAggregate] readByte2 ∅ ∅).2 = ∅ ∧
    (0 ∈ (MarkUseDef [pairAggregate] readByte2 ∅ ∅).1 ↔
      0 ∈ (∅ : VarSet) ∨ (readByte2.GTF_VAR_DEF = false ∧
        m_structLclToTrackedIndex [pairAggregate] readByte2.lclNum ∉ (∅ : VarSet) ∧
        0 = m_structLclToTrackedIndex [pairAggregate] readByte2.lclNum)) :=
  ⟨by decide, by decide,
    (MarkUseDef_raw_remainder [pairAggregate] readByte2 pairAggregate ∅ ∅ rfl (by decide)
      (by decide) (by decide) (by decide) 0).1⟩

/-! ## The per-block summary builder: lemmas -/

theorem MarkUseDef_read_def (m_aggregates : List AggregateInfo) (lcl : GenTreeLclVarCommon)
    (u d : VarSet) (h : lcl.GTF_VAR_DEF = false) : (MarkUseDef m_aggregates lcl u d).2 = d := by
  unfold MarkUseDef
  cases Lookup m_aggregates lcl.lclNum with
  | none => rfl
  | some agg =>
    simp only [h, Bool.not_false, Bool.false_and]
    split
    · split
      · exact (MarkAllLoop_use _ _ _ _).1
      · simp only [MarkIndex, Bool.false_eq_true, if_false]
        exact MarkOverlapLoop_noDef _ _ _ _ _ _ _ _
    · split <;> simp [MarkIndex]

theorem MarkUseDef_write_use (m_aggregates : List AggregateInfo) (lcl : GenTreeLclVarCommon)
    (u d : VarSet) (h : lcl.GTF_VAR_DEF = true) : (MarkUseDef m_aggregates lcl u d).1 = u := by
  unfold MarkUseDef
  cases Lookup m_aggregates lcl.lclNum with
  | none => rfl
  | some agg =>
    simp only [h, Bool.not_true, Bool.false_and]
    split
    · split
      · exact (MarkAllLoop_def _ _ _ _).1
      · simp only [MarkIndex, Bool.false_eq_true, if_false]
        exact MarkOverlapLoop_noUse _ _ _ _ _ _ _ _
    · split <;> simp [MarkIndex]

theorem foldl_skip_eq_filter (m_aggregates : List AggregateInfo)
    (l : List GenTreeLclVarCommon) (sets : VarSet × VarSet) :
    l.foldl (fun acc lcl =>
        if lcl.GTF_VAR_DEF = false then MarkUseDef m_aggregates lcl acc.1 acc.2 else acc) sets
      = (l.filter (fun lcl => !lcl.GTF_VAR_DEF)).foldl
          (fun acc lcl => MarkUseDef m_aggregates lcl acc.1 acc.2) sets := by
  induction l generalizing sets with
  | nil => rfl
  | cons a rest ih =>
    cases h : a.GTF_VAR_DEF with
    | false => simp [List.filter, h, ih]
    | true => simp [List.filter, h, ih]

theorem ComputeUseDefSetsStmt_eq (m_aggregates : List AggregateInfo) (compQmarkUsed : Bool)
    (stmt : Statement) (sets : VarSet × VarSet) :
    ComputeUseDefSetsStmt m_aggregates compQmarkUsed stmt sets
      = (ClassifiedNodes compQmarkUsed stmt).foldl
          (fun acc lcl => MarkUseDef m_aggregates lcl acc.1 acc.2) sets := by
  unfold ComputeUseDefSetsStmt ClassifiedNodes
  cases compQmarkUsed with
  | false => simp
  | true =>
    cases h : stmt.TopLevelQmark with
    | false => simp
    | true => simp [foldl_skip_eq_filter]

theorem foldl_foldl_eq_bind {A B C : Type} (f : C → B → C) (g : A → List B) (l : List A)
    (init : C) :
    l.foldl (fun acc a => (g a).foldl f acc) init = (l.flatMap g).foldl f init := by
  induction l generalizing init with
  | nil => rfl
  | cons a rest ih => simp [List.flatMap_cons, List.foldl_append, ih]

theorem MarkUseDef_foldl_mem_def (m_aggregates : List AggregateInfo)
    (l : List GenTreeLclVarCommon) (sets : VarSet × VarSet) (x : Nat) :
    x ∈ (l.foldl (fun acc lcl => MarkUseDef m_aggregates lcl acc.1 acc.2) sets).2 ↔
      x ∈ sets.2 ∨ ∃ lcl ∈ l, x ∈ (MarkUseDef m_aggregates lcl ∅ ∅).2 := by
  induction l generalizing sets with
  | nil => simp
  | cons a rest ih =>
    rw [List.foldl_cons, ih, MarkUseDef_mem_def]
    simp only [List.mem_cons, exists_eq_or_imp]
    tauto

theorem MarkUseDef_foldl_mem_use (m_aggregates : List AggregateInfo)
    (l : List GenTreeLclVarCommon) (sets : VarSet × VarSet) (x : Nat)
    (hx : x ∈ sets.1 ∨ ∃ lcl ∈ l, x ∈ (MarkUseDef m_aggregates lcl ∅ ∅).1)
    (hd : x ∉ (l.foldl (fun acc lcl => MarkUseDef m_aggregates lcl acc.1 acc.2) sets).2) :
    x ∈ (l.foldl (fun acc lcl => MarkUseDef m_aggregates lcl acc.1 acc.2) sets).1 := by
  induction l generalizing sets with
  | nil =>
    rcases hx with h | ⟨lcl, hl, _⟩
    · exact h
    · cases hl
  | cons a rest ih =>
    rw [List.foldl_cons] at hd ⊢
    apply ih _ _ hd
    rcases hx with h | ⟨lcl, hl, hu⟩
    · exact Or.inl ((MarkUseDef_mem_use m_aggregates a _ _ x).mpr (Or.inl h))
    · rcases List.mem_cons.mp hl with h1 | h1
      · subst h1
        left
        refine (MarkUseDef_mem_use m_aggregates lcl _ _ x).mpr (Or.inr ⟨hu, ?_⟩)
        intro hxd
        apply hd
        rw [MarkUseDef_foldl_mem_def, MarkUseDef_mem_def]
        exact Or.inl (Or.inl hxd)
      · exact Or.inr ⟨lcl, h1, hu⟩

/-- The summary of a block is the fold of `MarkUseDef` over its classified nodes. -/
theorem ComputeUseDefSetsBlock_eq (m_aggregates : List AggregateInfo) (compQmarkUsed : Bool)
    (stmts : List Statement) :
    ((ComputeUseDefSetsBlock m_aggregates compQmarkUsed stmts).VarUse,
      (ComputeUseDefSetsBlock m_aggregates compQmarkUsed stmts).VarDef)
      = (stmts.flatMap (ClassifiedNodes compQmarkUsed)).foldl
          (fun acc lcl => MarkUseDef m_aggregates lcl acc.1 acc.2) (∅, ∅) := by
  have hf : (fun acc stmt => ComputeUseDefSetsStmt m_aggregates compQmarkUsed stmt acc)
      = (fun acc stmt => (ClassifiedNodes compQmarkUsed stmt).foldl
          (fun acc lcl => MarkUseDef m_aggregates lcl acc.1 acc.2) acc) := by
    funext acc stmt
    exact ComputeUseDefSetsStmt_eq m_aggregates compQmarkUsed stmt acc
  unfold ComputeUseDefSetsBlock
  simp only [BitVecOps.MakeEmpty]
  rw [hf, foldl_foldl_eq_bind]

/-- Claim C14. Conditional writes are not kills: with `compQmarkUsed` set, a statement with
a top-level qmark is summarised by classifying exactly its nodes without `GTF_VAR_DEF`, in
order, and leaves `VarDef` as it was; consequently, in a block where every node that fully
defines index `x` lies in such a statement, `x` is not in `VarDef` of the block, and `x` is
in `VarUse` of the block as soon as some node of the block uses it. -/
theorem ComputeUseDefSets_qmark (m_aggregates : List AggregateInfo) :
    (∀ (stmt : Statement) (sets : VarSet × VarSet), stmt.TopLevelQmark = true →
      ComputeUseDefSetsStmt m_aggregates true stmt sets
        = (stmt.LocalsTreeList.filter (fun lcl => !lcl.GTF_VAR_DEF)).foldl
            (fun acc lcl => MarkUseDef m_aggregates lcl acc.1 acc.2) sets ∧
      (ComputeUseDefSetsStmt m_aggregates true stmt sets).2 = sets.2) ∧
    (∀ (stmts : List Statement) (x : Nat),
      (∀ stmt ∈ stmts, ∀ lcl ∈ stmt.LocalsTreeList,
        x ∈ (MarkUseDef m_aggregates lcl ∅ ∅).2 → stmt.TopLevelQmark = true) →
      x ∉ (ComputeUseDefSetsBlock m_aggregates true stmts).VarDef ∧
      ((∃ stmt ∈ stmts, ∃ lcl ∈ stmt.LocalsTreeList, x ∈ (MarkUseDef m_aggregates lcl ∅ ∅).1) →
        x ∈ (ComputeUseDefSetsBlock m_aggregates true stmts).VarUse)) := by
  constructor
  · intro stmt sets hq
    have e : ComputeUseDefSetsStmt m_aggregates true stmt sets
        = (stmt.LocalsTreeList.filter (fun lcl => !lcl.GTF_VAR_DEF)).foldl
            (fun acc lcl => MarkUseDef m_aggregates lcl acc.1 acc.2) sets := by
      rw [ComputeUseDefSetsStmt_eq]
      simp [ClassifiedNodes, hq]
    refine ⟨e, ?_⟩
    rw [e]
    ext x
    rw [MarkUseDef_foldl_mem_def]
    constructor
    · rintro (h | ⟨lcl, hl, hx⟩)
      · exact h
      · have hr : lcl.GTF_VAR_DEF = false := by
          have := (List.mem_filter.mp hl).2
          simpa using this
        rw [MarkUseDef_read_def m_aggregates lcl ∅ ∅ hr] at hx
        simp at hx
    · exact Or.inl
  · intro stmts x hw
    have hB := ComputeUseDefSetsBlock_eq m_aggregates true stmts
    have hU : (ComputeUseDefSetsBlock m_aggregates true stmts).VarUse
        = ((stmts.flatMap (ClassifiedNodes true)).foldl
            (fun acc lcl => MarkUseDef m_aggregates lcl acc.1 acc.2) (∅, ∅)).1 := by
      rw [← hB]
    have hD : (ComputeUseDefSetsBlock m_aggregates true stmts).VarDef
        = ((stmts.flatMap (ClassifiedNodes true)).foldl
            (fun acc lcl => MarkUseDef m_aggregates lcl acc.1 acc.2) (∅, ∅)).2 := by
      rw [← hB]
    have hnd : x ∉ ((stmts.flatMap (ClassifiedNodes true)).foldl
        (fun acc lcl => MarkUseDef m_aggregates lcl acc.1 acc.2) (∅, ∅)).2 := by
      rw [MarkUseDef_foldl_mem_def]
      rintro (h | ⟨lcl, hl, hx⟩)
      · simp at h
      · obtain ⟨stmt, hs, hls⟩ := List.mem_flatMap.mp hl
        unfold ClassifiedNodes at hls
        cases hq : stmt.TopLevelQmark with
        | true =>
          simp only [hq, Bool.and_self, if_true] at hls
          have hr : lcl.GTF_VAR_DEF = false := by
            have := (List.mem_filter.mp hls).2
            simpa using this
          rw [MarkUseDef_read_def m_aggregates lcl ∅ ∅ hr] at hx
          simp at hx
        | false =>
          simp only [hq, Bool.and_false, Bool.false_eq_true, if_false] at hls
          have := hw stmt hs lcl hls hx
          rw [hq] at this
          cases this
    refine ⟨by rw [hD]; exact hnd, ?_⟩
    rintro ⟨stmt, hs, lcl, hl, hx⟩
    rw [hU]
    apply MarkUseDef_foldl_mem_use m_aggregates _ _ x _ hnd
    right
    refine ⟨lcl, ?_, hx⟩
    apply List.mem_flatMap.mpr
    refine ⟨stmt, hs, ?_⟩
    unfold ClassifiedNodes
    split
    · apply List.mem_filter.mpr
      refine ⟨hl, ?_⟩
      cases hdef : lcl.GTF_VAR_DEF with
      | false => rfl
      | true =>
        rw [MarkUseDef_write_use m_aggregates lcl ∅ ∅ hdef] at hx
        simp at hx
    · exact hl

/-- Scenario D: a conditional write of field 0 followed by an unconditional read of field
0 puts index 1 in `VarUse` and leaves `VarDef` empty; without the qmark handling the write
would be a kill. -/
theorem ComputeUseDefSets_qmark_witness :
    (ComputeUseDefSetsBlock [pairAggregate] true qmarkBlock).VarUse = {1} ∧
    (ComputeUseDefSetsBlock [pairAggregate] true qmarkBlock).VarDef = ∅ ∧
    (ComputeUseDefSetsBlock [pairAggregate] false qmarkBlock).VarDef = {1} ∧
    1 ∈ (ComputeUseDefSetsBlock [pairAggregate] true qmarkBlock).VarUse :=
  ⟨by decide, by decide, by decide,
    (((ComputeUseDefSets_qmark [pairAggregate]).2 qmarkBlock 1 (by decide)).2
      ⟨{ TopLevelQmark := false, LocalsTreeList := [readField0] }, by simp [qmarkBlock],
        readField0, by simp, by decide⟩)⟩

/-! ## The backward annotator: one node -/

theorem FillScalar_death (varIndex : Nat) (isUse isFullDef : Bool) (life volatileVars : VarSet)
    (lcl : GenTreeLclVarCommon) :
    ((FillScalar varIndex isUse isFullDef life volatileVars lcl).lcl.GTF_VAR_DEATH = true ↔
      varIndex ∉ life) := by
  unfold FillScalar
  by_cases h : varIndex ∈ life
  · simp only [BitVecOps.IsMember, h, decide_True, if_true]
    split <;> simp [SetDeath]
  · simp only [BitVecOps.IsMember, h, decide_False, Bool.false_eq_true, if_false]
    split <;> simp [SetDeath]

theorem FillScalar_lcl (varIndex : Nat) (isUse isFullDef : Bool) (life volatileVars : VarSet)
    (lcl : GenTreeLclVarCommon) :
    (FillScalar varIndex isUse isFullDef life volatileVars lcl).lcl
      = SetDeath lcl (!BitVecOps.IsMember life varIndex) := by
  unfold FillScalar
  by_cases h : varIndex ∈ life
  · simp only [BitVecOps.IsMember, h, decide_True, if_true]
    split <;> rfl
  · simp only [BitVecOps.IsMember, h, decide_False, Bool.false_eq_true, if_false]
    split <;> rfl

theorem FillScalar_aggDeaths (varIndex : Nat) (isUse isFullDef : Bool)
    (life volatileVars : VarSet) (lcl : GenTreeLclVarCommon) :
    (FillScalar varIndex isUse isFullDef life volatileVars lcl).aggDeaths = none := by
  unfold FillScalar
  split <;> split <;> rfl

/-- Membership in `life` after the simple scalar step. -/
theorem FillScalar_mem_life (varIndex : Nat) (isUse isFullDef : Bool)
    (life volatileVars : VarSet) (lcl : GenTreeLclVarCommon) (x : Nat) :
    x ∈ (FillScalar varIndex isUse isFullDef life volatileVars lcl).life ↔
      (x ∈ life ∧ ¬ (x = varIndex ∧ isFullDef = true ∧ varIndex ∉ volatileVars)) ∨
      (x = varIndex ∧ varIndex ∉ life ∧ isUse = true) := by
  unfold FillScalar
  by_cases h : varIndex ∈ life
  · simp only [BitVecOps.IsMember, h, decide_True, if_true]
    by_cases hf : isFullDef = true ∧ varIndex ∉ volatileVars
    · obtain ⟨h1, h2⟩ := hf
      simp only [h1, h2, decide_False, Bool.not_false, Bool.and_self, if_true,
        BitVecOps.RemoveElemD, Finset.mem_erase, not_true_eq_false, false_and, and_false,
        or_false, not_false_eq_true, and_true, ne_eq]
      tauto
    · have hb : (isFullDef && !decide (varIndex ∈ volatileVars)) = false := by
        cases isFullDef
        · rfl
        · simp only [Bool.true_and, Bool.not_eq_false', decide_eq_true_eq]
          by_contra hc
          exact hf ⟨rfl, hc⟩
      simp only [hb, Bool.false_eq_true, if_false, not_true_eq_false, false_and, and_false,
        or_false]
      constructor
      · intro hx
        exact ⟨hx, fun hc => hf ⟨hc.2.1, hc.2.2⟩⟩
      · exact fun hx => hx.1
  · simp only [BitVecOps.IsMember, h, decide_False, Bool.false_eq_true, if_false,
      not_false_eq_true, true_and]
    cases isUse
    · simp only [Bool.false_eq_true, if_false, and_false, or_false]
      constructor
      · intro hx
        exact ⟨hx, fun hc => h (hc.1 ▸ hx)⟩
      · exact fun hx => hx.1
    · simp only [if_true, BitVecOps.AddElemD, Finset.mem_insert, and_true]
      constructor
      · rintro (hx | hx)
        · exact Or.inr hx
        · exact Or.inl ⟨hx, fun hc => h (hc.1 ▸ hx)⟩
      · rintro (hx | hx)
        · exact Or.inr hx.1
        · exact Or.inl hx

/-- The simple scalar branch of the node-level `FillInLiveness`. -/
theorem FillInLivenessNode_scalar_eq (m_aggregates : List AggregateInfo)
    (life volatileVars : VarSet) (lcl : GenTreeLclVarCommon) (agg : AggregateInfo)
    (hl : Lookup m_aggregates lcl.lclNum = some agg) (ht : lcl.gtType ≠ .TYP_STRUCT)
    (ho : lcl.gtOper ≠ .GT_LCL_ADDR) :
    ∃ idx isFullDef, SimpleScalarIndex m_aggregates lcl = some idx ∧
      FillInLivenessNode m_aggregates life volatileVars lcl
        = FillScalar idx (!lcl.GTF_VAR_DEF) isFullDef life volatileVars lcl ∧
      (isFullDef = true → lcl.GTF_VAR_DEF = true) := by
  have hnot : ¬ (lcl.gtType = .TYP_STRUCT ∨ lcl.gtOper = .GT_LCL_ADDR) := by
    rintro (h | h)
    · exact ht h
    · exact ho h
  unfold FillInLivenessNode SimpleScalarIndex
  rw [hl]
  simp only [if_neg hnot]
  split
  · refine ⟨_, _, rfl, rfl, ?_⟩
    intro h
    simp only [Bool.and_eq_true] at h
    exact h.1.1
  · exact ⟨_, _, rfl, rfl, fun h => h⟩

/-- Claim C15. Death flag consistency: for a simple scalar access node (non-struct,
non-`LCL_ADDR`) of a tracked aggregate, with dense index `idx` (the remainder index when no
replacement starts at the node's offset, else the index of the replacement that starts
there), the node's `GTF_VAR_DEATH` after the node-level `FillInLiveness` is set iff `idx`
is not in the life set with which the walk reaches the node; the flag's previous value is
irrelevant. -/
theorem FillInLivenessNode_death_flag (m_aggregates : List AggregateInfo)
    (life volatileVars : VarSet) (lcl : GenTreeLclVarCommon) (agg : AggregateInfo)
    (hl : Lookup m_aggregates lcl.lclNum = some agg) (ht : lcl.gtType ≠ .TYP_STRUCT)
    (ho : lcl.gtOper ≠ .GT_LCL_ADDR) :
    ∃ idx, SimpleScalarIndex m_aggregates lcl = some idx ∧
      ((FillInLivenessNode m_aggregates life volatileVars lcl).lcl.GTF_VAR_DEATH = true ↔
        idx ∉ life) ∧
      (∀ death : Bool,
        (FillInLivenessNode m_aggregates life volatileVars (SetDeath lcl death)).lcl.GTF_VAR_DEATH
          = (FillInLivenessNode m_aggregates life volatileVars lcl).lcl.GTF_VAR_DEATH) ∧
      (agg.Replacements.Pairwise (fun r1 r2 => r1.Offset < r2.Offset) →
        (∀ i rep, agg.Replacements.get? i = some rep → rep.Offset = lcl.lclOffs →
          idx = m_structLclToTrackedIndex m_aggregates lcl.lclNum + 1 + i) ∧
        ((∀ r ∈ agg.Replacements, r.Offset ≠ lcl.lclOffs) →
          idx = m_structLclToTrackedIndex m_aggregates lcl.lclNum)) := by
  obtain ⟨idx, f, hidx, hfill, _⟩ :=
    FillInLivenessNode_scalar_eq m_aggregates life volatileVars lcl agg hl ht ho
  refine ⟨idx, hidx, ?_, ?_, ?_⟩
  · rw [hfill]
    exact FillScalar_death _ _ _ _ _ _
  · intro death
    obtain ⟨idx', f', hidx', hfill', _⟩ :=
      FillInLivenessNode_scalar_eq m_aggregates life volatileVars (SetDeath lcl death) agg hl ht
        ho
    have he : SimpleScalarIndex m_aggregates (SetDeath lcl death)
        = SimpleScalarIndex m_aggregates lcl := rfl
    rw [he, hidx] at hidx'
    cases hidx'
    rw [hfill, hfill', FillScalar_lcl, FillScalar_lcl]
    rfl
  · intro hsorted
    unfold SimpleScalarIndex at hidx
    rw [hl] at hidx
    have hnot : ¬ (lcl.gtType = .TYP_STRUCT ∨ lcl.gtOper = .GT_LCL_ADDR) := by
      rintro (h | h)
      · exact ht h
      · exact ho h
    simp only [if_neg hnot] at hidx
    constructor
    · intro i rep hi hoffs
      have hfound := BinarySearch_found Replacement.Offset agg.Replacements lcl.lclOffs
        hsorted i rep hi hoffs
      rw [hfound, if_neg (by omega), Int.toNat_ofNat] at hidx
      cases hidx
      rfl
    · intro hno
      have hneg := BinarySearch_not_found Replacement.Offset agg.Replacements lcl.lclOffs
        hsorted hno
      rw [if_pos hneg] at hidx
      cases hidx
      rfl

/-- The read of the field at offset 8 (index 2) gets the death flag when index 2 is not in
`life` and loses it when index 2 is in `life`, whatever the flag was before. -/
theorem FillInLivenessNode_death_flag_witness :
    (FillInLivenessNode [pairAggregate] ∅ ∅ readField1).lcl.GTF_VAR_DEATH = true ∧
    (FillInLivenessNode [pairAggregate] {2} ∅ (SetDeath readField1 true)).lcl.GTF_VAR_DEATH
      = false ∧
    ∃ idx, SimpleScalarIndex [pairAggregate] readField1 = some idx ∧
      ((FillInLivenessNode [pairAggregate] {2} ∅ readField1).lcl.GTF_VAR_DEATH = true ↔
        idx ∉ ({2} : VarSet)) :=
  ⟨by decide, by decide,
    (FillInLivenessNode_death_flag [pairAggregate] {2} ∅ readField1 pairAggregate rfl
      (by decide) (by decide)).imp fun _ h => ⟨h.1, h.2.1⟩⟩

/-! ## The backward annotator: the loops over an aggregate -/

theorem FillStep_mem_life (varIndex bit : Nat) (isUse isFullDef : Bool)
    (volatileVars : VarSet) (st : VarSet × VarSet) (x : Nat) :
    x ∈ (FillStep varIndex bit isUse isFullDef volatileVars st).1 ↔
      (x ∈ st.1 ∧ ¬ (x = varIndex ∧ isFullDef = true ∧ varIndex ∉ volatileVars)) ∨
      (x = varIndex ∧ varIndex ∉ st.1 ∧ isUse = true) := by
  have h := FillScalar_mem_life varIndex isUse isFullDef st.1 volatileVars readField0 x
  rw [← h]
  unfold FillStep FillScalar
  split <;> split <;> rfl

theorem FillStep_mem_deaths (varIndex bit : Nat) (isUse isFullDef : Bool)
    (volatileVars : VarSet) (st : VarSet × VarSet) (y : Nat) :
    y ∈ (FillStep varIndex bit isUse isFullDef volatileVars st).2 ↔
      y ∈ st.2 ∨ (y = bit ∧ varIndex ∉ st.1) := by
  unfold FillStep
  by_cases h : varIndex ∈ st.1
  · simp only [BitVecOps.IsMember, h, decide_True, if_true, not_true_eq_false, and_false,
      or_false]
    split <;> rfl
  · simp only [BitVecOps.IsMember, h, decide_False, Bool.false_eq_true, if_false,
      not_false_eq_true, and_true]
    split <;> simp [BitVecOps.AddElemD, or_comm]

theorem FillAllLoop_cons (baseIndex : Nat) (isUse isDef : Bool) (volatileVars : VarSet)
    (i : Nat) (rest : List Nat) (st : VarSet × VarSet) :
    FillAllLoop baseIndex isUse isDef volatileVars (i :: rest) st
      = FillAllLoop baseIndex isUse isDef volatileVars rest
          (FillStep (baseIndex + i) i isUse isDef volatileVars st) := by
  unfold FillStep
  rw [FillAllLoop]
  split <;> split <;> rfl

theorem FillOverlapLoop_cons (baseIndex offs size : Nat) (isUse isDef : Bool)
    (volatileVars : VarSet) (rep : Replacement) (rest : List Replacement) (index : Nat)
    (st : VarSet × VarSet) :
    FillOverlapLoop baseIndex offs size isUse isDef volatileVars (rep :: rest) index st
      = if rep.Offset < offs + size then
          FillOverlapLoop baseIndex offs size isUse isDef volatileVars rest (index + 1)
            (FillStep (baseIndex + 1 + index) (1 + index) isUse
              (isDef && decide (offs ≤ rep.Offset) &&
                decide (offs + size ≥ rep.Offset + genTypeSize rep.AccessType))
              volatileVars st)
        else st := by
  unfold FillStep
  rw [FillOverlapLoop]
  simp only
  split
  · split <;> split <;> rfl
  · rfl

theorem FillRemainder_eq (agg : AggregateInfo) (baseIndex offs size : Nat) (isUse isDef : Bool)
    (volatileVars : VarSet) (st : VarSet × VarSet) :
    FillRemainder agg baseIndex offs size isUse isDef volatileVars st
      = FillStep baseIndex 0
          (isUse && SegmentListIntersects agg.Unpromoted { Start := offs, End := offs + size })
          (isDef && decide (agg.UnpromotedMin ≥ offs) && decide (agg.UnpromotedMax ≤ offs + size))
          volatileVars st := by
  unfold FillRemainder FillStep
  simp only

theorem FillStep_volatileKept (baseIndex bit : Nat) (isUse isFullDef : Bool)
    (volatileVars : VarSet) (st : VarSet × VarSet) (h : VolatileKept volatileVars baseIndex st) :
    VolatileKept volatileVars baseIndex
      (FillStep (baseIndex + bit) bit isUse isFullDef volatileVars st) := by
  obtain ⟨h1, h2⟩ := h
  constructor
  · intro x hx
    rw [FillStep_mem_life]
    left
    exact ⟨h1 hx, fun hc => hc.2.2 (hc.1 ▸ hx)⟩
  · intro y hy
    rw [FillStep_mem_deaths] at hy
    rcases hy with hy | ⟨hy, hn⟩
    · exact h2 y hy
    · subst hy
      exact fun hc => hn (h1 hc)

theorem FillAllLoop_volatileKept (baseIndex : Nat) (isUse isDef : Bool) (volatileVars : VarSet)
    (l : List Nat) (st : VarSet × VarSet) (h : VolatileKept volatileVars baseIndex st) :
    VolatileKept volatileVars baseIndex (FillAllLoop baseIndex isUse isDef volatileVars l st) := by
  induction l generalizing st with
  | nil => exact h
  | cons i rest ih =>
    rw [FillAllLoop_cons]
    exact ih _ (FillStep_volatileKept baseIndex i isUse isDef volatileVars st h)

theorem FillOverlapLoop_volatileKept (baseIndex offs size : Nat) (isUse isDef : Bool)
    (volatileVars : VarSet) (l : List Replacement) (index : Nat) (st : VarSet × VarSet)
    (h : VolatileKept volatileVars baseIndex st) :
    VolatileKept volatileVars baseIndex
      (FillOverlapLoop baseIndex offs size isUse isDef volatileVars l index st) := by
  induction l generalizing index st with
  | nil => exact h
  | cons rep rest ih =>
    rw [FillOverlapLoop_cons]
    split
    · apply ih
      have := FillStep_volatileKept baseIndex (1 + index) isUse
        (isDef && decide (offs ≤ rep.Offset) &&
          decide (offs + size ≥ rep.Offset + genTypeSize rep.AccessType)) volatileVars st h
      have e : baseIndex + (1 + index) = baseIndex + 1 + index := by omega
      rw [e] at this
      exact this
    · exact h

/-- Which bits the whole-variable loop sets: bit `i` of the list iff index
`baseIndex + i` is not live at the start. -/
theorem FillAllLoop_mem_deaths (baseIndex : Nat) (isUse isDef : Bool) (volatileVars : VarSet)
    (l : List Nat) (hnd : l.Nodup) (st : VarSet × VarSet) (y : Nat) :
    y ∈ (FillAllLoop baseIndex isUse isDef volatileVars l st).2 ↔
      y ∈ st.2 ∨ (y ∈ l ∧ baseIndex + y ∉ st.1) := by
  induction l generalizing st with
  | nil => simp [FillAllLoop]
  | cons i rest ih =>
    rw [List.nodup_cons] at hnd
    rw [FillAllLoop_cons, ih hnd.2, FillStep_mem_deaths]
    constructor
    · rintro ((h | ⟨h, hn⟩) | ⟨h, hn⟩)
      · exact Or.inl h
      · exact Or.inr ⟨h ▸ List.mem_cons_self _ _, h ▸ hn⟩
      · refine Or.inr ⟨List.mem_cons_of_mem _ h, ?_⟩
        intro hc
        apply hn
        rw [FillStep_mem_life]
        left
        refine ⟨hc, ?_⟩
        rintro ⟨he, _⟩
        have : y = i := by omega
        exact hnd.1 (this ▸ h)
    · rintro (h | ⟨h, hn⟩)
      · exact Or.inl (Or.inl h)
      · rcases List.mem_cons.mp h with h1 | h1
        · exact Or.inl (Or.inr ⟨h1, h1 ▸ hn⟩)
        · refine Or.inr ⟨h1, ?_⟩
          intro hc
          rw [FillStep_mem_life] at hc
          rcases hc with hc | hc
          · exact hn hc.1
          · have : y = i := by omega
            exact hnd.1 (this ▸ h1)

/-- The field loop leaves alone every index below the first one it can touch. -/
theorem FillOverlapLoop_life_frame (baseIndex offs size : Nat) (isUse isDef : Bool)
    (volatileVars : VarSet) (l : List Replacement) (index : Nat) (st : VarSet × VarSet)
    (x : Nat) (hx : x < baseIndex + 1 + index) :
    x ∈ (FillOverlapLoop baseIndex offs size isUse isDef volatileVars l index st).1 ↔
      x ∈ st.1 := by
  induction l generalizing index st with
  | nil => rfl
  | cons rep rest ih =>
    rw [FillOverlapLoop_cons]
    split
    · rw [ih _ _ (by omega), FillStep_mem_life]
      constructor
      · rintro (h | h)
        · exact h.1
        · omega
      · intro h
        left
        exact ⟨h, fun hc => by omega⟩
    · rfl

/-- Which bits the field loop sets, on a list sorted by offset: bit `1 + i` iff the
replacement at position `i` starts before the end of the range and its index is not live
at the start. -/
theorem FillOverlapLoop_mem_deaths (baseIndex offs size : Nat) (isUse isDef : Bool)
    (volatileVars : VarSet) (l : List Replacement)
    (hs : l.Pairwise (fun r1 r2 => r1.Offset < r2.Offset)) (index : Nat)
    (st : VarSet × VarSet) (y : Nat) :
    y ∈ (FillOverlapLoop baseIndex offs size isUse isDef volatileVars l index st).2 ↔
      y ∈ st.2 ∨ ∃ j rep, l.get? j = some rep ∧ rep.Offset < offs + size ∧
        baseIndex + 1 + (index + j) ∉ st.1 ∧ y = 1 + (index + j) := by
  induction l generalizing index st with
  | nil => simp [FillOverlapLoop]
  | cons rep rest ih =>
    rw [List.pairwise_cons] at hs
    rw [FillOverlapLoop_cons]
    split
    · rename_i hlt
      rw [ih hs.2, FillStep_mem_deaths]
      constructor
      · rintro ((h | ⟨h, hn⟩) | ⟨j, r, hj, h1, hn, hy⟩)
        · exact Or.inl h
        · exact Or.inr ⟨0, rep, rfl, hlt, hn, by omega⟩
        · refine Or.inr ⟨j + 1, r, hj, h1, ?_, by omega⟩
          intro hc
          apply hn
          rw [FillStep_mem_life]
          left
          have e : baseIndex + 1 + (index + (j + 1)) = baseIndex + 1 + (index + 1 + j) := by
            omega
          rw [e] at hc
          exact ⟨hc, fun h => by omega⟩
      · rintro (h | ⟨j, r, hj, h1, hn, hy⟩)
        · exact Or.inl (Or.inl h)
        · cases j with
          | zero => exact Or.inl (Or.inr ⟨by omega, hn⟩)
          | succ j =>
            simp only [List.get?_cons_succ] at hj
            refine Or.inr ⟨j, r, hj, h1, ?_, by omega⟩
            intro hc
            rw [FillStep_mem_life] at hc
            have e : baseIndex + 1 + (index + (j + 1)) = baseIndex + 1 + (index + 1 + j) := by
              omega
            rw [e] at hn
            rcases hc with hc | hc
            · exact hn hc.1
            · omega
    · rename_i hge
      constructor
      · exact Or.inl
      · rintro (h | ⟨j, r, hj, h1, _, _⟩)
        · exact h
        · exfalso
          cases j with
          | zero =>
            simp only [List.get?_cons_zero, Option.some.injEq] at hj
            subst hj
            exact hge h1
          | succ j =>
            simp only [List.get?_cons_succ] at hj
            have := hs.1 r (List.get?_mem hj)
            omega

/-- An index stays live through the field loop when it is volatile or no replacement of
the list with that index is fully covered by a write. -/
theorem FillOverlapLoop_keeps (baseIndex offs size : Nat) (isUse isDef : Bool)
    (volatileVars : VarSet) (l : List Replacement) (index : Nat) (st : VarSet × VarSet)
    (x : Nat) (hx : x ∈ st.1)
    (hc : x ∈ volatileVars ∨ ∀ j rep, l.get? j = some rep → x = baseIndex + 1 + (index + j) →
      ¬ (isDef = true ∧ offs ≤ rep.Offset ∧
        offs + size ≥ rep.Offset + genTypeSize rep.AccessType)) :
    x ∈ (FillOverlapLoop baseIndex offs size isUse isDef volatileVars l index st).1 := by
  induction l generalizing index st with
  | nil => exact hx
  | cons rep rest ih =>
    rw [FillOverlapLoop_cons]
    split
    · apply ih
      · rw [FillStep_mem_life]
        left
        refine ⟨hx, ?_⟩
        rintro ⟨h1, h2, h3⟩
        rcases hc with hv | hn
        · exact h3 (h1 ▸ hv)
        · apply hn 0 rep rfl (by omega)
          simp only [Bool.and_eq_true, decide_eq_true_eq] at h2
          exact ⟨h2.1.1, h2.1.2, h2.2⟩
      · rcases hc with hv | hn
        · exact Or.inl hv
        · right
          intro j r hj hxe
          exact hn (j + 1) r hj (by omega)
    · exact hx

/-- The whole-variable branch of the node-level `FillInLiveness`. -/
theorem FillInLivenessNode_whole_eq (m_aggregates : List AggregateInfo)
    (life volatileVars : VarSet) (lcl : GenTreeLclVarCommon) (agg : AggregateInfo)
    (hl : Lookup m_aggregates lcl.lclNum = some agg)
    (hp : lcl.gtType = .TYP_STRUCT ∨ lcl.gtOper = .GT_LCL_ADDR)
    (hs : lcl.OperIsScalarLocal = true) :
    FillInLivenessNode m_aggregates life volatileVars lcl =
      { life := (FillAllLoop (m_structLclToTrackedIndex m_aggregates lcl.lclNum)
          (!lcl.GTF_VAR_DEF) lcl.GTF_VAR_DEF volatileVars
          (List.range (agg.Replacements.length + 1)) (life, ∅)).1
        lcl := lcl
        aggDeaths := some (FillAllLoop (m_structLclToTrackedIndex m_aggregates lcl.lclNum)
          (!lcl.GTF_VAR_DEF) lcl.GTF_VAR_DEF volatileVars
          (List.range (agg.Replacements.length + 1)) (life, ∅)).2 } := by
  unfold FillInLivenessNode
  rw [hl]
  simp only [if_pos hp, hs, if_true, BitVecOps.MakeEmpty]

/-- The partial-range branch of the node-level `FillInLiveness`. -/
theorem FillInLivenessNode_partial_eq (m_aggregates : List AggregateInfo)
    (life volatileVars : VarSet) (lcl : GenTreeLclVarCommon) (agg : AggregateInfo)
    (hl : Lookup m_aggregates lcl.lclNum = some agg)
    (hp : lcl.gtType = .TYP_STRUCT ∨ lcl.gtOper = .GT_LCL_ADDR)
    (hns : lcl.OperIsScalarLocal = false) :
    FillInLivenessNode m_aggregates life volatileVars lcl =
      { life := (FillRemainder agg (m_structLclToTrackedIndex m_aggregates lcl.lclNum)
          lcl.lclOffs (GetSizeOfStructLocal lcl) (!lcl.GTF_VAR_DEF) lcl.GTF_VAR_DEF volatileVars
          (FillOverlapLoop (m_structLclToTrackedIndex m_aggregates lcl.lclNum) lcl.lclOffs
            (GetSizeOfStructLocal lcl) (!lcl.GTF_VAR_DEF) lcl.GTF_VAR_DEF volatileVars
            (agg.Replacements.drop
              (OverlapStartIndex agg.Replacements lcl.lclOffs (GetSizeOfStructLocal lcl)))
            (OverlapStartIndex agg.Replacements lcl.lclOffs (GetSizeOfStructLocal lcl))
            (life, ∅))).1
        lcl := lcl
        aggDeaths := some (FillRemainder agg (m_structLclToTrackedIndex m_aggregates lcl.lclNum)
          lcl.lclOffs (GetSizeOfStructLocal lcl) (!lcl.GTF_VAR_DEF) lcl.GTF_VAR_DEF volatileVars
          (FillOverlapLoop (m_structLclToTrackedIndex m_aggregates lcl.lclNum) lcl.lclOffs
            (GetSizeOfStructLocal lcl) (!lcl.GTF_VAR_DEF) lcl.GTF_VAR_DEF volatileVars
            (agg.Replacements.drop
              (OverlapStartIndex agg.Replacements lcl.lclOffs (GetSizeOfStructLocal lcl)))
            (OverlapStartIndex agg.Replacements lcl.lclOffs (GetSizeOfStructLocal lcl))
            (life, ∅))).2 } := by
  unfold FillInLivenessNode
  rw [hl]
  simp only [if_pos hp, hns, Bool.false_eq_true, if_false, BitVecOps.MakeEmpty]

/-- Claim C18. Side-table content for a whole-variable access: for a struct-typed `LCL_VAR`
or `STORE_LCL_VAR` node (read or write) of an aggregate with base index `b` and `k`
replacements, processed with life set `L`, an entry is stored; its bits lie in
`[0, 1 + k)`, bit 0 is set iff `b ∉ L`, and for every `i < k`, `IsReplacementDying(i)` on
the entry is true iff `b + 1 + i ∉ L`. -/
theorem FillInLivenessNode_whole_deaths (m_aggregates : List AggregateInfo)
    (life volatileVars : VarSet) (lcl : GenTreeLclVarCommon) (agg : AggregateInfo)
    (hl : Lookup m_aggregates lcl.lclNum = some agg) (ht : lcl.gtType = .TYP_STRUCT)
    (hs : lcl.OperIsScalarLocal = true) :
    ∃ deaths, (FillInLivenessNode m_aggregates life volatileVars lcl).aggDeaths = some deaths ∧
      deaths ⊆ Finset.range (1 + agg.Replacements.length) ∧
      (0 ∈ deaths ↔ m_structLclToTrackedIndex m_aggregates lcl.lclNum ∉ life) ∧
      ∀ i, i < agg.Replacements.length →
        (StructDeaths.IsReplacementDying { m_deaths := deaths, m_aggregate := agg } i = true ↔
          m_structLclToTrackedIndex m_aggregates lcl.lclNum + 1 + i ∉ life) := by
  rw [FillInLivenessNode_whole_eq m_aggregates life volatileVars lcl agg hl (Or.inl ht) hs]
  refine ⟨_, rfl, ?_, ?_, ?_⟩
  · intro y hy
    rw [FillAllLoop_mem_deaths _ _ _ _ _ (List.nodup_range _)] at hy
    rcases hy with hy | ⟨hy, _⟩
    · simp at hy
    · have := List.mem_range.mp hy
      exact Finset.mem_range.mpr (by omega)
  · rw [FillAllLoop_mem_deaths _ _ _ _ _ (List.nodup_range _)]
    simp
  · intro i hi
    unfold StructDeaths.IsReplacementDying
    simp only [BitVecOps.IsMember, decide_eq_true_eq]
    rw [FillAllLoop_mem_deaths _ _ _ _ _ (List.nodup_range _)]
    simp only [Finset.not_mem_empty, false_or, List.mem_range]
    have e : m_structLclToTrackedIndex m_aggregates lcl.lclNum + (1 + i)
        = m_structLclToTrackedIndex m_aggregates lcl.lclNum + 1 + i := by omega
    rw [e]
    constructor
    · exact fun h => h.2
    · exact fun h => ⟨by omega, h⟩

/-- A whole read of the example aggregate with only field 0 (index 1) live records the
remainder and field 1 as dying and field 0 as still live. -/
theorem FillInLivenessNode_whole_deaths_witness :
    (∃ deaths, (FillInLivenessNode [pairAggregate] {1} ∅ readWhole).aggDeaths = some deaths ∧
      deaths = {0, 2}) ∧
    ∃ deaths, (FillInLivenessNode [pairAggregate] {1} ∅ readWhole).aggDeaths = some deaths ∧
      deaths ⊆ Finset.range (1 + pairAggregate.Replacements.length) ∧
      (0 ∈ deaths ↔ m_structLclToTrackedIndex [pairAggregate] readWhole.lclNum ∉ ({1} : VarSet)) :=
  ⟨⟨_, rfl, by decide⟩,
    (FillInLivenessNode_whole_deaths [pairAggregate] {1} ∅ readWhole pairAggregate rfl rfl
      rfl).imp fun _ h => ⟨h.1, h.2.1, h.2.2.1⟩⟩

/-- Claim C19 fails as stated: the struct-typed read of bytes `[0, 4)` of the example
aggregate does not meet the unpromoted bytes `[4, 8)`, yet with the remainder index 0 not
live the stored entry has bit 0 set. -/
theorem FillInLivenessNode_partial_deaths_counterexample :
    SegmentListIntersects pairAggregate.Unpromoted
      { Start := readRange04.lclOffs,
        End := readRange04.lclOffs + GetSizeOfStructLocal readRange04 } = false ∧
    ∃ deaths, (FillInLivenessNode [pairAggregate] ∅ ∅ readRange04).aggDeaths = some deaths ∧
      0 ∈ deaths :=
  ⟨by decide, _, rfl, by decide⟩

/-- Claim C19, amended. Side-table content for a partial-range access: for a struct-typed
`LCL_FLD` or `LCL_ADDR` access of `[offs, offs + size)` to an aggregate with base index `b`
whose replacements are sorted, pairwise disjoint and of positive width, processed with life
set `L`, an entry is stored; for every replacement `i`, bit `1 + i` is set iff the
replacement's byte span overlaps the range and `b + 1 + i ∉ L`; bit 0 is set iff `b ∉ L`,
whether or not the range meets the unpromoted region. -/
theorem FillInLivenessNode_partial_deaths (m_aggregates : List AggregateInfo)
    (life volatileVars : VarSet) (lcl : GenTreeLclVarCommon) (agg : AggregateInfo)
    (hl : Lookup m_aggregates lcl.lclNum = some agg)
    (hp : lcl.gtType = .TYP_STRUCT ∨ lcl.gtOper = .GT_LCL_ADDR)
    (hns : lcl.OperIsScalarLocal = false)
    (hsorted : agg.Replacements.Pairwise (fun r1 r2 => r1.Offset < r2.Offset))
    (hdisj : agg.Replacements.Pairwise
      (fun r1 r2 => r1.Offset + genTypeSize r1.AccessType ≤ r2.Offset))
    (hpos : ∀ r ∈ agg.Replacements, 0 < genTypeSize r.AccessType) :
    ∃ deaths, (FillInLivenessNode m_aggregates life volatileVars lcl).aggDeaths = some deaths ∧
      (∀ i rep, agg.Replacements.get? i = some rep →
        (1 + i ∈ deaths ↔
          rep.Overlaps lcl.lclOffs (GetSizeOfStructLocal lcl) = true ∧
          m_structLclToTrackedIndex m_aggregates lcl.lclNum + 1 + i ∉ life)) ∧
      (0 ∈ deaths ↔ m_structLclToTrackedIndex m_aggregates lcl.lclNum ∉ life) := by
  rw [FillInLivenessNode_partial_eq m_aggregates life volatileVars lcl agg hl hp hns]
  have hs' : (agg.Replacements.drop
      (OverlapStartIndex agg.Replacements lcl.lclOffs (GetSizeOfStructLocal lcl))).Pairwise
      (fun r1 r2 => r1.Offset < r2.Offset) :=
    List.Pairwise.sublist (List.drop_sublist _ _) hsorted
  refine ⟨_, rfl, ?_, ?_⟩
  · intro i rep hi
    rw [FillRemainder_eq, FillStep_mem_deaths, FillOverlapLoop_mem_deaths _ _ _ _ _ _ _ hs']
    constructor
    · rintro ((h | ⟨j, r, hj, h1, hn, hy⟩) | ⟨h, _⟩)
      · simp at h
      · rw [get?_drop_add] at hj
        have e : OverlapStartIndex agg.Replacements lcl.lclOffs (GetSizeOfStructLocal lcl) + j
            = i := by omega
        rw [e] at hj hn
        rw [hi] at hj
        cases hj
        exact ⟨overlaps_of_scanned agg.Replacements _ _ i rep hsorted hpos hi (by omega) h1, hn⟩
      · omega
    · rintro ⟨hov, hn⟩
      have hstart := OverlapStartIndex_le agg.Replacements lcl.lclOffs
        (GetSizeOfStructLocal lcl) i rep hsorted hdisj hi hov
      have e : OverlapStartIndex agg.Replacements lcl.lclOffs (GetSizeOfStructLocal lcl)
          + (i - OverlapStartIndex agg.Replacements lcl.lclOffs (GetSizeOfStructLocal lcl))
          = i := by omega
      left; right
      refine ⟨i - OverlapStartIndex agg.Replacements lcl.lclOffs (GetSizeOfStructLocal lcl),
        rep, ?_, ((Overlaps_iff rep _ _).mp hov).2, ?_, by omega⟩
      · rw [get?_drop_add, e, hi]
      · rw [e]
        exact hn
  · rw [FillRemainder_eq, FillStep_mem_deaths, FillOverlapLoop_mem_deaths _ _ _ _ _ _ _ hs',
      FillOverlapLoop_life_frame _ _ _ _ _ _ _ _ _ _ (by omega)]
    constructor
    · rintro ((h | ⟨j, r, _, _, _, hy⟩) | ⟨_, h⟩)
      · simp at h
      · omega
      · exact h
    · exact fun h => Or.inr ⟨rfl, h⟩

/-- The struct-typed read of bytes `[2, 10)` of the example aggregate with only field 1
(index 2) live records field 0 and the remainder as dying, not field 1. -/
theorem FillInLivenessNode_partial_deaths_witness :
    (∃ deaths, (FillInLivenessNode [pairAggregate] {2} ∅ readRange210).aggDeaths = some deaths ∧
      deaths = {0, 1}) ∧
    ∃ deaths, (FillInLivenessNode [pairAggregate] {2} ∅ readRange210).aggDeaths = some deaths ∧
      (0 ∈ deaths ↔ m_structLclToTrackedIndex [pairAggregate] readRange210.lclNum
        ∉ ({2} : VarSet)) :=
  ⟨⟨_, rfl, by decide⟩,
    (FillInLivenessNode_partial_deaths [pairAggregate] {2} ∅ readRange210 pairAggregate rfl
      (by decide) (by decide) (by decide) (by decide) (by decide)).imp
      fun _ h => ⟨h.1, h.2.2⟩⟩

/-- Where partial-def-is-not-def holds in the annotator: let `r` be replacement `i` of a
tracked aggregate with sorted replacements and let the life set contain the index of `r`.
If the node is a partial-range access (struct-typed `LCL_FLD` or `LCL_ADDR`) whose range
does not contain the byte span of `r`, or a non-struct access that does not start at
`r.Offset`, then the node-level `FillInLiveness` leaves the index of `r` in `life`. The
only path left out is a non-struct access that starts at `r.Offset`. -/
theorem FillInLivenessNode_partial_def_keeps (m_aggregates : List AggregateInfo)
    (life volatileVars : VarSet) (lcl : GenTreeLclVarCommon) (agg : AggregateInfo)
    (i : Nat) (rep : Replacement)
    (hl : Lookup m_aggregates lcl.lclNum = some agg)
    (hsorted : agg.Replacements.Pairwise (fun r1 r2 => r1.Offset < r2.Offset))
    (hi : agg.Replacements.get? i = some rep)
    (hlive : m_structLclToTrackedIndex m_aggregates lcl.lclNum + 1 + i ∈ life)
    (hcase :
      ((lcl.gtType = .TYP_STRUCT ∨ lcl.gtOper = .GT_LCL_ADDR) ∧ lcl.OperIsScalarLocal = false ∧
        ¬ (lcl.lclOffs ≤ rep.Offset ∧
          lcl.lclOffs + GetSizeOfStructLocal lcl ≥ rep.Offset + genTypeSize rep.AccessType)) ∨
      (lcl.gtType ≠ .TYP_STRUCT ∧ lcl.gtOper ≠ .GT_LCL_ADDR ∧ lcl.lclOffs ≠ rep.Offset)) :
    m_structLclToTrackedIndex m_aggregates lcl.lclNum + 1 + i
      ∈ (FillInLivenessNode m_aggregates life volatileVars lcl).life := by
  rcases hcase with ⟨hp, hns, hncover⟩ | ⟨ht, ho, hoffs⟩
  · rw [FillInLivenessNode_partial_eq m_aggregates life volatileVars lcl agg hl hp hns]
    simp only
    rw [FillRemainder_eq, FillStep_mem_life]
    left
    refine ⟨?_, fun hc => by omega⟩
    apply FillOverlapLoop_keeps _ _ _ _ _ _ _ _ _ _ hlive
    right
    intro j r hj hx hc
    rw [get?_drop_add] at hj
    have e : OverlapStartIndex agg.Replacements lcl.lclOffs (GetSizeOfStructLocal lcl) + j
        = i := by omega
    rw [e, hi] at hj
    cases hj
    exact hncover ⟨hc.2.1, hc.2.2⟩
  · obtain ⟨idx, f, hidx, hfill, _⟩ :=
      FillInLivenessNode_scalar_eq m_aggregates life volatileVars lcl agg hl ht ho
    rw [hfill, FillScalar_mem_life]
    left
    refine ⟨hlive, ?_⟩
    rintro ⟨hx, _, _⟩
    unfold SimpleScalarIndex at hidx
    rw [hl] at hidx
    have hnot : ¬ (lcl.gtType = .TYP_STRUCT ∨ lcl.gtOper = .GT_LCL_ADDR) := by
      rintro (h | h)
      · exact ht h
      · exact ho h
    simp only [if_neg hnot] at hidx
    rcases BinarySearch_spec Replacement.Offset agg.Replacements lcl.lclOffs hsorted with
      ⟨h0, e, he, hfe⟩ | ⟨hneg, _⟩
    · rw [if_neg (by omega)] at hidx
      cases hidx
      have hie : (BinarySearch Replacement.Offset agg.Replacements lcl.lclOffs).toNat = i := by
        omega
      rw [hie, hi] at he
      cases he
      exact hoffs hfe.symm
    · rw [if_pos hneg] at hidx
      cases hidx
      omega

/-- The struct-typed write of bytes `[0, 10)` of the example aggregate covers only half of
field 1: with all three indices live it removes the remainder and field 0 from `life` and
leaves field 1 (index 2) in it. -/
theorem FillInLivenessNode_partial_def_keeps_witness :
    (FillInLivenessNode [pairAggregate] {0, 1, 2} ∅ writeRange010).life = {2} ∧
    m_structLclToTrackedIndex [pairAggregate] writeRange010.lclNum + 1 + 1
      ∈ (FillInLivenessNode [pairAggregate] {0, 1, 2} ∅ writeRange010).life :=
  ⟨by decide,
    FillInLivenessNode_partial_def_keeps [pairAggregate] {0, 1, 2} ∅ writeRange010
      pairAggregate 1 { Offset := 8, AccessType := .TYP_INT, LclNum := 2 } rfl (by decide) rfl
      (by decide) (Or.inl ⟨by decide, by decide, by decide⟩)⟩

/-! ## The backward annotator: the walk of a block -/

theorem SetDeath_self (lcl : GenTreeLclVarCommon) : SetDeath lcl lcl.GTF_VAR_DEATH = lcl := by
  cases lcl
  rfl

/-- The node after the node-level `FillInLiveness` differs from the node before at most in
its death flag. -/
theorem FillInLivenessNode_lcl (m_aggregates : List AggregateInfo) (life volatileVars : VarSet)
    (lcl : GenTreeLclVarCommon) :
    ∃ death, (FillInLivenessNode m_aggregates life volatileVars lcl).lcl = SetDeath lcl death := by
  cases hl : Lookup m_aggregates lcl.lclNum with
  | none =>
    refine ⟨lcl.GTF_VAR_DEATH, ?_⟩
    unfold FillInLivenessNode
    rw [hl, SetDeath_self]
  | some agg =>
    by_cases hp : lcl.gtType = .TYP_STRUCT ∨ lcl.gtOper = .GT_LCL_ADDR
    · refine ⟨lcl.GTF_VAR_DEATH, ?_⟩
      rw [SetDeath_self]
      cases hs : lcl.OperIsScalarLocal with
      | true => rw [FillInLivenessNode_whole_eq m_aggregates life volatileVars lcl agg hl hp hs]
      | false => rw [FillInLivenessNode_partial_eq m_aggregates life volatileVars lcl agg hl hp hs]
    · obtain ⟨idx, f, _, hfill, _⟩ := FillInLivenessNode_scalar_eq m_aggregates life
        volatileVars lcl agg hl (fun h => hp (Or.inl h)) (fun h => hp (Or.inr h))
      rw [hfill, FillScalar_lcl]
      exact ⟨_, rfl⟩

/-- The node-level `FillInLiveness` keeps the volatile indices live, gives no death flag to
a simple scalar access of a volatile index and sets no side-table bit for one. -/
theorem FillInLivenessNode_volatile (m_aggregates : List AggregateInfo)
    (life volatileVars : VarSet) (lcl : GenTreeLclVarCommon) (h : volatileVars ⊆ life) :
    volatileVars ⊆ (FillInLivenessNode m_aggregates life volatileVars lcl).life ∧
    (∀ idx, SimpleScalarIndex m_aggregates lcl = some idx → idx ∈ volatileVars →
      (FillInLivenessNode m_aggregates life volatileVars lcl).lcl.GTF_VAR_DEATH = false) ∧
    (∀ deaths, (FillInLivenessNode m_aggregates life volatileVars lcl).aggDeaths = some deaths →
      ∀ bit ∈ deaths, m_structLclToTrackedIndex m_aggregates lcl.lclNum + bit ∉ volatileVars) := by
  have hK : VolatileKept volatileVars (m_structLclToTrackedIndex m_aggregates lcl.lclNum)
      (life, ∅) := ⟨h, fun bit hb => by simp at hb⟩
  cases hl : Lookup m_aggregates lcl.lclNum with
  | none =>
    have e1 : SimpleScalarIndex m_aggregates lcl = none := by
      unfold SimpleScalarIndex
      rw [hl]
    have e2 : FillInLivenessNode m_aggregates life volatileVars lcl
        = { life := life, lcl := lcl, aggDeaths := none } := by
      unfold FillInLivenessNode
      rw [hl]
    rw [e1, e2]
    refine ⟨h, ?_, ?_⟩
    · intro idx hi
      cases hi
    · intro d hd
      cases hd
  | some agg =>
    by_cases hp : lcl.gtType = .TYP_STRUCT ∨ lcl.gtOper = .GT_LCL_ADDR
    · have hnone : SimpleScalarIndex m_aggregates lcl = none := by
        unfold SimpleScalarIndex
        rw [hl]
        simp only [if_pos hp]
      cases hs : lcl.OperIsScalarLocal with
      | true =>
        rw [FillInLivenessNode_whole_eq m_aggregates life volatileVars lcl agg hl hp hs]
        have := FillAllLoop_volatileKept (m_structLclToTrackedIndex m_aggregates lcl.lclNum)
          (!lcl.GTF_VAR_DEF) lcl.GTF_VAR_DEF volatileVars
          (List.range (agg.Replacements.length + 1)) (life, ∅) hK
        refine ⟨this.1, ?_, ?_⟩
        · intro idx hi
          rw [hnone] at hi
          cases hi
        intro d hd
        simp only [Option.some.injEq] at hd
        subst hd
        exact this.2
      | false =>
        rw [FillInLivenessNode_partial_eq m_aggregates life volatileVars lcl agg hl hp hs]
        have h1 := FillOverlapLoop_volatileKept
          (m_structLclToTrackedIndex m_aggregates lcl.lclNum) lcl.lclOffs
          (GetSizeOfStructLocal lcl) (!lcl.GTF_VAR_DEF) lcl.GTF_VAR_DEF volatileVars
          (agg.Replacements.drop
            (OverlapStartIndex agg.Replacements lcl.lclOffs (GetSizeOfStructLocal lcl)))
          (OverlapStartIndex agg.Replacements lcl.lclOffs (GetSizeOfStructLocal lcl))
          (life, ∅) hK
        have h2 := FillStep_volatileKept (m_structLclToTrackedIndex m_aggregates lcl.lclNum) 0
          (!lcl.GTF_VAR_DEF && SegmentListIntersects agg.Unpromoted
            { Start := lcl.lclOffs, End := lcl.lclOffs + GetSizeOfStructLocal lcl })
          (lcl.GTF_VAR_DEF && decide (agg.UnpromotedMin ≥ lcl.lclOffs) &&
            decide (agg.UnpromotedMax ≤ lcl.lclOffs + GetSizeOfStructLocal lcl))
          volatileVars _ h1
        rw [Nat.add_zero, ← FillRemainder_eq] at h2
        refine ⟨h2.1, ?_, ?_⟩
        · intro idx hi
          rw [hnone] at hi
          cases hi
        intro d hd
        simp only [Option.some.injEq] at hd
        subst hd
        exact h2.2
    · obtain ⟨idx, f, hidx, hfill, _⟩ := FillInLivenessNode_scalar_eq m_aggregates life
        volatileVars lcl agg hl (fun h => hp (Or.inl h)) (fun h => hp (Or.inr h))
      rw [hfill]
      refine ⟨?_, ?_, ?_⟩
      · intro x hx
        rw [FillScalar_mem_life]
        left
        exact ⟨h hx, fun hc => hc.2.2 (hc.1 ▸ hx)⟩
      · intro idx' hi hv
        rw [hidx] at hi
        cases hi
        cases hd : (FillScalar idx (!lcl.GTF_VAR_DEF) f life volatileVars lcl).lcl.GTF_VAR_DEATH
          with
        | false => rfl
        | true => exact absurd (h hv) ((FillScalar_death _ _ _ _ _ _).mp hd)
      · intro d hd
        rw [FillScalar_aggDeaths] at hd
        cases hd

theorem SimpleScalarIndex_SetDeath (m_aggregates : List AggregateInfo)
    (lcl : GenTreeLclVarCommon) (death : Bool) :
    SimpleScalarIndex m_aggregates (SetDeath lcl death) = SimpleScalarIndex m_aggregates lcl :=
  rfl

/-- The walk over the nodes of a statement keeps the volatile indices live, and every
processed node respects the volatile set. -/
theorem FillInLivenessTreeList_volatile (m_aggregates : List AggregateInfo) (skipDefs : Bool)
    (volatileVars : VarSet) (l : List GenTreeLclVarCommon) (life : VarSet)
    (h : volatileVars ⊆ life) :
    volatileVars ⊆ (FillInLivenessTreeList m_aggregates skipDefs volatileVars l life).1 ∧
    ∀ n ∈ (FillInLivenessTreeList m_aggregates skipDefs volatileVars l life).2,
      n.processed = true → RespectsVolatile m_aggregates volatileVars n := by
  induction l generalizing life with
  | nil => exact ⟨h, fun n hn => by cases hn⟩
  | cons cur prev ih =>
    unfold FillInLivenessTreeList
    split
    · obtain ⟨h1, h2⟩ := ih life h
      refine ⟨h1, ?_⟩
      intro n hn hp
      rcases List.mem_cons.mp hn with he | he
      · subst he
        cases hp
      · exact h2 n he hp
    · obtain ⟨hv1, hv2, hv3⟩ := FillInLivenessNode_volatile m_aggregates life volatileVars cur h
      obtain ⟨h1, h2⟩ := ih _ hv1
      refine ⟨h1, ?_⟩
      intro n hn hp
      rcases List.mem_cons.mp hn with he | he
      · subst he
        obtain ⟨death, hd⟩ := FillInLivenessNode_lcl m_aggregates life volatileVars cur
        refine ⟨h, hv1, ?_, ?_⟩
        · intro idx hi hv
          simp only at hi ⊢
          rw [hd, SimpleScalarIndex_SetDeath] at hi
          exact hv2 idx hi hv
        · intro d hdd bit hb
          simp only at hdd ⊢
          rw [hd]
          exact hv3 d hdd bit hb
      · exact h2 n he hp

theorem FillInLivenessStmts_volatile (m_aggregates : List AggregateInfo) (compQmarkUsed : Bool)
    (volatileVars : VarSet) (stmts : List Statement) (life : VarSet)
    (h : volatileVars ⊆ life) :
    volatileVars ⊆ (FillInLivenessStmts m_aggregates compQmarkUsed volatileVars stmts life).1 ∧
    ∀ a ∈ (FillInLivenessStmts m_aggregates compQmarkUsed volatileVars stmts life).2,
      ∀ n ∈ a.Nodes, n.processed = true → RespectsVolatile m_aggregates volatileVars n := by
  induction stmts generalizing life with
  | nil => exact ⟨h, fun a ha => by cases ha⟩
  | cons stmt prev ih =>
    unfold FillInLivenessStmts
    obtain ⟨h1, h2⟩ := FillInLivenessTreeList_volatile m_aggregates
      (compQmarkUsed && stmt.TopLevelQmark) volatileVars stmt.LocalsTreeList.reverse life h
    obtain ⟨h3, h4⟩ := ih (FillInLivenessStmt m_aggregates compQmarkUsed volatileVars stmt life).1
      h1
    refine ⟨h3, ?_⟩
    intro a ha n hn hp
    rcases List.mem_cons.mp ha with he | he
    · subst he
      exact h2 n (List.mem_reverse.mp hn) hp
    · exact h4 a he n hn hp

theorem VolatileVars_eq (G : FlowGraph) (st : LivenessState) (block : Nat) :
    VolatileVars G st.m_bbInfo block = HandlerLive G (LiveInOf st) block := by
  unfold VolatileVars HandlerLive AddHandlerLiveVars
  split
  · have := foldl_UnionD (LiveInOf st) (G.EHSuccs block) ∅
    simp only [LiveInOf] at this
    simp only [BitVecOps.ClearD, LiveInOf, this, Finset.empty_union]
  · rfl

/-- Claim C17. Handler-live variables never die: after the fixpoint (under its DFS-order
preconditions), in the backward walk of a block `b` of the post-order list the volatile set
is the union of `LiveIn(h)` over the exception-handler successors `h` of `b`, and for every
processed node every volatile index is in `life` before and after the node, a simple
scalar access of a volatile index does not get the death flag, and no bit of the stored
side-table entry stands for a volatile index, whatever the block contains. -/
theorem FillInLivenessBlock_volatile (m_aggregates : List AggregateInfo) (comp : Compiler)
    (st st' : LivenessState) (fuel passes block : Nat)
    (hnd : comp.m_dfsTree.PostOrder.Nodup)
    (hcyc : comp.m_dfsTree.HasCycle = false → SuccsPrecede comp.m_dfsTree)
    (hrun : InterBlockLiveness comp.m_dfsTree fuel st = some (passes, st'))
    (hb : block ∈ comp.m_dfsTree.PostOrder) :
    VolatileVars comp.m_dfsTree st'.m_bbInfo block
      = HandlerLive comp.m_dfsTree (LiveInOf st') block ∧
    ∀ a ∈ (FillInLivenessBlock m_aggregates comp st'.m_bbInfo block).2, ∀ n ∈ a.Nodes,
      n.processed = true →
        HandlerLive comp.m_dfsTree (LiveInOf st') block ⊆ n.lifeBefore ∧
        HandlerLive comp.m_dfsTree (LiveInOf st') block ⊆ n.lifeAfter ∧
        (∀ idx, SimpleScalarIndex m_aggregates n.lcl = some idx →
          idx ∈ HandlerLive comp.m_dfsTree (LiveInOf st') block →
          n.lcl.GTF_VAR_DEATH = false) ∧
        (∀ deaths, n.aggDeaths = some deaths → ∀ bit ∈ deaths,
          m_structLclToTrackedIndex m_aggregates n.lcl.lclNum + bit
            ∉ HandlerLive comp.m_dfsTree (LiveInOf st') block) := by
  have hV := VolatileVars_eq comp.m_dfsTree st' block
  refine ⟨hV, ?_⟩
  have hE := InterBlockLiveness_equations comp.m_dfsTree st hnd hcyc fuel passes st' hrun
    block hb
  have hsub : VolatileVars comp.m_dfsTree st'.m_bbInfo block ⊆ (st'.m_bbInfo block).LiveOut := by
    rw [hV, hE.1]
    exact Finset.subset_union_right
  intro a ha n hn hp
  unfold FillInLivenessBlock at ha
  cases hstm : comp.Statements block with
  | nil =>
    rw [hstm] at ha
    cases ha
  | cons first more =>
    rw [hstm] at ha
    simp only at ha
    have := (FillInLivenessStmts_volatile m_aggregates comp.compQmarkUsed
      (VolatileVars comp.m_dfsTree st'.m_bbInfo block) (first :: more).reverse
      (st'.m_bbInfo block).LiveOut hsub).2 a (List.mem_reverse.mp ha) n hn hp
    unfold RespectsVolatile at this
    rw [hV] at this
    exact this

/-- In the loop method block `2` writes field 1 (index 2) under the handler `4` that reads
it: the volatile set is `{2}`, the write does not get the death flag and index 2 stays in
`life` after it. -/
theorem FillInLivenessBlock_volatile_witness :
    ∃ st', InterBlockLiveness loopCompiler.m_dfsTree 3 loopState = some (3, st') ∧
      VolatileVars loopCompiler.m_dfsTree st'.m_bbInfo 2 = {2} ∧
      ((FillInLivenessBlock [pairAggregate] loopCompiler st'.m_bbInfo 2).2.map
        (fun a => a.Nodes.map (fun n => (n.lcl.GTF_VAR_DEF, n.lcl.GTF_VAR_DEATH))))
        = [[(true, false)]] ∧
      (FillInLivenessBlock [pairAggregate] loopCompiler st'.m_bbInfo 2).1 = {1, 2} ∧
      ∀ a ∈ (FillInLivenessBlock [pairAggregate] loopCompiler st'.m_bbInfo 2).2,
        ∀ n ∈ a.Nodes, n.processed = true →
          HandlerLive loopCompiler.m_dfsTree (LiveInOf st') 2 ⊆ n.lifeAfter :=
  ⟨_, rfl, by decide, by decide, by decide, fun a ha n hn hp =>
    ((FillInLivenessBlock_volatile [pairAggregate] loopCompiler loopState _ 3 3 2 (by decide)
      (fun h => absurd h (by decide)) rfl (by decide)).2 a ha n hn hp).2.1⟩

/-! ## Running the analysis again -/

theorem FillInLivenessNode_untracked_eq (m_aggregates : List AggregateInfo)
    (life volatileVars : VarSet) (lcl : GenTreeLclVarCommon)
    (hl : Lookup m_aggregates lcl.lclNum = none) :
    FillInLivenessNode m_aggregates life volatileVars lcl
      = { life := life, lcl := lcl, aggDeaths := none } := by
  unfold FillInLivenessNode
  rw [hl]

/-- The simple scalar branch of the node-level `FillInLiveness`, with its index and its
full-definition test spelled out. -/
theorem FillInLivenessNode_scalar_eq2 (m_aggregates : List AggregateInfo)
    (life volatileVars : VarSet) (lcl : GenTreeLclVarCommon) (agg : AggregateInfo)
    (hl : Lookup m_aggregates lcl.lclNum = some agg)
    (hnot : ¬ (lcl.gtType = .TYP_STRUCT ∨ lcl.gtOper = .GT_LCL_ADDR)) :
    FillInLivenessNode m_aggregates life volatileVars lcl =
      if BinarySearch Replacement.Offset agg.Replacements lcl.lclOffs < 0 then
        FillScalar (m_structLclToTrackedIndex m_aggregates lcl.lclNum) (!lcl.GTF_VAR_DEF)
          (lcl.GTF_VAR_DEF && decide (agg.UnpromotedMin ≥ lcl.lclOffs) &&
            decide (agg.UnpromotedMax ≤ lcl.lclOffs + genTypeSize lcl.gtType))
          life volatileVars lcl
      else
        FillScalar (m_structLclToTrackedIndex m_aggregates lcl.lclNum + 1 +
            (BinarySearch Replacement.Offset agg.Replacements lcl.lclOffs).toNat)
          (!lcl.GTF_VAR_DEF) lcl.GTF_VAR_DEF life volatileVars lcl := by
  unfold FillInLivenessNode
  rw [hl]
  simp only [if_neg hnot]

theorem FillScalar_life_indep (varIndex : Nat) (isUse isFullDef : Bool)
    (life volatileVars : VarSet) (l1 l2 : GenTreeLclVarCommon) :
    (FillScalar varIndex isUse isFullDef life volatileVars l1).life
      = (FillScalar varIndex isUse isFullDef life volatileVars l2).life := by
  unfold FillScalar
  split <;> split <;> rfl

theorem NodeLiveness_ext (a b : NodeLiveness) (h1 : a.life = b.life) (h2 : a.lcl = b.lcl)
    (h3 : a.aggDeaths = b.aggDeaths) : a = b := by
  cases a
  cases b
  simp only at h1 h2 h3
  subst h1 h2 h3
  rfl

/-- The node-level `FillInLiveness` does not read the death flag: on the node with any
other flag it leaves the same `life` and the same side-table entry, and the same node
whenever it writes the flag (simple scalar access of a tracked aggregate). -/
theorem FillInLivenessNode_SetDeath (m_aggregates : List AggregateInfo)
    (life volatileVars : VarSet) (lcl : GenTreeLclVarCommon) (death : Bool) :
    (FillInLivenessNode m_aggregates life volatileVars (SetDeath lcl death)).life
      = (FillInLivenessNode m_aggregates life volatileVars lcl).life ∧
    (FillInLivenessNode m_aggregates life volatileVars (SetDeath lcl death)).aggDeaths
      = (FillInLivenessNode m_aggregates life volatileVars lcl).aggDeaths ∧
    (FillInLivenessNode m_aggregates life volatileVars (SetDeath lcl death)).lcl
      = if (SimpleScalarIndex m_aggregates lcl).isSome
        then (FillInLivenessNode m_aggregates life volatileVars lcl).lcl
        else SetDeath lcl death := by
  cases hl : Lookup m_aggregates lcl.lclNum with
  | none =>
    have hnone : SimpleScalarIndex m_aggregates lcl = none := by
      unfold SimpleScalarIndex
      rw [hl]
    rw [FillInLivenessNode_untracked_eq m_aggregates life volatileVars lcl hl,
      FillInLivenessNode_untracked_eq m_aggregates life volatileVars (SetDeath lcl death) hl,
      hnone]
    exact ⟨rfl, rfl, rfl⟩
  | some agg =>
    by_cases hp : lcl.gtType = .TYP_STRUCT ∨ lcl.gtOper = .GT_LCL_ADDR
    · have hnone : SimpleScalarIndex m_aggregates lcl = none := by
        unfold SimpleScalarIndex
        rw [hl]
        simp only [if_pos hp]
      rw [hnone]
      cases hs : lcl.OperIsScalarLocal with
      | true =>
        rw [FillInLivenessNode_whole_eq m_aggregates life volatileVars lcl agg hl hp hs,
          FillInLivenessNode_whole_eq m_aggregates life volatileVars (SetDeath lcl death) agg
            hl hp hs]
        exact ⟨rfl, rfl, rfl⟩
      | false =>
        rw [FillInLivenessNode_partial_eq m_aggregates life volatileVars lcl agg hl hp hs,
          FillInLivenessNode_partial_eq m_aggregates life volatileVars (SetDeath lcl death) agg
            hl hp hs]
        exact ⟨rfl, rfl, rfl⟩
    · have hsome : (SimpleScalarIndex m_aggregates lcl).isSome = true := by
        unfold SimpleScalarIndex
        rw [hl]
        simp only [if_neg hp]
        split <;> rfl
      rw [hsome, if_pos rfl]
      have e1 := FillInLivenessNode_scalar_eq2 m_aggregates life volatileVars lcl agg hl hp
      have e2 : FillInLivenessNode m_aggregates life volatileVars (SetDeath lcl death) =
          if BinarySearch Replacement.Offset agg.Replacements lcl.lclOffs < 0 then
            FillScalar (m_structLclToTrackedIndex m_aggregates lcl.lclNum) (!lcl.GTF_VAR_DEF)
              (lcl.GTF_VAR_DEF && decide (agg.UnpromotedMin ≥ lcl.lclOffs) &&
                decide (agg.UnpromotedMax ≤ lcl.lclOffs + genTypeSize lcl.gtType))
              life volatileVars (SetDeath lcl death)
          else
            FillScalar (m_structLclToTrackedIndex m_aggregates lcl.lclNum + 1 +
                (BinarySearch Replacement.Offset agg.Replacements lcl.lclOffs).toNat)
              (!lcl.GTF_VAR_DEF) lcl.GTF_VAR_DEF life volatileVars (SetDeath lcl death) :=
        FillInLivenessNode_scalar_eq2 m_aggregates life volatileVars (SetDeath lcl death) agg
          hl hp
      rw [e1, e2]
      split
      · refine ⟨FillScalar_life_indep _ _ _ _ _ _ _, ?_, ?_⟩
        · rw [FillScalar_aggDeaths, FillScalar_aggDeaths]
        · rw [FillScalar_lcl, FillScalar_lcl]
          rfl
      · refine ⟨FillScalar_life_indep _ _ _ _ _ _ _, ?_, ?_⟩
        · rw [FillScalar_aggDeaths, FillScalar_aggDeaths]
        · rw [FillScalar_lcl, FillScalar_lcl]
          rfl

/-- Processing again the node that the node-level `FillInLiveness` left behind gives the
same result. -/
theorem FillInLivenessNode_idem (m_aggregates : List AggregateInfo)
    (life volatileVars : VarSet) (lcl : GenTreeLclVarCommon) :
    FillInLivenessNode m_aggregates life volatileVars
        (FillInLivenessNode m_aggregates life volatileVars lcl).lcl
      = FillInLivenessNode m_aggregates life volatileVars lcl := by
  obtain ⟨death, hd⟩ := FillInLivenessNode_lcl m_aggregates life volatileVars lcl
  obtain ⟨h1, h2, h3⟩ := FillInLivenessNode_SetDeath m_aggregates life volatileVars lcl death
  rw [hd]
  apply NodeLiveness_ext _ _ h1 _ h2
  rw [h3]
  split
  · rfl
  · exact hd.symm

theorem FillInLivenessTreeList_idem (m_aggregates : List AggregateInfo) (skipDefs : Bool)
    (volatileVars : VarSet) (l : List GenTreeLclVarCommon) (life : VarSet) :
    FillInLivenessTreeList m_aggregates skipDefs volatileVars
        ((FillInLivenessTreeList m_aggregates skipDefs volatileVars l life).2.map
          (fun n => n.lcl)) life
      = FillInLivenessTreeList m_aggregates skipDefs volatileVars l life := by
  induction l generalizing life with
  | nil => rfl
  | cons cur prev ih =>
    by_cases hc : (skipDefs && cur.GTF_VAR_DEF) = true
    · have e : FillInLivenessTreeList m_aggregates skipDefs volatileVars (cur :: prev) life
          = ((FillInLivenessTreeList m_aggregates skipDefs volatileVars prev life).1,
              { lcl := cur, aggDeaths := none, processed := false,
                lifeBefore := life, lifeAfter := life }
                :: (FillInLivenessTreeList m_aggregates skipDefs volatileVars prev life).2) := by
        rw [FillInLivenessTreeList]
        simp only [hc, if_true]
      rw [e]
      simp only [List.map_cons]
      rw [FillInLivenessTreeList]
      simp only [hc, if_true, ih]
    · have e : FillInLivenessTreeList m_aggregates skipDefs volatileVars (cur :: prev) life
          = ((FillInLivenessTreeList m_aggregates skipDefs volatileVars prev
                (FillInLivenessNode m_aggregates life volatileVars cur).life).1,
              { lcl := (FillInLivenessNode m_aggregates life volatileVars cur).lcl,
                aggDeaths := (FillInLivenessNode m_aggregates life volatileVars cur).aggDeaths,
                processed := true, lifeBefore := life,
                lifeAfter := (FillInLivenessNode m_aggregates life volatileVars cur).life }
                :: (FillInLivenessTreeList m_aggregates skipDefs volatileVars prev
                    (FillInLivenessNode m_aggregates life volatileVars cur).life).2) := by
        rw [FillInLivenessTreeList]
        simp only [hc, Bool.false_eq_true, if_false]
      rw [e]
      simp only [List.map_cons]
      obtain ⟨death, hd⟩ := FillInLivenessNode_lcl m_aggregates life volatileVars cur
      have hc' : ¬ (skipDefs &&
          (FillInLivenessNode m_aggregates life volatileVars cur).lcl.GTF_VAR_DEF) = true := by
        rw [hd]
        exact hc
      rw [FillInLivenessTreeList]
      simp only [hc', Bool.false_eq_true, if_false, FillInLivenessNode_idem, ih]

theorem FillInLivenessStmt_idem (m_aggregates : List AggregateInfo) (compQmarkUsed : Bool)
    (volatileVars : VarSet) (stmt : Statement) (life : VarSet) :
    FillInLivenessStmt m_aggregates compQmarkUsed volatileVars
        (FillInLivenessStmt m_aggregates compQmarkUsed volatileVars stmt life).2.toStatement life
      = FillInLivenessStmt m_aggregates compQmarkUsed volatileVars stmt life := by
  unfold FillInLivenessStmt AnnotatedStatement.toStatement
  simp only [List.map_reverse, List.reverse_reverse, FillInLivenessTreeList_idem]

theorem FillInLivenessStmts_idem (m_aggregates : List AggregateInfo) (compQmarkUsed : Bool)
    (volatileVars : VarSet) (stmts : List Statement) (life : VarSet) :
    FillInLivenessStmts m_aggregates compQmarkUsed volatileVars
        ((FillInLivenessStmts m_aggregates compQmarkUsed volatileVars stmts life).2.map
          AnnotatedStatement.toStatement) life
      = FillInLivenessStmts m_aggregates compQmarkUsed volatileVars stmts life := by
  induction stmts generalizing life with
  | nil => rfl
  | cons stmt prev ih =>
    rw [FillInLivenessStmts]
    simp only [List.map_cons]
    rw [FillInLivenessStmts]
    simp only [FillInLivenessStmt_idem, ih]

theorem FillInLivenessStmts_length (m_aggregates : List AggregateInfo) (compQmarkUsed : Bool)
    (volatileVars : VarSet) (stmts : List Statement) (life : VarSet) :
    (FillInLivenessStmts m_aggregates compQmarkUsed volatileVars stmts life).2.length
      = stmts.length := by
  induction stmts generalizing life with
  | nil => rfl
  | cons stmt prev ih =>
    rw [FillInLivenessStmts]
    simp only [List.length_cons, ih]

/-- Walking a block again, over the statements the first walk left behind, gives the same
records. -/
theorem FillInLivenessBlock_idem (m_aggregates : List AggregateInfo) (comp comp' : Compiler)
    (m_bbInfo : Nat → BasicBlockLiveness) (block : Nat)
    (hq : comp'.compQmarkUsed = comp.compQmarkUsed) (hg : comp'.m_dfsTree = comp.m_dfsTree)
    (hstm : comp'.Statements block
      = (FillInLivenessBlock m_aggregates comp m_bbInfo block).2.map
          AnnotatedStatement.toStatement) :
    FillInLivenessBlock m_aggregates comp' m_bbInfo block
      = FillInLivenessBlock m_aggregates comp m_bbInfo block := by
  cases hs : comp.Statements block with
  | nil =>
    have e : FillInLivenessBlock m_aggregates comp m_bbInfo block = (BitVecOps.MakeEmpty, []) := by
      unfold FillInLivenessBlock
      rw [hs]
    rw [e] at hstm ⊢
    unfold FillInLivenessBlock
    rw [hstm]
    rfl
  | cons first more =>
    have e : FillInLivenessBlock m_aggregates comp m_bbInfo block
        = ((FillInLivenessStmts m_aggregates comp.compQmarkUsed
              (VolatileVars comp.m_dfsTree m_bbInfo block) (first :: more).reverse
              (m_bbInfo block).LiveOut).1,
            (FillInLivenessStmts m_aggregates comp.compQmarkUsed
              (VolatileVars comp.m_dfsTree m_bbInfo block) (first :: more).reverse
              (m_bbInfo block).LiveOut).2.reverse) := by
      unfold FillInLivenessBlock
      rw [hs]
    rw [e] at hstm ⊢
    simp only at hstm
    have hlen := FillInLivenessStmts_length m_aggregates comp.compQmarkUsed
      (VolatileVars comp.m_dfsTree m_bbInfo block) (first :: more).reverse
      (m_bbInfo block).LiveOut
    cases hs' : comp'.Statements block with
    | nil =>
      rw [hs'] at hstm
      have := congrArg List.length hstm
      simp only [List.length_nil, List.length_map, List.length_reverse, hlen,
        List.length_cons] at this
      omega
    | cons first' more' =>
      have hrev : (first' :: more').reverse
          = (FillInLivenessStmts m_aggregates comp.compQmarkUsed
              (VolatileVars comp.m_dfsTree m_bbInfo block) (first :: more).reverse
              (m_bbInfo block).LiveOut).2.map AnnotatedStatement.toStatement := by
        rw [← hs', hstm, ← List.map_reverse, List.reverse_reverse]
      unfold FillInLivenessBlock
      rw [hs']
      simp only
      rw [hrev, hq, hg, FillInLivenessStmts_idem]

theorem foldl_update_apply {B : Type} (F : Nat → B) (l : List Nat) (init : Nat → B) (x : Nat) :
    (l.foldl (fun out b => Function.update out b (F b)) init) x
      = if x ∈ l then F x else init x := by
  induction l generalizing init with
  | nil => simp
  | cons a rest ih =>
    rw [List.foldl_cons, ih]
    by_cases hx : x ∈ rest
    · simp [hx]
    · by_cases hxa : x = a
      · subst hxa
        simp [hx]
      · simp [hx, hxa, Function.update_noteq hxa]

theorem ComputeUseDefSetsStmt_erase (m_aggregates : List AggregateInfo) (compQmarkUsed : Bool)
    (stmt : Statement) (sets : VarSet × VarSet) :
    ComputeUseDefSetsStmt m_aggregates compQmarkUsed (EraseDeaths stmt) sets
      = ComputeUseDefSetsStmt m_aggregates compQmarkUsed stmt sets := by
  unfold ComputeUseDefSetsStmt EraseDeaths
  simp only [List.foldl_map]
  rfl

theorem ComputeUseDefSetsBlock_erase (m_aggregates : List AggregateInfo) (compQmarkUsed : Bool)
    (stmts : List Statement) :
    ComputeUseDefSetsBlock m_aggregates compQmarkUsed (stmts.map EraseDeaths)
      = ComputeUseDefSetsBlock m_aggregates compQmarkUsed stmts := by
  unfold ComputeUseDefSetsBlock
  simp only [List.foldl_map, ComputeUseDefSetsStmt_erase]

theorem FillInLivenessTreeList_erase (m_aggregates : List AggregateInfo) (skipDefs : Bool)
    (volatileVars : VarSet) (l : List GenTreeLclVarCommon) (life : VarSet) :
    (FillInLivenessTreeList m_aggregates skipDefs volatileVars l life).2.map
        (fun n => SetDeath n.lcl false)
      = l.map (fun lcl => SetDeath lcl false) := by
  induction l generalizing life with
  | nil => rfl
  | cons cur prev ih =>
    rw [FillInLivenessTreeList]
    split
    · simp only [List.map_cons, ih]
    · simp only [List.map_cons, ih]
      obtain ⟨death, hd⟩ := FillInLivenessNode_lcl m_aggregates life volatileVars cur
      rw [hd]
      rfl

theorem FillInLivenessStmt_erase (m_aggregates : List AggregateInfo) (compQmarkUsed : Bool)
    (volatileVars : VarSet) (stmt : Statement) (life : VarSet) :
    EraseDeaths (FillInLivenessStmt m_aggregates compQmarkUsed volatileVars stmt life).2.toStatement
      = EraseDeaths stmt := by
  unfold FillInLivenessStmt AnnotatedStatement.toStatement EraseDeaths
  simp only [List.map_map, List.map_reverse]
  have := FillInLivenessTreeList_erase m_aggregates (compQmarkUsed && stmt.TopLevelQmark)
    volatileVars stmt.LocalsTreeList.reverse life
  simp only [List.map_reverse] at this
  have h2 := congrArg List.reverse this
  simp only [List.reverse_reverse] at h2
  rw [← h2]
  simp only [List.map_reverse, Function.comp_def]

theorem FillInLivenessStmts_erase (m_aggregates : List AggregateInfo) (compQmarkUsed : Bool)
    (volatileVars : VarSet) (stmts : List Statement) (life : VarSet) :
    (FillInLivenessStmts m_aggregates compQmarkUsed volatileVars stmts life).2.map
        (fun a => EraseDeaths a.toStatement)
      = stmts.map EraseDeaths := by
  induction stmts generalizing life with
  | nil => rfl
  | cons stmt prev ih =>
    rw [FillInLivenessStmts]
    simp only [List.map_cons, ih, FillInLivenessStmt_erase]

/-- The statements a block walk leaves behind differ from the ones it started from at most
in death flags, so they have the same summary. -/
theorem ComputeUseDefSetsBlock_after (m_aggregates : List AggregateInfo) (comp : Compiler)
    (m_bbInfo : Nat → BasicBlockLiveness) (block : Nat) :
    ComputeUseDefSetsBlock m_aggregates comp.compQmarkUsed
        ((FillInLivenessBlock m_aggregates comp m_bbInfo block).2.map
          AnnotatedStatement.toStatement)
      = ComputeUseDefSetsBlock m_aggregates comp.compQmarkUsed (comp.Statements block) := by
  rw [← ComputeUseDefSetsBlock_erase m_aggregates comp.compQmarkUsed (comp.Statements block),
    ← ComputeUseDefSetsBlock_erase m_aggregates comp.compQmarkUsed
      ((FillInLivenessBlock m_aggregates comp m_bbInfo block).2.map
        AnnotatedStatement.toStatement)]
  congr 1
  unfold FillInLivenessBlock
  cases hs : comp.Statements block with
  | nil => rfl
  | cons first more =>
    simp only [List.map_map, List.map_reverse]
    have := FillInLivenessStmts_erase m_aggregates comp.compQmarkUsed
      (VolatileVars comp.m_dfsTree m_bbInfo block) (first :: more).reverse
      (m_bbInfo block).LiveOut
    have h2 := congrArg List.reverse this
    simp only [List.map_reverse, List.reverse_reverse] at h2
    exact h2

theorem foldl_update_congr {B : Type} (F F' : Nat → B) (l : List Nat) (init : Nat → B)
    (h : ∀ b ∈ l, F b = F' b) :
    l.foldl (fun out b => Function.update out b (F b)) init
      = l.foldl (fun out b => Function.update out b (F' b)) init := by
  funext x
  rw [foldl_update_apply, foldl_update_apply]
  split
  · next hx => exact h x hx
  · rfl

/-- The statements of a block after the block-level `FillInLiveness`: those of its walk for
a block of the method, the untouched ones otherwise. -/
theorem FillInLiveness_apply (m_aggregates : List AggregateInfo) (comp : Compiler)
    (m_bbInfo : Nat → BasicBlockLiveness) (x : Nat) :
    FillInLiveness m_aggregates comp m_bbInfo x
      = if x ∈ comp.Blocks then (FillInLivenessBlock m_aggregates comp m_bbInfo x).2
        else (comp.Statements x).map (fun stmt =>
          { TopLevelQmark := stmt.TopLevelQmark
            Nodes := stmt.LocalsTreeList.map (fun lcl =>
              { lcl := lcl, aggDeaths := none, processed := false,
                lifeBefore := BitVecOps.MakeEmpty, lifeAfter := BitVecOps.MakeEmpty }) }) := by
  unfold FillInLiveness
  rw [foldl_update_apply (fun b => (FillInLivenessBlock m_aggregates comp m_bbInfo b).2)]

theorem toStatement_unprocessed (stmts : List Statement) :
    (stmts.map (fun stmt : Statement =>
        ({ TopLevelQmark := stmt.TopLevelQmark
           Nodes := stmt.LocalsTreeList.map (fun lcl =>
            { lcl := lcl, aggDeaths := none, processed := false,
              lifeBefore := BitVecOps.MakeEmpty, lifeAfter := BitVecOps.MakeEmpty }) } :
          AnnotatedStatement))).map AnnotatedStatement.toStatement
      = stmts := by
  induction stmts with
  | nil => rfl
  | cons stmt rest ih =>
    rw [List.map_cons, List.map_cons, ih]
    congr 1
    unfold AnnotatedStatement.toStatement
    simp only [List.map_map, Function.comp_def, List.map_id']

/-- The summaries computed from the IR that the block-level `FillInLiveness` left behind
are those computed from the IR it started from. -/
theorem ComputeUseDefSets_after (m_aggregates : List AggregateInfo) (comp : Compiler)
    (r : RunResult) (m_bbInfo init : Nat → BasicBlockLiveness)
    (hr : r.annotated = FillInLiveness m_aggregates comp m_bbInfo) :
    ComputeUseDefSets m_aggregates (comp.after r) init
      = ComputeUseDefSets m_aggregates comp init := by
  unfold ComputeUseDefSets
  apply foldl_update_congr
  intro b hb
  have hb' : b ∈ comp.Blocks := hb
  show ComputeUseDefSetsBlock m_aggregates comp.compQmarkUsed
      ((r.annotated b).map AnnotatedStatement.toStatement) = _
  rw [hr, FillInLiveness_apply, if_pos hb']
  exact ComputeUseDefSetsBlock_after m_aggregates comp m_bbInfo b

/-- The block-level `FillInLiveness` over the IR it left behind, with the same per-block
sets, leaves the same records. -/
theorem FillInLiveness_after (m_aggregates : List AggregateInfo) (comp : Compiler)
    (r : RunResult) (m_bbInfo : Nat → BasicBlockLiveness)
    (hr : r.annotated = FillInLiveness m_aggregates comp m_bbInfo) :
    FillInLiveness m_aggregates (comp.after r) m_bbInfo
      = FillInLiveness m_aggregates comp m_bbInfo := by
  funext x
  have hx : (comp.after r).Statements x
      = (FillInLiveness m_aggregates comp m_bbInfo x).map AnnotatedStatement.toStatement := by
    show (r.annotated x).map AnnotatedStatement.toStatement = _
    rw [hr]
  rw [FillInLiveness_apply m_aggregates (comp.after r)]
  have hb : (comp.after r).Blocks = comp.Blocks := rfl
  rw [hb]
  by_cases hmem : x ∈ comp.Blocks
  · rw [if_pos hmem]
    rw [FillInLiveness_apply, if_pos hmem] at hx ⊢
    rw [FillInLivenessBlock_idem m_aggregates comp (comp.after r) m_bbInfo x rfl rfl hx]
  · rw [if_neg hmem]
    rw [FillInLiveness_apply, if_neg hmem] at hx ⊢
    rw [toStatement_unprocessed] at hx
    rw [hx]

theorem SetDeath_of_erase_eq (c1 c2 : GenTreeLclVarCommon)
    (h : SetDeath c1 false = SetDeath c2 false) : c1 = SetDeath c2 c1.GTF_VAR_DEATH := by
  cases c1
  cases c2
  simp only [SetDeath, GenTreeLclVarCommon.mk.injEq, and_true] at h ⊢
  exact h

theorem SimpleScalarIndex_FillInLivenessNode (m_aggregates : List AggregateInfo)
    (life volatileVars : VarSet) (lcl : GenTreeLclVarCommon) :
    SimpleScalarIndex m_aggregates (FillInLivenessNode m_aggregates life volatileVars lcl).lcl
      = SimpleScalarIndex m_aggregates lcl := by
  obtain ⟨death, hd⟩ := FillInLivenessNode_lcl m_aggregates life volatileVars lcl
  rw [hd]
  rfl

/-- Two nodes that differ at most in the death flag leave the same `life`, and the walk
writes the same death information for them. -/
theorem FillInLivenessNode_erase_indep (m_aggregates : List AggregateInfo)
    (life volatileVars : VarSet) (c1 c2 : GenTreeLclVarCommon)
    (h : SetDeath c1 false = SetDeath c2 false) (before after1 after2 : VarSet) :
    (FillInLivenessNode m_aggregates life volatileVars c1).life
      = (FillInLivenessNode m_aggregates life volatileVars c2).life ∧
    WrittenDeaths m_aggregates
        { lcl := (FillInLivenessNode m_aggregates life volatileVars c1).lcl
          aggDeaths := (FillInLivenessNode m_aggregates life volatileVars c1).aggDeaths
          processed := true, lifeBefore := before, lifeAfter := after1 }
      = WrittenDeaths m_aggregates
        { lcl := (FillInLivenessNode m_aggregates life volatileVars c2).lcl
          aggDeaths := (FillInLivenessNode m_aggregates life volatileVars c2).aggDeaths
          processed := true, lifeBefore := before, lifeAfter := after2 } := by
  have hc := SetDeath_of_erase_eq c1 c2 h
  obtain ⟨h1, h2, h3⟩ :=
    FillInLivenessNode_SetDeath m_aggregates life volatileVars c2 c1.GTF_VAR_DEATH
  rw [← hc] at h1 h2 h3
  refine ⟨h1, ?_⟩
  have hs1 := SimpleScalarIndex_FillInLivenessNode m_aggregates life volatileVars c1
  have hs2 := SimpleScalarIndex_FillInLivenessNode m_aggregates life volatileVars c2
  have hs : SimpleScalarIndex m_aggregates c1 = SimpleScalarIndex m_aggregates c2 := by
    rw [hc]
    rfl
  unfold WrittenDeaths
  simp only [Bool.true_and, hs1, hs2, hs, h2]
  cases hsome : (SimpleScalarIndex m_aggregates c2).isSome with
  | true =>
    rw [hsome, if_pos rfl] at h3
    rw [h3]
  | false => simp

theorem FillInLivenessTreeList_erase_indep (m_aggregates : List AggregateInfo)
    (skipDefs : Bool) (volatileVars : VarSet) (l1 l2 : List GenTreeLclVarCommon)
    (h : l1.map (fun lcl => SetDeath lcl false) = l2.map (fun lcl => SetDeath lcl false))
    (life : VarSet) :
    (FillInLivenessTreeList m_aggregates skipDefs volatileVars l1 life).1
      = (FillInLivenessTreeList m_aggregates skipDefs volatileVars l2 life).1 ∧
    (FillInLivenessTreeList m_aggregates skipDefs volatileVars l1 life).2.map
        (WrittenDeaths m_aggregates)
      = (FillInLivenessTreeList m_aggregates skipDefs volatileVars l2 life).2.map
        (WrittenDeaths m_aggregates) := by
  induction l1 generalizing l2 life with
  | nil =>
    cases l2 with
    | nil => exact ⟨rfl, rfl⟩
    | cons c2 p2 => simp at h
  | cons c1 p1 ih =>
    cases l2 with
    | nil => simp at h
    | cons c2 p2 =>
      simp only [List.map_cons, List.cons.injEq] at h
      obtain ⟨hc, hp⟩ := h
      have hdef : c1.GTF_VAR_DEF = c2.GTF_VAR_DEF := by
        have := congrArg GenTreeLclVarCommon.GTF_VAR_DEF hc
        exact this
      rw [FillInLivenessTreeList, FillInLivenessTreeList, hdef]
      split
      · obtain ⟨i1, i2⟩ := ih p2 hp life
        refine ⟨i1, ?_⟩
        simp only [List.map_cons, i2]
        congr 1
      · obtain ⟨n1, n2⟩ := FillInLivenessNode_erase_indep m_aggregates life volatileVars c1 c2
          hc life (FillInLivenessNode m_aggregates life volatileVars c1).life
          (FillInLivenessNode m_aggregates life volatileVars c2).life
        simp only [List.map_cons]
        rw [n1]
        obtain ⟨i1, i2⟩ := ih p2 hp (FillInLivenessNode m_aggregates life volatileVars c2).life
        refine ⟨i1, ?_⟩
        rw [i2, ← n1, n2, n1]

theorem FillInLivenessStmt_erase_indep (m_aggregates : List AggregateInfo)
    (compQmarkUsed : Bool) (volatileVars : VarSet) (s1 s2 : Statement)
    (h : EraseDeaths s1 = EraseDeaths s2) (life : VarSet) :
    (FillInLivenessStmt m_aggregates compQmarkUsed volatileVars s1 life).1
      = (FillInLivenessStmt m_aggregates compQmarkUsed volatileVars s2 life).1 ∧
    (FillInLivenessStmt m_aggregates compQmarkUsed volatileVars s1 life).2.Nodes.map
        (WrittenDeaths m_aggregates)
      = (FillInLivenessStmt m_aggregates compQmarkUsed volatileVars s2 life).2.Nodes.map
        (WrittenDeaths m_aggregates) := by
  unfold EraseDeaths at h
  simp only [Statement.mk.injEq] at h
  obtain ⟨hq, hl⟩ := h
  have hrev : s1.LocalsTreeList.reverse.map (fun lcl => SetDeath lcl false)
      = s2.LocalsTreeList.reverse.map (fun lcl => SetDeath lcl false) := by
    rw [List.map_reverse, List.map_reverse, hl]
  obtain ⟨t1, t2⟩ := FillInLivenessTreeList_erase_indep m_aggregates
    (compQmarkUsed && s2.TopLevelQmark) volatileVars _ _ hrev life
  unfold FillInLivenessStmt
  simp only [hq, List.map_reverse]
  exact ⟨t1, congrArg List.reverse t2⟩

theorem FillInLivenessStmts_erase_indep (m_aggregates : List AggregateInfo)
    (compQmarkUsed : Bool) (volatileVars : VarSet) (l1 l2 : List Statement)
    (h : l1.map EraseDeaths = l2.map EraseDeaths) (life : VarSet) :
    (FillInLivenessStmts m_aggregates compQmarkUsed volatileVars l1 life).1
      = (FillInLivenessStmts m_aggregates compQmarkUsed volatileVars l2 life).1 ∧
    (FillInLivenessStmts m_aggregates compQmarkUsed volatileVars l1 life).2.map
        (fun a => a.Nodes.map (WrittenDeaths m_aggregates))
      = (FillInLivenessStmts m_aggregates compQmarkUsed volatileVars l2 life).2.map
        (fun a => a.Nodes.map (WrittenDeaths m_aggregates)) := by
  induction l1 generalizing l2 life with
  | nil =>
    cases l2 with
    | nil => exact ⟨rfl, rfl⟩
    | cons c2 p2 => simp at h
  | cons c1 p1 ih =>
    cases l2 with
    | nil => simp at h
    | cons c2 p2 =>
      simp only [List.map_cons, List.cons.injEq] at h
      obtain ⟨hc, hp⟩ := h
      obtain ⟨n1, n2⟩ := FillInLivenessStmt_erase_indep m_aggregates compQmarkUsed
        volatileVars c1 c2 hc life
      rw [FillInLivenessStmts, FillInLivenessStmts]
      simp only [List.map_cons]
      rw [n1, n2]
      obtain ⟨i1, i2⟩ := ih p2 hp
        (FillInLivenessStmt m_aggregates compQmarkUsed volatileVars c2 life).1
      exact ⟨i1, by rw [i2]⟩

theorem FillInLivenessBlock_erase_indep (m_aggregates : List AggregateInfo)
    (comp comp2 : Compiler) (hsame : SameUpToDeaths comp comp2)
    (m_bbInfo : Nat → BasicBlockLiveness) (block : Nat) :
    (FillInLivenessBlock m_aggregates comp2 m_bbInfo block).2.map
        (fun a => a.Nodes.map (WrittenDeaths m_aggregates))
      = (FillInLivenessBlock m_aggregates comp m_bbInfo block).2.map
        (fun a => a.Nodes.map (WrittenDeaths m_aggregates)) := by
  obtain ⟨_, hq, hg, hst⟩ := hsame
  have hb := hst block
  unfold FillInLivenessBlock
  cases h2 : comp2.Statements block with
  | nil =>
    cases h1 : comp.Statements block with
    | nil => rfl
    | cons f1 m1 =>
      rw [h1, h2] at hb
      simp at hb
  | cons f2 m2 =>
    cases h1 : comp.Statements block with
    | nil =>
      rw [h1, h2] at hb
      simp at hb
    | cons f1 m1 =>
      rw [h1, h2] at hb
      have hrev : (f2 :: m2).reverse.map EraseDeaths = (f1 :: m1).reverse.map EraseDeaths := by
        rw [List.map_reverse, List.map_reverse, hb]
      obtain ⟨_, i2⟩ := FillInLivenessStmts_erase_indep m_aggregates comp.compQmarkUsed
        (VolatileVars comp.m_dfsTree m_bbInfo block) _ _ hrev (m_bbInfo block).LiveOut
      simp only [hq, hg, List.map_reverse]
      exact congrArg List.reverse i2

theorem unprocessed_written (m_aggregates : List AggregateInfo) (stmts : List Statement) :
    (stmts.map (fun stmt : Statement =>
        ({ TopLevelQmark := stmt.TopLevelQmark
           Nodes := stmt.LocalsTreeList.map (fun lcl =>
            { lcl := lcl, aggDeaths := none, processed := false,
              lifeBefore := BitVecOps.MakeEmpty, lifeAfter := BitVecOps.MakeEmpty }) } :
          AnnotatedStatement))).map (fun a => a.Nodes.map (WrittenDeaths m_aggregates))
      = (stmts.map EraseDeaths).map
          (fun stmt => stmt.LocalsTreeList.map (fun _ => (none, none))) := by
  simp only [List.map_map, Function.comp_def, EraseDeaths, WrittenDeaths, Bool.false_and,
    Bool.false_eq_true, if_false]

theorem FillInLiveness_erase_indep (m_aggregates : List AggregateInfo)
    (comp comp2 : Compiler) (hsame : SameUpToDeaths comp comp2)
    (m_bbInfo : Nat → BasicBlockLiveness) (block : Nat) :
    (FillInLiveness m_aggregates comp2 m_bbInfo block).map
        (fun a => a.Nodes.map (WrittenDeaths m_aggregates))
      = (FillInLiveness m_aggregates comp m_bbInfo block).map
        (fun a => a.Nodes.map (WrittenDeaths m_aggregates)) := by
  rw [FillInLiveness_apply, FillInLiveness_apply, hsame.1]
  by_cases hmem : block ∈ comp.Blocks
  · rw [if_pos hmem, if_pos hmem]
    exact FillInLivenessBlock_erase_indep m_aggregates comp comp2 hsame m_bbInfo block
  · rw [if_neg hmem, if_neg hmem, unprocessed_written, unprocessed_written, hsame.2.2.2 block]

theorem ComputeUseDefSets_erase_indep (m_aggregates : List AggregateInfo)
    (comp comp2 : Compiler) (hsame : SameUpToDeaths comp comp2)
    (init : Nat → BasicBlockLiveness) :
    ComputeUseDefSets m_aggregates comp2 init = ComputeUseDefSets m_aggregates comp init := by
  obtain ⟨hbl, hq, _, hst⟩ := hsame
  unfold ComputeUseDefSets
  rw [hbl, hq]
  apply foldl_update_congr
  intro b _
  rw [← ComputeUseDefSetsBlock_erase m_aggregates comp.compQmarkUsed (comp2.Statements b),
    ← ComputeUseDefSetsBlock_erase m_aggregates comp.compQmarkUsed (comp.Statements b), hst b]

/-- Claim C20. Re-run idempotence: when `Run` returns a result on a method, `Run` on the IR
that it left behind (nothing changed in between) returns that same result, so every node
has the same death flag and the same side-table entry as after the first run; and the
death information `Run` writes does not depend on the death flags the nodes carried
before: `Run` on any method that differs from the first at most in those flags returns
the same per-block sets and, node by node, the same written death flags and side-table
entries. -/
theorem Run_idempotent (m_aggregates : List AggregateInfo) (comp : Compiler) (fuel : Nat)
    (r : RunResult) (h : Run m_aggregates comp fuel = some r) :
    Run m_aggregates (comp.after r) fuel = some r ∧
    ∀ comp2, SameUpToDeaths comp comp2 →
      ∃ r2, Run m_aggregates comp2 fuel = some r2 ∧ r2.state = r.state ∧
        ∀ block, (r2.annotated block).map (fun a => a.Nodes.map (WrittenDeaths m_aggregates))
          = (r.annotated block).map (fun a => a.Nodes.map (WrittenDeaths m_aggregates)) := by
  unfold Run at h
  simp only at h
  cases hp : InterBlockLiveness comp.m_dfsTree fuel
      { m_bbInfo := ComputeUseDefSets m_aggregates comp
          (fun _ => { VarUse := BitVecOps.MakeEmpty, VarDef := BitVecOps.MakeEmpty,
                      LiveIn := BitVecOps.MakeEmpty, LiveOut := BitVecOps.MakeEmpty }),
        m_liveIn := BitVecOps.MakeEmpty, m_ehLiveVars := BitVecOps.MakeEmpty } with
  | none =>
    rw [hp] at h
    cases h
  | some p =>
    rw [hp] at h
    simp only [Option.some.injEq] at h
    have hr : r.annotated = FillInLiveness m_aggregates comp p.2.m_bbInfo := by
      rw [← h]
    constructor
    · unfold Run
      simp only
      rw [ComputeUseDefSets_after m_aggregates comp r p.2.m_bbInfo _ hr]
      have hg : (comp.after r).m_dfsTree = comp.m_dfsTree := rfl
      rw [hg, hp]
      simp only
      rw [FillInLiveness_after m_aggregates comp r p.2.m_bbInfo hr, ← h]
    · intro comp2 hsame
      unfold Run
      simp only
      rw [ComputeUseDefSets_erase_indep m_aggregates comp comp2 hsame, hsame.2.2.1, hp]
      refine ⟨_, rfl, ?_, ?_⟩
      · rw [← h]
      · intro block
        rw [← h]
        exact FillInLiveness_erase_indep m_aggregates comp comp2 hsame p.2.m_bbInfo block

/-- On the loop method the analysis returns after three passes; run again on what it left
behind it returns the same result, and on the method with every death flag set beforehand
it writes the same flags: the writes in blocks `1` and `2` and the read of field 0 inside
the loop (block `3`) are not deaths, the read of field 1 in the handler `4` is. -/
theorem Run_idempotent_witness :
    ∃ r, Run [pairAggregate] loopCompiler 3 = some r ∧
      Run [pairAggregate] (loopCompiler.after r) 3 = some r ∧
      (∃ r2, Run [pairAggregate] staleCompiler 3 = some r2 ∧ r2.state = r.state ∧
        ∀ block, (r2.annotated block).map
            (fun a => a.Nodes.map (WrittenDeaths [pairAggregate]))
          = (r.annotated block).map (fun a => a.Nodes.map (WrittenDeaths [pairAggregate]))) ∧
      [1, 2, 3, 4].map (fun block => (r.annotated block).map
          (fun a => a.Nodes.map (WrittenDeaths [pairAggregate])))
        = [[[(some false, none)]], [[(some false, none)]], [[(some false, none)]],
           [[(some true, none)]]] :=
  ⟨_, rfl, (Run_idempotent [pairAggregate] loopCompiler 3 _ rfl).1,
    (Run_idempotent [pairAggregate] loopCompiler 3 _ rfl).2 staleCompiler
      ⟨rfl, rfl, rfl, fun block => by
        show ((loopCompiler.Statements block).map _).map EraseDeaths = _
        simp only [List.map_map, Function.comp_def, EraseDeaths, SetDeath]
        rfl⟩,
    by decide⟩

/-! ## The query interface: results -/

/-- Claim C21. Liveness queries: for every block `bb`, struct local `v` and replacement
index `i`, `IsReplacementLiveIn(bb, v, i)` is true iff `base(v) + 1 + i` is a member of the
stored `LiveIn(bb)`, `IsReplacementLiveOut(bb, v, i)` is true iff it is a member of the
stored `LiveOut(bb)`, and both leave the object (per-block sets, scratch vectors, annotated
IR with its side-table) exactly as it was. -/
theorem IsReplacementLive_queries (m_aggregates : List AggregateInfo) (this : RunResult)
    (bb v i : Nat) :
    ((IsReplacementLiveIn m_aggregates this bb v i).1 = true ↔
      m_structLclToTrackedIndex m_aggregates v + 1 + i ∈ (this.state.m_bbInfo bb).LiveIn) ∧
    ((IsReplacementLiveOut m_aggregates this bb v i).1 = true ↔
      m_structLclToTrackedIndex m_aggregates v + 1 + i ∈ (this.state.m_bbInfo bb).LiveOut) ∧
    (IsReplacementLiveIn m_aggregates this bb v i).2 = this ∧
    (IsReplacementLiveOut m_aggregates this bb v i).2 = this := by
  refine ⟨?_, ?_, rfl, rfl⟩
  · unfold IsReplacementLiveIn
    simp only [BitVecOps.IsMember, decide_eq_true_eq]
  · unfold IsReplacementLiveOut
    simp only [BitVecOps.IsMember, decide_eq_true_eq]

/-- After the analysis of the loop method, field 0 (replacement 0 of local 0, dense index 1)
is live into block `3`, which reads it, and live out of block `1`, which writes it, and not
live into block `1`. -/
theorem IsReplacementLive_queries_witness :
    ∃ r, Run [pairAggregate] loopCompiler 3 = some r ∧
      (IsReplacementLiveIn [pairAggregate] r 3 0 0).1 = true ∧
      (IsReplacementLiveOut [pairAggregate] r 1 0 0).1 = true ∧
      (IsReplacementLiveIn [pairAggregate] r 1 0 0).1 = false ∧
      (m_structLclToTrackedIndex [pairAggregate] 0 + 1 + 0 ∈ (r.state.m_bbInfo 3).LiveIn) :=
  ⟨_, rfl, by decide, by decide, by decide,
    (IsReplacementLive_queries [pairAggregate] _ 3 0 0).1.mp (by decide)⟩

/-- Claim C22. Remainder query: for every `StructDeaths` value, `IsRemainderDying()` is true
iff the aggregate has no remainder region (`UnpromotedMax ≤ UnpromotedMin`) or bit 0 of the
stored deaths vector is set; with an empty remainder it is true whatever the vector
holds. -/
theorem IsRemainderDying_iff (d : StructDeaths) :
    (d.IsRemainderDying = true ↔
      d.m_aggregate.UnpromotedMax ≤ d.m_aggregate.UnpromotedMin ∨ 0 ∈ d.m_deaths) ∧
    (d.m_aggregate.UnpromotedMax ≤ d.m_aggregate.UnpromotedMin →
      ∀ deaths : VarSet,
        StructDeaths.IsRemainderDying { m_deaths := deaths, m_aggregate := d.m_aggregate }
          = true) := by
  constructor
  · unfold StructDeaths.IsRemainderDying
    by_cases h : d.m_aggregate.UnpromotedMax ≤ d.m_aggregate.UnpromotedMin
    · simp only [h, if_true, true_or]
    · simp only [h, if_false, false_or, BitVecOps.IsMember, decide_eq_true_eq]
  · intro h deaths
    unfold StructDeaths.IsRemainderDying
    simp only [if_pos h]

/-- With the remainder `[4, 8)` of the example aggregate the answer follows bit 0 of the
vector; with the unpromoted bounds collapsed it is true for the empty vector. -/
theorem IsRemainderDying_iff_witness :
    StructDeaths.IsRemainderDying { m_deaths := {0}, m_aggregate := pairAggregate } = true ∧
    StructDeaths.IsRemainderDying { m_deaths := {1, 2}, m_aggregate := pairAggregate }
      = false ∧
    StructDeaths.IsRemainderDying
      { m_deaths := ∅
        m_aggregate :=
          { LclNum := 0, Replacements := pairAggregate.Replacements, Unpromoted := [],
            UnpromotedMin := 0, UnpromotedMax := 0 } } = true :=
  ⟨by decide, by decide,
    (IsRemainderDying_iff
      { m_deaths := {1}
        m_aggregate :=
          { LclNum := 0, Replacements := pairAggregate.Replacements, Unpromoted := [],
            UnpromotedMin := 0, UnpromotedMax := 0 } }).2 (by decide) ∅⟩

/-- Claim C23. Precondition of `GetDeathsForStructLocal`: when the node is struct-typed (or
an `LCL_ADDR` node with the def flag), its local is a tracked aggregate and the side-table
has an entry for it, the call returns the `StructDeaths` made of exactly that entry and the
local's aggregate; in every other case (node never classified as composite, local without
aggregate, or no stored entry) an assertion fails and no value is returned. -/
theorem GetDeathsForStructLocal_precondition (m_aggregates : List AggregateInfo)
    (n : NodeAnnotation) :
    (∀ agg deaths,
      (n.lcl.gtType = .TYP_STRUCT ∨
        (n.lcl.gtOper = .GT_LCL_ADDR ∧ n.lcl.GTF_VAR_DEF = true)) →
      Lookup m_aggregates n.lcl.lclNum = some agg → n.aggDeaths = some deaths →
      GetDeathsForStructLocal m_aggregates n
        = some { m_deaths := deaths, m_aggregate := agg }) ∧
    (GetDeathsForStructLocal m_aggregates n = none ↔
      ¬ (n.lcl.gtType = .TYP_STRUCT ∨
          (n.lcl.gtOper = .GT_LCL_ADDR ∧ n.lcl.GTF_VAR_DEF = true)) ∨
      Lookup m_aggregates n.lcl.lclNum = none ∨ n.aggDeaths = none) := by
  constructor
  · intro agg deaths hc hl hd
    unfold GetDeathsForStructLocal
    rw [hl, hd]
    simp only [Option.isSome_some, and_true, if_pos hc, Option.map_some']
  · unfold GetDeathsForStructLocal
    by_cases hc : n.lcl.gtType = .TYP_STRUCT ∨
        (n.lcl.gtOper = .GT_LCL_ADDR ∧ n.lcl.GTF_VAR_DEF = true)
    · cases hl : Lookup m_aggregates n.lcl.lclNum with
      | none => simp
      | some agg =>
        cases hd : n.aggDeaths with
        | none => simp
        | some deaths => simp [hc]
    · simp [hc]

/-- The whole-variable write of the example aggregate with the entry `{0}` gives the
`StructDeaths` of that entry, whose remainder is dying and whose fields are not; the same
node without an entry, a field read, and a struct node of an untracked local give no
value. -/
theorem GetDeathsForStructLocal_precondition_witness :
    GetDeathsForStructLocal [pairAggregate]
        { lcl := writeWhole, aggDeaths := some {0}, processed := true,
          lifeBefore := {1, 2}, lifeAfter := ∅ }
      = some { m_deaths := {0}, m_aggregate := pairAggregate } ∧
    GetDeathsForStructLocal [pairAggregate]
        { lcl := writeWhole, aggDeaths := none, processed := false,
          lifeBefore := ∅, lifeAfter := ∅ } = none ∧
    GetDeathsForStructLocal [pairAggregate]
        { lcl := readField0, aggDeaths := some {0}, processed := true,
          lifeBefore := ∅, lifeAfter := {1} } = none ∧
    GetDeathsForStructLocal []
        { lcl := writeWhole, aggDeaths := some {0}, processed := true,
          lifeBefore := ∅, lifeAfter := ∅ } = none :=
  ⟨(GetDeathsForStructLocal_precondition [pairAggregate]
      { lcl := writeWhole, aggDeaths := some {0}, processed := true,
        lifeBefore := {1, 2}, lifeAfter := ∅ }).1 pairAggregate {0} (Or.inl rfl) rfl rfl,
    rfl, rfl, rfl⟩

/-- Claim C24. Scenario A end to end: for the aggregate with 4-byte replacements at offsets
0 and 8 and unpromoted bytes `[4, 8)` and a single block without successors whose
instructions are a whole-aggregate struct write, a read of the field at offset 0 and a read
of the field at offset 8, `Run` returns with `VarUse = ∅`, `VarDef = {0, 1, 2}`,
`LiveIn = LiveOut = ∅`; the death flag is set on both reads; the remainder index 0 is in no
life set of the backward walk; and the side-table entry of the write is `{0}`: remainder
bit set, both field bits clear, as the queries on it report. -/
theorem Run_scenarioA (fuel : Nat) :
    ∃ r, Run [pairAggregate] scenarioA (fuel + 1) = some r ∧
      (r.state.m_bbInfo 1).VarUse = ∅ ∧ (r.state.m_bbInfo 1).VarDef = {0, 1, 2} ∧
      (r.state.m_bbInfo 1).LiveIn = ∅ ∧ (r.state.m_bbInfo 1).LiveOut = ∅ ∧
      (r.annotated 1).map (fun a => a.Nodes.map (fun n => n.lcl.GTF_VAR_DEATH))
        = [[false], [true], [true]] ∧
      (r.annotated 1).map (fun a => a.Nodes.map (fun n => (n.lifeBefore, n.lifeAfter)))
        = [[({1, 2}, ∅)], [({2}, {1, 2})], [(∅, {2})]] ∧
      (∀ a ∈ r.annotated 1, ∀ n ∈ a.Nodes, 0 ∉ n.lifeBefore ∧ 0 ∉ n.lifeAfter) ∧
      (r.annotated 1).map (fun a => a.Nodes.map (fun n => n.aggDeaths))
        = [[some {0}], [none], [none]] ∧
      (r.annotated 1).map (fun a => a.Nodes.map (fun n =>
          (GetDeathsForStructLocal [pairAggregate] n).map (fun d =>
            (d.IsRemainderDying, d.IsReplacementDying 0, d.IsReplacementDying 1))))
        = [[some (true, false, false)], [none], [none]] :=
  ⟨_, rfl, by decide, by decide, by decide, by decide, by decide, by decide, by decide,
    by decide, by decide⟩

/-- The closed scenario at the smallest pass budget. -/
theorem Run_scenarioA_witness :
    ∃ r, Run [pairAggregate] scenarioA 1 = some r ∧
      (r.state.m_bbInfo 1).VarDef = {0, 1, 2} ∧
      (r.annotated 1).map (fun a => a.Nodes.map (fun n => n.lcl.GTF_VAR_DEATH))
        = [[false], [true], [true]] :=
  match Run_scenarioA 0 with
  | ⟨r, h, _, hd, _, _, hf, _⟩ => ⟨r, h, hd, hf⟩

/-! ## The dense index map -/

theorem AssignTrackedIndices_snd (l : List AggregateInfo) (table : Nat → Nat) (t : Nat) :
    (AssignTrackedIndices l table t).2
      = t + (l.map (fun a => 1 + a.Replacements.length)).sum := by
  induction l generalizing table t with
  | nil => simp [AssignTrackedIndices]
  | cons a rest ih =>
    rw [AssignTrackedIndices, ih]
    simp only [List.map_cons, List.sum_cons]
    omega

theorem AssignTrackedIndices_fst_other (l : List AggregateInfo) (table : Nat → Nat) (t x : Nat)
    (h : ∀ a ∈ l, a.LclNum ≠ x) : (AssignTrackedIndices l table t).1 x = table x := by
  induction l generalizing table t with
  | nil => rfl
  | cons a rest ih =>
    rw [AssignTrackedIndices, ih _ _ (fun b hb => h b (List.mem_cons_of_mem _ hb))]
    exact Function.update_noteq (Ne.symm (h a (List.mem_cons_self _ _))) _ _

/-- The table entry of an aggregate that no later aggregate of the list overwrites: the
running index at its turn. -/
theorem AssignTrackedIndices_fst (l : List AggregateInfo) (table : Nat → Nat) (t j : Nat)
    (A : AggregateInfo) (hj : l.get? j = some A)
    (hlast : ∀ j' B, j < j' → l.get? j' = some B → B.LclNum ≠ A.LclNum) :
    (AssignTrackedIndices l table t).1 A.LclNum
      = t + ((l.take j).map (fun a => 1 + a.Replacements.length)).sum := by
  induction l generalizing table t j with
  | nil => simp at hj
  | cons a rest ih =>
    cases j with
    | zero =>
      simp only [List.get?_cons_zero, Option.some.injEq] at hj
      subst hj
      rw [AssignTrackedIndices, AssignTrackedIndices_fst_other]
      · simp
      · intro b hb
        obtain ⟨k, hk⟩ := List.get?_of_mem hb
        exact hlast (k + 1) b (Nat.succ_pos k) (by simpa using hk)
    | succ j =>
      simp only [List.get?_cons_succ] at hj
      rw [AssignTrackedIndices, ih _ _ j hj]
      · simp only [List.take_succ_cons, List.map_cons, List.sum_cons]
        omega
      · intro j' B hlt hB
        exact hlast (j' + 1) B (Nat.succ_lt_succ hlt) (by simpa using hB)

theorem sum_take_succ (w : List Nat) (j a : Nat) (h : w.get? j = some a) :
    (w.take (j + 1)).sum = (w.take j).sum + a := by
  induction w generalizing j with
  | nil => simp at h
  | cons b rest ih =>
    cases j with
    | zero =>
      simp only [List.get?_cons_zero, Option.some.injEq] at h
      subst h
      simp
    | succ j =>
      simp only [List.get?_cons_succ] at h
      simp only [List.take_succ_cons, List.sum_cons, ih j h]
      omega

theorem sum_take_mono (w : List Nat) (i j : Nat) (h : i ≤ j) :
    (w.take i).sum ≤ (w.take j).sum := by
  induction w generalizing i j with
  | nil => simp
  | cons b rest ih =>
    cases i with
    | zero => simp
    | succ i =>
      cases j with
      | zero => omega
      | succ j =>
        simp only [List.take_succ_cons, List.sum_cons]
        have := ih i j (by omega)
        omega

theorem sum_take_le_sum (w : List Nat) (j : Nat) : (w.take j).sum ≤ w.sum := by
  by_cases hj : j ≤ w.length
  · have h := sum_take_mono w j w.length hj
    simpa using h
  · rw [List.take_of_length_le (by omega)]

/-- Every index below the total lies in the block of some position. -/
theorem exists_block_of_lt_sum (w : List Nat) (x : Nat) (hx : x < w.sum) :
    ∃ j a, w.get? j = some a ∧ (w.take j).sum ≤ x ∧ x < (w.take j).sum + a := by
  induction w generalizing x with
  | nil => simp at hx
  | cons b rest ih =>
    by_cases hb : x < b
    · exact ⟨0, b, rfl, by simp, by simpa using hb⟩
    · simp only [List.sum_cons] at hx
      obtain ⟨j, a, hj, h1, h2⟩ := ih (x - b) (by omega)
      refine ⟨j + 1, a, by simpa using hj, ?_, ?_⟩
      · simp only [List.take_succ_cons, List.sum_cons]
        omega
      · simp only [List.take_succ_cons, List.sum_cons]
        omega

theorem get?_map_width (l : List AggregateInfo) (j : Nat) (A : AggregateInfo)
    (h : l.get? j = some A) :
    (l.map (fun a => 1 + a.Replacements.length)).get? j = some (1 + A.Replacements.length) := by
  rw [List.get?_eq_getElem?] at h ⊢
  rw [List.getElem?_map, h]
  rfl

theorem nodup_no_later (l : List AggregateInfo) (hd : (l.map AggregateInfo.LclNum).Nodup)
    (j j' : Nat) (A B : AggregateInfo) (hlt : j < j') (hA : l.get? j = some A)
    (hB : l.get? j' = some B) : B.LclNum ≠ A.LclNum := by
  have hp : l.Pairwise (fun a b => a.LclNum ≠ b.LclNum) := by
    rw [List.Nodup, List.pairwise_map] at hd
    exact hd
  exact Ne.symm (pairwise_get? l hp j j' A B hlt hA hB)

theorem Lookup_of_nodup (l : List AggregateInfo) (hd : (l.map AggregateInfo.LclNum).Nodup)
    (j : Nat) (A : AggregateInfo) (hA : l.get? j = some A) : Lookup l A.LclNum = some A := by
  induction l generalizing j with
  | nil => simp at hA
  | cons a rest ih =>
    cases j with
    | zero =>
      simp only [List.get?_cons_zero, Option.some.injEq] at hA
      subst hA
      simp [Lookup]
    | succ j =>
      simp only [List.get?_cons_succ] at hA
      simp only [List.map_cons, List.nodup_cons] at hd
      have hne : a.LclNum ≠ A.LclNum := by
        intro heq
        apply hd.1
        rw [heq]
        exact List.mem_map_of_mem _ (List.get?_mem hA)
      have := ih hd.2 j hA
      unfold Lookup at this ⊢
      rw [List.find?_cons_of_neg _ (by simpa using hne)]
      exact this

/-- Claim C25. Dense index assignment: for every ordered aggregate list `A_0, ..., A_{n-1}`
where `A_j` has `k_j` replacements, `m_numVars` is the sum of `1 + k_i` over the list; at
its turn of the loop `A_j` is assigned the index `Σ_{i<j} (1 + k_i)` in
`m_structLclToTrackedIndex[A_j.LclNum]`; that value is the one the table holds after `Run`
when no later aggregate of the list has the same owning local, in particular for every
aggregate of a list with pairwise distinct owning locals, where moreover the aggregate
found for the local `A_j.LclNum` is `A_j` itself, so that index `base(A_j)` stands for its
remainder and `base(A_j) + 1 + i` for its replacement `i`. -/
theorem Run_dense_indices (m_aggregates : List AggregateInfo) :
    m_numVars m_aggregates
      = (m_aggregates.map (fun a => 1 + a.Replacements.length)).sum ∧
    (∀ j A, m_aggregates.get? j = some A →
      (AssignTrackedIndices (m_aggregates.take (j + 1)) (fun _ => 0) 0).1 A.LclNum
        = ((m_aggregates.take j).map (fun a => 1 + a.Replacements.length)).sum) ∧
    (∀ j A, m_aggregates.get? j = some A →
      (∀ j' B, j < j' → m_aggregates.get? j' = some B → B.LclNum ≠ A.LclNum) →
      m_structLclToTrackedIndex m_aggregates A.LclNum
        = ((m_aggregates.take j).map (fun a => 1 + a.Replacements.length)).sum) ∧
    ((m_aggregates.map AggregateInfo.LclNum).Nodup →
      ∀ j A, m_aggregates.get? j = some A →
        m_structLclToTrackedIndex m_aggregates A.LclNum
          = ((m_aggregates.take j).map (fun a => 1 + a.Replacements.length)).sum ∧
        Lookup m_aggregates A.LclNum = some A) := by
  refine ⟨?_, ?_, ?_, ?_⟩
  · unfold m_numVars
    rw [AssignTrackedIndices_snd, Nat.zero_add]
  · intro j A hA
    have hget : (m_aggregates.take (j + 1)).get? j = some A := by
      rw [List.get?_eq_getElem?] at hA ⊢
      rw [List.getElem?_take_of_lt (Nat.lt_succ_self j)]
      exact hA
    rw [AssignTrackedIndices_fst _ _ 0 j A hget, Nat.zero_add, List.take_take]
    · congr 3
      omega
    · intro j' B hlt hB
      exfalso
      rw [List.get?_eq_getElem?] at hB
      obtain ⟨hlen, _⟩ := List.getElem?_eq_some_iff.mp hB
      simp only [List.length_take] at hlen
      omega
  · intro j A hA hlast
    unfold m_structLclToTrackedIndex
    rw [AssignTrackedIndices_fst _ _ 0 j A hA hlast, Nat.zero_add]
  · intro hd j A hA
    refine ⟨?_, Lookup_of_nodup m_aggregates hd j A hA⟩
    unfold m_structLclToTrackedIndex
    rw [AssignTrackedIndices_fst _ _ 0 j A hA
      (fun j' B hlt hB => nodup_no_later m_aggregates hd j j' A B hlt hA hB), Nat.zero_add]

/-- In the list of the two example aggregates `m_numVars` is 5, the first aggregate has
base 0 and the second, found for local `3`, has base 3. -/
theorem Run_dense_indices_witness :
    (twoAggregates.map AggregateInfo.LclNum).Nodup ∧
    m_numVars twoAggregates = 5 ∧
    m_structLclToTrackedIndex twoAggregates 0 = 0 ∧
    (m_structLclToTrackedIndex twoAggregates 3 = 3 ∧
      Lookup twoAggregates 3 = some soloAggregate) :=
  ⟨by decide, by decide, by decide,
    (Run_dense_indices twoAggregates).2.2.2 (by decide) 1 soloAggregate rfl⟩

/-- With pairwise distinct owning locals the base of the aggregate at position `j` is the
sum of the widths of the blocks before it, and its block ends where the next one starts. -/
theorem base_eq_sum_take (l : List AggregateInfo) (hd : (l.map AggregateInfo.LclNum).Nodup)
    (j : Nat) (A : AggregateInfo) (hA : l.get? j = some A) :
    m_structLclToTrackedIndex l A.LclNum
        = ((l.map (fun a => 1 + a.Replacements.length)).take j).sum ∧
    m_structLclToTrackedIndex l A.LclNum + 1 + A.Replacements.length
        = ((l.map (fun a => 1 + a.Replacements.length)).take (j + 1)).sum := by
  have hb : m_structLclToTrackedIndex l A.LclNum
      = ((l.map (fun a => 1 + a.Replacements.length)).take j).sum := by
    unfold m_structLclToTrackedIndex
    rw [AssignTrackedIndices_fst _ _ 0 j A hA
      (fun j' B hlt hB => nodup_no_later l hd j j' A B hlt hA hB), Nat.zero_add,
      List.map_take]
  refine ⟨hb, ?_⟩
  rw [sum_take_succ _ j _ (get?_map_width l j A hA), hb]
  omega

/-- Claim C26. Index blocks partition the index space: for every aggregate list with
pairwise distinct owning locals, the blocks `[base(A), base(A) + 1 + k_A)` of aggregates at
different positions are disjoint (the earlier block ends at or before the start of the
later one), each lies inside `[0, m_numVars)`, and every index in `[0, m_numVars)` belongs
to the block of exactly one position of the list. -/
theorem Run_index_blocks_partition (m_aggregates : List AggregateInfo)
    (hd : (m_aggregates.map AggregateInfo.LclNum).Nodup) :
    (∀ i j A B, i < j → m_aggregates.get? i = some A → m_aggregates.get? j = some B →
      m_structLclToTrackedIndex m_aggregates A.LclNum + 1 + A.Replacements.length
        ≤ m_structLclToTrackedIndex m_aggregates B.LclNum) ∧
    (∀ i j A B, i ≠ j → m_aggregates.get? i = some A → m_aggregates.get? j = some B →
      ∀ x, ¬ ((m_structLclToTrackedIndex m_aggregates A.LclNum ≤ x ∧
            x < m_structLclToTrackedIndex m_aggregates A.LclNum + 1 + A.Replacements.length) ∧
          (m_structLclToTrackedIndex m_aggregates B.LclNum ≤ x ∧
            x < m_structLclToTrackedIndex m_aggregates B.LclNum + 1 + B.Replacements.length))) ∧
    (∀ j A, m_aggregates.get? j = some A →
      m_structLclToTrackedIndex m_aggregates A.LclNum + 1 + A.Replacements.length
        ≤ m_numVars m_aggregates) ∧
    (∀ x, x < m_numVars m_aggregates →
      ∃! j, ∃ A, m_aggregates.get? j = some A ∧
        m_structLclToTrackedIndex m_aggregates A.LclNum ≤ x ∧
        x < m_structLclToTrackedIndex m_aggregates A.LclNum + 1 + A.Replacements.length) := by
  have hord : ∀ i j A B, i < j → m_aggregates.get? i = some A →
      m_aggregates.get? j = some B →
      m_structLclToTrackedIndex m_aggregates A.LclNum + 1 + A.Replacements.length
        ≤ m_structLclToTrackedIndex m_aggregates B.LclNum := by
    intro i j A B hlt hA hB
    rw [(base_eq_sum_take m_aggregates hd i A hA).2, (base_eq_sum_take m_aggregates hd j B hB).1]
    exact sum_take_mono _ (i + 1) j hlt
  refine ⟨hord, ?_, ?_, ?_⟩
  · intro i j A B hne hA hB x hx
    rcases Nat.lt_or_gt_of_ne hne with hlt | hgt
    · have := hord i j A B hlt hA hB
      omega
    · have := hord j i B A hgt hB hA
      omega
  · intro j A hA
    rw [(base_eq_sum_take m_aggregates hd j A hA).2]
    unfold m_numVars
    rw [AssignTrackedIndices_snd, Nat.zero_add]
    exact sum_take_le_sum _ _
  · intro x hx
    have hx' : x < (m_aggregates.map (fun a => 1 + a.Replacements.length)).sum := by
      unfold m_numVars at hx
      rw [AssignTrackedIndices_snd, Nat.zero_add] at hx
      exact hx
    obtain ⟨j, a, hj, h1, h2⟩ := exists_block_of_lt_sum _ x hx'
    have hjA : ∃ A, m_aggregates.get? j = some A := by
      rw [List.get?_eq_getElem?] at hj ⊢
      rw [List.getElem?_map] at hj
      cases hg : m_aggregates[j]? with
      | none => rw [hg] at hj; simp at hj
      | some A => exact ⟨A, rfl⟩
    obtain ⟨A, hA⟩ := hjA
    have ha : a = 1 + A.Replacements.length := by
      have := get?_map_width m_aggregates j A hA
      rw [hj] at this
      exact Option.some.inj this
    obtain ⟨hb, he⟩ := base_eq_sum_take m_aggregates hd j A hA
    refine ⟨j, ⟨A, hA, by omega, by omega⟩, ?_⟩
    rintro j2 ⟨B, hB, hB1, hB2⟩
    by_contra hne
    rcases Nat.lt_or_gt_of_ne hne with hlt | hgt
    · have := hord j2 j B A hlt hB hA
      omega
    · have := hord j j2 A B hgt hA hB
      omega

/-- In the list of the two example aggregates the blocks are `[0, 3)` and `[3, 5)`: the
first ends where the second starts, the second ends at `m_numVars`, and index 3 belongs to
the block at position 1 only. -/
theorem Run_index_blocks_partition_witness :
    (twoAggregates.map AggregateInfo.LclNum).Nodup ∧
    m_structLclToTrackedIndex twoAggregates pairAggregate.LclNum + 1
        + pairAggregate.Replacements.length
      ≤ m_structLclToTrackedIndex twoAggregates soloAggregate.LclNum ∧
    m_structLclToTrackedIndex twoAggregates soloAggregate.LclNum + 1
        + soloAggregate.Replacements.length
      ≤ m_numVars twoAggregates ∧
    (∃! j, ∃ A, twoAggregates.get? j = some A ∧
        m_structLclToTrackedIndex twoAggregates A.LclNum ≤ 3 ∧
        3 < m_structLclToTrackedIndex twoAggregates A.LclNum + 1 + A.Replacements.length) :=
  ⟨by decide,
    (Run_index_blocks_partition twoAggregates (by decide)).1 0 1 pairAggregate soloAggregate
      (by decide) rfl rfl,
    (Run_index_blocks_partition twoAggregates (by decide)).2.2.1 1 soloAggregate rfl,
    (Run_index_blocks_partition twoAggregates (by decide)).2.2.2 3 (by decide)⟩

/-! ## Simple scalar use in the annotator -/

/-- Claim C30. Simple scalar use in the annotator: for a simple scalar read (non-struct,
non-`LCL_ADDR` node without the def flag) of a tracked aggregate, with dense index `x`,
processed with life set `L`: if `x ∉ L` the death flag is set and the resulting life is
`L ∪ {x}`; if `x ∈ L` the death flag is cleared and life is unchanged. In both cases `x`
is in life afterwards, no other index changes membership, and no side-table entry is
stored. -/
theorem FillInLivenessNode_scalar_use (m_aggregates : List AggregateInfo)
    (life volatileVars : VarSet) (lcl : GenTreeLclVarCommon) (agg : AggregateInfo)
    (hl : Lookup m_aggregates lcl.lclNum = some agg) (ht : lcl.gtType ≠ .TYP_STRUCT)
    (ho : lcl.gtOper ≠ .GT_LCL_ADDR) (hread : lcl.GTF_VAR_DEF = false) :
    ∃ x, SimpleScalarIndex m_aggregates lcl = some x ∧
      (x ∉ life →
        (FillInLivenessNode m_aggregates life volatileVars lcl).lcl = SetDeath lcl true ∧
        (FillInLivenessNode m_aggregates life volatileVars lcl).life = life ∪ {x}) ∧
      (x ∈ life →
        (FillInLivenessNode m_aggregates life volatileVars lcl).lcl = SetDeath lcl false ∧
        (FillInLivenessNode m_aggregates life volatileVars lcl).life = life) ∧
      x ∈ (FillInLivenessNode m_aggregates life volatileVars lcl).life ∧
      (∀ y, y ≠ x →
        (y ∈ (FillInLivenessNode m_aggregates life volatileVars lcl).life ↔ y ∈ life)) ∧
      (FillInLivenessNode m_aggregates life volatileVars lcl).aggDeaths = none := by
  obtain ⟨x, isFullDef, hx, heq, hfd⟩ :=
    FillInLivenessNode_scalar_eq m_aggregates life volatileVars lcl agg hl ht ho
  have hnot : isFullDef = false := by
    cases hb : isFullDef with
    | false => rfl
    | true =>
      have := hfd hb
      rw [hread] at this
      cases this
  subst hnot
  refine ⟨x, hx, ?_, ?_, ?_, ?_, ?_⟩
  · intro hxl
    rw [heq]
    unfold FillScalar
    simp only [BitVecOps.IsMember, hxl, decide_False, Bool.false_eq_true, if_false, hread,
      Bool.not_false, if_true, BitVecOps.AddElemD, true_and]
    ext y
    simp only [Finset.mem_insert, Finset.mem_union, Finset.mem_singleton]
    tauto
  · intro hxl
    rw [heq]
    unfold FillScalar
    simp only [BitVecOps.IsMember, hxl, decide_True, if_true, Bool.false_and,
      Bool.false_eq_true, if_false, and_self]
  · rw [heq, FillScalar_mem_life]
    by_cases hxl : x ∈ life
    · left
      exact ⟨hxl, fun h => by simp at h⟩
    · right
      exact ⟨rfl, hxl, by simp [hread]⟩
  · intro y hy
    rw [heq, FillScalar_mem_life]
    constructor
    · rintro (⟨h, _⟩ | ⟨h, _⟩)
      · exact h
      · exact absurd h hy
    · intro h
      left
      exact ⟨h, fun hc => hy hc.1⟩
  · rw [heq, FillScalar_aggDeaths]

/-- The read of field 0 of the example aggregate (dense index 1): with life `{2}` it gets
the death flag and life becomes `{1, 2}`; with life `{1, 2}` the flag is cleared and life
stays `{1, 2}`. -/
theorem FillInLivenessNode_scalar_use_witness :
    SimpleScalarIndex [pairAggregate] readField0 = some 1 ∧
    (FillInLivenessNode [pairAggregate] {2} ∅ readField0).lcl.GTF_VAR_DEATH = true ∧
    (FillInLivenessNode [pairAggregate] {2} ∅ readField0).life = {1, 2} ∧
    (FillInLivenessNode [pairAggregate] {1, 2} ∅ readField0).lcl.GTF_VAR_DEATH = false ∧
    (FillInLivenessNode [pairAggregate] {1, 2} ∅ readField0).life = {1, 2} ∧
    (∃ x, SimpleScalarIndex [pairAggregate] readField0 = some x ∧
      x ∈ (FillInLivenessNode [pairAggregate] {2} ∅ readField0).life) :=
  ⟨by decide, by decide, by decide, by decide, by decide,
    match FillInLivenessNode_scalar_use [pairAggregate] {2} ∅ readField0 pairAggregate rfl
      (by decide) (by decide) rfl with
    | ⟨x, hx, _, _, hmem, _⟩ => ⟨x, hx, hmem⟩⟩

/-! ## The block summaries as upward-exposed uses and full definitions -/

/-- The use set of a fold of `MarkUseDef` from empty sets: the indices used by some node
that no earlier node of the list fully defines. -/
theorem MarkUseDef_foldl_use_iff (m_aggregates : List AggregateInfo)
    (l : List GenTreeLclVarCommon) (x : Nat) :
    x ∈ (l.foldl (fun acc lcl => MarkUseDef m_aggregates lcl acc.1 acc.2) (∅, ∅)).1 ↔
      ∃ k lcl, l.get? k = some lcl ∧ x ∈ (MarkUseDef m_aggregates lcl ∅ ∅).1 ∧
        ∀ k' lcl', k' < k → l.get? k' = some lcl' →
          x ∉ (MarkUseDef m_aggregates lcl' ∅ ∅).2 := by
  induction l using List.reverseRecOn with
  | nil => simp
  | append_singleton l a ih =>
    rw [List.foldl_append, List.foldl_cons, List.foldl_nil, MarkUseDef_mem_use, ih,
      MarkUseDef_foldl_mem_def]
    constructor
    · rintro (⟨k, lcl, hk, hu, hd⟩ | ⟨hu, hd⟩)
      · have hlt : k < l.length := by
          rw [List.get?_eq_getElem?] at hk
          exact (List.getElem?_eq_some_iff.mp hk).1
        refine ⟨k, lcl, ?_, hu, ?_⟩
        · rw [List.get?_eq_getElem?, List.getElem?_append_left hlt, ← List.get?_eq_getElem?]
          exact hk
        · intro k' lcl' hlt' hk'
          apply hd k' lcl' hlt'
          rw [List.get?_eq_getElem?, List.getElem?_append_left (by omega),
            ← List.get?_eq_getElem?] at hk'
          exact hk'
      · refine ⟨l.length, a, by rw [List.get?_eq_getElem?]; simp, hu, ?_⟩
        intro k' lcl' hlt' hk'
        rw [List.get?_eq_getElem?, List.getElem?_append_left hlt',
          ← List.get?_eq_getElem?] at hk'
        intro hx
        exact hd (Or.inr ⟨lcl', List.get?_mem hk', hx⟩)
    · rintro ⟨k, lcl, hk, hu, hd⟩
      have hle : k ≤ l.length := by
        rw [List.get?_eq_getElem?] at hk
        obtain ⟨hlen, _⟩ := List.getElem?_eq_some_iff.mp hk
        simp at hlen
        omega
      rcases Nat.lt_or_eq_of_le hle with hlt | heq
      · left
        refine ⟨k, lcl, ?_, hu, ?_⟩
        · rw [List.get?_eq_getElem?, List.getElem?_append_left hlt,
            ← List.get?_eq_getElem?] at hk
          exact hk
        · intro k' lcl' hlt' hk'
          apply hd k' lcl' hlt'
          rw [List.get?_eq_getElem?, List.getElem?_append_left (by omega),
            ← List.get?_eq_getElem?]
          exact hk'
      · right
        subst heq
        have ha : lcl = a := by
          rw [List.get?_eq_getElem?] at hk
          simp at hk
          exact hk.symm
        subst ha
        refine ⟨hu, ?_⟩
        rintro (h | ⟨lcl', hmem, hx⟩)
        · simp at h
        · obtain ⟨k', hk'⟩ := List.get?_of_mem hmem
          have hlt' : k' < l.length := by
            rw [List.get?_eq_getElem?] at hk'
            exact (List.getElem?_eq_some_iff.mp hk').1
          apply hd k' lcl' hlt' _ hx
          rw [List.get?_eq_getElem?, List.getElem?_append_left hlt', ← List.get?_eq_getElem?]
          exact hk'

/-- The entry of a block of the method after `ComputeUseDefSets` is the summary of its
statements. -/
theorem ComputeUseDefSets_apply (m_aggregates : List AggregateInfo) (comp : Compiler)
    (init : Nat → BasicBlockLiveness) (b : Nat) (hb : b ∈ comp.Blocks) :
    ComputeUseDefSets m_aggregates comp init b
      = ComputeUseDefSetsBlock m_aggregates comp.compQmarkUsed (comp.Statements b) := by
  unfold ComputeUseDefSets
  rw [foldl_update_apply
    (fun block => ComputeUseDefSetsBlock m_aggregates comp.compQmarkUsed (comp.Statements block)),
    if_pos hb]

/-- Claim C28. `VarUse` is the upward-exposed uses: for every block `b` of the method, after
`ComputeUseDefSets` an index `x` is in `VarUse(b)` iff some classified appearance in `b`
uses `x` and no classified appearance earlier in `b`'s program order fully defines `x`.
Behind it: `MarkIndex` records a use only if the index is not already recorded as a full
definition, and never removes an index from either set. -/
theorem ComputeUseDefSets_VarUse (m_aggregates : List AggregateInfo) (comp : Compiler)
    (init : Nat → BasicBlockLiveness) (b : Nat) (hb : b ∈ comp.Blocks) (x : Nat) :
    (x ∈ (ComputeUseDefSets m_aggregates comp init b).VarUse ↔
      ∃ k lcl,
        ((comp.Statements b).flatMap (ClassifiedNodes comp.compQmarkUsed)).get? k = some lcl ∧
        x ∈ (MarkUseDef m_aggregates lcl ∅ ∅).1 ∧
        ∀ k' lcl', k' < k →
          ((comp.Statements b).flatMap (ClassifiedNodes comp.compQmarkUsed)).get? k'
            = some lcl' →
          x ∉ (MarkUseDef m_aggregates lcl' ∅ ∅).2) ∧
    (∀ index isUse isDef (u d : VarSet),
      u ⊆ (MarkIndex index isUse isDef u d).1 ∧ d ⊆ (MarkIndex index isUse isDef u d).2 ∧
      (index ∈ d → (MarkIndex index isUse isDef u d).1 = u)) := by
  constructor
  · rw [ComputeUseDefSets_apply m_aggregates comp init b hb]
    have h := ComputeUseDefSetsBlock_eq m_aggregates comp.compQmarkUsed (comp.Statements b)
    have h1 : (ComputeUseDefSetsBlock m_aggregates comp.compQmarkUsed
          (comp.Statements b)).VarUse
        = (((comp.Statements b).flatMap (ClassifiedNodes comp.compQmarkUsed)).foldl
            (fun acc lcl => MarkUseDef m_aggregates lcl acc.1 acc.2) (∅, ∅)).1 :=
      congrArg Prod.fst h
    rw [h1]
    exact MarkUseDef_foldl_use_iff m_aggregates _ x
  · intro index isUse isDef u d
    refine ⟨?_, ?_, ?_⟩
    · intro y hy
      rw [MarkIndex_mem_use]
      exact Or.inl hy
    · intro y hy
      rw [MarkIndex_mem_def]
      exact Or.inl hy
    · intro hmem
      ext y
      rw [MarkIndex_mem_use]
      constructor
      · rintro (h | ⟨_, hn, _⟩)
        · exact h
        · exact absurd hmem hn
      · exact Or.inl

/-- In the loop method block `3` reads field 0 (index 1) with no definition before it, so
index 1 is in its `VarUse`; block `1` only writes field 0, so its `VarUse` is empty. -/
theorem ComputeUseDefSets_VarUse_witness :
    1 ∈ (ComputeUseDefSets [pairAggregate] loopCompiler
          (fun _ => { VarUse := ∅, VarDef := ∅, LiveIn := ∅, LiveOut := ∅ }) 3).VarUse ∧
    (ComputeUseDefSets [pairAggregate] loopCompiler
          (fun _ => { VarUse := ∅, VarDef := ∅, LiveIn := ∅, LiveOut := ∅ }) 1).VarUse = ∅ ∧
    (ComputeUseDefSets [pairAggregate] scenarioA
          (fun _ => { VarUse := ∅, VarDef := ∅, LiveIn := ∅, LiveOut := ∅ }) 1).VarUse = ∅ :=
  ⟨((ComputeUseDefSets_VarUse [pairAggregate] loopCompiler
        (fun _ => { VarUse := ∅, VarDef := ∅, LiveIn := ∅, LiveOut := ∅ }) 3 (by decide) 1).1).mpr
      ⟨0, readField0, rfl, by decide, fun k' _ hlt _ => absurd hlt (Nat.not_lt_zero k')⟩,
    by decide, by decide⟩

/-- What `VarDef` of a block holds after `ComputeUseDefSets`: every index that some
classified appearance of the block fully defines, whether or not a use comes first. -/
theorem ComputeUseDefSets_VarDef_iff (m_aggregates : List AggregateInfo) (comp : Compiler)
    (init : Nat → BasicBlockLiveness) (b : Nat) (hb : b ∈ comp.Blocks) (x : Nat) :
    x ∈ (ComputeUseDefSets m_aggregates comp init b).VarDef ↔
      ∃ lcl ∈ (comp.Statements b).flatMap (ClassifiedNodes comp.compQmarkUsed),
        x ∈ (MarkUseDef m_aggregates lcl ∅ ∅).2 := by
  rw [ComputeUseDefSets_apply m_aggregates comp init b hb]
  have h := ComputeUseDefSetsBlock_eq m_aggregates comp.compQmarkUsed (comp.Statements b)
  have h2 : (ComputeUseDefSetsBlock m_aggregates comp.compQmarkUsed
        (comp.Statements b)).VarDef
      = (((comp.Statements b).flatMap (ClassifiedNodes comp.compQmarkUsed)).foldl
          (fun acc lcl => MarkUseDef m_aggregates lcl acc.1 acc.2) (∅, ∅)).2 :=
    congrArg Prod.snd h
  rw [h2, MarkUseDef_foldl_mem_def]
  simp

/-- Claim C29 at its failing input: in the block that reads field 0 of the example aggregate
(dense index 1) and then writes it, the read is classified first and uses index 1, the
write comes second and fully defines index 1, so index 1 is used before its first full
definition in the block; yet after `ComputeUseDefSets` index 1 is in `VarDef` of the block
(and in `VarUse`). `MarkIndex` adds a full definition to `defSet` without looking at
`useSet`. -/
theorem ComputeUseDefSets_VarDef_after_use :
    (useThenDef.Statements 1).flatMap (ClassifiedNodes useThenDef.compQmarkUsed)
      = [readField0, writeField0] ∧
    (MarkUseDef [pairAggregate] readField0 ∅ ∅).1 = {1} ∧
    (MarkUseDef [pairAggregate] writeField0 ∅ ∅).2 = {1} ∧
    (ComputeUseDefSets [pairAggregate] useThenDef
        (fun _ => { VarUse := ∅, VarDef := ∅, LiveIn := ∅, LiveOut := ∅ }) 1).VarUse = {1} ∧
    (ComputeUseDefSets [pairAggregate] useThenDef
        (fun _ => { VarUse := ∅, VarDef := ∅, LiveIn := ∅, LiveOut := ∅ }) 1).VarDef = {1} ∧
    (MarkIndex 1 false true {1} ∅).2 = {1} :=
  ⟨rfl, by decide, by decide, by decide, by decide, by decide⟩

/-! ## The overlap scan is exact -/

theorem ScanLoop_ge (offs size : Nat) (l : List Replacement) (index i : Nat)
    (h : i ∈ ScanLoop offs size l index) : index ≤ i := by
  induction l generalizing index with
  | nil => simp [ScanLoop] at h
  | cons rep rest ih =>
    unfold ScanLoop at h
    split at h
    · rcases List.mem_cons.mp h with h | h
      · omega
      · have := ih (index + 1) h
        omega
    · simp at h

/-- The scan visits its indices once each, in increasing order. -/
theorem ScanLoop_pairwise (offs size : Nat) (l : List Replacement) (index : Nat) :
    (ScanLoop offs size l index).Pairwise (fun a b => a < b) := by
  induction l generalizing index with
  | nil => simp [ScanLoop]
  | cons rep rest ih =>
    unfold ScanLoop
    split
    · rw [List.pairwise_cons]
      refine ⟨?_, ih (index + 1)⟩
      intro b hb
      have := ScanLoop_ge offs size rest (index + 1) b hb
      omega
    · simp

/-- On a list sorted by offset the scan visits exactly the positions of the replacements
that start before the end of the range. -/
theorem ScanLoop_mem (offs size : Nat) (l : List Replacement)
    (hs : l.Pairwise (fun r1 r2 => r1.Offset < r2.Offset)) (index i : Nat) :
    i ∈ ScanLoop offs size l index ↔
      ∃ j rep, l.get? j = some rep ∧ rep.Offset < offs + size ∧ i = index + j := by
  induction l generalizing index with
  | nil => simp [ScanLoop]
  | cons rep rest ih =>
    rw [List.pairwise_cons] at hs
    unfold ScanLoop
    split
    · rename_i hlt
      rw [List.mem_cons, ih hs.2]
      constructor
      · rintro (h | ⟨j, r, hj, h1, hx⟩)
        · exact ⟨0, rep, rfl, hlt, by omega⟩
        · exact ⟨j + 1, r, hj, h1, by omega⟩
      · rintro ⟨j, r, hj, h1, hx⟩
        cases j with
        | zero => exact Or.inl (by omega)
        | succ j =>
          simp only [List.get?_cons_succ] at hj
          exact Or.inr ⟨j, r, hj, h1, by omega⟩
    · rename_i hge
      simp only [List.not_mem_nil, false_iff]
      rintro ⟨j, r, hj, h1, _⟩
      cases j with
      | zero =>
        simp only [List.get?_cons_zero, Option.some.injEq] at hj
        subst hj
        exact hge h1
      | succ j =>
        simp only [List.get?_cons_succ] at hj
        have := hs.1 r (List.get?_mem hj)
        omega

theorem drop_eq_cons {T : Type} (l : List T) (n : Nat) (a : T) (rest : List T)
    (h : l.drop n = a :: rest) : l.get? n = some a ∧ l.drop (n + 1) = rest := by
  constructor
  · have := get?_drop_add l n 0
    rw [h] at this
    simpa using this.symm
  · have : (l.drop n).tail = rest := by rw [h]; rfl
    rw [← this, List.tail_drop]

/-- The field loop of `MarkUseDef` is the fold of its body over the visited indices. -/
theorem MarkOverlapLoop_eq_foldl (reps : List Replacement) (baseIndex offs size : Nat)
    (isUse isDef : Bool) (n : Nat) (sets : VarSet × VarSet) :
    MarkOverlapLoop baseIndex offs size isUse isDef (reps.drop n) n sets
      = (ScanLoop offs size (reps.drop n) n).foldl
          (MarkFieldStep reps baseIndex offs size isUse isDef) sets := by
  generalize hl : reps.drop n = l
  induction l generalizing n sets with
  | nil => rfl
  | cons rep rest ih =>
    obtain ⟨hget, hdrop⟩ := drop_eq_cons reps n rep rest hl
    unfold MarkOverlapLoop ScanLoop
    split
    · simp only [List.foldl_cons]
      rw [ih (n + 1) _ hdrop]
      unfold MarkFieldStep
      rw [hget]
    · rfl

/-- The field loop of the node-level `FillInLiveness` is the fold of its body over the
visited indices. -/
theorem FillOverlapLoop_eq_foldl (reps : List Replacement) (baseIndex offs size : Nat)
    (isUse isDef : Bool) (volatileVars : VarSet) (n : Nat) (st : VarSet × VarSet) :
    FillOverlapLoop baseIndex offs size isUse isDef volatileVars (reps.drop n) n st
      = (ScanLoop offs size (reps.drop n) n).foldl
          (FillFieldStep reps baseIndex offs size isUse isDef volatileVars) st := by
  generalize hl : reps.drop n = l
  induction l generalizing n st with
  | nil => rfl
  | cons rep rest ih =>
    obtain ⟨hget, hdrop⟩ := drop_eq_cons reps n rep rest hl
    rw [FillOverlapLoop_cons]
    unfold ScanLoop
    split
    · simp only [List.foldl_cons]
      rw [ih (n + 1) _ hdrop]
      unfold FillFieldStep
      rw [hget]
    · rfl

theorem ScannedIndices_mem (reps : List Replacement) (offs size : Nat)
    (hsorted : reps.Pairwise (fun r1 r2 => r1.Offset < r2.Offset)) (i : Nat) :
    i ∈ ScannedIndices reps offs size ↔
      ∃ rep, reps.get? i = some rep ∧ OverlapStartIndex reps offs size ≤ i ∧
        rep.Offset < offs + size := by
  unfold ScannedIndices
  rw [ScanLoop_mem offs size _ (List.Pairwise.sublist (List.drop_sublist _ _) hsorted)]
  constructor
  · rintro ⟨j, rep, hj, h1, hx⟩
    rw [get?_drop_add] at hj
    subst hx
    exact ⟨rep, hj, by omega, h1⟩
  · rintro ⟨rep, hi, hle, h1⟩
    refine ⟨i - OverlapStartIndex reps offs size, rep, ?_, h1, by omega⟩
    rw [get?_drop_add]
    have e : OverlapStartIndex reps offs size + (i - OverlapStartIndex reps offs size) = i := by
      omega
    rw [e, hi]

theorem Overlaps_iff_SpanIntersects (rep : Replacement) (offs size : Nat)
    (hpos : 0 < genTypeSize rep.AccessType) (hsize : 0 < size) :
    rep.Overlaps offs size = true ↔ SpanIntersects rep offs size := by
  rw [Overlaps_iff]
  unfold SpanIntersects
  constructor
  · rintro ⟨h1, h2⟩
    refine ⟨max offs rep.Offset, le_max_right _ _, ?_, le_max_left _ _, ?_⟩
    · rcases max_cases offs rep.Offset with ⟨h, _⟩ | ⟨h, _⟩ <;> omega
    · rcases max_cases offs rep.Offset with ⟨h, _⟩ | ⟨h, _⟩ <;> omega
  · rintro ⟨x, h1, h2, h3, h4⟩
    omega

/-- A fold of the body of the field loop of `MarkUseDef` for a read: the def set is
unchanged and the visited indices not in it are added to the use set. -/
theorem MarkFieldStep_foldl_read (reps : List Replacement) (baseIndex offs size : Nat)
    (L : List Nat) (u d : VarSet) :
    (L.foldl (MarkFieldStep reps baseIndex offs size true false) (u, d)).2 = d ∧
    ∀ x, x ∈ (L.foldl (MarkFieldStep reps baseIndex offs size true false) (u, d)).1 ↔
      x ∈ u ∨ (x ∉ d ∧ ∃ i ∈ L, (∃ rep, reps.get? i = some rep) ∧ x = baseIndex + 1 + i) := by
  induction L generalizing u with
  | nil => simp
  | cons a rest ih =>
    rw [List.foldl_cons]
    cases hget : reps.get? a with
    | none =>
      have e : MarkFieldStep reps baseIndex offs size true false (u, d) a = (u, d) := by
        unfold MarkFieldStep
        rw [hget]
      rw [e]
      obtain ⟨i1, i2⟩ := ih u
      refine ⟨i1, fun x => ?_⟩
      rw [i2]
      constructor
      · rintro (h | ⟨hd, i, hi, hr, hx⟩)
        · exact Or.inl h
        · exact Or.inr ⟨hd, i, List.mem_cons_of_mem _ hi, hr, hx⟩
      · rintro (h | ⟨hd, i, hi, ⟨r, hr⟩, hx⟩)
        · exact Or.inl h
        · rcases List.mem_cons.mp hi with hia | hir
          · subst hia
            rw [hget] at hr
            cases hr
          · exact Or.inr ⟨hd, i, hir, ⟨r, hr⟩, hx⟩
    | some rep =>
      have e : MarkFieldStep reps baseIndex offs size true false (u, d) a
          = ((MarkIndex (baseIndex + 1 + a) true false u d).1, d) := by
        unfold MarkFieldStep
        rw [hget]
        simp [MarkIndex]
      rw [e]
      obtain ⟨i1, i2⟩ := ih (MarkIndex (baseIndex + 1 + a) true false u d).1
      refine ⟨i1, fun x => ?_⟩
      rw [i2, MarkIndex_mem_use]
      constructor
      · rintro ((h | ⟨_, hn, hx⟩) | ⟨hd, i, hi, hr, hx⟩)
        · exact Or.inl h
        · subst hx
          exact Or.inr ⟨hn, a, List.mem_cons_self _ _, ⟨rep, hget⟩, rfl⟩
        · exact Or.inr ⟨hd, i, List.mem_cons_of_mem _ hi, hr, hx⟩
      · rintro (h | ⟨hd, i, hi, hr, hx⟩)
        · exact Or.inl (Or.inl h)
        · rcases List.mem_cons.mp hi with hia | hir
          · subst hia
            subst hx
            exact Or.inl (Or.inr ⟨rfl, hd, rfl⟩)
          · exact Or.inr ⟨hd, i, hir, hr, hx⟩

/-- Claim C27. Overlap scan is exact: for replacements sorted by strictly increasing offset
with pairwise disjoint byte spans of positive width, and `size > 0`, the start-index
adjustment after the binary search followed by the forward scan
`while Offset < offs + size` visits exactly the replacements whose byte span shares a byte
with `[offs, offs + size)`, each once and in increasing order; the field loops of
`MarkUseDef` and of the node-level `FillInLiveness` are the folds of their bodies over
these same indices; so a partial-range read marks as used exactly the overlapping fields
not already in `defSet`. -/
theorem OverlapScan_exact (reps : List Replacement) (offs size : Nat)
    (hsorted : reps.Pairwise (fun r1 r2 => r1.Offset < r2.Offset))
    (hdisj : reps.Pairwise (fun r1 r2 => r1.Offset + genTypeSize r1.AccessType ≤ r2.Offset))
    (hpos : ∀ r ∈ reps, 0 < genTypeSize r.AccessType) (hsize : 0 < size) :
    (∀ i, i ∈ ScannedIndices reps offs size ↔
      ∃ rep, reps.get? i = some rep ∧ SpanIntersects rep offs size) ∧
    (ScannedIndices reps offs size).Pairwise (fun a b => a < b) ∧
    (∀ baseIndex isUse isDef sets,
      MarkOverlapLoop baseIndex offs size isUse isDef
          (reps.drop (OverlapStartIndex reps offs size)) (OverlapStartIndex reps offs size) sets
        = (ScannedIndices reps offs size).foldl
            (MarkFieldStep reps baseIndex offs size isUse isDef) sets) ∧
    (∀ baseIndex isUse isDef volatileVars st,
      FillOverlapLoop baseIndex offs size isUse isDef volatileVars
          (reps.drop (OverlapStartIndex reps offs size)) (OverlapStartIndex reps offs size) st
        = (ScannedIndices reps offs size).foldl
            (FillFieldStep reps baseIndex offs size isUse isDef volatileVars) st) ∧
    (∀ (m_aggregates : List AggregateInfo) (lcl : GenTreeLclVarCommon) (agg : AggregateInfo)
        (useSet defSet : VarSet),
      Lookup m_aggregates lcl.lclNum = some agg → agg.Replacements = reps →
      lcl.lclOffs = offs → GetSizeOfStructLocal lcl = size →
      (lcl.gtType = .TYP_STRUCT ∨ lcl.gtOper = .GT_LCL_ADDR) →
      lcl.OperIsScalarLocal = false → lcl.GTF_VAR_DEF = false →
      ∀ i rep, reps.get? i = some rep →
        (m_structLclToTrackedIndex m_aggregates lcl.lclNum + 1 + i
            ∈ (MarkUseDef m_aggregates lcl useSet defSet).1 ↔
          m_structLclToTrackedIndex m_aggregates lcl.lclNum + 1 + i ∈ useSet ∨
          (SpanIntersects rep offs size ∧
            m_structLclToTrackedIndex m_aggregates lcl.lclNum + 1 + i ∉ defSet))) := by
  have hmem : ∀ i, i ∈ ScannedIndices reps offs size ↔
      ∃ rep, reps.get? i = some rep ∧ SpanIntersects rep offs size := by
    intro i
    rw [ScannedIndices_mem reps offs size hsorted]
    constructor
    · rintro ⟨rep, hi, hle, hlt⟩
      refine ⟨rep, hi, ?_⟩
      rw [← Overlaps_iff_SpanIntersects rep offs size (hpos rep (List.get?_mem hi)) hsize]
      exact overlaps_of_scanned reps offs size i rep hsorted hpos hi hle hlt
    · rintro ⟨rep, hi, hsp⟩
      rw [← Overlaps_iff_SpanIntersects rep offs size (hpos rep (List.get?_mem hi)) hsize] at hsp
      exact ⟨rep, hi, OverlapStartIndex_le reps offs size i rep hsorted hdisj hi hsp,
        ((Overlaps_iff rep offs size).mp hsp).2⟩
  refine ⟨hmem, ScanLoop_pairwise _ _ _ _, ?_, ?_, ?_⟩
  · intro baseIndex isUse isDef sets
    exact MarkOverlapLoop_eq_foldl reps baseIndex offs size isUse isDef _ sets
  · intro baseIndex isUse isDef volatileVars st
    exact FillOverlapLoop_eq_foldl reps baseIndex offs size isUse isDef volatileVars _ st
  · intro m_aggregates lcl agg useSet defSet hl hreps hoffs hsz hp hns hread i rep hi
    subst hreps hoffs hsz
    rw [MarkUseDef_partial_eq m_aggregates lcl agg useSet defSet hl hp hns, MarkIndex_mem_use,
      MarkOverlapLoop_eq_foldl, hread]
    obtain ⟨_, f2⟩ := MarkFieldStep_foldl_read agg.Replacements
      (m_structLclToTrackedIndex m_aggregates lcl.lclNum) lcl.lclOffs
      (GetSizeOfStructLocal lcl)
      (ScanLoop lcl.lclOffs (GetSizeOfStructLocal lcl)
        (agg.Replacements.drop
          (OverlapStartIndex agg.Replacements lcl.lclOffs (GetSizeOfStructLocal lcl)))
        (OverlapStartIndex agg.Replacements lcl.lclOffs (GetSizeOfStructLocal lcl)))
      useSet defSet
    simp only [Bool.not_false]
    rw [f2]
    constructor
    · rintro ((h | ⟨hd, j, hj, _, hx⟩) | ⟨_, _, hx⟩)
      · exact Or.inl h
      · have hji : j = i := by omega
        subst hji
        obtain ⟨r, hr, hsp⟩ := (hmem j).mp hj
        rw [hi] at hr
        cases hr
        exact Or.inr ⟨hsp, hd⟩
      · omega
    · rintro (h | ⟨hsp, hd⟩)
      · exact Or.inl (Or.inl h)
      · exact Or.inl (Or.inr ⟨hd, i, (hmem i).mpr ⟨rep, hi, hsp⟩, ⟨rep, hi⟩, rfl⟩)

/-- On the example aggregate (fields `[0, 4)` and `[8, 12)`): the scan for `[2, 10)` visits
both fields, in order; the scan for `[4, 8)` visits none; the scan for `[9, 10)` visits
field 1 only; and the struct-typed read of `[2, 10)` marks fields 0 and 1 (indices 1, 2)
and the remainder as used. -/
theorem OverlapScan_exact_witness :
    ScannedIndices pairAggregate.Replacements 2 8 = [0, 1] ∧
    ScannedIndices pairAggregate.Replacements 4 4 = [] ∧
    ScannedIndices pairAggregate.Replacements 9 1 = [1] ∧
    (MarkUseDef [pairAggregate] readRange210 ∅ ∅).1 = {0, 1, 2} ∧
    (1 ∈ ScannedIndices pairAggregate.Replacements 2 8 ↔
      ∃ rep, pairAggregate.Replacements.get? 1 = some rep ∧ SpanIntersects rep 2 8) :=
  ⟨by decide, by decide, by decide, by decide,
    (OverlapScan_exact pairAggregate.Replacements 2 8 (by decide) (by decide) (by decide)
      (by decide)).1 1⟩

/-! ## Simple scalar full definition in the annotator -/

/-- Life after the simple scalar step of a write: the index is removed when the write is a
full definition and the index is not volatile. -/
theorem FillScalar_life_write (varIndex : Nat) (isFullDef : Bool) (life volatileVars : VarSet)
    (lcl : GenTreeLclVarCommon) :
    (FillScalar varIndex false isFullDef life volatileVars lcl).life
      = if isFullDef = true ∧ varIndex ∉ volatileVars then life \ {varIndex} else life := by
  ext y
  rw [FillScalar_mem_life]
  by_cases h : isFullDef = true ∧ varIndex ∉ volatileVars
  · rw [if_pos h]
    simp only [Finset.mem_sdiff, Finset.mem_singleton, Bool.false_eq_true, and_false, or_false]
    constructor
    · rintro ⟨hy, hn⟩
      exact ⟨hy, fun hyx => hn ⟨hyx, h.1, h.2⟩⟩
    · rintro ⟨hy, hn⟩
      exact ⟨hy, fun hc => hn hc.1⟩
  · rw [if_neg h]
    simp only [Bool.false_eq_true, and_false, or_false]
    constructor
    · exact fun hy => hy.1
    · exact fun hy => ⟨hy, fun hc => h ⟨hc.2.1, hc.2.2⟩⟩

/-- Claim C31. Simple scalar full definition in the annotator: for a simple scalar write
(non-struct, non-`LCL_ADDR` node with the def flag) of a tracked aggregate with sorted
replacements, processed with life set `L` and volatile set `V`: an exact field write of
replacement `i` (dense index `x = base + 1 + i`) leaves `L − {x}` if `x ∉ V` and `L` if
`x ∈ V`; a raw remainder write (no replacement starts at its offset, `x = base`) does the
same when its range contains `[UnpromotedMin, UnpromotedMax)` and leaves life unchanged
when it does not. No other index changes membership. -/
theorem FillInLivenessNode_scalar_def (m_aggregates : List AggregateInfo)
    (life volatileVars : VarSet) (lcl : GenTreeLclVarCommon) (agg : AggregateInfo)
    (hl : Lookup m_aggregates lcl.lclNum = some agg) (ht : lcl.gtType ≠ .TYP_STRUCT)
    (ho : lcl.gtOper ≠ .GT_LCL_ADDR) (hdef : lcl.GTF_VAR_DEF = true)
    (hsorted : agg.Replacements.Pairwise (fun r1 r2 => r1.Offset < r2.Offset)) :
    (∀ i rep, agg.Replacements.get? i = some rep → rep.Offset = lcl.lclOffs →
      (FillInLivenessNode m_aggregates life volatileVars lcl).life
        = if m_structLclToTrackedIndex m_aggregates lcl.lclNum + 1 + i ∈ volatileVars
          then life
          else life \ {m_structLclToTrackedIndex m_aggregates lcl.lclNum + 1 + i}) ∧
    ((∀ r ∈ agg.Replacements, r.Offset ≠ lcl.lclOffs) →
      ((lcl.lclOffs ≤ agg.UnpromotedMin ∧
          agg.UnpromotedMax ≤ lcl.lclOffs + genTypeSize lcl.gtType) →
        (FillInLivenessNode m_aggregates life volatileVars lcl).life
          = if m_structLclToTrackedIndex m_aggregates lcl.lclNum ∈ volatileVars
            then life
            else life \ {m_structLclToTrackedIndex m_aggregates lcl.lclNum}) ∧
      (¬ (lcl.lclOffs ≤ agg.UnpromotedMin ∧
          agg.UnpromotedMax ≤ lcl.lclOffs + genTypeSize lcl.gtType) →
        (FillInLivenessNode m_aggregates life volatileVars lcl).life = life)) ∧
    (∃ x, SimpleScalarIndex m_aggregates lcl = some x ∧
      ∀ y, y ≠ x →
        (y ∈ (FillInLivenessNode m_aggregates life volatileVars lcl).life ↔ y ∈ life)) := by
  have hnot : ¬ (lcl.gtType = .TYP_STRUCT ∨ lcl.gtOper = .GT_LCL_ADDR) := by
    rintro (h | h)
    · exact ht h
    · exact ho h
  have heq := FillInLivenessNode_scalar_eq2 m_aggregates life volatileVars lcl agg hl hnot
  refine ⟨?_, ?_, ?_⟩
  · intro i rep hi hoffs
    have hfound := BinarySearch_found Replacement.Offset agg.Replacements lcl.lclOffs hsorted
      i rep hi hoffs
    rw [heq, hfound, if_neg (by omega), hdef]
    simp only [Bool.not_true, Int.toNat_ofNat]
    rw [FillScalar_life_write]
    by_cases hv : m_structLclToTrackedIndex m_aggregates lcl.lclNum + 1 + i ∈ volatileVars
    · simp [hv]
    · simp [hv]
  · intro hno
    have hneg := BinarySearch_not_found Replacement.Offset agg.Replacements lcl.lclOffs
      hsorted hno
    rw [heq, if_pos hneg, hdef]
    simp only [Bool.not_true, Bool.true_and]
    rw [FillScalar_life_write]
    constructor
    · intro hc
      by_cases hv : m_structLclToTrackedIndex m_aggregates lcl.lclNum ∈ volatileVars
      · simp [hv]
      · simp [hv, hc.1, hc.2]
    · intro hc
      rw [if_neg]
      intro h
      apply hc
      simp only [ge_iff_le, Bool.and_eq_true, decide_eq_true_eq] at h
      exact h.1
  · obtain ⟨x, isFullDef, hx, hfe, _⟩ :=
      FillInLivenessNode_scalar_eq m_aggregates life volatileVars lcl agg hl ht ho
    refine ⟨x, hx, ?_⟩
    intro y hy
    rw [hfe, FillScalar_mem_life]
    constructor
    · rintro (⟨h, _⟩ | ⟨h, _⟩)
      · exact h
      · exact absurd h hy
    · intro h
      exact Or.inl ⟨h, fun hc => hy hc.1⟩

/-- On the example aggregate: the write of field 0 (index 1) removes it from `{1, 2}` and
keeps it when it is volatile; the one-byte raw write at offset 5 does not cover the
unpromoted bytes `[4, 8)` and leaves life `{0, 1}` as it is. -/
theorem FillInLivenessNode_scalar_def_witness :
    (FillInLivenessNode [pairAggregate] {1, 2} ∅ writeField0).life = {2} ∧
    (FillInLivenessNode [pairAggregate] {1, 2} {1} writeField0).life = {1, 2} ∧
    (FillInLivenessNode [pairAggregate] {0, 1} ∅
        { gtOper := .GT_STORE_LCL_FLD, gtType := .TYP_UBYTE, lclNum := 0, lclOffs := 5,
          GTF_VAR_DEF := true, GTF_VAR_DEATH := false, layoutSize := 0, retBufSize := 0 }).life
      = {0, 1} ∧
    (FillInLivenessNode [pairAggregate] {1, 2} ∅ writeField0).life
      = if m_structLclToTrackedIndex [pairAggregate] writeField0.lclNum + 1 + 0 ∈ (∅ : VarSet)
        then {1, 2}
        else {1, 2} \ {m_structLclToTrackedIndex [pairAggregate] writeField0.lclNum + 1 + 0} :=
  ⟨by decide, by decide, by decide,
    (FillInLivenessNode_scalar_def [pairAggregate] {1, 2} ∅ writeField0 pairAggregate rfl
      (by decide) (by decide) rfl (by decide)).1 0
      { Offset := 0, AccessType := .TYP_INT, LclNum := 1 } rfl rfl⟩

/-! ## Traversal order -/

theorem LivenessPassFrom_append (G : FlowGraph) (l1 l2 : List Nat)
    (acc : Bool × LivenessState) :
    LivenessPassFrom G (l1 ++ l2) acc = LivenessPassFrom G l2 (LivenessPassFrom G l1 acc) := by
  induction l1 generalizing acc with
  | nil => rfl
  | cons b rest ih =>
    obtain ⟨c, st⟩ := acc
    simp only [List.cons_append, LivenessPassFrom]
    exact ih _

theorem split_at_get? {T : Type} (l : List T) (i : Nat) (b : T) (h : l.get? i = some b) :
    l = l.take i ++ b :: l.drop (i + 1) := by
  induction l generalizing i with
  | nil => simp at h
  | cons a rest ih =>
    cases i with
    | zero =>
      simp only [List.get?_cons_zero, Option.some.injEq] at h
      subst h
      rfl
    | succ i =>
      simp only [List.get?_cons_succ] at h
      simp only [List.take_succ_cons, List.drop_succ_cons, List.cons_append]
      rw [← ih i h]

/-- Claim C33 fails as stated: in the two-block line `1 → 2` the post-order list is
`[2, 1]`; a pass calls `PerBlockLiveness` first on block `2`, the first block of the list,
then on block `1`, and so leaves `LiveIn(1) = {2}` after the single pass of the acyclic
graph. Visiting the last block of the list first, as the claim says, would call it on
block `1` first and leave `LiveIn(1) = ∅`. -/
theorem InterBlockLiveness_reverse_postorder_counterexample :
    lineGraph.PostOrder = [2, 1] ∧
    LivenessPass lineGraph lineState
      = LivenessPassFrom lineGraph [1]
          ((PerBlockLiveness lineGraph lineState 2).1,
            (PerBlockLiveness lineGraph lineState 2).2) ∧
    ((LivenessPass lineGraph lineState).2.m_bbInfo 1).LiveIn = {2} ∧
    ((LivenessPassReversePostOrder lineGraph lineState).2.m_bbInfo 1).LiveIn = ∅ ∧
    (∃ st', InterBlockLiveness lineGraph 1 lineState = some (1, st') ∧
      (st'.m_bbInfo 1).LiveIn = {2}) ∧
    (LivenessPass lineGraph lineState).2.m_bbInfo 1
      ≠ (LivenessPassReversePostOrder lineGraph lineState).2.m_bbInfo 1 :=
  ⟨rfl, rfl, by decide, by decide, ⟨_, rfl, by decide⟩, fun h =>
    absurd (congrArg BasicBlockLiveness.LiveIn h) (by decide)⟩

/-- Claim C33, amended. Traversal order: within each pass of the fixpoint,
`InterBlockLiveness` visits the blocks in the order of the post-order list of the
depth-first spanning tree (postorder, not reverse postorder): the call of
`PerBlockLiveness` on the block at position `i` of the list comes after the calls on the
`i` blocks before it, in their order, and before the calls on the blocks after it; the
first block of the post-order list is processed first. -/
theorem InterBlockLiveness_postorder (G : FlowGraph) (st : LivenessState) (i b : Nat)
    (hi : G.PostOrder.get? i = some b) :
    LivenessPass G st
      = LivenessPassFrom G (G.PostOrder.drop (i + 1))
          ((LivenessPassFrom G (G.PostOrder.take i) (false, st)).1 ||
              (PerBlockLiveness G (LivenessPassFrom G (G.PostOrder.take i) (false, st)).2 b).1,
            (PerBlockLiveness G (LivenessPassFrom G (G.PostOrder.take i) (false, st)).2 b).2) ∧
    (∀ fuel, InterBlockLiveness G (fuel + 1) st
      = if (LivenessPass G st).1 && G.HasCycle then
          (InterBlockLiveness G fuel (LivenessPass G st).2).map (fun p => (p.1 + 1, p.2))
        else some (1, (LivenessPass G st).2)) := by
  constructor
  · have hsplit := split_at_get? G.PostOrder i b hi
    unfold LivenessPass
    conv_lhs => rw [hsplit]
    rw [LivenessPassFrom_append]
    cases hacc : LivenessPassFrom G (G.PostOrder.take i) (false, st) with
    | mk c s1 => rfl
  · intro fuel
    rfl

/-- In the loop graph (post-order list `[3, 4, 2, 1]`) the block at position 2 is block `2`:
a pass runs the calls on `3` and `4`, then the call on `2`, then the call on `1`. -/
theorem InterBlockLiveness_postorder_witness :
    loopGraph.PostOrder.get? 2 = some 2 ∧
    LivenessPass loopGraph loopState
      = LivenessPassFrom loopGraph [1]
          ((LivenessPassFrom loopGraph [3, 4] (false, loopState)).1 ||
              (PerBlockLiveness loopGraph
                (LivenessPassFrom loopGraph [3, 4] (false, loopState)).2 2).1,
            (PerBlockLiveness loopGraph
                (LivenessPassFrom loopGraph [3, 4] (false, loopState)).2 2).2) :=
  ⟨rfl, (InterBlockLiveness_postorder loopGraph loopState 2 2 rfl).1⟩

/-! ## Frame of the summaries and of the fixpoint state -/

/-- Claim C35. Summary and fixpoint state are framed: every call of `PerBlockLiveness`
leaves `VarUse` and `VarDef` of every block unchanged and changes `LiveIn` and `LiveOut` of
no block other than the one it is called on; so `InterBlockLiveness` leaves `VarUse` and
`VarDef` of every block as `ComputeUseDefSets` computed them and all four sets of every
block outside the post-order list untouched; and `FillInLiveness` leaves all four sets of
every block unchanged: what `Run` returns is the per-block array as `InterBlockLiveness`
left it, the walk having worked on a copy of `LiveOut`. -/
theorem Run_frame (m_aggregates : List AggregateInfo) (comp : Compiler) :
    (∀ (G : FlowGraph) (st : LivenessState) (b x : Nat),
      ((PerBlockLiveness G st b).2.m_bbInfo x).VarUse = (st.m_bbInfo x).VarUse ∧
      ((PerBlockLiveness G st b).2.m_bbInfo x).VarDef = (st.m_bbInfo x).VarDef ∧
      (x ≠ b →
        ((PerBlockLiveness G st b).2.m_bbInfo x).LiveIn = (st.m_bbInfo x).LiveIn ∧
        ((PerBlockLiveness G st b).2.m_bbInfo x).LiveOut = (st.m_bbInfo x).LiveOut)) ∧
    (∀ (G : FlowGraph) (st st' : LivenessState) (fuel passes : Nat),
      InterBlockLiveness G fuel st = some (passes, st') →
      ∀ x, (st'.m_bbInfo x).VarUse = (st.m_bbInfo x).VarUse ∧
        (st'.m_bbInfo x).VarDef = (st.m_bbInfo x).VarDef ∧
        (x ∉ G.PostOrder → st'.m_bbInfo x = st.m_bbInfo x)) ∧
    (∀ (fuel : Nat) (r : RunResult), Run m_aggregates comp fuel = some r →
      ∃ passes st',
        InterBlockLiveness comp.m_dfsTree fuel
          { m_bbInfo := ComputeUseDefSets m_aggregates comp
              (fun _ => { VarUse := BitVecOps.MakeEmpty, VarDef := BitVecOps.MakeEmpty,
                          LiveIn := BitVecOps.MakeEmpty, LiveOut := BitVecOps.MakeEmpty }),
            m_liveIn := BitVecOps.MakeEmpty, m_ehLiveVars := BitVecOps.MakeEmpty }
          = some (passes, st') ∧
        r.state = st' ∧
        r.annotated = FillInLiveness m_aggregates comp st'.m_bbInfo ∧
        ∀ x, (r.state.m_bbInfo x).VarUse
            = (ComputeUseDefSets m_aggregates comp
                (fun _ => { VarUse := BitVecOps.MakeEmpty, VarDef := BitVecOps.MakeEmpty,
                            LiveIn := BitVecOps.MakeEmpty, LiveOut := BitVecOps.MakeEmpty })
                x).VarUse ∧
          (r.state.m_bbInfo x).VarDef
            = (ComputeUseDefSets m_aggregates comp
                (fun _ => { VarUse := BitVecOps.MakeEmpty, VarDef := BitVecOps.MakeEmpty,
                            LiveIn := BitVecOps.MakeEmpty, LiveOut := BitVecOps.MakeEmpty })
                x).VarDef) := by
  have hinter : ∀ (G : FlowGraph) (st st' : LivenessState) (fuel passes : Nat),
      InterBlockLiveness G fuel st = some (passes, st') →
      ∀ x, (st'.m_bbInfo x).VarUse = (st.m_bbInfo x).VarUse ∧
        (st'.m_bbInfo x).VarDef = (st.m_bbInfo x).VarDef ∧
        (x ∉ G.PostOrder → st'.m_bbInfo x = st.m_bbInfo x) := by
    intro G st st' fuel passes h x
    obtain ⟨_, _, hst, _, _⟩ := InterBlockLiveness_some G fuel st passes st' h
    subst hst
    refine ⟨PassState_varUse G st passes x, PassState_varDef G st passes x, ?_⟩
    intro hx
    exact PassState_other G st passes x hx
  refine ⟨?_, hinter, ?_⟩
  · intro G st b x
    refine ⟨PerBlockLiveness_varUse G st b x, PerBlockLiveness_varDef G st b x, ?_⟩
    intro hx
    rw [PerBlockLiveness_other G st b x hx]
    exact ⟨rfl, rfl⟩
  · intro fuel r h
    unfold Run at h
    simp only at h
    cases hp : InterBlockLiveness comp.m_dfsTree fuel
        { m_bbInfo := ComputeUseDefSets m_aggregates comp
            (fun _ => { VarUse := BitVecOps.MakeEmpty, VarDef := BitVecOps.MakeEmpty,
                        LiveIn := BitVecOps.MakeEmpty, LiveOut := BitVecOps.MakeEmpty }),
          m_liveIn := BitVecOps.MakeEmpty, m_ehLiveVars := BitVecOps.MakeEmpty } with
    | none =>
      rw [hp] at h
      cases h
    | some p =>
      rw [hp] at h
      simp only [Option.some.injEq] at h
      obtain ⟨passes, st'⟩ := p
      refine ⟨passes, st', rfl, by rw [← h], by rw [← h], ?_⟩
      intro x
      obtain ⟨h1, h2, _⟩ := hinter _ _ _ _ _ hp x
      rw [← h]
      exact ⟨h1, h2⟩

/-- In the loop method the analysis returns with the summaries of `ComputeUseDefSets` in
place: block `1` still has `VarDef = {1}` and block `3` still has `VarUse = {1}`, and a
call of `PerBlockLiveness` on block `2` leaves `LiveIn` of block `3` as it was. -/
theorem Run_frame_witness :
    (∃ r, Run [pairAggregate] loopCompiler 3 = some r ∧
      (r.state.m_bbInfo 1).VarDef = {1} ∧ (r.state.m_bbInfo 3).VarUse = {1}) ∧
    ((PerBlockLiveness loopGraph loopState 2).2.m_bbInfo 3).LiveIn
      = (loopState.m_bbInfo 3).LiveIn :=
  ⟨⟨_, rfl, by decide, by decide⟩,
    (((Run_frame [pairAggregate] loopCompiler).1 loopGraph loopState 2 3).2.2
      (by decide)).1⟩

/-! ## What `VarDef` holds -/

theorem mem_ClassifiedNodes (compQmarkUsed : Bool) (stmt : Statement)
    (lcl : GenTreeLclVarCommon) :
    lcl ∈ ClassifiedNodes compQmarkUsed stmt ↔
      lcl ∈ stmt.LocalsTreeList ∧
        ((compQmarkUsed && stmt.TopLevelQmark) = true → lcl.GTF_VAR_DEF = false) := by
  unfold ClassifiedNodes
  by_cases h : (compQmarkUsed && stmt.TopLevelQmark) = true
  · rw [if_pos h, List.mem_filter]
    simp [h]
  · rw [if_neg h]
    simp [h]

/-- Claim C37. `VarDef` is order-insensitive: for every block `b` of the method, after
`ComputeUseDefSets` an index `x` is in `VarDef(b)` iff at least one classified appearance in
`b` (any appearance of a statement without top-level qmark, only the appearances without the
def flag otherwise) fully defines `x`, whether or not `x` is used earlier in the block; so
an index whose upward-exposed use comes before a full definition is in both `VarUse(b)`
and `VarDef(b)`. -/
theorem ComputeUseDefSets_VarDef_order_insensitive (m_aggregates : List AggregateInfo)
    (comp : Compiler) (init : Nat → BasicBlockLiveness) (b : Nat) (hb : b ∈ comp.Blocks)
    (x : Nat) :
    (x ∈ (ComputeUseDefSets m_aggregates comp init b).VarDef ↔
      ∃ stmt ∈ comp.Statements b, ∃ lcl ∈ stmt.LocalsTreeList,
        ((comp.compQmarkUsed && stmt.TopLevelQmark) = true → lcl.GTF_VAR_DEF = false) ∧
        x ∈ (MarkUseDef m_aggregates lcl ∅ ∅).2) ∧
    (∀ k useNode defNode,
      ((comp.Statements b).flatMap (ClassifiedNodes comp.compQmarkUsed)).get? k = some useNode →
      x ∈ (MarkUseDef m_aggregates useNode ∅ ∅).1 →
      (∀ k' lcl', k' < k →
        ((comp.Statements b).flatMap (ClassifiedNodes comp.compQmarkUsed)).get? k'
          = some lcl' →
        x ∉ (MarkUseDef m_aggregates lcl' ∅ ∅).2) →
      defNode ∈ (comp.Statements b).flatMap (ClassifiedNodes comp.compQmarkUsed) →
      x ∈ (MarkUseDef m_aggregates defNode ∅ ∅).2 →
      x ∈ (ComputeUseDefSets m_aggregates comp init b).VarUse ∧
      x ∈ (ComputeUseDefSets m_aggregates comp init b).VarDef) := by
  have h := ComputeUseDefSetsBlock_eq m_aggregates comp.compQmarkUsed (comp.Statements b)
  have h1 : (ComputeUseDefSetsBlock m_aggregates comp.compQmarkUsed
        (comp.Statements b)).VarUse
      = (((comp.Statements b).flatMap (ClassifiedNodes comp.compQmarkUsed)).foldl
          (fun acc lcl => MarkUseDef m_aggregates lcl acc.1 acc.2) (∅, ∅)).1 :=
    congrArg Prod.fst h
  have h2 : (ComputeUseDefSetsBlock m_aggregates comp.compQmarkUsed
        (comp.Statements b)).VarDef
      = (((comp.Statements b).flatMap (ClassifiedNodes comp.compQmarkUsed)).foldl
          (fun acc lcl => MarkUseDef m_aggregates lcl acc.1 acc.2) (∅, ∅)).2 :=
    congrArg Prod.snd h
  rw [ComputeUseDefSets_apply m_aggregates comp init b hb, h1, h2, MarkUseDef_foldl_mem_def]
  constructor
  · constructor
    · rintro (hx | ⟨lcl, hmem, hx⟩)
      · simp at hx
      · obtain ⟨stmt, hs, hl⟩ := List.mem_flatMap.mp hmem
        obtain ⟨hl1, hl2⟩ := (mem_ClassifiedNodes _ _ _).mp hl
        exact ⟨stmt, hs, lcl, hl1, hl2, hx⟩
    · rintro ⟨stmt, hs, lcl, hl1, hl2, hx⟩
      exact Or.inr ⟨lcl, List.mem_flatMap.mpr ⟨stmt, hs,
        (mem_ClassifiedNodes _ _ _).mpr ⟨hl1, hl2⟩⟩, hx⟩
  · intro k useNode defNode hk hu hbefore hmem hd
    exact ⟨(MarkUseDef_foldl_use_iff m_aggregates _ x).mpr ⟨k, useNode, hk, hu, hbefore⟩,
      Or.inr ⟨defNode, hmem, hd⟩⟩

/-- In the block that reads field 0 and then writes it, index 1 is in both `VarUse` and
`VarDef`. -/
theorem ComputeUseDefSets_VarDef_order_insensitive_witness :
    1 ∈ (ComputeUseDefSets [pairAggregate] useThenDef
          (fun _ => { VarUse := ∅, VarDef := ∅, LiveIn := ∅, LiveOut := ∅ }) 1).VarUse ∧
    1 ∈ (ComputeUseDefSets [pairAggregate] useThenDef
          (fun _ => { VarUse := ∅, VarDef := ∅, LiveIn := ∅, LiveOut := ∅ }) 1).VarDef :=
  (ComputeUseDefSets_VarDef_order_insensitive [pairAggregate] useThenDef
      (fun _ => { VarUse := ∅, VarDef := ∅, LiveIn := ∅, LiveOut := ∅ }) 1 (by decide) 1).2
    0 readField0 writeField0 rfl (by decide)
    (fun k' _ hlt _ => absurd hlt (Nat.not_lt_zero k'))
    (show writeField0 ∈ [readField0, writeField0] from
      List.mem_cons_of_mem _ (List.mem_cons_self _ _))
    (by decide)

/-! ## Field match by offset -/

/-- The simple scalar branch of `MarkUseDef`, with its index and its full-definition test
spelled out. -/
theorem MarkUseDef_scalar_eq2 (m_aggregates : List AggregateInfo) (lcl : GenTreeLclVarCommon)
    (agg : AggregateInfo) (u d : VarSet)
    (hl : Lookup m_aggregates lcl.lclNum = some agg)
    (hnot : ¬ (lcl.gtType = .TYP_STRUCT ∨ lcl.gtOper = .GT_LCL_ADDR)) :
    MarkUseDef m_aggregates lcl u d =
      if BinarySearch Replacement.Offset agg.Replacements lcl.lclOffs < 0 then
        MarkIndex (m_structLclToTrackedIndex m_aggregates lcl.lclNum) (!lcl.GTF_VAR_DEF)
          (lcl.GTF_VAR_DEF && decide (agg.UnpromotedMin ≥ lcl.lclOffs) &&
            decide (agg.UnpromotedMax ≤ lcl.lclOffs + genTypeSize lcl.gtType)) u d
      else
        MarkIndex (m_structLclToTrackedIndex m_aggregates lcl.lclNum + 1 +
            (BinarySearch Replacement.Offset agg.Replacements lcl.lclOffs).toNat)
          (!lcl.GTF_VAR_DEF) lcl.GTF_VAR_DEF u d := by
  unfold MarkUseDef
  rw [hl]
  simp only [if_neg hnot]

theorem MarkUseDef_untracked_eq (m_aggregates : List AggregateInfo)
    (lcl : GenTreeLclVarCommon) (u d : VarSet)
    (hl : Lookup m_aggregates lcl.lclNum = none) : MarkUseDef m_aggregates lcl u d = (u, d) := by
  unfold MarkUseDef
  rw [hl]

theorem MarkUseDef_whole_eq (m_aggregates : List AggregateInfo) (lcl : GenTreeLclVarCommon)
    (agg : AggregateInfo) (u d : VarSet)
    (hl : Lookup m_aggregates lcl.lclNum = some agg)
    (hp : lcl.gtType = .TYP_STRUCT ∨ lcl.gtOper = .GT_LCL_ADDR)
    (hs : lcl.OperIsScalarLocal = true) :
    MarkUseDef m_aggregates lcl u d =
      MarkAllLoop (m_structLclToTrackedIndex m_aggregates lcl.lclNum) (!lcl.GTF_VAR_DEF)
        lcl.GTF_VAR_DEF (List.range (agg.Replacements.length + 1)) (u, d) := by
  unfold MarkUseDef
  rw [hl]
  simp only [if_pos hp, hs, if_true]

/-- Claim C38. Field match is by offset only: for a non-struct access (not `TYP_STRUCT`,
not `LCL_ADDR`) whose byte offset equals the `Offset` of replacement `i` of a tracked
aggregate with sorted replacements, `MarkUseDef` and the node-level `FillInLiveness` treat
the node as an access of field `i` alone, whatever the size of the access type: the result
is the same for every other non-struct access type; a write, also one narrower than the
replacement, adds `base + 1 + i` to `defSet` and removes it from `life` unless it is
volatile; the remainder index and every other index keep their membership. -/
theorem MarkUseDef_FillInLiveness_offset_match (m_aggregates : List AggregateInfo)
    (lcl : GenTreeLclVarCommon) (agg : AggregateInfo) (i : Nat) (rep : Replacement)
    (useSet defSet life volatileVars : VarSet)
    (hl : Lookup m_aggregates lcl.lclNum = some agg) (ht : lcl.gtType ≠ .TYP_STRUCT)
    (ho : lcl.gtOper ≠ .GT_LCL_ADDR)
    (hsorted : agg.Replacements.Pairwise (fun r1 r2 => r1.Offset < r2.Offset))
    (hi : agg.Replacements.get? i = some rep) (hoffs : rep.Offset = lcl.lclOffs) :
    MarkUseDef m_aggregates lcl useSet defSet
      = MarkIndex (m_structLclToTrackedIndex m_aggregates lcl.lclNum + 1 + i)
          (!lcl.GTF_VAR_DEF) lcl.GTF_VAR_DEF useSet defSet ∧
    FillInLivenessNode m_aggregates life volatileVars lcl
      = FillScalar (m_structLclToTrackedIndex m_aggregates lcl.lclNum + 1 + i)
          (!lcl.GTF_VAR_DEF) lcl.GTF_VAR_DEF life volatileVars lcl ∧
    (∀ t : var_types, t ≠ .TYP_STRUCT →
      MarkUseDef m_aggregates
          { gtOper := lcl.gtOper, gtType := t, lclNum := lcl.lclNum, lclOffs := lcl.lclOffs,
            GTF_VAR_DEF := lcl.GTF_VAR_DEF, GTF_VAR_DEATH := lcl.GTF_VAR_DEATH,
            layoutSize := lcl.layoutSize, retBufSize := lcl.retBufSize } useSet defSet
        = MarkUseDef m_aggregates lcl useSet defSet ∧
      (FillInLivenessNode m_aggregates life volatileVars
          { gtOper := lcl.gtOper, gtType := t, lclNum := lcl.lclNum, lclOffs := lcl.lclOffs,
            GTF_VAR_DEF := lcl.GTF_VAR_DEF, GTF_VAR_DEATH := lcl.GTF_VAR_DEATH,
            layoutSize := lcl.layoutSize, retBufSize := lcl.retBufSize }).life
        = (FillInLivenessNode m_aggregates life volatileVars lcl).life ∧
      (FillInLivenessNode m_aggregates life volatileVars
          { gtOper := lcl.gtOper, gtType := t, lclNum := lcl.lclNum, lclOffs := lcl.lclOffs,
            GTF_VAR_DEF := lcl.GTF_VAR_DEF, GTF_VAR_DEATH := lcl.GTF_VAR_DEATH,
            layoutSize := lcl.layoutSize, retBufSize := lcl.retBufSize }).lcl.GTF_VAR_DEATH
        = (FillInLivenessNode m_aggregates life volatileVars lcl).lcl.GTF_VAR_DEATH) ∧
    (lcl.GTF_VAR_DEF = true →
      (MarkUseDef m_aggregates lcl useSet defSet).2
        = insert (m_structLclToTrackedIndex m_aggregates lcl.lclNum + 1 + i) defSet ∧
      (MarkUseDef m_aggregates lcl useSet defSet).1 = useSet ∧
      (FillInLivenessNode m_aggregates life volatileVars lcl).life
        = if m_structLclToTrackedIndex m_aggregates lcl.lclNum + 1 + i ∈ volatileVars
          then life
          else life \ {m_structLclToTrackedIndex m_aggregates lcl.lclNum + 1 + i}) ∧
    (∀ y, y ≠ m_structLclToTrackedIndex m_aggregates lcl.lclNum + 1 + i →
      (y ∈ (MarkUseDef m_aggregates lcl useSet defSet).1 ↔ y ∈ useSet) ∧
      (y ∈ (MarkUseDef m_aggregates lcl useSet defSet).2 ↔ y ∈ defSet) ∧
      (y ∈ (FillInLivenessNode m_aggregates life volatileVars lcl).life ↔ y ∈ life)) := by
  have hfound := BinarySearch_found Replacement.Offset agg.Replacements lcl.lclOffs hsorted
    i rep hi hoffs
  have hnot : ¬ (lcl.gtType = .TYP_STRUCT ∨ lcl.gtOper = .GT_LCL_ADDR) := by
    rintro (h | h)
    · exact ht h
    · exact ho h
  have hM : ∀ (l2 : GenTreeLclVarCommon), l2.lclNum = lcl.lclNum → l2.lclOffs = lcl.lclOffs →
      ¬ (l2.gtType = .TYP_STRUCT ∨ l2.gtOper = .GT_LCL_ADDR) →
      MarkUseDef m_aggregates l2 useSet defSet
        = MarkIndex (m_structLclToTrackedIndex m_aggregates lcl.lclNum + 1 + i)
            (!l2.GTF_VAR_DEF) l2.GTF_VAR_DEF useSet defSet ∧
      FillInLivenessNode m_aggregates life volatileVars l2
        = FillScalar (m_structLclToTrackedIndex m_aggregates lcl.lclNum + 1 + i)
            (!l2.GTF_VAR_DEF) l2.GTF_VAR_DEF life volatileVars l2 := by
    intro l2 hn hof hnot2
    have hl2 : Lookup m_aggregates l2.lclNum = some agg := by rw [hn]; exact hl
    rw [MarkUseDef_scalar_eq2 m_aggregates l2 agg useSet defSet hl2 hnot2,
      FillInLivenessNode_scalar_eq2 m_aggregates life volatileVars l2 agg hl2 hnot2,
      hof, hn, hfound, if_neg (by omega), if_neg (by omega), Int.toNat_ofNat]
    exact ⟨rfl, rfl⟩
  obtain ⟨hM1, hF1⟩ := hM lcl rfl rfl hnot
  refine ⟨hM1, hF1, ?_, ?_, ?_⟩
  · intro t htn
    obtain ⟨hM2, hF2⟩ := hM
      { gtOper := lcl.gtOper, gtType := t, lclNum := lcl.lclNum, lclOffs := lcl.lclOffs,
        GTF_VAR_DEF := lcl.GTF_VAR_DEF, GTF_VAR_DEATH := lcl.GTF_VAR_DEATH,
        layoutSize := lcl.layoutSize, retBufSize := lcl.retBufSize } rfl rfl
      (by
        rintro (h | h)
        · exact htn h
        · exact ho h)
    rw [hM2, hF2, hM1, hF1]
    refine ⟨rfl, FillScalar_life_indep _ _ _ _ _ _ _, ?_⟩
    rw [FillScalar_lcl, FillScalar_lcl]
    rfl
  · intro hdef
    rw [hM1, hF1, hdef]
    refine ⟨?_, ?_, ?_⟩
    · simp [MarkIndex, BitVecOps.AddElemD]
    · simp [MarkIndex]
    · simp only [Bool.not_true]
      rw [FillScalar_life_write]
      by_cases hv : m_structLclToTrackedIndex m_aggregates lcl.lclNum + 1 + i ∈ volatileVars
      · simp [hv]
      · simp [hv]
  · intro y hy
    rw [hM1, hF1, MarkIndex_mem_use, MarkIndex_mem_def, FillScalar_mem_life]
    refine ⟨?_, ?_, ?_⟩
    · constructor
      · rintro (h | ⟨_, _, h⟩)
        · exact h
        · exact absurd h hy
      · exact Or.inl
    · constructor
      · rintro (h | ⟨_, h⟩)
        · exact h
        · exact absurd h hy
      · exact Or.inl
    · constructor
      · rintro (⟨h, _⟩ | ⟨h, _⟩)
        · exact h
        · exact absurd h hy
      · intro h
        exact Or.inl ⟨h, fun hc => hy hc.1⟩

/-- The one-byte write at offset 0 of the example aggregate, where the 4-byte field 0
starts: it is classified as a full definition of field 0 (index 1), not of the remainder,
and removes index 1 from life, exactly like the 4-byte write. -/
theorem MarkUseDef_FillInLiveness_offset_match_witness :
    MarkUseDef [pairAggregate] writeByte0 ∅ ∅ = MarkUseDef [pairAggregate] writeField0 ∅ ∅ ∧
    (MarkUseDef [pairAggregate] writeByte0 ∅ ∅).2 = {1} ∧
    (FillInLivenessNode [pairAggregate] {0, 1, 2} ∅ writeByte0).life = {0, 2} ∧
    MarkUseDef [pairAggregate] writeByte0 ∅ ∅
      = MarkIndex (m_structLclToTrackedIndex [pairAggregate] writeByte0.lclNum + 1 + 0)
          (!writeByte0.GTF_VAR_DEF) writeByte0.GTF_VAR_DEF ∅ ∅ :=
  ⟨rfl, by decide, by decide,
    (MarkUseDef_FillInLiveness_offset_match [pairAggregate] writeByte0 pairAggregate 0
      { Offset := 0, AccessType := .TYP_INT, LclNum := 1 } ∅ ∅ ∅ ∅ rfl (by decide)
      (by decide) (by decide) rfl rfl).1⟩

/-! ## Classifier and annotator take the same steps -/

theorem foldl_MarkFieldStep (reps : List Replacement) (baseIndex offs size : Nat)
    (isUse isDef : Bool) (L : List Nat) (sets : VarSet × VarSet) :
    L.foldl (MarkFieldStep reps baseIndex offs size isUse isDef) sets
      = MarkSteps (L.filterMap (fun index =>
          (reps.get? index).map (fun rep =>
            { varIndex := baseIndex + 1 + index, bit := 1 + index, isUse := isUse,
              isFullDef := isDef && decide (offs ≤ rep.Offset) &&
                decide (offs + size ≥ rep.Offset + genTypeSize rep.AccessType) }))) sets := by
  induction L generalizing sets with
  | nil => rfl
  | cons a rest ih =>
    rw [List.foldl_cons, List.filterMap_cons, ih]
    unfold MarkFieldStep
    cases hget : reps.get? a with
    | none => rfl
    | some rep => rfl

theorem foldl_FillFieldStep (reps : List Replacement) (baseIndex offs size : Nat)
    (isUse isDef : Bool) (volatileVars : VarSet) (L : List Nat) (st : VarSet × VarSet) :
    L.foldl (FillFieldStep reps baseIndex offs size isUse isDef volatileVars) st
      = FillSteps volatileVars (L.filterMap (fun index =>
          (reps.get? index).map (fun rep =>
            { varIndex := baseIndex + 1 + index, bit := 1 + index, isUse := isUse,
              isFullDef := isDef && decide (offs ≤ rep.Offset) &&
                decide (offs + size ≥ rep.Offset + genTypeSize rep.AccessType) }))) st := by
  induction L generalizing st with
  | nil => rfl
  | cons a rest ih =>
    rw [List.foldl_cons, List.filterMap_cons, ih]
    unfold FillFieldStep
    cases hget : reps.get? a with
    | none => rfl
    | some rep => rfl

theorem MarkAllLoop_eq_foldl (baseIndex : Nat) (isUse isDef : Bool) (l : List Nat)
    (sets : VarSet × VarSet) :
    MarkAllLoop baseIndex isUse isDef l sets
      = MarkSteps (l.map (fun i =>
          { varIndex := baseIndex + i, bit := i, isUse := isUse, isFullDef := isDef })) sets := by
  induction l generalizing sets with
  | nil => rfl
  | cons i rest ih =>
    rw [MarkAllLoop, ih]
    rfl

theorem FillAllLoop_eq_foldl (baseIndex : Nat) (isUse isDef : Bool) (volatileVars : VarSet)
    (l : List Nat) (st : VarSet × VarSet) :
    FillAllLoop baseIndex isUse isDef volatileVars l st
      = FillSteps volatileVars (l.map (fun i =>
          { varIndex := baseIndex + i, bit := i, isUse := isUse, isFullDef := isDef })) st := by
  induction l generalizing st with
  | nil => rfl
  | cons i rest ih =>
    rw [FillAllLoop_cons, ih]
    rfl

/-- Life after the simple scalar step is life after the matching step on `(life, ∅)`. -/
theorem FillScalar_life_eq_FillStep (varIndex bit : Nat) (isUse isFullDef : Bool)
    (life volatileVars : VarSet) (lcl : GenTreeLclVarCommon) :
    (FillScalar varIndex isUse isFullDef life volatileVars lcl).life
      = (FillStep varIndex bit isUse isFullDef volatileVars (life, ∅)).1 := by
  ext x
  rw [FillScalar_mem_life, FillStep_mem_life]

/-- `MarkUseDef` is the sequence of `MarkIndex` calls of the steps of the node. -/
theorem MarkUseDef_eq_MarkSteps (m_aggregates : List AggregateInfo)
    (lcl : GenTreeLclVarCommon) (u d : VarSet) :
    MarkUseDef m_aggregates lcl u d = MarkSteps (NodeSteps m_aggregates lcl) (u, d) := by
  cases hl : Lookup m_aggregates lcl.lclNum with
  | none =>
    rw [MarkUseDef_untracked_eq m_aggregates lcl u d hl]
    unfold NodeSteps
    rw [hl]
    rfl
  | some agg =>
    by_cases hp : lcl.gtType = .TYP_STRUCT ∨ lcl.gtOper = .GT_LCL_ADDR
    · cases hs : lcl.OperIsScalarLocal with
      | true =>
        rw [MarkUseDef_whole_eq m_aggregates lcl agg u d hl hp hs, MarkAllLoop_eq_foldl]
        unfold NodeSteps
        rw [hl]
        simp only [if_pos hp, hs, if_true]
      | false =>
        rw [MarkUseDef_partial_eq m_aggregates lcl agg u d hl hp hs, MarkOverlapLoop_eq_foldl]
        unfold NodeSteps
        rw [hl]
        simp only [if_pos hp, hs, Bool.false_eq_true, if_false]
        rw [foldl_MarkFieldStep]
        unfold MarkSteps
        rw [List.foldl_append]
        rfl
    · rw [MarkUseDef_scalar_eq2 m_aggregates lcl agg u d hl hp]
      unfold NodeSteps
      rw [hl]
      simp only [if_neg hp]
      split <;> rfl

/-- The node-level `FillInLiveness` runs the steps of the node on `(life, ∅)`: the first
component is the life it leaves, the second the entry it stores for a struct-typed or
`LCL_ADDR` node. -/
theorem FillInLivenessNode_eq_FillSteps (m_aggregates : List AggregateInfo)
    (life volatileVars : VarSet) (lcl : GenTreeLclVarCommon) :
    (FillInLivenessNode m_aggregates life volatileVars lcl).life
      = (FillSteps volatileVars (NodeSteps m_aggregates lcl) (life, ∅)).1 ∧
    (∀ agg, Lookup m_aggregates lcl.lclNum = some agg →
      (lcl.gtType = .TYP_STRUCT ∨ lcl.gtOper = .GT_LCL_ADDR) →
      (FillInLivenessNode m_aggregates life volatileVars lcl).aggDeaths
        = some (FillSteps volatileVars (NodeSteps m_aggregates lcl) (life, ∅)).2) := by
  cases hl : Lookup m_aggregates lcl.lclNum with
  | none =>
    rw [FillInLivenessNode_untracked_eq m_aggregates life volatileVars lcl hl]
    unfold NodeSteps
    rw [hl]
    exact ⟨rfl, fun agg h => by cases h⟩
  | some agg =>
    by_cases hp : lcl.gtType = .TYP_STRUCT ∨ lcl.gtOper = .GT_LCL_ADDR
    · cases hs : lcl.OperIsScalarLocal with
      | true =>
        rw [FillInLivenessNode_whole_eq m_aggregates life volatileVars lcl agg hl hp hs,
          FillAllLoop_eq_foldl]
        unfold NodeSteps
        rw [hl]
        simp only [if_pos hp, hs, if_true]
        refine ⟨?_, ?_⟩ <;> intros <;> first | rfl | trivial
      | false =>
        rw [FillInLivenessNode_partial_eq m_aggregates life volatileVars lcl agg hl hp hs,
          FillRemainder_eq, FillOverlapLoop_eq_foldl]
        unfold NodeSteps
        rw [hl]
        simp only [if_pos hp, hs, Bool.false_eq_true, if_false]
        rw [foldl_FillFieldStep]
        unfold FillSteps
        rw [List.foldl_append]
        exact ⟨rfl, fun _ _ _ => rfl⟩
    · refine ⟨?_, fun _ _ h => absurd h hp⟩
      rw [FillInLivenessNode_scalar_eq2 m_aggregates life volatileVars lcl agg hl hp]
      unfold NodeSteps
      rw [hl]
      simp only [if_neg hp]
      split
      · rw [FillScalar_life_eq_FillStep _ 0]
        rfl
      · rw [FillScalar_life_eq_FillStep _
          (1 + (BinarySearch Replacement.Offset agg.Replacements lcl.lclOffs).toNat)]
        rfl

theorem MarkSteps_cons (t : IndexStep) (rest : List IndexStep) (sets : VarSet × VarSet) :
    MarkSteps (t :: rest) sets
      = MarkSteps rest (MarkIndex t.varIndex t.isUse t.isFullDef sets.1 sets.2) := rfl

theorem FillSteps_cons (volatileVars : VarSet) (t : IndexStep) (rest : List IndexStep)
    (st : VarSet × VarSet) :
    FillSteps volatileVars (t :: rest) st
      = FillSteps volatileVars rest
          (FillStep t.varIndex t.bit t.isUse t.isFullDef volatileVars st) := rfl

/-- The steps of a read: nothing is defined, and the indices of the use steps not already
defined are added to the use set. -/
theorem MarkSteps_read (steps : List IndexStep) (h : ∀ t ∈ steps, t.isFullDef = false)
    (u d : VarSet) :
    (MarkSteps steps (u, d)).2 = d ∧
    ∀ x, x ∈ (MarkSteps steps (u, d)).1 ↔
      x ∈ u ∨ (x ∉ d ∧ ∃ t ∈ steps, t.isUse = true ∧ x = t.varIndex) := by
  induction steps generalizing u with
  | nil => simp [MarkSteps]
  | cons t rest ih =>
    have ht := h t (List.mem_cons_self _ _)
    have e : MarkIndex t.varIndex t.isUse t.isFullDef u d
        = ((MarkIndex t.varIndex t.isUse t.isFullDef u d).1, d) := by
      rw [ht]
      simp [MarkIndex]
    rw [MarkSteps_cons]
    simp only
    rw [e]
    obtain ⟨i1, i2⟩ := ih (fun t' ht' => h t' (List.mem_cons_of_mem _ ht'))
      (MarkIndex t.varIndex t.isUse t.isFullDef u d).1
    refine ⟨i1, fun x => ?_⟩
    rw [i2, MarkIndex_mem_use]
    constructor
    · rintro ((hx | ⟨hu, hn, hx⟩) | ⟨hn, t', ht', hu, hx⟩)
      · exact Or.inl hx
      · subst hx
        exact Or.inr ⟨hn, t, List.mem_cons_self _ _, hu, rfl⟩
      · exact Or.inr ⟨hn, t', List.mem_cons_of_mem _ ht', hu, hx⟩
    · rintro (hx | ⟨hn, t', ht', hu, hx⟩)
      · exact Or.inl (Or.inl hx)
      · rcases List.mem_cons.mp ht' with heq | hmem
        · subst heq
          subst hx
          exact Or.inl (Or.inr ⟨hu, hn, rfl⟩)
        · exact Or.inr ⟨hn, t', hmem, hu, hx⟩

/-- The steps of a write: nothing is used, and the indices of the full-definition steps
are added to the def set. -/
theorem MarkSteps_write (steps : List IndexStep) (h : ∀ t ∈ steps, t.isUse = false)
    (u d : VarSet) :
    (MarkSteps steps (u, d)).1 = u ∧
    ∀ x, x ∈ (MarkSteps steps (u, d)).2 ↔
      x ∈ d ∨ ∃ t ∈ steps, t.isFullDef = true ∧ x = t.varIndex := by
  induction steps generalizing d with
  | nil => simp [MarkSteps]
  | cons t rest ih =>
    have ht := h t (List.mem_cons_self _ _)
    have e : MarkIndex t.varIndex t.isUse t.isFullDef u d
        = (u, (MarkIndex t.varIndex t.isUse t.isFullDef u d).2) := by
      rw [ht]
      simp [MarkIndex]
    rw [MarkSteps_cons]
    simp only
    rw [e]
    obtain ⟨i1, i2⟩ := ih (fun t' ht' => h t' (List.mem_cons_of_mem _ ht'))
      (MarkIndex t.varIndex t.isUse t.isFullDef u d).2
    refine ⟨i1, fun x => ?_⟩
    rw [i2, MarkIndex_mem_def]
    constructor
    · rintro ((hx | ⟨hf, hx⟩) | ⟨t', ht', hf, hx⟩)
      · exact Or.inl hx
      · exact Or.inr ⟨t, List.mem_cons_self _ _, hf, hx⟩
      · exact Or.inr ⟨t', List.mem_cons_of_mem _ ht', hf, hx⟩
    · rintro (hx | ⟨t', ht', hf, hx⟩)
      · exact Or.inl (Or.inl hx)
      · rcases List.mem_cons.mp ht' with heq | hmem
        · subst heq
          exact Or.inl (Or.inr ⟨hf, hx⟩)
        · exact Or.inr ⟨t', hmem, hf, hx⟩

/-- Life after the steps of a read: the indices of the use steps are added. -/
theorem FillSteps_read (volatileVars : VarSet) (steps : List IndexStep)
    (h : ∀ t ∈ steps, t.isFullDef = false) (st : VarSet × VarSet) (x : Nat) :
    x ∈ (FillSteps volatileVars steps st).1 ↔
      x ∈ st.1 ∨ ∃ t ∈ steps, t.isUse = true ∧ x = t.varIndex := by
  induction steps generalizing st with
  | nil => simp [FillSteps]
  | cons t rest ih =>
    have ht := h t (List.mem_cons_self _ _)
    rw [FillSteps_cons, ih (fun t' ht' => h t' (List.mem_cons_of_mem _ ht')),
      FillStep_mem_life, ht]
    constructor
    · rintro ((⟨hx, _⟩ | ⟨hx, _, hu⟩) | ⟨t', ht', hu, hx⟩)
      · exact Or.inl hx
      · exact Or.inr ⟨t, List.mem_cons_self _ _, hu, hx⟩
      · exact Or.inr ⟨t', List.mem_cons_of_mem _ ht', hu, hx⟩
    · rintro (hx | ⟨t', ht', hu, hx⟩)
      · exact Or.inl (Or.inl ⟨hx, fun hc => by simp at hc⟩)
      · rcases List.mem_cons.mp ht' with heq | hmem
        · subst heq
          by_cases hin : t'.varIndex ∈ st.1
          · subst hx
            exact Or.inl (Or.inl ⟨hin, fun hc => by simp at hc⟩)
          · exact Or.inl (Or.inr ⟨hx, hin, hu⟩)
        · exact Or.inr ⟨t', hmem, hu, hx⟩

/-- Life after the steps of a write: the indices of the full-definition steps are removed
unless volatile. -/
theorem FillSteps_write (volatileVars : VarSet) (steps : List IndexStep)
    (h : ∀ t ∈ steps, t.isUse = false) (st : VarSet × VarSet) (x : Nat) :
    x ∈ (FillSteps volatileVars steps st).1 ↔
      x ∈ st.1 ∧ ¬ (x ∉ volatileVars ∧ ∃ t ∈ steps, t.isFullDef = true ∧ x = t.varIndex) := by
  induction steps generalizing st with
  | nil => simp [FillSteps]
  | cons t rest ih =>
    have ht := h t (List.mem_cons_self _ _)
    rw [FillSteps_cons, ih (fun t' ht' => h t' (List.mem_cons_of_mem _ ht')),
      FillStep_mem_life, ht]
    constructor
    · rintro ⟨(⟨hx, hn⟩ | ⟨_, _, hu⟩), hrest⟩
      · refine ⟨hx, ?_⟩
        rintro ⟨hv, t', ht', hf, hxt⟩
        rcases List.mem_cons.mp ht' with heq | hmem
        · subst heq
          exact hn ⟨hxt, hf, by rw [← hxt]; exact hv⟩
        · exact hrest ⟨hv, t', hmem, hf, hxt⟩
      · simp at hu
    · rintro ⟨hx, hn⟩
      refine ⟨Or.inl ⟨hx, ?_⟩, ?_⟩
      · rintro ⟨hxt, hf, hv⟩
        exact hn ⟨by rw [hxt]; exact hv, t, List.mem_cons_self _ _, hf, hxt⟩
      · rintro ⟨hv, t', ht', hf, hxt⟩
        exact hn ⟨hv, t', List.mem_cons_of_mem _ ht', hf, hxt⟩

/-- Every bit of the entry after a list of steps was there before or is the bit of a step. -/
theorem FillSteps_deaths_sub (volatileVars : VarSet) (steps : List IndexStep)
    (st : VarSet × VarSet) (y : Nat) (hy : y ∈ (FillSteps volatileVars steps st).2) :
    y ∈ st.2 ∨ ∃ t ∈ steps, y = t.bit := by
  induction steps generalizing st with
  | nil => exact Or.inl hy
  | cons t rest ih =>
    rw [FillSteps_cons] at hy
    rcases ih _ hy with h | ⟨t', ht', hb⟩
    · rw [FillStep_mem_deaths] at h
      rcases h with h | ⟨h, _⟩
      · exact Or.inl h
      · exact Or.inr ⟨t, List.mem_cons_self _ _, h⟩
    · exact Or.inr ⟨t', List.mem_cons_of_mem _ ht', hb⟩

/-- A search result that is not negative is a position of the vector, whether or not the
vector is sorted. -/
theorem BinarySearchLoop_get {T : Type} (field : T → Nat) (vec : List T) (offset : Nat)
    (fuel min max : Nat) (h : ¬ BinarySearchLoop field vec offset fuel min max < 0) :
    ∃ e, vec.get? (BinarySearchLoop field vec offset fuel min max).toNat = some e := by
  induction fuel generalizing min max with
  | zero =>
    exfalso
    apply h
    unfold BinarySearchLoop
    omega
  | succ fuel ih =>
    by_cases hmin : min < max
    · cases hget : vec.get? (min + (max - min) / 2) with
      | none =>
        exfalso
        apply h
        rw [BinarySearchLoop]
        simp only [hmin, if_true, hget]
        omega
      | some e =>
        by_cases heq : field e = offset
        · have hv : BinarySearchLoop field vec offset (fuel + 1) min max
              = ((min + (max - min) / 2 : Nat) : Int) := by
            rw [BinarySearchLoop]
            simp only [hmin, if_true, hget, heq]
          rw [hv]
          exact ⟨e, by simpa using hget⟩
        · by_cases hlt : field e < offset
          · have hv : BinarySearchLoop field vec offset (fuel + 1) min max
                = BinarySearchLoop field vec offset fuel (min + (max - min) / 2 + 1) max := by
              rw [BinarySearchLoop]
              simp only [hmin, if_true, hget, heq, if_false, hlt]
            rw [hv] at h ⊢
            exact ih _ _ h
          · have hv : BinarySearchLoop field vec offset (fuel + 1) min max
                = BinarySearchLoop field vec offset fuel min (min + (max - min) / 2) := by
              rw [BinarySearchLoop]
              simp only [hmin, if_true, hget, heq, if_false, hlt]
            rw [hv] at h ⊢
            exact ih _ _ h
    · exfalso
      apply h
      rw [BinarySearchLoop]
      simp only [hmin, if_false]
      omega

theorem BinarySearch_get {T : Type} (field : T → Nat) (vec : List T) (offset : Nat)
    (h : ¬ BinarySearch field vec offset < 0) :
    ∃ e, vec.get? (BinarySearch field vec offset).toNat = some e :=
  BinarySearchLoop_get field vec offset _ _ _ h

theorem ScanLoop_lt (offs size : Nat) (l : List Replacement) (index i : Nat)
    (h : i ∈ ScanLoop offs size l index) : i < index + l.length := by
  induction l generalizing index with
  | nil => simp [ScanLoop] at h
  | cons rep rest ih =>
    unfold ScanLoop at h
    split at h
    · rcases List.mem_cons.mp h with h | h
      · simp only [List.length_cons]
        omega
      · have := ih (index + 1) h
        simp only [List.length_cons]
        omega
    · simp at h

theorem ScannedIndices_lt (reps : List Replacement) (offs size i : Nat)
    (h : i ∈ ScannedIndices reps offs size) : i < reps.length := by
  unfold ScannedIndices at h
  have h1 := ScanLoop_lt offs size _ _ i h
  have h2 := ScanLoop_ge offs size _ _ i h
  simp only [List.length_drop] at h1
  omega

/-- Every step of a node of a tracked aggregate is on an index of the aggregate's own
block, at the bit of that index; the steps of a read define nothing and the steps of a
write use nothing. -/
theorem NodeSteps_spec (m_aggregates : List AggregateInfo) (lcl : GenTreeLclVarCommon)
    (agg : AggregateInfo) (hl : Lookup m_aggregates lcl.lclNum = some agg) :
    ∀ t ∈ NodeSteps m_aggregates lcl,
      t.varIndex = m_structLclToTrackedIndex m_aggregates lcl.lclNum + t.bit ∧
      t.bit < 1 + agg.Replacements.length ∧
      (lcl.GTF_VAR_DEF = false → t.isFullDef = false) ∧
      (lcl.GTF_VAR_DEF = true → t.isUse = false) := by
  intro t ht
  unfold NodeSteps at ht
  rw [hl] at ht
  simp only at ht
  split at ht
  · split at ht
    · obtain ⟨i, hi, rfl⟩ := List.mem_map.mp ht
      rw [List.mem_range] at hi
      refine ⟨rfl, by simp only; omega, ?_, ?_⟩
      · intro h
        exact h
      · intro h
        simp [h]
    · rcases List.mem_append.mp ht with hf | hr
      · obtain ⟨index, hidx, hm⟩ := List.mem_filterMap.mp hf
        have hlt := ScannedIndices_lt _ _ _ _ hidx
        cases hget : agg.Replacements.get? index with
        | none =>
          rw [hget] at hm
          simp at hm
        | some rep =>
          rw [hget] at hm
          simp only [Option.map_some', Option.some.injEq] at hm
          subst hm
          refine ⟨by simp only; omega, by simp only; omega, ?_, ?_⟩
          · intro h
            simp [h]
          · intro h
            simp [h]
      · simp only [List.mem_singleton] at hr
        subst hr
        refine ⟨rfl, by simp only; omega, ?_, ?_⟩
        · intro h
          simp [h]
        · intro h
          simp [h]
  · split at ht
    · simp only [List.mem_singleton] at ht
      subst ht
      refine ⟨rfl, by simp only; omega, ?_, ?_⟩
      · intro h
        simp [h]
      · intro h
        simp [h]
    · rename_i hneg
      simp only [List.mem_singleton] at ht
      subst ht
      obtain ⟨e, he⟩ := BinarySearch_get Replacement.Offset agg.Replacements lcl.lclOffs hneg
      have hlt : (BinarySearch Replacement.Offset agg.Replacements lcl.lclOffs).toNat
          < agg.Replacements.length := by
        rw [List.get?_eq_getElem?] at he
        exact (List.getElem?_eq_some_iff.mp he).1
      refine ⟨by simp only; omega, by simp only; omega, ?_, ?_⟩
      · intro h
        exact h
      · intro h
        simp [h]

theorem NodeSteps_untracked (m_aggregates : List AggregateInfo) (lcl : GenTreeLclVarCommon)
    (hl : Lookup m_aggregates lcl.lclNum = none) : NodeSteps m_aggregates lcl = [] := by
  unfold NodeSteps
  rw [hl]

/-- The steps of a read define nothing and the steps of a write use nothing, for every
node. -/
theorem NodeSteps_flags (m_aggregates : List AggregateInfo) (lcl : GenTreeLclVarCommon) :
    (lcl.GTF_VAR_DEF = false → ∀ t ∈ NodeSteps m_aggregates lcl, t.isFullDef = false) ∧
    (lcl.GTF_VAR_DEF = true → ∀ t ∈ NodeSteps m_aggregates lcl, t.isUse = false) := by
  cases hl : Lookup m_aggregates lcl.lclNum with
  | none =>
    rw [NodeSteps_untracked m_aggregates lcl hl]
    exact ⟨fun _ t ht => by simp at ht, fun _ t ht => by simp at ht⟩
  | some agg =>
    exact ⟨fun h t ht => (NodeSteps_spec m_aggregates lcl agg hl t ht).2.2.1 h,
      fun h t ht => (NodeSteps_spec m_aggregates lcl agg hl t ht).2.2.2 h⟩

/-- Life after the node-level `FillInLiveness` is the transfer `(L − (D − V)) ∪ U` of the
node. -/
theorem FillInLivenessNode_life_eq_NodeTransfer (m_aggregates : List AggregateInfo)
    (life volatileVars : VarSet) (lcl : GenTreeLclVarCommon) :
    (FillInLivenessNode m_aggregates life volatileVars lcl).life
      = NodeTransfer m_aggregates volatileVars lcl life := by
  unfold NodeTransfer
  rw [(FillInLivenessNode_eq_FillSteps m_aggregates life volatileVars lcl).1,
    MarkUseDef_eq_MarkSteps m_aggregates lcl ∅ ∅]
  obtain ⟨hread, hwrite⟩ := NodeSteps_flags m_aggregates lcl
  ext x
  simp only [Finset.mem_union, Finset.mem_sdiff]
  cases hd : lcl.GTF_VAR_DEF with
  | false =>
    obtain ⟨m2, m1⟩ := MarkSteps_read (NodeSteps m_aggregates lcl) (hread hd) ∅ ∅
    rw [FillSteps_read volatileVars _ (hread hd), m2, m1]
    simp
  | true =>
    obtain ⟨m1, m2⟩ := MarkSteps_write (NodeSteps m_aggregates lcl) (hwrite hd) ∅ ∅
    rw [FillSteps_write volatileVars _ (hwrite hd), m1, m2]
    simp only [Finset.not_mem_empty, false_or, or_false]
    constructor
    · rintro ⟨hx, hn⟩
      refine ⟨hx, ?_⟩
      rintro ⟨hex, hv⟩
      exact hn ⟨hv, hex⟩
    · rintro ⟨hx, hn⟩
      refine ⟨hx, ?_⟩
      rintro ⟨hv, hex⟩
      exact hn ⟨hex, hv⟩

/-- Claim C34. Classifier and annotator agree: for every node `n`, every life set `L` and
every volatile set `V`, the life set `L'` that the node-level `FillInLiveness` leaves
satisfies `L' = (L − (D − V)) ∪ U`, where `(U, D)` are the use and def sets that
`MarkUseDef` produces for `n` from empty sets. Behind it: both take the same steps on the
same dense indices with the same use and full-definition flags. -/
theorem FillInLivenessNode_agrees_MarkUseDef (m_aggregates : List AggregateInfo)
    (life volatileVars : VarSet) (lcl : GenTreeLclVarCommon) :
    (FillInLivenessNode m_aggregates life volatileVars lcl).life
      = (life \ ((MarkUseDef m_aggregates lcl ∅ ∅).2 \ volatileVars))
          ∪ (MarkUseDef m_aggregates lcl ∅ ∅).1 ∧
    MarkUseDef m_aggregates lcl ∅ ∅ = MarkSteps (NodeSteps m_aggregates lcl) (∅, ∅) ∧
    (FillInLivenessNode m_aggregates life volatileVars lcl).life
      = (FillSteps volatileVars (NodeSteps m_aggregates lcl) (life, ∅)).1 := by
  refine ⟨?_, MarkUseDef_eq_MarkSteps m_aggregates lcl ∅ ∅,
    (FillInLivenessNode_eq_FillSteps m_aggregates life volatileVars lcl).1⟩
  have h := FillInLivenessNode_life_eq_NodeTransfer m_aggregates life volatileVars lcl
  unfold NodeTransfer at h
  exact h

/-- On the example aggregate, with life `{0, 1, 2}` and index 2 volatile: the whole-variable
write defines `{0, 1, 2}` and leaves `{2}`; the struct-typed read of `[2, 10)` from life
`∅` uses `{0, 1, 2}` and leaves `{0, 1, 2}`. -/
theorem FillInLivenessNode_agrees_MarkUseDef_witness :
    MarkUseDef [pairAggregate] writeWhole ∅ ∅ = (∅, {0, 1, 2}) ∧
    (FillInLivenessNode [pairAggregate] {0, 1, 2} {2} writeWhole).life = {2} ∧
    (FillInLivenessNode [pairAggregate] ∅ ∅ readRange210).life = {0, 1, 2} ∧
    (FillInLivenessNode [pairAggregate] {0, 1, 2} {2} writeWhole).life
      = (({0, 1, 2} : VarSet) \ ((MarkUseDef [pairAggregate] writeWhole ∅ ∅).2 \ {2}))
          ∪ (MarkUseDef [pairAggregate] writeWhole ∅ ∅).1 :=
  ⟨by decide, by decide, by decide,
    (FillInLivenessNode_agrees_MarkUseDef [pairAggregate] {0, 1, 2} {2} writeWhole).1⟩

/-! ## Indices stay in the aggregate's own block -/

theorem MarkSteps_frame (steps : List IndexStep) (x : Nat)
    (h : ∀ t ∈ steps, x ≠ t.varIndex) (sets : VarSet × VarSet) :
    (x ∈ (MarkSteps steps sets).1 ↔ x ∈ sets.1) ∧
    (x ∈ (MarkSteps steps sets).2 ↔ x ∈ sets.2) := by
  induction steps generalizing sets with
  | nil => exact ⟨Iff.rfl, Iff.rfl⟩
  | cons t rest ih =>
    have hx := h t (List.mem_cons_self _ _)
    obtain ⟨i1, i2⟩ := ih (fun t' ht' => h t' (List.mem_cons_of_mem _ ht'))
      (MarkIndex t.varIndex t.isUse t.isFullDef sets.1 sets.2)
    rw [MarkSteps_cons, i1, i2, MarkIndex_mem_use, MarkIndex_mem_def]
    constructor
    · constructor
      · rintro (h1 | ⟨_, _, h1⟩)
        · exact h1
        · exact absurd h1 hx
      · exact Or.inl
    · constructor
      · rintro (h1 | ⟨_, h1⟩)
        · exact h1
        · exact absurd h1 hx
      · exact Or.inl

theorem FillSteps_frame (volatileVars : VarSet) (steps : List IndexStep) (x : Nat)
    (h : ∀ t ∈ steps, x ≠ t.varIndex) (st : VarSet × VarSet) :
    x ∈ (FillSteps volatileVars steps st).1 ↔ x ∈ st.1 := by
  induction steps generalizing st with
  | nil => exact Iff.rfl
  | cons t rest ih =>
    have hx := h t (List.mem_cons_self _ _)
    rw [FillSteps_cons, ih (fun t' ht' => h t' (List.mem_cons_of_mem _ ht')),
      FillStep_mem_life]
    constructor
    · rintro (⟨h1, _⟩ | ⟨h1, _⟩)
      · exact h1
      · exact absurd h1 hx
    · intro h1
      exact Or.inl ⟨h1, fun hc => hx hc.1⟩

/-- The steps read the life set only at their own indices: from two life sets that agree
on a set of indices containing those of the steps, the same bits are set and the resulting
life sets agree on that set. -/
theorem FillSteps_congr (volatileVars : VarSet) (P : Nat → Prop) (steps : List IndexStep)
    (hP : ∀ t ∈ steps, P t.varIndex) (st1 st2 : VarSet × VarSet)
    (hlife : ∀ x, P x → (x ∈ st1.1 ↔ x ∈ st2.1)) (hdeaths : st1.2 = st2.2) :
    (FillSteps volatileVars steps st1).2 = (FillSteps volatileVars steps st2).2 ∧
    ∀ x, P x →
      (x ∈ (FillSteps volatileVars steps st1).1 ↔ x ∈ (FillSteps volatileVars steps st2).1) := by
  induction steps generalizing st1 st2 with
  | nil => exact ⟨hdeaths, hlife⟩
  | cons t rest ih =>
    have ht := hP t (List.mem_cons_self _ _)
    rw [FillSteps_cons, FillSteps_cons]
    apply ih (fun t' ht' => hP t' (List.mem_cons_of_mem _ ht'))
    · intro x hx
      rw [FillStep_mem_life, FillStep_mem_life, hlife x hx, hlife t.varIndex ht]
    · ext y
      rw [FillStep_mem_deaths, FillStep_mem_deaths, hdeaths, hlife t.varIndex ht]

theorem Lookup_some (m_aggregates : List AggregateInfo) (lclNum : Nat) (agg : AggregateInfo)
    (h : Lookup m_aggregates lclNum = some agg) :
    agg.LclNum = lclNum ∧ ∃ j, m_aggregates.get? j = some agg := by
  unfold Lookup at h
  have h1 := List.find?_some h
  have h2 := List.mem_of_find?_eq_some h
  exact ⟨by simpa using h1, List.get?_of_mem h2⟩

/-- The node after the node-level `FillInLiveness` is the same from two life sets that
agree on the aggregate's block. -/
theorem FillInLivenessNode_lcl_congr (m_aggregates : List AggregateInfo)
    (life1 life2 volatileVars : VarSet) (lcl : GenTreeLclVarCommon) (agg : AggregateInfo)
    (hl : Lookup m_aggregates lcl.lclNum = some agg)
    (hagree : ∀ x, m_structLclToTrackedIndex m_aggregates lcl.lclNum ≤ x →
      x < m_structLclToTrackedIndex m_aggregates lcl.lclNum + 1 + agg.Replacements.length →
      (x ∈ life1 ↔ x ∈ life2)) :
    (FillInLivenessNode m_aggregates life1 volatileVars lcl).lcl
      = (FillInLivenessNode m_aggregates life2 volatileVars lcl).lcl := by
  by_cases hp : lcl.gtType = .TYP_STRUCT ∨ lcl.gtOper = .GT_LCL_ADDR
  · cases hs : lcl.OperIsScalarLocal with
    | true =>
      rw [FillInLivenessNode_whole_eq m_aggregates life1 volatileVars lcl agg hl hp hs,
        FillInLivenessNode_whole_eq m_aggregates life2 volatileVars lcl agg hl hp hs]
    | false =>
      rw [FillInLivenessNode_partial_eq m_aggregates life1 volatileVars lcl agg hl hp hs,
        FillInLivenessNode_partial_eq m_aggregates life2 volatileVars lcl agg hl hp hs]
  · rw [FillInLivenessNode_scalar_eq2 m_aggregates life1 volatileVars lcl agg hl hp,
      FillInLivenessNode_scalar_eq2 m_aggregates life2 volatileVars lcl agg hl hp]
    split
    · rw [FillScalar_lcl, FillScalar_lcl]
      have := hagree (m_structLclToTrackedIndex m_aggregates lcl.lclNum) (le_refl _)
        (by omega)
      simp only [BitVecOps.IsMember, this]
    · rename_i hneg
      obtain ⟨e, he⟩ := BinarySearch_get Replacement.Offset agg.Replacements lcl.lclOffs hneg
      have hlt : (BinarySearch Replacement.Offset agg.Replacements lcl.lclOffs).toNat
          < agg.Replacements.length := by
        rw [List.get?_eq_getElem?] at he
        exact (List.getElem?_eq_some_iff.mp he).1
      rw [FillScalar_lcl, FillScalar_lcl]
      have := hagree (m_structLclToTrackedIndex m_aggregates lcl.lclNum + 1 +
        (BinarySearch Replacement.Offset agg.Replacements lcl.lclOffs).toNat) (by omega)
        (by omega)
      simp only [BitVecOps.IsMember, this]

theorem FillInLivenessNode_aggDeaths_scalar (m_aggregates : List AggregateInfo)
    (life volatileVars : VarSet) (lcl : GenTreeLclVarCommon)
    (hp : ¬ (lcl.gtType = .TYP_STRUCT ∨ lcl.gtOper = .GT_LCL_ADDR)) :
    (FillInLivenessNode m_aggregates life volatileVars lcl).aggDeaths = none := by
  cases hl : Lookup m_aggregates lcl.lclNum with
  | none => rw [FillInLivenessNode_untracked_eq m_aggregates life volatileVars lcl hl]
  | some agg =>
    rw [FillInLivenessNode_scalar_eq2 m_aggregates life volatileVars lcl agg hl hp]
    split <;> exact FillScalar_aggDeaths _ _ _ _ _ _

/-- Claim C40. Indices stay in the aggregate's own block: for a node of a tracked aggregate
with base index `b` and `k` replacements, `MarkUseDef` and the node-level `FillInLiveness`
are sequences of steps, each of which tests, adds or removes one dense index, and every
such index lies in `[b, b + 1 + k)`, which ends at or below `m_numVars` when the owning
locals of the aggregate list are pairwise distinct; every bit set in the node's
side-table entry lies in `[0, 1 + k)`; membership of every index outside `[b, b + 1 + k)`
in `useSet`, `defSet` and `life` is unchanged; what the annotator writes depends on `life`
only inside `[b, b + 1 + k)`; and a node whose local is not a tracked aggregate changes
nothing at all. -/
theorem NodeIndices_in_block (m_aggregates : List AggregateInfo) (lcl : GenTreeLclVarCommon) :
    (∀ u d, MarkUseDef m_aggregates lcl u d = MarkSteps (NodeSteps m_aggregates lcl) (u, d)) ∧
    (∀ life volatileVars,
      (FillInLivenessNode m_aggregates life volatileVars lcl).life
        = (FillSteps volatileVars (NodeSteps m_aggregates lcl) (life, ∅)).1) ∧
    (∀ agg, Lookup m_aggregates lcl.lclNum = some agg →
      (∀ t ∈ NodeSteps m_aggregates lcl,
        m_structLclToTrackedIndex m_aggregates lcl.lclNum ≤ t.varIndex ∧
        t.varIndex
          < m_structLclToTrackedIndex m_aggregates lcl.lclNum + 1 + agg.Replacements.length) ∧
      ((m_aggregates.map AggregateInfo.LclNum).Nodup →
        m_structLclToTrackedIndex m_aggregates lcl.lclNum + 1 + agg.Replacements.length
          ≤ m_numVars m_aggregates) ∧
      (∀ life volatileVars deaths,
        (FillInLivenessNode m_aggregates life volatileVars lcl).aggDeaths = some deaths →
        ∀ bit ∈ deaths, bit < 1 + agg.Replacements.length) ∧
      (∀ u d life volatileVars y,
        ¬ (m_structLclToTrackedIndex m_aggregates lcl.lclNum ≤ y ∧
          y < m_structLclToTrackedIndex m_aggregates lcl.lclNum + 1
            + agg.Replacements.length) →
        (y ∈ (MarkUseDef m_aggregates lcl u d).1 ↔ y ∈ u) ∧
        (y ∈ (MarkUseDef m_aggregates lcl u d).2 ↔ y ∈ d) ∧
        (y ∈ (FillInLivenessNode m_aggregates life volatileVars lcl).life ↔ y ∈ life)) ∧
      (∀ life1 life2 volatileVars,
        (∀ x, m_structLclToTrackedIndex m_aggregates lcl.lclNum ≤ x →
          x < m_structLclToTrackedIndex m_aggregates lcl.lclNum + 1
            + agg.Replacements.length →
          (x ∈ life1 ↔ x ∈ life2)) →
        (FillInLivenessNode m_aggregates life1 volatileVars lcl).aggDeaths
          = (FillInLivenessNode m_aggregates life2 volatileVars lcl).aggDeaths ∧
        (FillInLivenessNode m_aggregates life1 volatileVars lcl).lcl
          = (FillInLivenessNode m_aggregates life2 volatileVars lcl).lcl ∧
        ∀ x, m_structLclToTrackedIndex m_aggregates lcl.lclNum ≤ x →
          x < m_structLclToTrackedIndex m_aggregates lcl.lclNum + 1
            + agg.Replacements.length →
          (x ∈ (FillInLivenessNode m_aggregates life1 volatileVars lcl).life ↔
            x ∈ (FillInLivenessNode m_aggregates life2 volatileVars lcl).life))) ∧
    (Lookup m_aggregates lcl.lclNum = none →
      (∀ u d, MarkUseDef m_aggregates lcl u d = (u, d)) ∧
      ∀ life volatileVars, FillInLivenessNode m_aggregates life volatileVars lcl
        = { life := life, lcl := lcl, aggDeaths := none }) := by
  refine ⟨fun u d => MarkUseDef_eq_MarkSteps m_aggregates lcl u d,
    fun life volatileVars =>
      (FillInLivenessNode_eq_FillSteps m_aggregates life volatileVars lcl).1, ?_, ?_⟩
  · intro agg hl
    have hspec := NodeSteps_spec m_aggregates lcl agg hl
    have hin : ∀ t ∈ NodeSteps m_aggregates lcl,
        m_structLclToTrackedIndex m_aggregates lcl.lclNum ≤ t.varIndex ∧
        t.varIndex
          < m_structLclToTrackedIndex m_aggregates lcl.lclNum + 1 + agg.Replacements.length := by
      intro t ht
      obtain ⟨h1, h2, _, _⟩ := hspec t ht
      omega
    refine ⟨hin, ?_, ?_, ?_, ?_⟩
    · intro hd
      obtain ⟨hnum, j, hj⟩ := Lookup_some m_aggregates lcl.lclNum agg hl
      rw [← hnum, (base_eq_sum_take m_aggregates hd j agg hj).2]
      unfold m_numVars
      rw [AssignTrackedIndices_snd, Nat.zero_add]
      exact sum_take_le_sum _ _
    · intro life volatileVars deaths hdeaths bit hbit
      by_cases hp : lcl.gtType = .TYP_STRUCT ∨ lcl.gtOper = .GT_LCL_ADDR
      · rw [(FillInLivenessNode_eq_FillSteps m_aggregates life volatileVars lcl).2 agg hl hp]
          at hdeaths
        cases hdeaths
        rcases FillSteps_deaths_sub volatileVars _ _ bit hbit with h | ⟨t, ht, hb⟩
        · simp at h
        · rw [hb]
          exact (hspec t ht).2.1
      · rw [FillInLivenessNode_aggDeaths_scalar m_aggregates life volatileVars lcl hp]
          at hdeaths
        cases hdeaths
    · intro u d life volatileVars y hy
      have hne : ∀ t ∈ NodeSteps m_aggregates lcl, y ≠ t.varIndex := by
        intro t ht heq
        apply hy
        rw [heq]
        exact hin t ht
      rw [MarkUseDef_eq_MarkSteps,
        (FillInLivenessNode_eq_FillSteps m_aggregates life volatileVars lcl).1]
      obtain ⟨f1, f2⟩ := MarkSteps_frame _ y hne (u, d)
      exact ⟨f1, f2, FillSteps_frame volatileVars _ y hne (life, ∅)⟩
    · intro life1 life2 volatileVars hagree
      obtain ⟨c1, c2⟩ := FillSteps_congr volatileVars
        (fun x => m_structLclToTrackedIndex m_aggregates lcl.lclNum ≤ x ∧
          x < m_structLclToTrackedIndex m_aggregates lcl.lclNum + 1 + agg.Replacements.length)
        (NodeSteps m_aggregates lcl) hin (life1, ∅) (life2, ∅)
        (fun x hx => hagree x hx.1 hx.2) rfl
      refine ⟨?_, FillInLivenessNode_lcl_congr m_aggregates life1 life2 volatileVars lcl agg
        hl hagree, ?_⟩
      · by_cases hp : lcl.gtType = .TYP_STRUCT ∨ lcl.gtOper = .GT_LCL_ADDR
        · rw [(FillInLivenessNode_eq_FillSteps m_aggregates life1 volatileVars lcl).2 agg hl hp,
            (FillInLivenessNode_eq_FillSteps m_aggregates life2 volatileVars lcl).2 agg hl hp,
            c1]
        · rw [FillInLivenessNode_aggDeaths_scalar m_aggregates life1 volatileVars lcl hp,
            FillInLivenessNode_aggDeaths_scalar m_aggregates life2 volatileVars lcl hp]
      · intro x hx1 hx2
        rw [(FillInLivenessNode_eq_FillSteps m_aggregates life1 volatileVars lcl).1,
          (FillInLivenessNode_eq_FillSteps m_aggregates life2 volatileVars lcl).1]
        exact c2 x ⟨hx1, hx2⟩
  · intro hl
    exact ⟨fun u d => MarkUseDef_untracked_eq m_aggregates lcl u d hl,
      fun life volatileVars =>
        FillInLivenessNode_untracked_eq m_aggregates life volatileVars lcl hl⟩

/-- In the list of the two example aggregates the whole-variable read of local `3` takes its
steps on the indices 3 and 4 of its own block `[3, 5)`, which ends at `m_numVars = 5`; it
uses `{3, 4}` and leaves index 0, of the other aggregate, as it was. -/
theorem NodeIndices_in_block_witness :
    (NodeSteps twoAggregates readSolo).map (fun t => t.varIndex) = [3, 4] ∧
    (MarkUseDef twoAggregates readSolo ∅ ∅).1 = {3, 4} ∧
    (FillInLivenessNode twoAggregates {0} ∅ readSolo).life = {0, 3, 4} ∧
    (∃ deaths, (FillInLivenessNode twoAggregates {0} ∅ readSolo).aggDeaths = some deaths ∧
      deaths = {0, 1}) ∧
    m_structLclToTrackedIndex twoAggregates readSolo.lclNum + 1
        + soloAggregate.Replacements.length
      ≤ m_numVars twoAggregates :=
  ⟨by decide, by decide, by decide, ⟨_, rfl, by decide⟩,
    ((NodeIndices_in_block twoAggregates readSolo).2.2.1 soloAggregate rfl).2.1 (by decide)⟩

/-! ## The backward walk ends at `LiveIn` -/

theorem FillInLivenessTreeList_life (m_aggregates : List AggregateInfo) (skipDefs : Bool)
    (volatileVars : VarSet) (l : List GenTreeLclVarCommon) (life : VarSet) :
    (FillInLivenessTreeList m_aggregates skipDefs volatileVars l life).1
      = l.foldl (fun acc n =>
          if (skipDefs && n.GTF_VAR_DEF) = true then acc
          else NodeTransfer m_aggregates volatileVars n acc) life := by
  induction l generalizing life with
  | nil => rfl
  | cons cur prev ih =>
    rw [FillInLivenessTreeList, List.foldl_cons]
    split
    · rename_i hc
      simp only [hc, if_true]
      exact ih life
    · rename_i hc
      simp only [hc, if_false]
      rw [← FillInLivenessNode_life_eq_NodeTransfer]
      exact ih _

theorem foldl_reverse_skip {A B : Type} (T : A → B → B) (skipP : A → Bool) (l : List A)
    (init : B) :
    l.reverse.foldl (fun acc n => if skipP n = true then acc else T n acc) init
      = (l.filter (fun n => !skipP n)).foldr T init := by
  induction l with
  | nil => rfl
  | cons a rest ih =>
    rw [List.reverse_cons, List.foldl_append, List.foldl_cons, List.foldl_nil, ih,
      List.filter_cons]
    cases hs : skipP a with
    | true => simp
    | false => simp

theorem FillInLivenessStmt_life (m_aggregates : List AggregateInfo) (compQmarkUsed : Bool)
    (volatileVars : VarSet) (stmt : Statement) (life : VarSet) :
    (FillInLivenessStmt m_aggregates compQmarkUsed volatileVars stmt life).1
      = (ClassifiedNodes compQmarkUsed stmt).foldr (NodeTransfer m_aggregates volatileVars)
          life := by
  unfold FillInLivenessStmt
  simp only
  rw [FillInLivenessTreeList_life,
    foldl_reverse_skip (NodeTransfer m_aggregates volatileVars)
      (fun n => (compQmarkUsed && stmt.TopLevelQmark) && n.GTF_VAR_DEF)]
  unfold ClassifiedNodes
  cases hq : (compQmarkUsed && stmt.TopLevelQmark) with
  | true => simp
  | false => simp

theorem foldl_reverse_foldr_flatMap {A B C : Type} (g : A → List B) (T : B → C → C)
    (l : List A) (init : C) :
    l.reverse.foldl (fun acc a => (g a).foldr T acc) init = (l.flatMap g).foldr T init := by
  induction l with
  | nil => rfl
  | cons a rest ih =>
    rw [List.reverse_cons, List.foldl_append, List.foldl_cons, List.foldl_nil, ih,
      List.flatMap_cons, List.foldr_append]

theorem FillInLivenessStmts_life (m_aggregates : List AggregateInfo) (compQmarkUsed : Bool)
    (volatileVars : VarSet) (stmts : List Statement) (life : VarSet) :
    (FillInLivenessStmts m_aggregates compQmarkUsed volatileVars stmts life).1
      = stmts.foldl (fun acc stmt =>
          (ClassifiedNodes compQmarkUsed stmt).foldr (NodeTransfer m_aggregates volatileVars)
            acc) life := by
  induction stmts generalizing life with
  | nil => rfl
  | cons stmt prev ih =>
    rw [FillInLivenessStmts, List.foldl_cons]
    simp only
    rw [ih, FillInLivenessStmt_life]

/-- Membership in the life set after the transfers of a list of nodes, applied from the
last node back to the first: a use that no earlier node kills, or membership at the start
that no node kills. -/
theorem foldr_NodeTransfer_mem (m_aggregates : List AggregateInfo) (volatileVars : VarSet)
    (l : List GenTreeLclVarCommon) (life : VarSet) (x : Nat) :
    x ∈ l.foldr (NodeTransfer m_aggregates volatileVars) life ↔
      (∃ k n, l.get? k = some n ∧ x ∈ (MarkUseDef m_aggregates n ∅ ∅).1 ∧
        ∀ k' n', k' < k → l.get? k' = some n' →
          ¬ (x ∈ (MarkUseDef m_aggregates n' ∅ ∅).2 ∧ x ∉ volatileVars)) ∨
      (x ∈ life ∧ ∀ n ∈ l, ¬ (x ∈ (MarkUseDef m_aggregates n ∅ ∅).2 ∧ x ∉ volatileVars)) := by
  have hT : ∀ (n : GenTreeLclVarCommon) (M : VarSet),
      x ∈ NodeTransfer m_aggregates volatileVars n M ↔
        (x ∈ M ∧ ¬ (x ∈ (MarkUseDef m_aggregates n ∅ ∅).2 ∧ x ∉ volatileVars)) ∨
          x ∈ (MarkUseDef m_aggregates n ∅ ∅).1 := by
    intro n M
    unfold NodeTransfer
    rw [Finset.mem_union, Finset.mem_sdiff, Finset.mem_sdiff]
  induction l with
  | nil => simp
  | cons a rest ih =>
    rw [List.foldr_cons, hT]
    constructor
    · rintro (⟨hM, hna⟩ | hu)
      · rcases ih.mp hM with ⟨k, n, hk, hu, hb⟩ | ⟨hx, hall⟩
        · left
          refine ⟨k + 1, n, by simpa using hk, hu, ?_⟩
          intro k' n' hlt hk'
          cases k' with
          | zero =>
            simp only [List.get?_cons_zero, Option.some.injEq] at hk'
            subst hk'
            exact hna
          | succ k' =>
            simp only [List.get?_cons_succ] at hk'
            exact hb k' n' (by omega) hk'
        · right
          refine ⟨hx, ?_⟩
          intro n hn
          rcases List.mem_cons.mp hn with heq | hmem
          · subst heq
            exact hna
          · exact hall n hmem
      · left
        exact ⟨0, a, rfl, hu, fun k' _ hlt _ => absurd hlt (Nat.not_lt_zero k')⟩
    · rintro (⟨k, n, hk, hu, hb⟩ | ⟨hx, hall⟩)
      · cases k with
        | zero =>
          simp only [List.get?_cons_zero, Option.some.injEq] at hk
          subst hk
          exact Or.inr hu
        | succ k =>
          simp only [List.get?_cons_succ] at hk
          left
          refine ⟨ih.mpr (Or.inl ⟨k, n, hk, hu, ?_⟩), hb 0 a (Nat.succ_pos k) rfl⟩
          intro k' n' hlt hk'
          exact hb (k' + 1) n' (by omega) (by simpa using hk')
      · left
        exact ⟨ih.mpr (Or.inr ⟨hx, fun n hn => hall n (List.mem_cons_of_mem _ hn)⟩),
          hall a (List.mem_cons_self _ _)⟩

/-- The life set at the end of the walk over the classified nodes of a block, started from
a life set that contains the volatile set: what the block summary yields, with the
volatile indices kept. -/
theorem foldr_NodeTransfer_eq (m_aggregates : List AggregateInfo) (volatileVars : VarSet)
    (l : List GenTreeLclVarCommon) (life : VarSet) (hv : volatileVars ⊆ life) :
    l.foldr (NodeTransfer m_aggregates volatileVars) life
      = ((life \ (l.foldl (fun acc lcl => MarkUseDef m_aggregates lcl acc.1 acc.2) (∅, ∅)).2)
          ∪ (l.foldl (fun acc lcl => MarkUseDef m_aggregates lcl acc.1 acc.2) (∅, ∅)).1)
          ∪ volatileVars := by
  ext x
  rw [foldr_NodeTransfer_mem, Finset.mem_union, Finset.mem_union, Finset.mem_sdiff,
    MarkUseDef_foldl_use_iff, MarkUseDef_foldl_mem_def]
  by_cases hx : x ∈ volatileVars
  · constructor
    · exact fun _ => Or.inr hx
    · intro _
      exact Or.inr ⟨hv hx, fun n _ hc => hc.2 hx⟩
  · constructor
    · rintro (⟨k, n, hk, hu, hb⟩ | ⟨hl, hall⟩)
      · left; right
        exact ⟨k, n, hk, hu, fun k' n' hlt hk' hd => hb k' n' hlt hk' ⟨hd, hx⟩⟩
      · left; left
        refine ⟨hl, ?_⟩
        rintro (h | ⟨n, hn, hd⟩)
        · simp at h
        · exact hall n hn ⟨hd, hx⟩
    · rintro ((⟨hl, hnd⟩ | ⟨k, n, hk, hu, hb⟩) | h)
      · right
        exact ⟨hl, fun n hn hc => hnd (Or.inr ⟨n, hn, hc.1⟩)⟩
      · left
        exact ⟨k, n, hk, hu, fun k' n' hlt hk' hc => hb k' n' hlt hk' hc.1⟩
      · exact absurd h hx

/-- The final life set of the walk of a block with statements, in terms of the summary of
the block. -/
theorem FillInLivenessBlock_life (m_aggregates : List AggregateInfo) (comp : Compiler)
    (m_bbInfo : Nat → BasicBlockLiveness) (block : Nat) (first : Statement)
    (more : List Statement) (hst : comp.Statements block = first :: more)
    (hv : VolatileVars comp.m_dfsTree m_bbInfo block ⊆ (m_bbInfo block).LiveOut) :
    (FillInLivenessBlock m_aggregates comp m_bbInfo block).1
      = (((m_bbInfo block).LiveOut
            \ (ComputeUseDefSetsBlock m_aggregates comp.compQmarkUsed
                (comp.Statements block)).VarDef)
          ∪ (ComputeUseDefSetsBlock m_aggregates comp.compQmarkUsed
                (comp.Statements block)).VarUse)
          ∪ VolatileVars comp.m_dfsTree m_bbInfo block := by
  have h := ComputeUseDefSetsBlock_eq m_aggregates comp.compQmarkUsed (comp.Statements block)
  have h1 : (ComputeUseDefSetsBlock m_aggregates comp.compQmarkUsed
        (comp.Statements block)).VarUse
      = (((comp.Statements block).flatMap (ClassifiedNodes comp.compQmarkUsed)).foldl
          (fun acc lcl => MarkUseDef m_aggregates lcl acc.1 acc.2) (∅, ∅)).1 :=
    congrArg Prod.fst h
  have h2 : (ComputeUseDefSetsBlock m_aggregates comp.compQmarkUsed
        (comp.Statements block)).VarDef
      = (((comp.Statements block).flatMap (ClassifiedNodes comp.compQmarkUsed)).foldl
          (fun acc lcl => MarkUseDef m_aggregates lcl acc.1 acc.2) (∅, ∅)).2 :=
    congrArg Prod.snd h
  rw [h1, h2, ← foldr_NodeTransfer_eq m_aggregates _ _ _ hv]
  unfold FillInLivenessBlock
  rw [hst]
  simp only
  rw [FillInLivenessStmts_life, foldl_reverse_foldr_flatMap]

/-- Claim C36. The backward walk ends at `LiveIn`: when `Run` returns (on a duplicate-free
post-order list, with `HasCycle` true whenever some successor does not precede its block),
for every block `b` of the method and of the post-order list that has at least one
statement, the life set at the end of the reverse walk of `b` (after the first node of the
first statement) equals the stored `LiveIn(b)`, also for a block with exception-handler
successors and for a block with top-level-qmark statements whose def nodes are skipped. -/
theorem Run_walk_ends_at_LiveIn (m_aggregates : List AggregateInfo) (comp : Compiler)
    (fuel : Nat) (r : RunResult)
    (hnd : comp.m_dfsTree.PostOrder.Nodup)
    (hcyc : comp.m_dfsTree.HasCycle = false → SuccsPrecede comp.m_dfsTree)
    (hrun : Run m_aggregates comp fuel = some r) (b : Nat) (hb : b ∈ comp.Blocks)
    (hpo : b ∈ comp.m_dfsTree.PostOrder) (hst : comp.Statements b ≠ []) :
    (FillInLivenessBlock m_aggregates comp r.state.m_bbInfo b).1
      = (r.state.m_bbInfo b).LiveIn ∧
    r.annotated b = (FillInLivenessBlock m_aggregates comp r.state.m_bbInfo b).2 := by
  unfold Run at hrun
  simp only at hrun
  cases hp : InterBlockLiveness comp.m_dfsTree fuel
      { m_bbInfo := ComputeUseDefSets m_aggregates comp
          (fun _ => { VarUse := BitVecOps.MakeEmpty, VarDef := BitVecOps.MakeEmpty,
                      LiveIn := BitVecOps.MakeEmpty, LiveOut := BitVecOps.MakeEmpty }),
        m_liveIn := BitVecOps.MakeEmpty, m_ehLiveVars := BitVecOps.MakeEmpty } with
  | none =>
    rw [hp] at hrun
    cases hrun
  | some p =>
    rw [hp] at hrun
    simp only [Option.some.injEq] at hrun
    obtain ⟨passes, st'⟩ := p
    have hstate : r.state = st' := by rw [← hrun]
    have hann : r.annotated = FillInLiveness m_aggregates comp st'.m_bbInfo := by rw [← hrun]
    rw [hstate, hann]
    obtain ⟨hout, hin⟩ := InterBlockLiveness_equations comp.m_dfsTree _ hnd hcyc fuel passes
      st' hp b hpo
    obtain ⟨_, _, hps, _, _⟩ := InterBlockLiveness_some comp.m_dfsTree fuel _ passes st' hp
    have hU : (st'.m_bbInfo b).VarUse
        = (ComputeUseDefSetsBlock m_aggregates comp.compQmarkUsed (comp.Statements b)).VarUse := by
      rw [hps, PassState_varUse]
      simp only
      rw [ComputeUseDefSets_apply m_aggregates comp _ b hb]
    have hD : (st'.m_bbInfo b).VarDef
        = (ComputeUseDefSetsBlock m_aggregates comp.compQmarkUsed (comp.Statements b)).VarDef := by
      rw [hps, PassState_varDef]
      simp only
      rw [ComputeUseDefSets_apply m_aggregates comp _ b hb]
    constructor
    · cases hs : comp.Statements b with
      | nil => exact absurd hs hst
      | cons first more =>
        have hV := VolatileVars_eq comp.m_dfsTree st' b
        have hsub : VolatileVars comp.m_dfsTree st'.m_bbInfo b ⊆ (st'.m_bbInfo b).LiveOut := by
          rw [hV, hout]
          unfold OutOf
          exact Finset.subset_union_right
        rw [FillInLivenessBlock_life m_aggregates comp st'.m_bbInfo b first more hs hsub,
          ← hU, ← hD, hV, hin, hout]
        unfold InOf OutOf
        ext x
        simp only [Finset.mem_union, Finset.mem_sdiff]
        tauto
    · rw [FillInLiveness_apply, if_pos hb]

/-- In the loop method the walk of block `2`, which has the handler `4` as
exception-handler successor, ends with `{1, 2}`, the stored `LiveIn` of the block; in the
qmark method the walk skips the conditional write of field 0 and ends with `{1}`, the
stored `LiveIn` of its block. -/
theorem Run_walk_ends_at_LiveIn_witness :
    (∃ r, Run [pairAggregate] loopCompiler 3 = some r ∧
      (FillInLivenessBlock [pairAggregate] loopCompiler r.state.m_bbInfo 2).1 = {1, 2} ∧
      (r.state.m_bbInfo 2).LiveIn = {1, 2} ∧
      (FillInLivenessBlock [pairAggregate] loopCompiler r.state.m_bbInfo 2).1
        = (r.state.m_bbInfo 2).LiveIn) ∧
    (∃ r, Run [pairAggregate] qmarkCompiler 1 = some r ∧
      (FillInLivenessBlock [pairAggregate] qmarkCompiler r.state.m_bbInfo 1).1 = {1} ∧
      (r.state.m_bbInfo 1).LiveIn = {1}) :=
  ⟨⟨_, rfl, by decide, by decide,
      (Run_walk_ends_at_LiveIn [pairAggregate] loopCompiler 3 _ (by decide)
        (fun h => absurd h (by decide)) rfl 2 (by decide) (by decide)
        (List.cons_ne_nil _ _)).1⟩,
    ⟨_, rfl, by decide, by decide⟩⟩

/-! ## Side-table coverage -/

/-- The node-level `FillInLiveness` stores an entry exactly for a struct-typed or
`LCL_ADDR` node of a tracked aggregate. -/
theorem FillInLivenessNode_aggDeaths_isSome (m_aggregates : List AggregateInfo)
    (life volatileVars : VarSet) (lcl : GenTreeLclVarCommon) :
    (FillInLivenessNode m_aggregates life volatileVars lcl).aggDeaths.isSome = true ↔
      (Lookup m_aggregates lcl.lclNum).isSome = true ∧
      (lcl.gtType = .TYP_STRUCT ∨ lcl.gtOper = .GT_LCL_ADDR) := by
  cases hl : Lookup m_aggregates lcl.lclNum with
  | none =>
    rw [FillInLivenessNode_untracked_eq m_aggregates life volatileVars lcl hl]
    simp
  | some agg =>
    by_cases hp : lcl.gtType = .TYP_STRUCT ∨ lcl.gtOper = .GT_LCL_ADDR
    · cases hs : lcl.OperIsScalarLocal with
      | true =>
        rw [FillInLivenessNode_whole_eq m_aggregates life volatileVars lcl agg hl hp hs]
        simp [hp]
      | false =>
        rw [FillInLivenessNode_partial_eq m_aggregates life volatileVars lcl agg hl hp hs]
        simp [hp]
    · rw [FillInLivenessNode_aggDeaths_scalar m_aggregates life volatileVars lcl hp]
      simp [hp]

theorem HasEntry_SetDeath (m_aggregates : List AggregateInfo) (skipDefs : Bool)
    (lcl : GenTreeLclVarCommon) (death : Bool) :
    HasEntry m_aggregates skipDefs (SetDeath lcl death) ↔ HasEntry m_aggregates skipDefs lcl :=
  Iff.rfl

theorem FillInLivenessTreeList_entries (m_aggregates : List AggregateInfo) (skipDefs : Bool)
    (volatileVars : VarSet) (l : List GenTreeLclVarCommon) (life : VarSet) :
    ∀ n ∈ (FillInLivenessTreeList m_aggregates skipDefs volatileVars l life).2,
      (n.aggDeaths.isSome = true ↔ HasEntry m_aggregates skipDefs n.lcl) ∧
      (n.processed = true ↔ (skipDefs && n.lcl.GTF_VAR_DEF) = false) := by
  induction l generalizing life with
  | nil =>
    intro n hn
    simp [FillInLivenessTreeList] at hn
  | cons cur prev ih =>
    intro n hn
    rw [FillInLivenessTreeList] at hn
    split at hn
    · rename_i hc
      rcases List.mem_cons.mp hn with heq | hmem
      · subst heq
        unfold HasEntry
        simp [hc]
      · exact ih life n hmem
    · rename_i hc
      rcases List.mem_cons.mp hn with heq | hmem
      · subst heq
        obtain ⟨death, hd⟩ := FillInLivenessNode_lcl m_aggregates life volatileVars cur
        simp only
        rw [hd, HasEntry_SetDeath, FillInLivenessNode_aggDeaths_isSome]
        have hcf : (skipDefs && cur.GTF_VAR_DEF) = false := by
          simpa using hc
        unfold HasEntry
        constructor
        · constructor
          · rintro ⟨h1, h2⟩
            exact ⟨h1, h2, hcf⟩
          · rintro ⟨h1, h2, _⟩
            exact ⟨h1, h2⟩
        · constructor
          · intro _
            exact hcf
          · intro _
            trivial
      · exact ih _ n hmem

theorem FillInLivenessStmts_entries (m_aggregates : List AggregateInfo) (compQmarkUsed : Bool)
    (volatileVars : VarSet) (stmts : List Statement) (life : VarSet) :
    ∀ a ∈ (FillInLivenessStmts m_aggregates compQmarkUsed volatileVars stmts life).2,
      ∀ n ∈ a.Nodes,
        (n.aggDeaths.isSome = true ↔
          HasEntry m_aggregates (compQmarkUsed && a.TopLevelQmark) n.lcl) ∧
        (n.processed = true ↔
          ((compQmarkUsed && a.TopLevelQmark) && n.lcl.GTF_VAR_DEF) = false) := by
  induction stmts generalizing life with
  | nil =>
    intro a ha
    cases ha
  | cons stmt prev ih =>
    intro a ha n hn
    unfold FillInLivenessStmts at ha
    rcases List.mem_cons.mp ha with he | he
    · subst he
      exact FillInLivenessTreeList_entries m_aggregates (compQmarkUsed && stmt.TopLevelQmark)
        volatileVars stmt.LocalsTreeList.reverse life n (List.mem_reverse.mp hn)
    · exact ih _ a he n hn

/-- Claim C39. Side-table coverage: after the block-level `FillInLiveness`, in every block
of the method a node has a side-table entry iff it is a struct-typed or `LCL_ADDR` access
of a tracked aggregate and it is not a def node of a statement with a top-level qmark
(those are skipped and get no entry); so simple scalar accesses and nodes of untracked
locals never have an entry, and for every node with an entry that is struct-typed or an
`LCL_ADDR` def the lookup of `GetDeathsForStructLocal` succeeds and the call returns. -/
theorem FillInLiveness_sideTable_coverage (m_aggregates : List AggregateInfo)
    (comp : Compiler) (m_bbInfo : Nat → BasicBlockLiveness) (b : Nat)
    (hb : b ∈ comp.Blocks) :
    ∀ a ∈ FillInLiveness m_aggregates comp m_bbInfo b, ∀ n ∈ a.Nodes,
      (n.aggDeaths.isSome = true ↔
        (Lookup m_aggregates n.lcl.lclNum).isSome = true ∧
        (n.lcl.gtType = .TYP_STRUCT ∨ n.lcl.gtOper = .GT_LCL_ADDR) ∧
        ((comp.compQmarkUsed && a.TopLevelQmark) && n.lcl.GTF_VAR_DEF) = false) ∧
      (n.processed = true ↔
        ((comp.compQmarkUsed && a.TopLevelQmark) && n.lcl.GTF_VAR_DEF) = false) ∧
      ((Lookup m_aggregates n.lcl.lclNum = none ∨
          ¬ (n.lcl.gtType = .TYP_STRUCT ∨ n.lcl.gtOper = .GT_LCL_ADDR)) →
        n.aggDeaths = none) ∧
      (n.aggDeaths.isSome = true →
        (n.lcl.gtType = .TYP_STRUCT ∨
          (n.lcl.gtOper = .GT_LCL_ADDR ∧ n.lcl.GTF_VAR_DEF = true)) →
        (GetDeathsForStructLocal m_aggregates n).isSome = true) := by
  intro a ha n hn
  rw [FillInLiveness_apply, if_pos hb] at ha
  unfold FillInLivenessBlock at ha
  cases hstm : comp.Statements b with
  | nil =>
    rw [hstm] at ha
    cases ha
  | cons first more =>
    rw [hstm] at ha
    simp only at ha
    obtain ⟨h1, h2⟩ := FillInLivenessStmts_entries m_aggregates comp.compQmarkUsed
      (VolatileVars comp.m_dfsTree m_bbInfo b) (first :: more).reverse
      (m_bbInfo b).LiveOut a (List.mem_reverse.mp ha) n hn
    unfold HasEntry at h1
    refine ⟨h1, h2, ?_, ?_⟩
    · intro hno
      cases hd : n.aggDeaths with
      | none => rfl
      | some d =>
        exfalso
        have hsome : n.aggDeaths.isSome = true := by rw [hd]; rfl
        obtain ⟨e1, e2, _⟩ := h1.mp hsome
        rcases hno with hnone | hns
        · rw [hnone] at e1
          cases e1
        · exact hns e2
    · intro hsome hc
      obtain ⟨e1, _, _⟩ := h1.mp hsome
      unfold GetDeathsForStructLocal
      rw [if_pos ⟨hc, e1⟩]
      cases hd : n.aggDeaths with
      | none =>
        rw [hd] at hsome
        cases hsome
      | some d =>
        cases hl : Lookup m_aggregates n.lcl.lclNum with
        | none =>
          rw [hl] at e1
          cases e1
        | some agg => rfl

/-- In the method with a conditional whole-variable write, a whole-variable read and a
field read: the skipped write has no entry, the struct read has one and
`GetDeathsForStructLocal` returns for it, the field read has none. -/
theorem FillInLiveness_sideTable_coverage_witness :
    ∃ r, Run [pairAggregate] coverageCompiler 1 = some r ∧
      (r.annotated 1).map (fun a => a.Nodes.map (fun n => (n.processed, n.aggDeaths.isSome)))
        = [[(false, false)], [(true, true), (true, false)]] ∧
      (r.annotated 1).map (fun a => a.Nodes.map (fun n =>
          (GetDeathsForStructLocal [pairAggregate] n).isSome))
        = [[false], [true, false]] ∧
      (∀ a ∈ r.annotated 1, ∀ n ∈ a.Nodes,
        (n.processed = true ↔
          ((coverageCompiler.compQmarkUsed && a.TopLevelQmark) && n.lcl.GTF_VAR_DEF)
            = false)) :=
  ⟨_, rfl, by decide, by decide, fun a ha n hn =>
    (FillInLiveness_sideTable_coverage [pairAggregate] coverageCompiler _ 1 (by decide)
      a ha n hn).2.1⟩

/-! ## Seed of the backward walk -/

theorem FillInLivenessTreeList_head (m_aggregates : List AggregateInfo) (skipDefs : Bool)
    (volatileVars : VarSet) (l : List GenTreeLclVarCommon) (life : VarSet)
    (n : NodeAnnotation)
    (h : (FillInLivenessTreeList m_aggregates skipDefs volatileVars l life).2.head? = some n) :
    n.lifeBefore = life := by
  cases l with
  | nil => simp [FillInLivenessTreeList] at h
  | cons cur prev =>
    rw [FillInLivenessTreeList] at h
    split at h
    · simp only [List.head?_cons, Option.some.injEq] at h
      rw [← h]
    · simp only [List.head?_cons, Option.some.injEq] at h
      rw [← h]

/-- Claim C32. Seed of the backward walk: for a block `b` of the post-order list with at
least one statement, given the sets left by `InterBlockLiveness` under its DFS-order
preconditions, the life set with which `FillInLiveness` starts the reverse walk of `b` (a
copy of `LiveOut(b)`) equals `LiveOut(b)` unioned with the union of `LiveIn(h)` over the
exception-handler successors `h` of `b`; it is the life set with which the walk reaches
the last node of the last statement. -/
theorem FillInLivenessBlock_seed (m_aggregates : List AggregateInfo) (comp : Compiler)
    (st st' : LivenessState) (fuel passes block : Nat)
    (hnd : comp.m_dfsTree.PostOrder.Nodup)
    (hcyc : comp.m_dfsTree.HasCycle = false → SuccsPrecede comp.m_dfsTree)
    (hrun : InterBlockLiveness comp.m_dfsTree fuel st = some (passes, st'))
    (hb : block ∈ comp.m_dfsTree.PostOrder) (first : Statement) (more : List Statement)
    (hst : comp.Statements block = first :: more) :
    FillInLivenessBlock m_aggregates comp st'.m_bbInfo block
      = ((FillInLivenessStmts m_aggregates comp.compQmarkUsed
            (VolatileVars comp.m_dfsTree st'.m_bbInfo block) (first :: more).reverse
            ((st'.m_bbInfo block).LiveOut
              ∪ HandlerLive comp.m_dfsTree (LiveInOf st') block)).1,
          (FillInLivenessStmts m_aggregates comp.compQmarkUsed
            (VolatileVars comp.m_dfsTree st'.m_bbInfo block) (first :: more).reverse
            ((st'.m_bbInfo block).LiveOut
              ∪ HandlerLive comp.m_dfsTree (LiveInOf st') block)).2.reverse) ∧
    (st'.m_bbInfo block).LiveOut ∪ HandlerLive comp.m_dfsTree (LiveInOf st') block
      = (st'.m_bbInfo block).LiveOut ∧
    (∀ a n, (FillInLivenessBlock m_aggregates comp st'.m_bbInfo block).2.getLast? = some a →
      a.Nodes.getLast? = some n →
      n.lifeBefore
        = (st'.m_bbInfo block).LiveOut ∪ HandlerLive comp.m_dfsTree (LiveInOf st') block) := by
  have hE := InterBlockLiveness_equations comp.m_dfsTree st hnd hcyc fuel passes st' hrun
    block hb
  have hseed : (st'.m_bbInfo block).LiveOut ∪ HandlerLive comp.m_dfsTree (LiveInOf st') block
      = (st'.m_bbInfo block).LiveOut := by
    rw [hE.1]
    unfold OutOf
    ext x
    simp only [Finset.mem_union]
    tauto
  have hblock : FillInLivenessBlock m_aggregates comp st'.m_bbInfo block
      = ((FillInLivenessStmts m_aggregates comp.compQmarkUsed
            (VolatileVars comp.m_dfsTree st'.m_bbInfo block) (first :: more).reverse
            ((st'.m_bbInfo block).LiveOut
              ∪ HandlerLive comp.m_dfsTree (LiveInOf st') block)).1,
          (FillInLivenessStmts m_aggregates comp.compQmarkUsed
            (VolatileVars comp.m_dfsTree st'.m_bbInfo block) (first :: more).reverse
            ((st'.m_bbInfo block).LiveOut
              ∪ HandlerLive comp.m_dfsTree (LiveInOf st') block)).2.reverse) := by
    rw [hseed]
    unfold FillInLivenessBlock
    rw [hst]
  refine ⟨hblock, hseed, ?_⟩
  intro a n ha hn
  rw [hblock] at ha
  simp only [List.getLast?_reverse] at ha
  have hrev : (first :: more).reverse
      = (first :: more).getLast (List.cons_ne_nil _ _) :: (first :: more).dropLast.reverse := by
    conv_lhs => rw [← List.dropLast_append_getLast (List.cons_ne_nil first more)]
    rw [List.reverse_append]
    rfl
  rw [hrev, FillInLivenessStmts] at ha
  simp only [List.head?_cons, Option.some.injEq] at ha
  rw [← ha] at hn
  unfold FillInLivenessStmt at hn
  simp only [List.getLast?_reverse] at hn
  exact FillInLivenessTreeList_head _ _ _ _ _ n hn

/-- In the loop method block `2` has the handler `4` as exception-handler successor: the
walk starts from `LiveOut(2) = {1, 2}`, which already holds the handler's `LiveIn = {2}`,
and reaches the write of field 1 with that set. -/
theorem FillInLivenessBlock_seed_witness :
    ∃ st', InterBlockLiveness loopCompiler.m_dfsTree 3 loopState = some (3, st') ∧
      (st'.m_bbInfo 2).LiveOut = {1, 2} ∧
      HandlerLive loopCompiler.m_dfsTree (LiveInOf st') 2 = {2} ∧
      ((FillInLivenessBlock [pairAggregate] loopCompiler st'.m_bbInfo 2).2.map
        (fun a => a.Nodes.map (fun n => n.lifeBefore))) = [[{1, 2}]] ∧
      (st'.m_bbInfo 2).LiveOut ∪ HandlerLive loopCompiler.m_dfsTree (LiveInOf st') 2
        = (st'.m_bbInfo 2).LiveOut :=
  ⟨_, rfl, by decide, by decide, by decide,
    (FillInLivenessBlock_seed [pairAggregate] loopCompiler loopState _ 3 3 2 (by decide)
      (fun h => absurd h (by decide)) rfl (by decide)
      { TopLevelQmark := false, LocalsTreeList := [writeField1] } [] rfl).2.1⟩

end PromotionLiveness
